import Mathlib

/-!
# Software floating point kernels of `float.c`

A shallow embedding of the arithmetic core of `src/float.c` (classifier,
special-value constructors, rounding engine, multiply, add/subtract, divide)
together with theorems about it.

Conventions of the embedding.

* `uint32_t` / `uint64_t` values are natural numbers; every place where the C
  code narrows a value or could wrap is written with an explicit `u8`, `u16`,
  `u32` or `u64` reduction.
* `int16_t` / `int` values are integers.  For the two formats of the program
  (`exp_size ≤ 8`, `mant_size ≤ 23`, `bias ≤ 127`) every signed intermediate
  lies between `-600` and `1000`, far inside the `int16_t` range, so no signed
  wrap-around is modelled.
* `bool` values are `Bool`; `b2n` is the conversion of a `bool` to `int`.
* `1 << 31` (the sign bit of the single format) is taken with its
  two's-complement meaning `2^31`.
* The two `while` loops are modelled with a fuel that is large enough to make
  `none` mean exactly "the C loop does not terminate": a 32-bit (64-bit) word
  is zero after 32 (64) left shifts and then stays zero.
* Functions that call such a loop return an `Option`.
-/

namespace SoftFloat

/-! ## Machine integer helpers -/

/-- Conversion of an integer to `uint8_t`. -/
def u8 (x : Int) : Nat := (x % 256).toNat

/-- Conversion of an integer to `uint16_t`. -/
def u16 (x : Int) : Nat := (x % 65536).toNat

/-- Reduction of a natural number to `uint32_t`. -/
def u32 (x : Nat) : Nat := x % 2 ^ 32

/-- Reduction of a natural number to `uint64_t`. -/
def u64 (x : Nat) : Nat := x % 2 ^ 64

/-- Subtraction of two `uint64_t` values (wraps modulo `2^64`). -/
def u64_sub (x y : Nat) : Nat := (x + (2 ^ 64 - y % 2 ^ 64)) % 2 ^ 64

/-- Conversion of a C `bool` to `int`. -/
def b2n (b : Bool) : Nat := if b then 1 else 0

/-! ## Data model (lines 7-38) -/

/-- Macro `extract_mant(a, msize)`, line 7. -/
def extract_mant (a msize : Nat) : Nat := a &&& ((1 <<< msize) - 1)

/-- Macro `extract_exp(a, msize, esize)`, line 8. -/
def extract_exp (a msize esize : Nat) : Nat := (a >>> msize) &&& ((1 <<< esize) - 1)

/-- Macro `extract_sign(a, msize, esize)`, line 9. -/
def extract_sign (a msize esize : Nat) : Nat := a >>> (msize + esize)

/-- Macro `get_subnormal_mant(mant, exp)`, line 11 (before narrowing to the
type of the variable it is assigned to). -/
def get_subnormal_mant (mant : Nat) (exp : Int) : Nat := mant <<< (-exp + 1).toNat

/-- The `enum cases` of line 13. -/
inductive cases where
  | normal
  | subnormal
  | nan
  | inf
  | zero
deriving DecidableEq

/-- The `enum round` of line 22. -/
inductive round where
  | towards_zero
  | ties_to_even
  | upward
  | downward
deriving DecidableEq

/-- The `precision_spec` struct of line 30. -/
structure precision_spec where
  exp_size : Nat
  mant_size : Nat
  bias : Nat
deriving DecidableEq

/-- Half precision, line 37. -/
def f16_spec : precision_spec := { exp_size := 5, mant_size := 10, bias := 15 }

/-- Single precision, line 38. -/
def f32_spec : precision_spec := { exp_size := 8, mant_size := 23, bias := 127 }

/-! ## Classifier and constructors (lines 40-114) -/

/-- Function `get_float_case`, lines 40-57. -/
def get_float_case (input : Nat) (spec : precision_spec) : cases :=
  let input_exp := extract_exp input spec.mant_size spec.exp_size % 256
  let input_mant := extract_mant input spec.mant_size
  if input_exp = 0 ∧ input_mant = 0 then cases.zero
  else if input_exp = 0 ∧ input_mant ≠ 0 then cases.subnormal
  else if input_exp = (1 <<< spec.exp_size) - 1 then
    (if input_mant = 0 then cases.inf else cases.nan)
  else cases.normal

/-- Function `make_nan`, lines 59-65. -/
def make_nan (spec : precision_spec) : Nat :=
  let ret := 0
  let ret := ret ||| ((1 <<< spec.mant_size) - 2)
  let ret := ret ||| (((1 <<< spec.exp_size) - 1) <<< spec.mant_size)
  u32 ret

/-- Function `make_inf`, lines 67-73. -/
def make_inf (spec : precision_spec) (sign : Bool) : Nat :=
  let ret := 0
  let ret := ret ||| (((1 <<< spec.exp_size) - 1) <<< spec.mant_size)
  let ret := ret ||| (b2n sign <<< (spec.exp_size + spec.mant_size))
  u32 ret

/-- Function `make_max`, lines 75-81. -/
def make_max (spec : precision_spec) (sign : Bool) : Nat :=
  let ret := b2n sign <<< (spec.mant_size + spec.exp_size)
  let ret := ret ||| (((1 <<< spec.exp_size) - 2) <<< spec.mant_size)
  let ret := ret ||| ((1 <<< spec.mant_size) - 1)
  u32 ret

/-- Function `pack_float`, lines 83-87.  The parameters `exp` and `mant` are
`uint8_t` and `uint32_t`: callers narrow with `u8` and `u32`. -/
def pack_float (spec : precision_spec) (sign : Bool) (exp : Nat) (mant : Nat) : Nat :=
  u32 (b2n sign <<< (spec.mant_size + spec.exp_size) ||| exp <<< spec.mant_size
    ||| (mant &&& ((1 <<< spec.mant_size) - 1)))

/-- Function `float_invert_sign`, lines 89-92, returning the new word. -/
def float_invert_sign (w : Nat) (spec : precision_spec) : Nat :=
  u32 (w ^^^ (1 <<< (spec.mant_size + spec.exp_size)))

/-- The `while` loop of `get_float_subnormal_exp`, lines 99-103: state
`(initial_exp, initial_mant)`, one loop test per unit of fuel. -/
def subnormal_exp_loop (spec : precision_spec) : Nat → Int → Nat → Option Int
  | 0, _, _ => none
  | fuel + 1, initial_exp, initial_mant =>
    if initial_mant &&& (1 <<< spec.mant_size) = 0 then
      subnormal_exp_loop spec fuel (initial_exp - 1) (u32 (initial_mant <<< 1))
    else some initial_exp

/-- Function `get_float_subnormal_exp`, lines 94-105.  `none` means that the
loop does not terminate (the mantissa field is zero). -/
def get_float_subnormal_exp (input : Nat) (spec : precision_spec) : Option Int :=
  let initial_exp : Int := -((spec.bias : Int) - 1)
  let input_mant := extract_mant input spec.mant_size
  subnormal_exp_loop spec 33 initial_exp input_mant

/-- Function `subnormal_reroll`, lines 107-114, as a state transformer on
`(exp, mant)`.  The kernels inline exactly this body (lines 235-245, 334-344,
455-465 and 607-617). -/
def subnormal_reroll (a : Nat) (exp : Int) (mant : Nat) (spec : precision_spec) :
    Option (Int × Nat) :=
  if get_float_case a spec = cases.subnormal then
    match get_float_subnormal_exp a spec with
    | none => none
    | some sub_exp =>
      let exp := sub_exp + spec.bias
      some (exp, u64 (get_subnormal_mant mant exp))
  else some (exp, mant)

/-- The operand decoding shared by the four kernels (lines 232-239 for `a`):
the exponent and mantissa fields, rerolled when the operand is subnormal. -/
def load_operand (a : Nat) (spec : precision_spec) : Option (Int × Nat) :=
  let a_exp : Int := extract_exp a spec.mant_size spec.exp_size
  let a_mant := extract_mant a spec.mant_size
  subnormal_reroll a a_exp a_mant spec

/-! ## Rounding engine and overflow table (lines 169-210) -/

/-- Function `float_round`, lines 169-187. -/
def float_round (mant : Nat) (sign half_bit sticky_bit : Bool) (mode : round) : Nat :=
  let last_bit : Bool := mant &&& 1 != 0
  match mode with
  | round.towards_zero => mant
  | round.ties_to_even => u64 (mant + b2n ((sticky_bit && half_bit) || (half_bit && last_bit)))
  | round.downward => u64 (mant + b2n (sign && (sticky_bit || half_bit)))
  | round.upward => u64 (mant + b2n (!sign && (sticky_bit || half_bit)))

/-- Function `float_exp_overflow`, lines 189-210. -/
def float_exp_overflow (spec : precision_spec) (sign : Bool) (mode : round) : Nat :=
  match mode with
  | round.towards_zero => make_max spec sign
  | round.upward => if !sign then make_inf spec false else make_max spec true
  | round.downward => if !sign then make_max spec false else make_inf spec true
  | round.ties_to_even => make_inf spec sign

/-! ## Multiply (lines 212-296) -/

/-- Lines 247-295 of `float_multiply`: the pipeline that follows the decoding
of two finite non-zero operands.  Each `let` is one assignment of the C code;
an assignment made under an `if` carries the condition. -/
def float_multiply_finite (a_exp : Int) (a_mant : Nat) (b_exp : Int) (b_mant : Nat)
    (new_sign : Bool) (mode : round) (spec : precision_spec) : Nat :=
  let m := spec.mant_size
  -- lines 247-250
  let new_exp : Int := a_exp + b_exp - spec.bias
  let a_mant := a_mant ||| (1 <<< m)
  let b_mant := b_mant ||| (1 <<< m)
  let unrounded_mant := u64 (a_mant * b_mant)
  -- lines 256-261
  let carry : Bool := unrounded_mant &&& u64 (1 <<< (m * 2 + 1)) != 0
  let new_exp := if carry then new_exp + 1 else new_exp
  let sticky_bit : Bool :=
    if carry then unrounded_mant &&& ((1 <<< (m - 1)) - 1) != 0 else false
  let unrounded_mant := if carry then unrounded_mant >>> 1 else unrounded_mant
  -- lines 262-265
  let sticky_bit := sticky_bit || (unrounded_mant &&& ((1 <<< (m - 1)) - 1) != 0)
  let half_bit : Bool := unrounded_mant &&& (1 <<< (m - 1)) != 0
  let unrounded_mant := unrounded_mant >>> m
  let rounded_mant := (1 <<< m) ^^^ unrounded_mant
  -- lines 266-269
  if new_exp ≥ (1 <<< spec.exp_size : Nat) - 1 then float_exp_overflow spec new_sign mode
  else
    -- lines 270-292
    let under : Bool := decide (new_exp ≤ 0)
    let shift_amnt : Nat := if under then u8 (0 - (new_exp - 1)) else 0
    let in1 : Bool := under && decide (shift_amnt ≤ m)
    let sticky_bit := if in1 then sticky_bit || half_bit else sticky_bit
    let half_bit := if in1 then unrounded_mant &&& (1 <<< (shift_amnt - 1)) != 0 else half_bit
    let new_exp := if under then 0 else new_exp
    let rounded_mant := if under then rounded_mant ||| (1 <<< m) else rounded_mant
    let in2 : Bool := decide (shift_amnt ≤ m + 1)
    let sticky_bit :=
      if under then
        (if in2 then (((1 <<< (shift_amnt - 1)) - 1) &&& unrounded_mant != 0) || sticky_bit
         else true)
      else sticky_bit
    let rounded_mant :=
      if under then (if in2 then rounded_mant >>> shift_amnt else 0) else rounded_mant
    let half_bit :=
      if under then (if in2 then half_bit || decide (shift_amnt = m + 1) else false)
      else half_bit
    -- lines 293-295
    let rounded_mant := float_round rounded_mant new_sign half_bit sticky_bit mode
    let new_exp := new_exp + b2n (rounded_mant &&& (1 <<< m) != 0)
    pack_float spec new_sign (u8 new_exp) (u32 rounded_mant)

/-- Function `float_multiply`, lines 212-296. -/
def float_multiply (a b : Nat) (mode : round) (spec : precision_spec) : Option Nat :=
  let a_sign : Bool := extract_sign a spec.mant_size spec.exp_size != 0
  let b_sign : Bool := extract_sign b spec.mant_size spec.exp_size != 0
  let a_cases := get_float_case a spec
  let b_cases := get_float_case b spec
  let new_sign := xor a_sign b_sign
  if a_cases = cases.nan ∨ b_cases = cases.nan ∨
      ((a_cases = cases.inf ∨ b_cases = cases.inf) ∧
        (b_cases = cases.zero ∨ a_cases = cases.zero)) then
    some (make_nan spec)
  else if a_cases = cases.inf ∨ b_cases = cases.inf then
    some (make_inf spec (xor a_sign b_sign))
  else if a_cases = cases.zero ∨ b_cases = cases.zero then
    some (u32 (b2n (xor a_sign b_sign) <<< (spec.mant_size + spec.exp_size)))
  else
    match load_operand a spec, load_operand b spec with
    | some (a_exp, a_mant), some (b_exp, b_mant) =>
      some (float_multiply_finite a_exp a_mant b_exp b_mant new_sign mode spec)
    | _, _ => none

/-! ## Magnitude subtract (lines 298-418) -/

/-- The `while` loop of `float_subtract`, lines 377-381: state
`(new_exp, unrounded_mant)`, `bit` is `(uint64_t)1 << (mant_size + exp_diff)`,
one loop test per unit of fuel. -/
def subtract_normalize_loop (bit : Nat) : Nat → Int → Nat → Option (Int × Nat)
  | 0, _, _ => none
  | fuel + 1, new_exp, unrounded_mant =>
    if unrounded_mant &&& bit = 0 then
      subtract_normalize_loop bit fuel (new_exp - 1) (u64 (unrounded_mant <<< 1))
    else some (new_exp, unrounded_mant)

/-- Lines 406-417 of `float_subtract`: rounding, post-round carry, underflow
clamp and packing. -/
def float_subtract_finish (new_exp : Int) (unrounded_mant : Nat) (new_sign half_bit
    sticky_bit : Bool) (mode : round) (spec : precision_spec) : Nat :=
  let m := spec.mant_size
  let rounded_mant := float_round unrounded_mant new_sign half_bit sticky_bit mode
  let new_exp := new_exp + b2n (rounded_mant &&& (1 <<< m) == 0)
  -- line 408 changes only `unrounded_mant`, which is not read afterwards
  let rounded_mant :=
    if new_exp ≤ 0 then
      (if -new_exp + 1 ≤ (m : Int) then rounded_mant >>> (-new_exp + 1).toNat else 0)
    else rounded_mant
  let new_exp := if new_exp ≤ 0 then 0 else new_exp
  pack_float spec new_sign (u8 new_exp) (u32 rounded_mant)

/-- Lines 346-364 of `float_subtract`: the operands are ordered by magnitude and the implicit
bits are inserted.  Returns `(new_sign, new_exp, a_mant, b_mant, exp_diff)`. -/
def subtract_order (a_exp : Int) (a_mant : Nat) (b_exp : Int) (b_mant : Nat) (a_sign : Bool)
    (spec : precision_spec) : Bool × Int × Nat × Nat × Nat :=
  let m := spec.mant_size
  -- lines 346-359
  let swap : Bool := decide (a_exp < b_exp) || (decide (a_exp = b_exp) && decide (a_mant < b_mant))
  let new_sign := if swap then !a_sign else a_sign
  let a_exp1 := if swap then b_exp else a_exp
  let b_exp1 := if swap then a_exp else b_exp
  let a_mant1 := if swap then b_mant else a_mant
  let b_mant1 := if swap then a_mant else b_mant
  -- lines 361-364
  let exp_diff := u16 (a_exp1 - b_exp1)
  let new_exp : Int := a_exp1
  let a_mant2 := a_mant1 ||| (1 <<< m)
  let b_mant2 := b_mant1 ||| (1 <<< m)
  (new_sign, new_exp, a_mant2, b_mant2, exp_diff)

/-- Lines 382-390 of `float_subtract`: guard bits and alignment shift after the normalising loop.
Returns `(unrounded_mant, half_bit, sticky_bit)`. -/
def subtract_near_bits (unrounded_mant exp_diff : Nat) : Nat × Bool × Bool :=
  let half_bit : Bool :=
    if exp_diff > 0 then (1 <<< (exp_diff - 1)) &&& unrounded_mant != 0 else false
  let sticky_bit : Bool :=
    if exp_diff > 1 then ((1 <<< (exp_diff - 1)) - 1) &&& unrounded_mant != 0 else false
  let unrounded_mant := unrounded_mant >>> exp_diff
  (unrounded_mant, half_bit, sticky_bit)

/-- Lines 394-404 of `float_subtract`: the operand `b` lies entirely below the last place of `a`.
Returns `(new_exp, unrounded_mant, half_bit, sticky_bit)`. -/
def subtract_far (new_exp : Int) (a_mant b_mant exp_diff : Nat) (spec : precision_spec) :
    Int × Nat × Bool × Bool :=
  let m := spec.mant_size
  let unrounded_mant := u64_sub a_mant 1
  let renorm : Bool := unrounded_mant &&& (1 <<< m) == 0
  let new_exp := if renorm then new_exp - 1 else new_exp
  let unrounded_mant := if renorm then u64 (unrounded_mant <<< 1) ||| 1 else unrounded_mant
  let sticky_bit := true
  let half_bit : Bool :=
    if renorm then true && !(decide (exp_diff = m + 2) && decide (b_mant ≠ 1 <<< m)) else true
  (new_exp, unrounded_mant, half_bit, sticky_bit)

/-- Lines 367-417 of `float_subtract`, on the operands ordered by `subtract_order`. -/
def float_subtract_ordered (new_sign : Bool) (new_exp : Int) (a_mant b_mant exp_diff : Nat)
    (mode : round) (spec : precision_spec) : Option Nat :=
  if exp_diff ≤ spec.mant_size + 1 then
    -- lines 369-390
    let a_mant := u64 (a_mant <<< exp_diff)
    let unrounded_mant := u64_sub a_mant b_mant
    if unrounded_mant = 0 then
      (if mode = round.downward then some (u32 (1 <<< (spec.exp_size + spec.mant_size)))
       else some 0)
    else
      match subtract_normalize_loop (u64 (1 <<< (spec.mant_size + exp_diff))) 65 new_exp
          unrounded_mant with
      | none => none
      | some (new_exp, unrounded_mant) =>
        match subtract_near_bits unrounded_mant exp_diff with
        | (unrounded_mant, half_bit, sticky_bit) =>
          some (float_subtract_finish new_exp unrounded_mant new_sign half_bit sticky_bit
            mode spec)
  else
    -- lines 394-404
    match subtract_far new_exp a_mant b_mant exp_diff spec with
    | (new_exp, unrounded_mant, half_bit, sticky_bit) =>
      some (float_subtract_finish new_exp unrounded_mant new_sign half_bit sticky_bit mode spec)

/-- Lines 346-417 of `float_subtract`: the pipeline that follows the decoding of two finite
non-zero operands. -/
def float_subtract_finite (a_exp : Int) (a_mant : Nat) (b_exp : Int) (b_mant : Nat)
    (a_sign : Bool) (mode : round) (spec : precision_spec) : Option Nat :=
  match subtract_order a_exp a_mant b_exp b_mant a_sign spec with
  | (new_sign, new_exp, a_mant, b_mant, exp_diff) =>
    float_subtract_ordered new_sign new_exp a_mant b_mant exp_diff mode spec

/-- Function `float_subtract`, lines 298-418. -/
def float_subtract (a b : Nat) (mode : round) (spec : precision_spec) : Option Nat :=
  let a_sign : Bool := extract_sign a spec.mant_size spec.exp_size != 0
  let b_sign : Bool := extract_sign b spec.mant_size spec.exp_size != 0
  let a_cases := get_float_case a spec
  let b_cases := get_float_case b spec
  if a_cases = cases.zero then
    let b_sign := xor a_sign b_sign
    some (pack_float spec b_sign (u8 (extract_exp a spec.mant_size spec.exp_size))
      (extract_mant a spec.mant_size))
  else if b_cases = cases.zero then some a
  else if a_cases = cases.nan ∨ b_cases = cases.nan ∨
      (a_cases = cases.inf ∧ b_cases = cases.inf ∧ a_sign = b_sign) then
    some (make_nan spec)
  else if a_cases = cases.inf then some (make_inf spec a_sign)
  else if b_cases = cases.inf then some (make_inf spec (!b_sign))
  else
    match load_operand a spec, load_operand b spec with
    | some (a_exp, a_mant), some (b_exp, b_mant) =>
      float_subtract_finite a_exp a_mant b_exp b_mant a_sign mode spec
    | _, _ => none

/-! ## Magnitude add (lines 420-541) -/

/-- Lines 467-483 of `float_addition`: the operands are ordered by exponent and the implicit
bits are inserted.  Returns `(new_exp, a_mant, b_mant, exp_diff)`. -/
def addition_order (a_exp : Int) (a_mant : Nat) (b_exp : Int) (b_mant : Nat)
    (spec : precision_spec) : Int × Nat × Nat × Nat :=
  let m := spec.mant_size
  -- lines 467-478
  let swap : Bool := decide (a_exp < b_exp)
  let a_exp1 := if swap then b_exp else a_exp
  let b_exp1 := if swap then a_exp else b_exp
  let a_mant1 := if swap then b_mant else a_mant
  let b_mant1 := if swap then a_mant else b_mant
  -- lines 480-483
  let exp_diff := u16 (a_exp1 - b_exp1)
  let new_exp : Int := a_exp1
  let a_mant2 := a_mant1 ||| (1 <<< m)
  let b_mant2 := b_mant1 ||| (1 <<< m)
  (new_exp, a_mant2, b_mant2, exp_diff)

/-- Lines 485-506 of `float_addition`: the smaller operand is aligned, its shifted-out bits give
the guard bits, and the significands are added.  Returns
`(unrounded_mant, half_bit, sticky_bit)`. -/
def addition_align (a_mant b_mant exp_diff : Nat) (spec : precision_spec) :
    Nat × Bool × Bool :=
  let m := spec.mant_size
  -- lines 485-501
  let half_bit : Bool :=
    if exp_diff > 0 then (1 <<< (exp_diff - 1)) &&& b_mant != 0 else false
  let sticky_bit : Bool :=
    if exp_diff > 0 then
      (((1 <<< (exp_diff - 1)) - 1) &&& b_mant != 0) && decide (exp_diff > 1)
    else false
  let half_bit := if exp_diff = m + 1 then true else half_bit
  let sticky_bit :=
    if exp_diff = m + 1 then ((1 <<< m) - 1) &&& b_mant != 0 else sticky_bit
  let half_bit := if exp_diff > m + 1 then false else half_bit
  let sticky_bit := if exp_diff > m + 1 then true else sticky_bit
  -- lines 502-506
  let b_mant3 := if exp_diff > m then 0 else b_mant >>> exp_diff
  let unrounded_mant := u64 (a_mant + b_mant3)
  (unrounded_mant, half_bit, sticky_bit)

/-- Lines 518-524 of `float_addition`: a carry out of the sum moves one bit into the guard bits.
Returns `(new_exp, unrounded_mant, half_bit, sticky_bit)`. -/
def addition_carry (new_exp : Int) (unrounded_mant : Nat) (half_bit sticky_bit : Bool)
    (spec : precision_spec) : Int × Nat × Bool × Bool :=
  let carry : Bool := unrounded_mant &&& (1 <<< (spec.mant_size + 1)) != 0
  let new_exp := if carry then new_exp + 1 else new_exp
  let sticky_bit := if carry then sticky_bit || half_bit else sticky_bit
  let half_bit := if carry then unrounded_mant &&& 1 != 0 else half_bit
  let unrounded_mant := if carry then unrounded_mant >>> 1 else unrounded_mant
  (new_exp, unrounded_mant, half_bit, sticky_bit)

/-- Lines 525-540 of `float_addition`: rounding, post-round carry, underflow clamp, overflow and
packing. -/
def addition_finish (new_exp : Int) (unrounded_mant : Nat) (half_bit sticky_bit : Bool)
    (a_sign : Bool) (mode : round) (spec : precision_spec) : Nat :=
  let m := spec.mant_size
  -- lines 525-527
  let rounded_mant := float_round unrounded_mant a_sign half_bit sticky_bit mode
  let new_exp := new_exp + b2n (rounded_mant &&& (1 <<< (m + 1)) != 0)
  let rounded_mant := rounded_mant >>> b2n (rounded_mant &&& (1 <<< (m + 1)) != 0)
  -- lines 528-535
  let rounded_mant :=
    if new_exp ≤ 0 then
      (if -new_exp + 1 ≤ (m : Int) then rounded_mant >>> (-new_exp + 1).toNat else 0)
    else rounded_mant
  let new_exp := if new_exp ≤ 0 then 0 else new_exp
  -- lines 536-540
  if new_exp ≥ (1 <<< spec.exp_size : Nat) - 1 then float_exp_overflow spec a_sign mode
  else pack_float spec a_sign (u8 new_exp) (u32 rounded_mant)

/-- Lines 467-540 of `float_addition`: the pipeline that follows the decoding of two finite
non-zero operands. -/
def float_addition_finite (a_exp : Int) (a_mant : Nat) (b_exp : Int) (b_mant : Nat)
    (a_sign : Bool) (mode : round) (spec : precision_spec) : Nat :=
  match addition_order a_exp a_mant b_exp b_mant spec with
  | (new_exp, a_mant, b_mant, exp_diff) =>
    match addition_align a_mant b_mant exp_diff spec with
    | (unrounded_mant, half_bit, sticky_bit) =>
      match addition_carry new_exp unrounded_mant half_bit sticky_bit spec with
      | (new_exp, unrounded_mant, half_bit, sticky_bit) =>
        addition_finish new_exp unrounded_mant half_bit sticky_bit a_sign mode spec

/-- Function `float_addition`, lines 420-541. -/
def float_addition (a b : Nat) (mode : round) (spec : precision_spec) : Option Nat :=
  let a_sign : Bool := extract_sign a spec.mant_size spec.exp_size != 0
  let b_sign : Bool := extract_sign b spec.mant_size spec.exp_size != 0
  let a_cases := get_float_case a spec
  let b_cases := get_float_case b spec
  if a_cases = cases.zero then some b
  else if b_cases = cases.zero then some a
  else if a_cases = cases.nan ∨ b_cases = cases.nan ∨
      (a_cases = cases.inf ∧ b_cases = cases.inf ∧ a_sign ≠ b_sign) then
    some (make_nan spec)
  else if a_cases = cases.inf then some (make_inf spec a_sign)
  else if b_cases = cases.inf then some (make_inf spec b_sign)
  else
    match load_operand a spec, load_operand b spec with
    | some (a_exp, a_mant), some (b_exp, b_mant) =>
      some (float_addition_finite a_exp a_mant b_exp b_mant a_sign mode spec)
    | _, _ => none

/-! ## Signed add and subtract (lines 543-579) -/

/-- Function `float_add_diff`, lines 543-573. -/
def float_add_diff (a b : Nat) (mode : round) (spec : precision_spec) : Option Nat :=
  let a_sign : Bool := extract_sign a spec.mant_size spec.exp_size != 0
  let b_sign : Bool := extract_sign b spec.mant_size spec.exp_size != 0
  if a_sign = b_sign then float_addition a b mode spec
  else if get_float_case a spec = cases.zero ∧ get_float_case b spec = cases.zero then
    some (u32 ((1 <<< (spec.mant_size + spec.exp_size)) * b2n (decide (mode = round.downward))))
  else if get_float_case a spec = cases.zero then some b
  else if get_float_case b spec = cases.zero then some a
  else if b_sign then float_subtract a (float_invert_sign b spec) mode spec
  else float_subtract b (float_invert_sign a spec) mode spec

/-- Function `float_sub_diff`, lines 575-579. -/
def float_sub_diff (a b : Nat) (mode : round) (spec : precision_spec) : Option Nat :=
  float_add_diff a (float_invert_sign b spec) mode spec

/-! ## Divide (lines 581-660) -/

/-- Lines 620-632 of `float_divide`: quotient of the significands, its normalisation and the
guard bits.  Returns `(new_exp, unrounded_mant, half_bit, sticky_bit)`. -/
def divide_quotient (a_exp : Int) (a_mant : Nat) (b_exp : Int) (b_mant : Nat)
    (spec : precision_spec) : Int × Nat × Bool × Bool :=
  let m := spec.mant_size
  -- lines 620-625
  let new_exp : Int := a_exp - b_exp + spec.bias
  let a_mant := a_mant ||| (1 <<< m)
  let b_mant := b_mant ||| (1 <<< m)
  let a_mant := u64 (a_mant <<< (m + 3))
  -- lines 627-632
  let unrounded_mant := a_mant / b_mant
  let low : Bool := unrounded_mant &&& (1 <<< (m + 3)) == 0
  let new_exp := new_exp - b2n low
  let unrounded_mant := u64 (unrounded_mant <<< b2n low)
  let half_bit : Bool := unrounded_mant &&& (1 <<< 2) != 0
  let sticky_bit : Bool := a_mant % b_mant != 0
  let unrounded_mant := unrounded_mant >>> 3
  (new_exp, unrounded_mant, half_bit, sticky_bit)

/-- Lines 639-653 of `float_divide`: the shift into the subnormal range when `new_exp <= 0`.
Returns `(unrounded_mant, half_bit, sticky_bit)`. -/
def divide_denormalize (new_exp : Int) (unrounded_mant : Nat) (half_bit sticky_bit : Bool)
    (spec : precision_spec) : Nat × Bool × Bool :=
  let m := spec.mant_size
  let shift_amnt : Nat := u16 (-new_exp + 1)
  let sticky_bit1 : Bool :=
    if shift_amnt ≤ m + 1 then
      b2n half_bit ||| b2n sticky_bit |||
        (unrounded_mant &&& ((1 <<< (shift_amnt - 1)) - 1)) != 0
    else true
  let half_bit1 : Bool :=
    if shift_amnt ≤ m + 1 then
      (unrounded_mant &&& (1 <<< (shift_amnt - 1)) != 0) || decide (shift_amnt = m + 1)
    else false
  let unrounded_mant := if shift_amnt ≤ m then unrounded_mant >>> shift_amnt else 0
  (unrounded_mant, half_bit1, sticky_bit1)

/-- Lines 619-659 of `float_divide`: the pipeline that follows the decoding of two finite
non-zero operands. -/
def float_divide_finite (a_exp : Int) (a_mant : Nat) (b_exp : Int) (b_mant : Nat)
    (new_sign : Bool) (mode : round) (spec : precision_spec) : Nat :=
  match divide_quotient a_exp a_mant b_exp b_mant spec with
  | (new_exp, unrounded_mant, half_bit, sticky_bit) =>
    -- lines 633-636
    if new_exp ≥ (1 <<< spec.exp_size : Nat) - 1 then float_exp_overflow spec new_sign mode
    else if new_exp ≤ 0 then
      -- lines 637-659
      match divide_denormalize new_exp unrounded_mant half_bit sticky_bit spec with
      | (unrounded_mant, half_bit, sticky_bit) =>
        let new_exp : Int := 0
        let norm_mant := u32 (float_round unrounded_mant new_sign half_bit sticky_bit mode)
        let new_exp := new_exp + b2n (norm_mant &&& (1 <<< spec.mant_size) != 0)
        let rounded_mant := u32 (float_round unrounded_mant new_sign half_bit sticky_bit mode)
        pack_float spec new_sign (u8 new_exp) rounded_mant
    else
      -- lines 658-659
      let rounded_mant := u32 (float_round unrounded_mant new_sign half_bit sticky_bit mode)
      pack_float spec new_sign (u8 new_exp) rounded_mant

/-- Function `float_divide`, lines 581-660. -/
def float_divide (a b : Nat) (mode : round) (spec : precision_spec) : Option Nat :=
  let a_sign : Bool := extract_sign a spec.mant_size spec.exp_size != 0
  let b_sign : Bool := extract_sign b spec.mant_size spec.exp_size != 0
  let a_cases := get_float_case a spec
  let b_cases := get_float_case b spec
  if a_cases = cases.nan ∨ b_cases = cases.nan ∨
      (a_cases = cases.zero ∧ b_cases = cases.zero) ∨
      (a_cases = cases.inf ∧ b_cases = cases.inf) then
    some (make_nan spec)
  else if b_cases = cases.zero ∨ a_cases = cases.inf then
    some (make_inf spec (xor a_sign b_sign))
  else if a_cases = cases.zero ∨ b_cases = cases.inf then
    some (u32 (b2n (xor a_sign b_sign) <<< (spec.exp_size + spec.mant_size)))
  else
    match load_operand a spec, load_operand b spec with
    | some (a_exp, a_mant), some (b_exp, b_mant) =>
      let new_sign := xor a_sign b_sign
      some (float_divide_finite a_exp a_mant b_exp b_mant new_sign mode spec)
    | _, _ => none

/-! ## Vocabulary of the statements -/

/-- Number of bits of a word of the format: `1 + exp_size + mant_size`. -/
def width (spec : precision_spec) : Nat := 1 + spec.exp_size + spec.mant_size

/-- The sign bit of a word (bit `mant_size + exp_size`). -/
def sign_bit (spec : precision_spec) (w : Nat) : Bool :=
  decide (w / 2 ^ (spec.mant_size + spec.exp_size) % 2 = 1)

/-- The zero of sign `s`: only the sign bit may be set. -/
def zero_word (spec : precision_spec) (s : Bool) : Nat :=
  b2n s * 2 ^ (spec.mant_size + spec.exp_size)

/-- The infinity of sign `s`: all-ones exponent field, zero mantissa field. -/
def inf_word (spec : precision_spec) (s : Bool) : Nat :=
  b2n s * 2 ^ (spec.mant_size + spec.exp_size) + (2 ^ spec.exp_size - 1) * 2 ^ spec.mant_size

/-- The largest finite value of sign `s`: exponent field `2^exp_size - 2`, all-ones mantissa
field. -/
def max_word (spec : precision_spec) (s : Bool) : Nat :=
  b2n s * 2 ^ (spec.mant_size + spec.exp_size) + (2 ^ spec.exp_size - 2) * 2 ^ spec.mant_size
    + (2 ^ spec.mant_size - 1)

/-- The two formats of the program share these size facts. -/
structure valid_spec (spec : precision_spec) : Prop where
  mant_pos : 2 ≤ spec.mant_size
  mant_le : spec.mant_size ≤ 23
  exp_pos : 2 ≤ spec.exp_size
  exp_le : spec.exp_size ≤ 8
  bias_eq : spec.bias + 1 = 2 ^ (spec.exp_size - 1)

/-- Mantissa field of a word. -/
def mant_field (spec : precision_spec) (w : Nat) : Nat := w % 2 ^ spec.mant_size

/-- Exponent field of a word. -/
def exp_field (spec : precision_spec) (w : Nat) : Nat :=
  w / 2 ^ spec.mant_size % 2 ^ spec.exp_size

/-- Number of left shifts that bring the leading one of a subnormal mantissa field to the position
of the implicit bit. -/
def norm_shift (spec : precision_spec) (w : Nat) : Nat :=
  spec.mant_size - Nat.log 2 (mant_field spec w)

/-- Normalised biased exponent of a finite non-zero word: the exponent field of a normal word,
`1 - norm_shift` for a subnormal word. -/
def norm_exp (spec : precision_spec) (w : Nat) : Int :=
  if exp_field spec w = 0 then 1 - (norm_shift spec w : Int) else exp_field spec w

/-- Mantissa variable of the kernels after operand decoding: the mantissa field of a normal word,
the mantissa field shifted left by `norm_shift` for a subnormal word. -/
def load_mant (spec : precision_spec) (w : Nat) : Nat :=
  if exp_field spec w = 0 then mant_field spec w * 2 ^ norm_shift spec w else mant_field spec w

/-- Normalised significand of a finite non-zero word, implicit bit included. -/
def norm_sig (spec : precision_spec) (w : Nat) : Nat :=
  if exp_field spec w = 0 then mant_field spec w * 2 ^ norm_shift spec w
  else 2 ^ spec.mant_size + mant_field spec w

/-- Significand of a finite word in units of the last place of its binade: the mantissa field when
the exponent field is zero, the mantissa field with the implicit bit otherwise. -/
def unit_sig (spec : precision_spec) (w : Nat) : Nat :=
  if exp_field spec w = 0 then mant_field spec w else 2 ^ spec.mant_size + mant_field spec w

/-- Biased exponent of the binade of a finite word: the exponent field, or `1` when it is zero. -/
def unit_exp (spec : precision_spec) (w : Nat) : Int :=
  max 1 (exp_field spec w : Int)

/-- The state of `float_divide` after the quotient normalisation (line 632) for two finite
non-zero operand words: `(new_exp, unrounded_mant, half_bit, sticky_bit)`. -/
def divide_stage (spec : precision_spec) (a b : Nat) : Int × Nat × Bool × Bool :=
  divide_quotient (norm_exp spec a) (load_mant spec a) (norm_exp spec b) (load_mant spec b) spec

/-- The value that `float_round` returns at line 658 of `float_divide` when neither the overflow
nor the underflow branch is taken. -/
def divide_final_round (spec : precision_spec) (mode : round) (a b : Nat) : Nat :=
  float_round (divide_stage spec a b).2.1 (xor (sign_bit spec a) (sign_bit spec b))
    (divide_stage spec a b).2.2.1 (divide_stage spec a b).2.2.2 mode

/-- A word is finite and non-zero: it is classified normal or subnormal. -/
def finite_nonzero (spec : precision_spec) (w : Nat) : Prop :=
  get_float_case w spec = cases.normal ∨ get_float_case w spec = cases.subnormal

instance (spec : precision_spec) (w : Nat) : Decidable (finite_nonzero spec w) := by
  unfold finite_nonzero; infer_instance

/-- The overflow table of the specification (section 4.2) for a result of sign `s`. -/
def overflow_table (spec : precision_spec) (s : Bool) (mode : round) : Nat :=
  match mode with
  | round.towards_zero => max_word spec s
  | round.ties_to_even => inf_word spec s
  | round.upward => if s then max_word spec true else inf_word spec false
  | round.downward => if s then inf_word spec true else max_word spec false

/-- The normalised biased exponent of the exact product: `a_exp + b_exp - bias`, plus one when the
product of the significands carries into bit `2 * mant_size + 1`. -/
def product_exp (spec : precision_spec) (a b : Nat) : Int :=
  norm_exp spec a + norm_exp spec b - spec.bias +
    (if 2 ^ (2 * spec.mant_size + 1) ≤ norm_sig spec a * norm_sig spec b then 1 else 0)

/-- The word `w` with its sign bit flipped. -/
def flip_sign (spec : precision_spec) (w : Nat) : Nat :=
  if sign_bit spec w then w - 2 ^ (spec.mant_size + spec.exp_size)
  else w + 2 ^ (spec.mant_size + spec.exp_size)

/-! ## Reference semantics: exact value and correct rounding -/

/-- The rational number that a finite word encodes: `(-1)^s * M * 2^(1 - bias - mant_size)` when
the exponent field is zero, `(-1)^s * (2^mant_size + M) * 2^(E - bias - mant_size)` otherwise. -/
def value (spec : precision_spec) (w : Nat) : ℚ :=
  let mag : ℚ :=
    if exp_field spec w = 0 then
      (mant_field spec w : ℚ) * 2 ^ (1 - (spec.bias : ℤ) - spec.mant_size)
    else
      ((2 ^ spec.mant_size + mant_field spec w : ℕ) : ℚ) *
        2 ^ ((exp_field spec w : ℤ) - spec.bias - spec.mant_size)
  if sign_bit spec w then -mag else mag

/-- The rounding decision of the specification for a magnitude `n + frac` units in the last place
(`0 ≤ frac < 1`): does the magnitude round up to `n + 1`? -/
def spec_round_up (mode : round) (sign : Bool) (n : ℕ) (frac : ℚ) : Bool :=
  match mode with
  | round.towards_zero => false
  | round.ties_to_even =>
    decide (1 / 2 < frac) || (decide (frac = 1 / 2) && decide (n % 2 = 1))
  | round.upward => !sign && decide (0 < frac)
  | round.downward => sign && decide (0 < frac)

/-- The encoding of the non-zero rational `q` rounded to the format under `mode`.

`E` is the biased exponent of the binade of `|q|`, at least `1` (below the smallest normal the
spacing of the subnormals applies); `scaled` is `|q|` in units of the last place of that binade.
Finite magnitudes are encoded monotonically, so `(E - 1) * 2^mant_size + n` is the magnitude word
of the representable value just below `|q|` and the next word is the value just above.  A rounded
magnitude beyond the largest finite value is resolved by the overflow table. -/
def spec_round (spec : precision_spec) (mode : round) (q : ℚ) : Nat :=
  let sign : Bool := decide (q < 0)
  let E : ℤ := max 1 (Int.log 2 |q| + spec.bias)
  let scaled : ℚ := |q| * 2 ^ ((spec.bias : ℤ) + spec.mant_size - E)
  let n : ℕ := ⌊scaled⌋₊
  let frac : ℚ := scaled - n
  let w : ℕ := (E - 1).toNat * 2 ^ spec.mant_size + n + b2n (spec_round_up mode sign n frac)
  if (2 ^ spec.exp_size - 1) * 2 ^ spec.mant_size ≤ w then overflow_table spec sign mode
  else b2n sign * 2 ^ (spec.mant_size + spec.exp_size) + w

/-- The rounding decision on a half bit and a sticky bit (proof device: what every kernel has to
compute from `n`, the half bit and the sticky bit of an exact result). -/
def bits_round_up (mode : round) (sign : Bool) (n : ℕ) (half sticky : Bool) : Bool :=
  match mode with
  | round.towards_zero => false
  | round.ties_to_even => (sticky && half) || (half && decide (n % 2 = 1))
  | round.upward => !sign && (sticky || half)
  | round.downward => sign && (sticky || half)

/-- The word that results from a biased exponent `E ≥ 1`, a significand `n` (implicit bit
included, or below `2^mant_size` for a subnormal), a half bit and a sticky bit. -/
def round_pack (spec : precision_spec) (mode : round) (sign : Bool) (E : ℤ) (n : ℕ)
    (half sticky : Bool) : Nat :=
  let w : ℕ := (E - 1).toNat * 2 ^ spec.mant_size + n + b2n (bits_round_up mode sign n half sticky)
  if (2 ^ spec.exp_size - 1) * 2 ^ spec.mant_size ≤ w then overflow_table spec sign mode
  else b2n sign * 2 ^ (spec.mant_size + spec.exp_size) + w

/-! ## The calls of `pack_float`

Each definition below follows the same lines of the source as the kernel it is named after, and
returns what that run hands to `pack_float`: the triple `(sign, exp, mant)`, with `exp` the value
of the `int16_t` expression before it is narrowed to the `uint8_t` parameter and `mant` the value
of the `uint32_t` parameter.  `none` stands for a run that returns without calling `pack_float`
(a special value, an operand, the overflow table) or that does not return. -/

/-- Lines 247-295 of `float_multiply`: the arguments of the `pack_float` call of line 295, `none`
when the run returns through `float_exp_overflow` (line 268). -/
def float_multiply_finite_call (a_exp : Int) (a_mant : Nat) (b_exp : Int) (b_mant : Nat)
    (new_sign : Bool) (mode : round) (spec : precision_spec) :
    Option (Bool × Int × Nat) :=
  let m := spec.mant_size
  -- lines 247-250
  let new_exp : Int := a_exp + b_exp - spec.bias
  let a_mant := a_mant ||| (1 <<< m)
  let b_mant := b_mant ||| (1 <<< m)
  let unrounded_mant := u64 (a_mant * b_mant)
  -- lines 256-261
  let carry : Bool := unrounded_mant &&& u64 (1 <<< (m * 2 + 1)) != 0
  let new_exp := if carry then new_exp + 1 else new_exp
  let sticky_bit : Bool :=
    if carry then unrounded_mant &&& ((1 <<< (m - 1)) - 1) != 0 else false
  let unrounded_mant := if carry then unrounded_mant >>> 1 else unrounded_mant
  -- lines 262-265
  let sticky_bit := sticky_bit || (unrounded_mant &&& ((1 <<< (m - 1)) - 1) != 0)
  let half_bit : Bool := unrounded_mant &&& (1 <<< (m - 1)) != 0
  let unrounded_mant := unrounded_mant >>> m
  let rounded_mant := (1 <<< m) ^^^ unrounded_mant
  -- lines 266-269
  if new_exp ≥ (1 <<< spec.exp_size : Nat) - 1 then none
  else
    -- lines 270-292
    let under : Bool := decide (new_exp ≤ 0)
    let shift_amnt : Nat := if under then u8 (0 - (new_exp - 1)) else 0
    let in1 : Bool := under && decide (shift_amnt ≤ m)
    let sticky_bit := if in1 then sticky_bit || half_bit else sticky_bit
    let half_bit := if in1 then unrounded_mant &&& (1 <<< (shift_amnt - 1)) != 0 else half_bit
    let new_exp := if under then 0 else new_exp
    let rounded_mant := if under then rounded_mant ||| (1 <<< m) else rounded_mant
    let in2 : Bool := decide (shift_amnt ≤ m + 1)
    let sticky_bit :=
      if under then
        (if in2 then (((1 <<< (shift_amnt - 1)) - 1) &&& unrounded_mant != 0) || sticky_bit
         else true)
      else sticky_bit
    let rounded_mant :=
      if under then (if in2 then rounded_mant >>> shift_amnt else 0) else rounded_mant
    let half_bit :=
      if under then (if in2 then half_bit || decide (shift_amnt = m + 1) else false)
      else half_bit
    -- lines 293-295
    let rounded_mant := float_round rounded_mant new_sign half_bit sticky_bit mode
    let new_exp := new_exp + b2n (rounded_mant &&& (1 <<< m) != 0)
    some (new_sign, new_exp, u32 rounded_mant)

/-- Function `float_multiply`, lines 212-296: the arguments of its `pack_float` call. -/
def float_multiply_call (a b : Nat) (mode : round) (spec : precision_spec) :
    Option (Bool × Int × Nat) :=
  let a_sign : Bool := extract_sign a spec.mant_size spec.exp_size != 0
  let b_sign : Bool := extract_sign b spec.mant_size spec.exp_size != 0
  let a_cases := get_float_case a spec
  let b_cases := get_float_case b spec
  let new_sign := xor a_sign b_sign
  if a_cases = cases.nan ∨ b_cases = cases.nan ∨
      ((a_cases = cases.inf ∨ b_cases = cases.inf) ∧
        (b_cases = cases.zero ∨ a_cases = cases.zero)) then
    none
  else if a_cases = cases.inf ∨ b_cases = cases.inf then
    none
  else if a_cases = cases.zero ∨ b_cases = cases.zero then
    none
  else
    match load_operand a spec, load_operand b spec with
    | some (a_exp, a_mant), some (b_exp, b_mant) =>
      float_multiply_finite_call a_exp a_mant b_exp b_mant new_sign mode spec
    | _, _ => none

/-- Lines 406-417 of `float_subtract`: the arguments of the `pack_float` call of line 417. -/
def float_subtract_finish_call (new_exp : Int) (unrounded_mant : Nat) (new_sign half_bit
    sticky_bit : Bool) (mode : round) (spec : precision_spec) :
    Bool × Int × Nat :=
  let m := spec.mant_size
  let rounded_mant := float_round unrounded_mant new_sign half_bit sticky_bit mode
  let new_exp := new_exp + b2n (rounded_mant &&& (1 <<< m) == 0)
  -- line 408 changes only `unrounded_mant`, which is not read afterwards
  let rounded_mant :=
    if new_exp ≤ 0 then
      (if -new_exp + 1 ≤ (m : Int) then rounded_mant >>> (-new_exp + 1).toNat else 0)
    else rounded_mant
  let new_exp := if new_exp ≤ 0 then 0 else new_exp
  (new_sign, new_exp, u32 rounded_mant)

/-- Lines 367-417 of `float_subtract`, on the operands ordered by `subtract_order`: the arguments
of the `pack_float` call of line 417, `none` when the difference is zero (lines 372-375). -/
def float_subtract_ordered_call (new_sign : Bool) (new_exp : Int) (a_mant b_mant exp_diff : Nat)
    (mode : round) (spec : precision_spec) : Option (Bool × Int × Nat) :=
  if exp_diff ≤ spec.mant_size + 1 then
    -- lines 369-390
    let a_mant := u64 (a_mant <<< exp_diff)
    let unrounded_mant := u64_sub a_mant b_mant
    if unrounded_mant = 0 then
      none
    else
      match subtract_normalize_loop (u64 (1 <<< (spec.mant_size + exp_diff))) 65 new_exp
          unrounded_mant with
      | none => none
      | some (new_exp, unrounded_mant) =>
        match subtract_near_bits unrounded_mant exp_diff with
        | (unrounded_mant, half_bit, sticky_bit) =>
          some (float_subtract_finish_call new_exp unrounded_mant new_sign half_bit sticky_bit
            mode spec)
  else
    -- lines 394-404
    match subtract_far new_exp a_mant b_mant exp_diff spec with
    | (new_exp, unrounded_mant, half_bit, sticky_bit) =>
      some (float_subtract_finish_call new_exp unrounded_mant new_sign half_bit sticky_bit mode
        spec)

/-- Lines 346-417 of `float_subtract`: the arguments of the `pack_float` call of line 417. -/
def float_subtract_finite_call (a_exp : Int) (a_mant : Nat) (b_exp : Int) (b_mant : Nat)
    (a_sign : Bool) (mode : round) (spec : precision_spec) :
    Option (Bool × Int × Nat) :=
  match subtract_order a_exp a_mant b_exp b_mant a_sign spec with
  | (new_sign, new_exp, a_mant, b_mant, exp_diff) =>
    float_subtract_ordered_call new_sign new_exp a_mant b_mant exp_diff mode spec

/-- Function `float_subtract`, lines 298-418: the arguments of its `pack_float` call (line 309 when
`a` is a zero, line 417 otherwise). -/
def float_subtract_call (a b : Nat) (mode : round) (spec : precision_spec) :
    Option (Bool × Int × Nat) :=
  let a_sign : Bool := extract_sign a spec.mant_size spec.exp_size != 0
  let b_sign : Bool := extract_sign b spec.mant_size spec.exp_size != 0
  let a_cases := get_float_case a spec
  let b_cases := get_float_case b spec
  if a_cases = cases.zero then
    let b_sign := xor a_sign b_sign
    some (b_sign, (extract_exp a spec.mant_size spec.exp_size : Int),
      extract_mant a spec.mant_size)
  else if b_cases = cases.zero then none
  else if a_cases = cases.nan ∨ b_cases = cases.nan ∨
      (a_cases = cases.inf ∧ b_cases = cases.inf ∧ a_sign = b_sign) then
    none
  else if a_cases = cases.inf then none
  else if b_cases = cases.inf then none
  else
    match load_operand a spec, load_operand b spec with
    | some (a_exp, a_mant), some (b_exp, b_mant) =>
      float_subtract_finite_call a_exp a_mant b_exp b_mant a_sign mode spec
    | _, _ => none

/-- Lines 525-540 of `float_addition`: the arguments of the `pack_float` call of line 540, `none`
when the run returns through `float_exp_overflow` (line 538). -/
def addition_finish_call (new_exp : Int) (unrounded_mant : Nat) (half_bit sticky_bit : Bool)
    (a_sign : Bool) (mode : round) (spec : precision_spec) :
    Option (Bool × Int × Nat) :=
  let m := spec.mant_size
  -- lines 525-527
  let rounded_mant := float_round unrounded_mant a_sign half_bit sticky_bit mode
  let new_exp := new_exp + b2n (rounded_mant &&& (1 <<< (m + 1)) != 0)
  let rounded_mant := rounded_mant >>> b2n (rounded_mant &&& (1 <<< (m + 1)) != 0)
  -- lines 528-535
  let rounded_mant :=
    if new_exp ≤ 0 then
      (if -new_exp + 1 ≤ (m : Int) then rounded_mant >>> (-new_exp + 1).toNat else 0)
    else rounded_mant
  let new_exp := if new_exp ≤ 0 then 0 else new_exp
  -- lines 536-540
  if new_exp ≥ (1 <<< spec.exp_size : Nat) - 1 then none
  else some (a_sign, new_exp, u32 rounded_mant)

/-- Lines 467-540 of `float_addition`: the arguments of the `pack_float` call of line 540. -/
def float_addition_finite_call (a_exp : Int) (a_mant : Nat) (b_exp : Int) (b_mant : Nat)
    (a_sign : Bool) (mode : round) (spec : precision_spec) :
    Option (Bool × Int × Nat) :=
  match addition_order a_exp a_mant b_exp b_mant spec with
  | (new_exp, a_mant, b_mant, exp_diff) =>
    match addition_align a_mant b_mant exp_diff spec with
    | (unrounded_mant, half_bit, sticky_bit) =>
      match addition_carry new_exp unrounded_mant half_bit sticky_bit spec with
      | (new_exp, unrounded_mant, half_bit, sticky_bit) =>
        addition_finish_call new_exp unrounded_mant half_bit sticky_bit a_sign mode spec

/-- Function `float_addition`, lines 420-541: the arguments of its `pack_float` call. -/
def float_addition_call (a b : Nat) (mode : round) (spec : precision_spec) :
    Option (Bool × Int × Nat) :=
  let a_sign : Bool := extract_sign a spec.mant_size spec.exp_size != 0
  let b_sign : Bool := extract_sign b spec.mant_size spec.exp_size != 0
  let a_cases := get_float_case a spec
  let b_cases := get_float_case b spec
  if a_cases = cases.zero then none
  else if b_cases = cases.zero then none
  else if a_cases = cases.nan ∨ b_cases = cases.nan ∨
      (a_cases = cases.inf ∧ b_cases = cases.inf ∧ a_sign ≠ b_sign) then
    none
  else if a_cases = cases.inf then none
  else if b_cases = cases.inf then none
  else
    match load_operand a spec, load_operand b spec with
    | some (a_exp, a_mant), some (b_exp, b_mant) =>
      float_addition_finite_call a_exp a_mant b_exp b_mant a_sign mode spec
    | _, _ => none

/-- Function `float_add_diff`, lines 543-573: the arguments of the `pack_float` call made by the
kernel it dispatches to. -/
def float_add_diff_call (a b : Nat) (mode : round) (spec : precision_spec) :
    Option (Bool × Int × Nat) :=
  let a_sign : Bool := extract_sign a spec.mant_size spec.exp_size != 0
  let b_sign : Bool := extract_sign b spec.mant_size spec.exp_size != 0
  if a_sign = b_sign then float_addition_call a b mode spec
  else if get_float_case a spec = cases.zero ∧ get_float_case b spec = cases.zero then
    none
  else if get_float_case a spec = cases.zero then none
  else if get_float_case b spec = cases.zero then none
  else if b_sign then float_subtract_call a (float_invert_sign b spec) mode spec
  else float_subtract_call b (float_invert_sign a spec) mode spec

/-- Function `float_sub_diff`, lines 575-579: the arguments of the `pack_float` call made by
`float_add_diff`. -/
def float_sub_diff_call (a b : Nat) (mode : round) (spec : precision_spec) :
    Option (Bool × Int × Nat) :=
  float_add_diff_call a (float_invert_sign b spec) mode spec

/-- Lines 619-659 of `float_divide`: the arguments of the `pack_float` call of line 659, `none` when
the run returns through `float_exp_overflow` (line 635). -/
def float_divide_finite_call (a_exp : Int) (a_mant : Nat) (b_exp : Int) (b_mant : Nat)
    (new_sign : Bool) (mode : round) (spec : precision_spec) :
    Option (Bool × Int × Nat) :=
  match divide_quotient a_exp a_mant b_exp b_mant spec with
  | (new_exp, unrounded_mant, half_bit, sticky_bit) =>
    -- lines 633-636
    if new_exp ≥ (1 <<< spec.exp_size : Nat) - 1 then none
    else if new_exp ≤ 0 then
      -- lines 637-659
      match divide_denormalize new_exp unrounded_mant half_bit sticky_bit spec with
      | (unrounded_mant, half_bit, sticky_bit) =>
        let new_exp : Int := 0
        let norm_mant := u32 (float_round unrounded_mant new_sign half_bit sticky_bit mode)
        let new_exp := new_exp + b2n (norm_mant &&& (1 <<< spec.mant_size) != 0)
        let rounded_mant := u32 (float_round unrounded_mant new_sign half_bit sticky_bit mode)
        some (new_sign, new_exp, rounded_mant)
    else
      -- lines 658-659
      let rounded_mant := u32 (float_round unrounded_mant new_sign half_bit sticky_bit mode)
      some (new_sign, new_exp, rounded_mant)

/-- Function `float_divide`, lines 581-660: the arguments of its `pack_float` call. -/
def float_divide_call (a b : Nat) (mode : round) (spec : precision_spec) :
    Option (Bool × Int × Nat) :=
  let a_sign : Bool := extract_sign a spec.mant_size spec.exp_size != 0
  let b_sign : Bool := extract_sign b spec.mant_size spec.exp_size != 0
  let a_cases := get_float_case a spec
  let b_cases := get_float_case b spec
  if a_cases = cases.nan ∨ b_cases = cases.nan ∨
      (a_cases = cases.zero ∧ b_cases = cases.zero) ∨
      (a_cases = cases.inf ∧ b_cases = cases.inf) then
    none
  else if b_cases = cases.zero ∨ a_cases = cases.inf then
    none
  else if a_cases = cases.zero ∨ b_cases = cases.inf then
    none
  else
    match load_operand a spec, load_operand b spec with
    | some (a_exp, a_mant), some (b_exp, b_mant) =>
      let new_sign := xor a_sign b_sign
      float_divide_finite_call a_exp a_mant b_exp b_mant new_sign mode spec
    | _, _ => none

theorem extract_mant_eq (a m : Nat) : extract_mant a m = a % 2 ^ m := by
  unfold extract_mant
  rw [Nat.one_shiftLeft]
  exact Nat.and_pow_two_sub_one_eq_mod a m

theorem extract_exp_eq (a m e : Nat) : extract_exp a m e = a / 2 ^ m % 2 ^ e := by
  unfold extract_exp
  rw [Nat.one_shiftLeft, Nat.shiftRight_eq_div_pow]
  exact Nat.and_pow_two_sub_one_eq_mod _ e

theorem extract_sign_eq (a m e : Nat) : extract_sign a m e = a / 2 ^ (m + e) := by
  unfold extract_sign
  exact Nat.shiftRight_eq_div_pow a (m + e)

theorem extract_mant_flip (w m k : Nat) (hk : m ≤ k) (hm : m ≤ 32) :
    extract_mant (u32 (w ^^^ (1 <<< k))) m = extract_mant w m := by
  simp only [extract_mant_eq, u32, Nat.one_shiftLeft]
  apply Nat.eq_of_testBit_eq
  intro i
  simp only [Nat.testBit_mod_two_pow, Nat.testBit_xor, Nat.testBit_two_pow]
  by_cases hi : i < m
  · have h1 : i < 32 := by omega
    have h2 : ¬ k = i := by omega
    simp [hi, h1, h2]
  · simp [hi]

theorem extract_exp_flip (w m e : Nat) (hme : m + e ≤ 32) :
    extract_exp (u32 (w ^^^ (1 <<< (m + e)))) m e = extract_exp w m e := by
  simp only [extract_exp, u32, Nat.one_shiftLeft]
  apply Nat.eq_of_testBit_eq
  intro i
  simp only [Nat.testBit_and, Nat.testBit_shiftRight, Nat.testBit_mod_two_pow, Nat.testBit_xor,
    Nat.testBit_two_pow, Nat.testBit_two_pow_sub_one]
  by_cases hi : i < e
  · have h1 : m + i < 32 := by omega
    have h2 : ¬ m + e = m + i := by omega
    simp [hi, h1, h2]
  · simp [hi]

theorem get_float_case_flip (w : Nat) (spec : precision_spec)
    (hme : spec.mant_size + spec.exp_size ≤ 32) :
    get_float_case (float_invert_sign w spec) spec = get_float_case w spec := by
  unfold get_float_case float_invert_sign
  rw [extract_exp_flip w _ _ hme, extract_mant_flip w _ _ (Nat.le_add_right _ _) (by omega)]

theorem and_two_pow (w k : Nat) : w &&& 2 ^ k = w / 2 ^ k % 2 * 2 ^ k := by
  apply Nat.eq_of_testBit_eq
  intro i
  rw [Nat.testBit_and, Nat.testBit_two_pow]
  rcases Nat.mod_two_eq_zero_or_one (w / 2 ^ k) with h | h
  · rw [h, Nat.zero_mul, Nat.zero_testBit]
    by_cases hki : k = i
    · subst hki
      simp [Nat.testBit_to_div_mod, h]
    · simp [hki]
  · rw [h, Nat.one_mul, Nat.testBit_two_pow]
    by_cases hki : k = i
    · subst hki
      simp [Nat.testBit_to_div_mod, h]
    · simp [hki]

theorem or_two_pow_of_lt (w k : Nat) (h : w < 2 ^ k) : w ||| 2 ^ k = w + 2 ^ k := by
  have h1 := Nat.mul_add_lt_is_or h 1
  rw [Nat.mul_one] at h1
  rw [Nat.or_comm, Nat.add_comm]
  exact h1.symm

theorem or_two_pow_of_ge (w k : Nat) (h1 : 2 ^ k ≤ w) (h2 : w < 2 ^ (k + 1)) :
    w ||| 2 ^ k = w := by
  have hv : w - 2 ^ k < 2 ^ k := by rw [pow_succ] at h2; omega
  have hw : w = (w - 2 ^ k) ||| 2 ^ k := by rw [or_two_pow_of_lt _ _ hv]; omega
  rw [hw, Nat.or_assoc, Nat.or_self]

theorem xor_two_pow_of_lt (w k : Nat) (h : w < 2 ^ k) : w ^^^ 2 ^ k = w + 2 ^ k := by
  rw [← or_two_pow_of_lt w k h]
  apply Nat.eq_of_testBit_eq
  intro i
  rw [Nat.testBit_xor, Nat.testBit_or, Nat.testBit_two_pow]
  by_cases hki : k = i
  · subst hki
    simp [Nat.testBit_lt_two_pow h]
  · simp [hki]

theorem xor_two_pow_of_ge (w k : Nat) (h1 : 2 ^ k ≤ w) (h2 : w < 2 ^ (k + 1)) :
    w ^^^ 2 ^ k = w - 2 ^ k := by
  have hv : w - 2 ^ k < 2 ^ k := by rw [pow_succ] at h2; omega
  have hw : w = (w - 2 ^ k) ^^^ 2 ^ k := by rw [xor_two_pow_of_lt _ _ hv]; omega
  conv_lhs => rw [hw]
  rw [Nat.xor_assoc, Nat.xor_self, Nat.xor_zero]

theorem u64_of_lt (x : Nat) (h : x < 2 ^ 64) : u64 x = x := Nat.mod_eq_of_lt h

theorem and_two_pow_ne_zero_iff (w k : Nat) : w &&& 2 ^ k ≠ 0 ↔ w / 2 ^ k % 2 = 1 := by
  rw [and_two_pow]
  rcases Nat.mod_two_eq_zero_or_one (w / 2 ^ k) with h | h <;> simp [h]

theorem top_bit_iff (w k : Nat) (hw : w < 2 ^ (k + 1)) : w / 2 ^ k % 2 = 1 ↔ 2 ^ k ≤ w := by
  have h2 : w / 2 ^ k < 2 := by
    rw [Nat.div_lt_iff_lt_mul (by positivity)]
    rw [pow_succ] at hw
    omega
  constructor
  · intro h
    by_contra hlt
    rw [Nat.div_eq_of_lt (by omega)] at h
    simp at h
  · intro h
    have : 1 ≤ w / 2 ^ k := (Nat.one_le_div_iff (by positivity)).2 h
    omega

theorem bne_zero_eq_decide (x : ℕ) : (x != 0) = decide (x ≠ 0) := by
  by_cases h : x = 0 <;> simp [h]

theorem beq_zero_eq_decide (x : ℕ) : (x == 0) = decide (x = 0) := by
  by_cases h : x = 0 <;> simp [h]

theorem test_bit_eq_decide (x k : ℕ) : (x &&& 1 <<< k != 0) = decide (x / 2 ^ k % 2 = 1) := by
  rw [bne_zero_eq_decide, Nat.one_shiftLeft]
  exact decide_eq_decide.2 (and_two_pow_ne_zero_iff x k)

theorem or_eq_zero_iff (x y : ℕ) : x ||| y = 0 ↔ x = 0 ∧ y = 0 := by
  constructor
  · intro h
    constructor
    · apply Nat.eq_of_testBit_eq
      intro i
      have := congrArg (fun z => Nat.testBit z i) h
      simp only [Nat.testBit_or, Nat.zero_testBit, Bool.or_eq_false_iff] at this
      rw [this.1, Nat.zero_testBit]
    · apply Nat.eq_of_testBit_eq
      intro i
      have := congrArg (fun z => Nat.testBit z i) h
      simp only [Nat.testBit_or, Nat.zero_testBit, Bool.or_eq_false_iff] at this
      rw [this.2, Nat.zero_testBit]
  · rintro ⟨rfl, rfl⟩
    rfl

theorem b2n_eq_zero_iff (c : Bool) : b2n c = 0 ↔ c = false := by
  cases c <;> simp [b2n]

theorem decide_congr {p q : Prop} [Decidable p] [Decidable q] (h : p ↔ q) :
    decide p = decide q := decide_eq_decide.2 h

theorem valid_of_format (spec : precision_spec) (hs : spec = f16_spec ∨ spec = f32_spec) :
    valid_spec spec := by
  rcases hs with rfl | rfl <;> constructor <;> decide

theorem exp_field_lt (spec : precision_spec) (w : Nat) : exp_field spec w < 2 ^ spec.exp_size :=
  Nat.mod_lt _ (by positivity)

theorem mant_field_lt (spec : precision_spec) (w : Nat) : mant_field spec w < 2 ^ spec.mant_size :=
  Nat.mod_lt _ (by positivity)

theorem exp_field_lt_256 (spec : precision_spec) (hv : valid_spec spec) (w : Nat) :
    exp_field spec w < 256 := by
  have h1 := exp_field_lt spec w
  have h2 : 2 ^ spec.exp_size ≤ 2 ^ 8 := Nat.pow_le_pow_right (by decide) hv.exp_le
  omega

theorem get_float_case_eq (spec : precision_spec) (hv : valid_spec spec) (w : Nat) :
    get_float_case w spec =
      if exp_field spec w = 0 ∧ mant_field spec w = 0 then cases.zero
      else if exp_field spec w = 0 ∧ mant_field spec w ≠ 0 then cases.subnormal
      else if exp_field spec w = 2 ^ spec.exp_size - 1 then
        (if mant_field spec w = 0 then cases.inf else cases.nan)
      else cases.normal := by
  unfold get_float_case
  simp only [extract_exp_eq, extract_mant_eq, Nat.one_shiftLeft]
  have h := exp_field_lt_256 spec hv w
  unfold exp_field at h
  rw [Nat.mod_eq_of_lt h]
  rfl

theorem case_subnormal_iff (spec : precision_spec) (hv : valid_spec spec) (w : Nat) :
    get_float_case w spec = cases.subnormal ↔ exp_field spec w = 0 ∧ mant_field spec w ≠ 0 := by
  rw [get_float_case_eq spec hv]
  constructor
  · intro h
    split_ifs at h with h1 h2 h3 h4
    exact h2
  · intro h
    have h1 : ¬ (exp_field spec w = 0 ∧ mant_field spec w = 0) := fun hh => h.2 hh.2
    rw [if_neg h1, if_pos h]

theorem case_normal_iff (spec : precision_spec) (hv : valid_spec spec) (w : Nat) :
    get_float_case w spec = cases.normal ↔
      exp_field spec w ≠ 0 ∧ exp_field spec w ≠ 2 ^ spec.exp_size - 1 := by
  rw [get_float_case_eq spec hv]
  constructor
  · intro h
    split_ifs at h with h1 h2 h3 h4
    refine ⟨fun h0 => ?_, h3⟩
    by_cases hm : mant_field spec w = 0
    · exact h1 ⟨h0, hm⟩
    · exact h2 ⟨h0, hm⟩
  · intro h
    have h1 : ¬ (exp_field spec w = 0 ∧ mant_field spec w = 0) := fun hh => h.1 hh.1
    have h2 : ¬ (exp_field spec w = 0 ∧ mant_field spec w ≠ 0) := fun hh => h.1 hh.1
    rw [if_neg h1, if_neg h2, if_neg h.2]

theorem case_zero_iff (spec : precision_spec) (hv : valid_spec spec) (w : Nat) :
    get_float_case w spec = cases.zero ↔ exp_field spec w = 0 ∧ mant_field spec w = 0 := by
  rw [get_float_case_eq spec hv]
  constructor
  · intro h
    split_ifs at h with h1 h2 h3 h4
    exact h1
  · intro h
    rw [if_pos h]

theorem case_inf_iff (spec : precision_spec) (hv : valid_spec spec) (w : Nat) :
    get_float_case w spec = cases.inf ↔
      exp_field spec w = 2 ^ spec.exp_size - 1 ∧ mant_field spec w = 0 := by
  have hp : 2 ^ 2 ≤ 2 ^ spec.exp_size := Nat.pow_le_pow_right (by decide) hv.exp_pos
  rw [get_float_case_eq spec hv]
  constructor
  · intro h
    split_ifs at h with h1 h2 h3 h4
    exact ⟨h3, h4⟩
  · intro h
    have h1 : ¬ (exp_field spec w = 0 ∧ mant_field spec w = 0) := by
      intro hh; have := hh.1; omega
    have h2 : ¬ (exp_field spec w = 0 ∧ mant_field spec w ≠ 0) := by
      intro hh; have := hh.1; omega
    rw [if_neg h1, if_neg h2, if_pos h.1, if_pos h.2]

theorem subnormal_exp_loop_eq (spec : precision_spec) (hm : spec.mant_size ≤ 23) :
    ∀ (k fuel : Nat) (e : Int) (x : Nat), 2 ^ spec.mant_size ≤ x * 2 ^ k →
      x * 2 ^ k < 2 ^ (spec.mant_size + 1) → k < fuel →
      subnormal_exp_loop spec fuel e x = some (e - k) := by
  intro k
  induction k with
  | zero =>
    intro fuel e x h1 h2 hf
    obtain ⟨f, rfl⟩ : ∃ f, fuel = f + 1 := ⟨fuel - 1, by omega⟩
    simp only [pow_zero, Nat.mul_one] at h1 h2
    have hd : x / 2 ^ spec.mant_size = 1 := by
      apply Nat.div_eq_of_lt_le
      · simpa using h1
      · rw [pow_succ] at h2; omega
    have hne : x &&& 1 <<< spec.mant_size ≠ 0 := by
      rw [Nat.one_shiftLeft, and_two_pow, hd]
      simp
    simp [subnormal_exp_loop, hne]
  | succ k ih =>
    intro fuel e x h1 h2 hf
    obtain ⟨f, rfl⟩ : ∃ f, fuel = f + 1 := ⟨fuel - 1, by omega⟩
    have hx : x < 2 ^ spec.mant_size := by
      have hk : 2 ≤ 2 ^ (k + 1) := by
        calc 2 = 2 ^ 1 := rfl
          _ ≤ 2 ^ (k + 1) := Nat.pow_le_pow_right (by decide) (by omega)
      have e1 : 2 ^ (spec.mant_size + 1) = 2 ^ spec.mant_size * 2 := pow_succ _ _
      by_contra hge
      have := Nat.mul_le_mul (Nat.le_of_not_lt hge) hk
      omega
    have hd : x / 2 ^ spec.mant_size = 0 := Nat.div_eq_of_lt hx
    have heq : x &&& 1 <<< spec.mant_size = 0 := by
      rw [Nat.one_shiftLeft, and_two_pow, hd]
      simp
    have hp : 2 ^ spec.mant_size ≤ 2 ^ 23 := Nat.pow_le_pow_right (by decide) hm
    have hu : u32 (x <<< 1) = x * 2 := by
      unfold u32
      rw [Nat.shiftLeft_eq, pow_one]
      apply Nat.mod_eq_of_lt
      omega
    have hmul : x * 2 * 2 ^ k = x * 2 ^ (k + 1) := by rw [pow_succ]; ring
    simp only [subnormal_exp_loop, heq, if_true, hu]
    rw [ih f (e - 1) (x * 2) (by rw [hmul]; exact h1) (by rw [hmul]; exact h2) (by omega)]
    congr 1
    push_cast
    ring

theorem norm_shift_spec (spec : precision_spec) (w : Nat) (hM : mant_field spec w ≠ 0) :
    1 ≤ norm_shift spec w ∧ norm_shift spec w ≤ spec.mant_size ∧
    2 ^ spec.mant_size ≤ mant_field spec w * 2 ^ norm_shift spec w ∧
    mant_field spec w * 2 ^ norm_shift spec w < 2 ^ (spec.mant_size + 1) := by
  have hlt := mant_field_lt spec w
  have hlog : Nat.log 2 (mant_field spec w) < spec.mant_size :=
    Nat.log_lt_of_lt_pow hM hlt
  have h1 := Nat.pow_log_le_self 2 hM
  have h2 := Nat.lt_pow_succ_log_self (by decide : 1 < 2) (mant_field spec w)
  unfold norm_shift
  refine ⟨by omega, by omega, ?_, ?_⟩
  · calc 2 ^ spec.mant_size
        = 2 ^ Nat.log 2 (mant_field spec w) * 2 ^ (spec.mant_size - Nat.log 2 (mant_field spec w)) := by
          rw [← pow_add]; congr 1; omega
      _ ≤ mant_field spec w * 2 ^ (spec.mant_size - Nat.log 2 (mant_field spec w)) :=
          Nat.mul_le_mul_right _ h1
  · calc mant_field spec w * 2 ^ (spec.mant_size - Nat.log 2 (mant_field spec w))
        < 2 ^ (Nat.log 2 (mant_field spec w) + 1) *
            2 ^ (spec.mant_size - Nat.log 2 (mant_field spec w)) :=
          Nat.mul_lt_mul_of_pos_right h2 (by positivity)
      _ = 2 ^ (spec.mant_size + 1) := by
          rw [← pow_add]; congr 1; omega

theorem get_float_subnormal_exp_eq (spec : precision_spec) (hv : valid_spec spec) (w : Nat)
    (hM : mant_field spec w ≠ 0) :
    get_float_subnormal_exp w spec = some (-((spec.bias : Int) - 1) - norm_shift spec w) := by
  obtain ⟨_, h2, h3, h4⟩ := norm_shift_spec spec w hM
  unfold get_float_subnormal_exp
  simp only [extract_mant_eq]
  exact subnormal_exp_loop_eq spec hv.mant_le (norm_shift spec w) 33 _ _ h3 h4
    (by have := hv.mant_le; omega)

theorem load_operand_eq (spec : precision_spec) (hv : valid_spec spec) (w : Nat)
    (hw : finite_nonzero spec w) :
    load_operand w spec = some (norm_exp spec w, load_mant spec w) := by
  unfold load_operand subnormal_reroll
  rcases hw with hn | hsub
  · have h := (case_normal_iff spec hv w).1 hn
    simp only [hn, reduceCtorEq, if_false, extract_exp_eq, extract_mant_eq]
    simp only [norm_exp, load_mant, exp_field, mant_field] at h ⊢
    rw [if_neg h.1, if_neg h.1]
  · have h := (case_subnormal_iff spec hv w).1 hsub
    obtain ⟨h1, h2, h3, h4⟩ := norm_shift_spec spec w h.2
    simp only [hsub, if_true, get_float_subnormal_exp_eq spec hv w h.2]
    simp only [norm_exp, load_mant, if_pos h.1, extract_mant_eq, get_subnormal_mant]
    have he : (-((spec.bias : Int) - 1) - (norm_shift spec w : Int) + spec.bias)
        = 1 - (norm_shift spec w : Int) := by ring
    rw [he]
    have ht : (-(1 - (norm_shift spec w : Int)) + 1).toNat = norm_shift spec w := by omega
    rw [ht, Nat.shiftLeft_eq]
    have hlt : w % 2 ^ spec.mant_size * 2 ^ norm_shift spec w < 2 ^ 64 := by
      have hp : 2 ^ (spec.mant_size + 1) ≤ 2 ^ 64 :=
        Nat.pow_le_pow_right (by decide) (by have := hv.mant_le; omega)
      unfold mant_field at h4
      omega
    unfold u64
    rw [Nat.mod_eq_of_lt hlt]
    rfl

theorem norm_sig_bounds (spec : precision_spec) (hv : valid_spec spec) (w : Nat)
    (hw : finite_nonzero spec w) :
    2 ^ spec.mant_size ≤ norm_sig spec w ∧ norm_sig spec w < 2 ^ (spec.mant_size + 1) := by
  unfold norm_sig
  rcases hw with hn | hsub
  · have h := (case_normal_iff spec hv w).1 hn
    rw [if_neg h.1]
    have := mant_field_lt spec w
    rw [pow_succ]
    omega
  · have h := (case_subnormal_iff spec hv w).1 hsub
    obtain ⟨h1, h2, h3, h4⟩ := norm_shift_spec spec w h.2
    rw [if_pos h.1]
    exact ⟨h3, h4⟩

theorem load_mant_or (spec : precision_spec) (hv : valid_spec spec) (w : Nat)
    (hw : finite_nonzero spec w) :
    load_mant spec w ||| 1 <<< spec.mant_size = norm_sig spec w := by
  rw [Nat.one_shiftLeft]
  unfold load_mant norm_sig
  rcases hw with hn | hsub
  · have h := (case_normal_iff spec hv w).1 hn
    rw [if_neg h.1, if_neg h.1, or_two_pow_of_lt _ _ (mant_field_lt spec w), Nat.add_comm]
  · have h := (case_subnormal_iff spec hv w).1 hsub
    obtain ⟨h1, h2, h3, h4⟩ := norm_shift_spec spec w h.2
    rw [if_pos h.1, if_pos h.1, or_two_pow_of_ge _ _ h3 h4]

theorem norm_exp_bounds (spec : precision_spec) (hv : valid_spec spec) (w : Nat)
    (hw : finite_nonzero spec w) :
    1 - (spec.mant_size : Int) ≤ norm_exp spec w ∧
      norm_exp spec w ≤ (2 ^ spec.exp_size - 2 : Nat) := by
  have hp : 2 ^ 2 ≤ 2 ^ spec.exp_size := Nat.pow_le_pow_right (by decide) hv.exp_pos
  unfold norm_exp
  rcases hw with hn | hsub
  · have h := (case_normal_iff spec hv w).1 hn
    have := exp_field_lt spec w
    rw [if_neg h.1]
    omega
  · have h := (case_subnormal_iff spec hv w).1 hsub
    obtain ⟨h1, h2, h3, h4⟩ := norm_shift_spec spec w h.2
    rw [if_pos h.1]
    omega

theorem width_eq (spec : precision_spec) : width spec = spec.mant_size + spec.exp_size + 1 := by
  unfold width; omega

theorem sign_bit_iff (spec : precision_spec) (w : Nat) (hw : w < 2 ^ width spec) :
    sign_bit spec w = true ↔ 2 ^ (spec.mant_size + spec.exp_size) ≤ w := by
  rw [width_eq] at hw
  unfold sign_bit
  rw [decide_eq_true_iff]
  exact top_bit_iff w _ hw

theorem float_invert_sign_eq (spec : precision_spec) (hv : valid_spec spec) (w : Nat)
    (hw : w < 2 ^ width spec) : float_invert_sign w spec = flip_sign spec w := by
  have hsb := sign_bit_iff spec w hw
  have hw' := hw
  rw [width_eq] at hw'
  have h32 : 2 ^ (spec.mant_size + spec.exp_size + 1) ≤ 2 ^ 32 :=
    Nat.pow_le_pow_right (by decide) (by have := hv.mant_le; have := hv.exp_le; omega)
  have e1 : 2 ^ (spec.mant_size + spec.exp_size + 1) = 2 ^ (spec.mant_size + spec.exp_size) * 2 :=
    pow_succ _ _
  unfold float_invert_sign flip_sign u32
  rw [Nat.one_shiftLeft]
  by_cases hs : sign_bit spec w = true
  · rw [if_pos hs, xor_two_pow_of_ge _ _ (hsb.1 hs) hw']
    apply Nat.mod_eq_of_lt
    omega
  · have hlt : w < 2 ^ (spec.mant_size + spec.exp_size) := by
      by_contra hge
      exact hs (hsb.2 (Nat.le_of_not_lt hge))
    rw [if_neg hs, xor_two_pow_of_lt _ _ hlt]
    apply Nat.mod_eq_of_lt
    omega

theorem flip_sign_lt (spec : precision_spec) (w : Nat) (hw : w < 2 ^ width spec) :
    flip_sign spec w < 2 ^ width spec := by
  have hsb := sign_bit_iff spec w hw
  rw [width_eq] at hw ⊢
  have e1 : 2 ^ (spec.mant_size + spec.exp_size + 1) = 2 ^ (spec.mant_size + spec.exp_size) * 2 :=
    pow_succ _ _
  unfold flip_sign
  by_cases hs : sign_bit spec w = true
  · rw [if_pos hs]; omega
  · have hlt : w < 2 ^ (spec.mant_size + spec.exp_size) := by
      by_contra hge
      exact hs (hsb.2 (Nat.le_of_not_lt hge))
    rw [if_neg hs]; omega

theorem sign_bit_flip (spec : precision_spec) (w : Nat) (hw : w < 2 ^ width spec) :
    sign_bit spec (flip_sign spec w) = !sign_bit spec w := by
  have hsb := sign_bit_iff spec w hw
  have hsf := sign_bit_iff spec (flip_sign spec w) (flip_sign_lt spec w hw)
  rw [width_eq] at hw
  have e1 : 2 ^ (spec.mant_size + spec.exp_size + 1) = 2 ^ (spec.mant_size + spec.exp_size) * 2 :=
    pow_succ _ _
  by_cases hs : sign_bit spec w = true
  · rw [hs]
    have h1 := hsb.1 hs
    have : ¬ sign_bit spec (flip_sign spec w) = true := by
      rw [hsf]
      unfold flip_sign
      rw [if_pos hs]
      omega
    simpa using this
  · have hlt : w < 2 ^ (spec.mant_size + spec.exp_size) := by
      by_contra hge
      exact hs (hsb.2 (Nat.le_of_not_lt hge))
    have hs' : sign_bit spec w = false := by simpa using hs
    rw [hs']
    have : sign_bit spec (flip_sign spec w) = true := by
      rw [hsf]
      unfold flip_sign
      rw [if_neg hs]
      omega
    simpa using this

theorem flip_flip (spec : precision_spec) (w : Nat) (hw : w < 2 ^ width spec) :
    flip_sign spec (flip_sign spec w) = w := by
  have hsb := sign_bit_iff spec w hw
  have h2 := sign_bit_flip spec w hw
  have e : flip_sign spec (flip_sign spec w) =
      if sign_bit spec (flip_sign spec w) = true then
        flip_sign spec w - 2 ^ (spec.mant_size + spec.exp_size)
      else flip_sign spec w + 2 ^ (spec.mant_size + spec.exp_size) := rfl
  have e' : flip_sign spec w =
      if sign_bit spec w = true then w - 2 ^ (spec.mant_size + spec.exp_size)
      else w + 2 ^ (spec.mant_size + spec.exp_size) := rfl
  by_cases hs : sign_bit spec w = true
  · rw [hs] at h2
    have h3 : ¬ sign_bit spec (flip_sign spec w) = true := by simp [h2]
    have h1 := hsb.1 hs
    rw [e, if_neg h3, e', if_pos hs]
    omega
  · have hs' : sign_bit spec w = false := by simpa using hs
    rw [hs'] at h2
    have h3 : sign_bit spec (flip_sign spec w) = true := by simpa using h2
    rw [e, if_pos h3, e', if_neg hs]
    omega

theorem get_float_case_flip_sign (spec : precision_spec) (hv : valid_spec spec) (w : Nat)
    (hw : w < 2 ^ width spec) :
    get_float_case (flip_sign spec w) spec = get_float_case w spec := by
  rw [← float_invert_sign_eq spec hv w hw]
  exact get_float_case_flip w spec (by have := hv.mant_le; have := hv.exp_le; omega)

theorem word_decomp (spec : precision_spec) (w : Nat) (hw : w < 2 ^ width spec) :
    w = b2n (sign_bit spec w) * 2 ^ (spec.mant_size + spec.exp_size)
      + exp_field spec w * 2 ^ spec.mant_size + mant_field spec w := by
  rw [width_eq] at hw
  have h2 : w / 2 ^ (spec.mant_size + spec.exp_size) < 2 := by
    rw [Nat.div_lt_iff_lt_mul (by positivity)]
    rw [pow_succ] at hw
    omega
  have hb : b2n (sign_bit spec w) = w / 2 ^ (spec.mant_size + spec.exp_size) := by
    unfold sign_bit b2n
    generalize w / 2 ^ (spec.mant_size + spec.exp_size) = s at h2
    interval_cases s <;> simp
  rw [hb]
  unfold exp_field mant_field
  have h3 := Nat.div_add_mod w (2 ^ spec.mant_size)
  have h4 := Nat.div_add_mod (w / 2 ^ spec.mant_size) (2 ^ spec.exp_size)
  have h5 : w / 2 ^ spec.mant_size / 2 ^ spec.exp_size = w / 2 ^ (spec.mant_size + spec.exp_size) := by
    rw [Nat.div_div_eq_div_mul, pow_add]
  rw [h5] at h4
  calc w = 2 ^ spec.mant_size * (w / 2 ^ spec.mant_size) + w % 2 ^ spec.mant_size := h3.symm
    _ = 2 ^ spec.mant_size * (2 ^ spec.exp_size * (w / 2 ^ (spec.mant_size + spec.exp_size))
          + w / 2 ^ spec.mant_size % 2 ^ spec.exp_size) + w % 2 ^ spec.mant_size := by rw [h4]
    _ = _ := by rw [pow_add]; ring

theorem inf_word_of_case (spec : precision_spec) (hv : valid_spec spec) (w : Nat)
    (hw : w < 2 ^ width spec) (hc : get_float_case w spec = cases.inf) :
    inf_word spec (sign_bit spec w) = w := by
  have h := (case_inf_iff spec hv w).1 hc
  have hd := word_decomp spec w hw
  rw [h.1, h.2] at hd
  unfold inf_word
  omega

theorem make_nan_case (spec : precision_spec) (hs : spec = f16_spec ∨ spec = f32_spec) :
    get_float_case (make_nan spec) spec = cases.nan := by
  rcases hs with rfl | rfl <;> decide

theorem spec_width_le (spec : precision_spec) (hs : spec = f16_spec ∨ spec = f32_spec) :
    spec.mant_size + spec.exp_size ≤ 32 := by
  rcases hs with rfl | rfl <;> decide

theorem float_multiply_nan (spec : precision_spec) (mode : round) (a b : Nat)
    (h : get_float_case a spec = cases.nan ∨ get_float_case b spec = cases.nan) :
    float_multiply a b mode spec = some (make_nan spec) := by
  unfold float_multiply
  rcases h with h | h <;> simp [h]

theorem float_divide_nan (spec : precision_spec) (mode : round) (a b : Nat)
    (h : get_float_case a spec = cases.nan ∨ get_float_case b spec = cases.nan) :
    float_divide a b mode spec = some (make_nan spec) := by
  unfold float_divide
  rcases h with h | h <;> simp [h]

theorem float_addition_nan (spec : precision_spec) (hs : spec = f16_spec ∨ spec = f32_spec)
    (mode : round) (a b : Nat)
    (h : get_float_case a spec = cases.nan ∨ get_float_case b spec = cases.nan) :
    ∃ r, float_addition a b mode spec = some r ∧ get_float_case r spec = cases.nan := by
  have hn := make_nan_case spec hs
  unfold float_addition
  rcases h with h | h
  · by_cases hb : get_float_case b spec = cases.zero
    · exact ⟨a, by simp [h, hb], h⟩
    · exact ⟨make_nan spec, by simp [h, hb], hn⟩
  · by_cases ha : get_float_case a spec = cases.zero
    · exact ⟨b, by simp [ha], h⟩
    · exact ⟨make_nan spec, by simp [h, ha], hn⟩

theorem float_subtract_nan (spec : precision_spec) (mode : round) (a b : Nat)
    (ha : get_float_case a spec ≠ cases.zero) (hb : get_float_case b spec ≠ cases.zero)
    (h : get_float_case a spec = cases.nan ∨ get_float_case b spec = cases.nan) :
    float_subtract a b mode spec = some (make_nan spec) := by
  unfold float_subtract
  rcases h with h | h <;> simp [h, ha, hb]

theorem float_add_diff_nan (spec : precision_spec) (hs : spec = f16_spec ∨ spec = f32_spec)
    (mode : round) (a b : Nat)
    (h : get_float_case a spec = cases.nan ∨ get_float_case b spec = cases.nan) :
    ∃ r, float_add_diff a b mode spec = some r ∧ get_float_case r spec = cases.nan := by
  have hn := make_nan_case spec hs
  have hw := spec_width_le spec hs
  unfold float_add_diff
  by_cases hsg : ((extract_sign a spec.mant_size spec.exp_size != 0) =
      (extract_sign b spec.mant_size spec.exp_size != 0))
  · simp only [hsg, if_true]
    exact float_addition_nan spec hs mode a b h
  · simp only [hsg, if_false]
    by_cases ha : get_float_case a spec = cases.zero
    · have hb : get_float_case b spec = cases.nan := by
        rcases h with h | h
        · rw [ha] at h; cases h
        · exact h
      exact ⟨b, by simp [ha, hb], hb⟩
    · by_cases hb : get_float_case b spec = cases.zero
      · have ha' : get_float_case a spec = cases.nan := by
          rcases h with h | h
          · exact h
          · rw [hb] at h; cases h
        exact ⟨a, by simp [ha', hb], ha'⟩
      · simp only [ha, hb, false_and, and_false, if_false]
        refine ⟨make_nan spec, ?_, hn⟩
        split
        · apply float_subtract_nan _ _ _ _ ha
          · rw [get_float_case_flip _ _ hw]; exact hb
          · rw [get_float_case_flip _ _ hw]; exact h
        · apply float_subtract_nan _ _ _ _ hb
          · rw [get_float_case_flip _ _ hw]; exact ha
          · rw [get_float_case_flip _ _ hw]; exact h.symm

/-- C4 (NaN absorption): for both formats, every rounding mode and all 32-bit words `a`, `b`,
if one of the operands is classified `nan` then each of `float_multiply`, `float_add_diff`,
`float_sub_diff` and `float_divide` returns a word that `get_float_case` classifies as `nan`. -/
theorem nan_absorption (spec : precision_spec) (hs : spec = f16_spec ∨ spec = f32_spec)
    (mode : round) (a b : Nat) (_ha : a < 2 ^ 32) (_hb : b < 2 ^ 32)
    (h : get_float_case a spec = cases.nan ∨ get_float_case b spec = cases.nan) :
    (∃ r, float_multiply a b mode spec = some r ∧ get_float_case r spec = cases.nan) ∧
    (∃ r, float_add_diff a b mode spec = some r ∧ get_float_case r spec = cases.nan) ∧
    (∃ r, float_sub_diff a b mode spec = some r ∧ get_float_case r spec = cases.nan) ∧
    (∃ r, float_divide a b mode spec = some r ∧ get_float_case r spec = cases.nan) := by
  refine ⟨⟨_, float_multiply_nan spec mode a b h, make_nan_case spec hs⟩,
    float_add_diff_nan spec hs mode a b h, ?_,
    ⟨_, float_divide_nan spec mode a b h, make_nan_case spec hs⟩⟩
  unfold float_sub_diff
  apply float_add_diff_nan spec hs
  rw [get_float_case_flip _ _ (spec_width_le spec hs)]
  exact h

/-- Witness for `nan_absorption`: half precision, a NaN and one. -/
theorem nan_absorption_witness :
    0x7E00 < 2 ^ 32 ∧ 0x3C00 < 2 ^ 32 ∧
    (get_float_case 0x7E00 f16_spec = cases.nan ∨ get_float_case 0x3C00 f16_spec = cases.nan) ∧
    (∃ r, float_multiply 0x7E00 0x3C00 round.ties_to_even f16_spec = some r ∧
      get_float_case r f16_spec = cases.nan) ∧
    (∃ r, float_add_diff 0x7E00 0x3C00 round.ties_to_even f16_spec = some r ∧
      get_float_case r f16_spec = cases.nan) ∧
    (∃ r, float_sub_diff 0x7E00 0x3C00 round.ties_to_even f16_spec = some r ∧
      get_float_case r f16_spec = cases.nan) ∧
    (∃ r, float_divide 0x7E00 0x3C00 round.ties_to_even f16_spec = some r ∧
      get_float_case r f16_spec = cases.nan) :=
  ⟨by decide, by decide, Or.inl (by decide),
    nan_absorption f16_spec (Or.inl rfl) round.ties_to_even 0x7E00 0x3C00 (by decide) (by decide)
      (Or.inl (by decide))⟩

theorem make_inf_eq (spec : precision_spec) (hs : spec = f16_spec ∨ spec = f32_spec) (s : Bool) :
    make_inf spec s = inf_word spec s := by
  rcases hs with rfl | rfl <;> cases s <;> decide

theorem make_max_eq (spec : precision_spec) (hs : spec = f16_spec ∨ spec = f32_spec) (s : Bool) :
    make_max spec s = max_word spec s := by
  rcases hs with rfl | rfl <;> cases s <;> decide

theorem signed_zero_eq (spec : precision_spec) (hs : spec = f16_spec ∨ spec = f32_spec)
    (s : Bool) :
    u32 (b2n s <<< (spec.mant_size + spec.exp_size)) = zero_word spec s := by
  rcases hs with rfl | rfl <;> cases s <;> decide

theorem code_sign_eq (spec : precision_spec) (w : Nat) (hw : w < 2 ^ width spec) :
    (extract_sign w spec.mant_size spec.exp_size != 0) = sign_bit spec w := by
  have h2 : w / 2 ^ (spec.mant_size + spec.exp_size) < 2 := by
    rw [Nat.div_lt_iff_lt_mul (by positivity)]
    have : width spec = spec.mant_size + spec.exp_size + 1 := by unfold width; omega
    rw [this, pow_succ] at hw
    omega
  rw [extract_sign_eq, sign_bit]
  generalize w / 2 ^ (spec.mant_size + spec.exp_size) = s at h2
  interval_cases s <;> simp

/-- C6 (sign of zero on addition): for both formats, `float_add_diff(+0, -0)` and
`float_add_diff(-0, +0)` return the all-zero word under `towards_zero`, `ties_to_even` and
`upward`, and the word with only the sign bit set under `downward`. -/
theorem add_opposite_zeros (mode : round) :
    float_add_diff 0 0x8000 mode f16_spec
      = some (if mode = round.downward then 0x8000 else 0) ∧
    float_add_diff 0x8000 0 mode f16_spec
      = some (if mode = round.downward then 0x8000 else 0) ∧
    float_add_diff 0 0x80000000 mode f32_spec
      = some (if mode = round.downward then 0x80000000 else 0) ∧
    float_add_diff 0x80000000 0 mode f32_spec
      = some (if mode = round.downward then 0x80000000 else 0) := by
  cases mode <;> decide

/-- C7 (multiply special-case table): for both formats, every rounding mode and all operand words
fitting in the format width, neither of them NaN: Infinity times Zero classifies as NaN;
otherwise, if an operand is Infinity the result is the Infinity whose sign is the xor of the
operand signs; otherwise, if an operand is Zero the result is the zero word with that sign. -/
theorem multiply_special_cases (spec : precision_spec)
    (hs : spec = f16_spec ∨ spec = f32_spec) (mode : round) (a b : Nat)
    (ha : a < 2 ^ width spec) (hb : b < 2 ^ width spec)
    (hna : get_float_case a spec ≠ cases.nan) (hnb : get_float_case b spec ≠ cases.nan) :
    (((get_float_case a spec = cases.inf ∧ get_float_case b spec = cases.zero) ∨
        (get_float_case a spec = cases.zero ∧ get_float_case b spec = cases.inf)) →
      ∃ r, float_multiply a b mode spec = some r ∧ get_float_case r spec = cases.nan) ∧
    ((get_float_case a spec = cases.inf ∨ get_float_case b spec = cases.inf) →
      get_float_case a spec ≠ cases.zero → get_float_case b spec ≠ cases.zero →
      float_multiply a b mode spec
        = some (inf_word spec (xor (sign_bit spec a) (sign_bit spec b)))) ∧
    ((get_float_case a spec = cases.zero ∨ get_float_case b spec = cases.zero) →
      get_float_case a spec ≠ cases.inf → get_float_case b spec ≠ cases.inf →
      float_multiply a b mode spec
        = some (zero_word spec (xor (sign_bit spec a) (sign_bit spec b)))) := by
  have hsa := code_sign_eq spec a ha
  have hsb := code_sign_eq spec b hb
  refine ⟨?_, ?_, ?_⟩
  · intro h
    refine ⟨make_nan spec, ?_, make_nan_case spec hs⟩
    unfold float_multiply
    rcases h with ⟨h1, h2⟩ | ⟨h1, h2⟩ <;> simp [h1, h2]
  · intro h hza hzb
    unfold float_multiply
    simp only [hsa, hsb]
    rw [← make_inf_eq spec hs]
    rcases h with h | h <;> simp [h, hna, hnb, hza, hzb]
  · intro h hia hib
    unfold float_multiply
    simp only [hsa, hsb]
    rw [← signed_zero_eq spec hs]
    rcases h with h | h <;> simp [h, hna, hnb, hia, hib]

/-- Witness for `multiply_special_cases`: the three rows of the table at half precision
(infinity times zero, infinity times minus two, zero times minus two). -/
theorem multiply_special_cases_witness :
    (∃ r, float_multiply 0x7C00 0x0000 round.upward f16_spec = some r ∧
      get_float_case r f16_spec = cases.nan) ∧
    float_multiply 0x7C00 0xC000 round.upward f16_spec = some (inf_word f16_spec true) ∧
    float_multiply 0x0000 0xC000 round.upward f16_spec = some (zero_word f16_spec true) :=
  ⟨(multiply_special_cases f16_spec (Or.inl rfl) round.upward 0x7C00 0x0000 (by decide)
      (by decide) (by decide) (by decide)).1 (Or.inl ⟨by decide, by decide⟩),
   (multiply_special_cases f16_spec (Or.inl rfl) round.upward 0x7C00 0xC000 (by decide)
      (by decide) (by decide) (by decide)).2.1 (Or.inl (by decide)) (by decide) (by decide),
   (multiply_special_cases f16_spec (Or.inl rfl) round.upward 0x0000 0xC000 (by decide)
      (by decide) (by decide) (by decide)).2.2 (Or.inl (by decide)) (by decide) (by decide)⟩

theorem norm_sig_mul_bounds (spec : precision_spec) (hv : valid_spec spec) (a b : Nat)
    (ha : finite_nonzero spec a) (hb : finite_nonzero spec b) :
    2 ^ (2 * spec.mant_size) ≤ norm_sig spec a * norm_sig spec b ∧
      norm_sig spec a * norm_sig spec b < 2 ^ (2 * spec.mant_size + 2) := by
  obtain ⟨a1, a2⟩ := norm_sig_bounds spec hv a ha
  obtain ⟨b1, b2⟩ := norm_sig_bounds spec hv b hb
  constructor
  · calc 2 ^ (2 * spec.mant_size) = 2 ^ spec.mant_size * 2 ^ spec.mant_size := by
          rw [← pow_add]; congr 1; omega
      _ ≤ norm_sig spec a * norm_sig spec b := Nat.mul_le_mul a1 b1
  · calc norm_sig spec a * norm_sig spec b
        < 2 ^ (spec.mant_size + 1) * 2 ^ (spec.mant_size + 1) :=
          Nat.mul_lt_mul'' a2 b2
      _ = 2 ^ (2 * spec.mant_size + 2) := by rw [← pow_add]; congr 1; omega

theorem float_exp_overflow_eq (spec : precision_spec) (hs : spec = f16_spec ∨ spec = f32_spec)
    (s : Bool) (mode : round) : float_exp_overflow spec s mode = overflow_table spec s mode := by
  unfold float_exp_overflow overflow_table
  cases mode <;> cases s <;> simp [make_inf_eq spec hs, make_max_eq spec hs]

theorem finite_not_special (spec : precision_spec) (w : Nat) (h : finite_nonzero spec w) :
    get_float_case w spec ≠ cases.nan ∧ get_float_case w spec ≠ cases.inf ∧
      get_float_case w spec ≠ cases.zero := by
  rcases h with h | h <;> rw [h] <;> simp

theorem float_multiply_finite_eq (spec : precision_spec) (hv : valid_spec spec) (mode : round)
    (a b : Nat) (ha : a < 2 ^ width spec) (hb : b < 2 ^ width spec)
    (hfa : finite_nonzero spec a) (hfb : finite_nonzero spec b) :
    float_multiply a b mode spec =
      some (float_multiply_finite (norm_exp spec a) (load_mant spec a) (norm_exp spec b)
        (load_mant spec b) (xor (sign_bit spec a) (sign_bit spec b)) mode spec) := by
  obtain ⟨a1, a2, a3⟩ := finite_not_special spec a hfa
  obtain ⟨b1, b2, b3⟩ := finite_not_special spec b hfb
  unfold float_multiply
  simp only [a1, a2, a3, b1, b2, b3, false_or, or_false, false_and, if_false,
    load_operand_eq spec hv a hfa, load_operand_eq spec hv b hfb, code_sign_eq spec a ha,
    code_sign_eq spec b hb]

/-- C5 (overflow table on multiply): for both formats and finite non-zero operands whose product
has a normalised biased exponent of at least `2^exp_size - 1`, `float_multiply` returns the entry of
the overflow table for the sign `sign(a) xor sign(b)`. -/
theorem multiply_overflow (spec : precision_spec) (hs : spec = f16_spec ∨ spec = f32_spec)
    (mode : round) (a b : Nat) (ha : a < 2 ^ width spec) (hb : b < 2 ^ width spec)
    (hfa : finite_nonzero spec a) (hfb : finite_nonzero spec b)
    (hov : product_exp spec a b ≥ 2 ^ spec.exp_size - 1) :
    float_multiply a b mode spec =
      some (overflow_table spec (xor (sign_bit spec a) (sign_bit spec b)) mode) := by
  have hv := valid_of_format spec hs
  obtain ⟨p1, p2⟩ := norm_sig_mul_bounds spec hv a b hfa hfb
  have hm := hv.mant_le
  have h64 : norm_sig spec a * norm_sig spec b < 2 ^ 64 := by
    have : 2 ^ (2 * spec.mant_size + 2) ≤ 2 ^ 64 := Nat.pow_le_pow_right (by decide) (by omega)
    omega
  have hbit : u64 (1 <<< (spec.mant_size * 2 + 1)) = 2 ^ (2 * spec.mant_size + 1) := by
    rw [Nat.one_shiftLeft, Nat.mul_comm]
    apply u64_of_lt
    exact Nat.pow_lt_pow_right (by decide) (by omega)
  rw [float_multiply_finite_eq spec hv mode a b ha hb hfa hfb, ← float_exp_overflow_eq spec hs]
  congr 1
  unfold float_multiply_finite
  simp only [load_mant_or spec hv a hfa, load_mant_or spec hv b hfb, u64_of_lt _ h64, hbit]
  rw [if_pos]
  unfold product_exp at hov
  have hc : (norm_sig spec a * norm_sig spec b &&& 2 ^ (2 * spec.mant_size + 1) != 0) =
      decide (2 ^ (2 * spec.mant_size + 1) ≤ norm_sig spec a * norm_sig spec b) := by
    rw [Bool.eq_iff_iff]
    simp only [bne_iff_ne, decide_eq_true_eq]
    rw [and_two_pow_ne_zero_iff, top_bit_iff _ _ p2]
  rw [hc]
  rw [Nat.one_shiftLeft]
  by_cases hcar : 2 ^ (2 * spec.mant_size + 1) ≤ norm_sig spec a * norm_sig spec b
  · simp only [hcar, decide_True, if_true] at hov ⊢
    push_cast
    exact hov
  · simp only [hcar, decide_False, if_false] at hov ⊢
    push_cast
    simpa using hov

/-- Witness for `multiply_overflow`: half precision, `upward`, the largest finite value times
minus the largest finite value. -/
theorem multiply_overflow_witness :
    0x7BFF < 2 ^ width f16_spec ∧ 0xFBFF < 2 ^ width f16_spec ∧
    finite_nonzero f16_spec 0x7BFF ∧ finite_nonzero f16_spec 0xFBFF ∧
    product_exp f16_spec 0x7BFF 0xFBFF ≥ 2 ^ f16_spec.exp_size - 1 ∧
    float_multiply 0x7BFF 0xFBFF round.upward f16_spec
      = some (overflow_table f16_spec
          (xor (sign_bit f16_spec 0x7BFF) (sign_bit f16_spec 0xFBFF)) round.upward) :=
  ⟨by decide, by decide, by decide, by decide, by decide,
    multiply_overflow f16_spec (Or.inl rfl) round.upward 0x7BFF 0xFBFF (by decide) (by decide)
      (by decide) (by decide) (by decide)⟩

theorem float_add_diff_unfold (spec : precision_spec) (hv : valid_spec spec) (mode : round)
    (a b : Nat) (ha : a < 2 ^ width spec) (hb : b < 2 ^ width spec) :
    float_add_diff a b mode spec =
      if sign_bit spec a = sign_bit spec b then float_addition a b mode spec
      else if get_float_case a spec = cases.zero ∧ get_float_case b spec = cases.zero then
        some (u32 ((1 <<< (spec.mant_size + spec.exp_size)) *
          b2n (decide (mode = round.downward))))
      else if get_float_case a spec = cases.zero then some b
      else if get_float_case b spec = cases.zero then some a
      else if sign_bit spec b then float_subtract a (flip_sign spec b) mode spec
      else float_subtract b (flip_sign spec a) mode spec := by
  unfold float_add_diff
  simp only [code_sign_eq spec a ha, code_sign_eq spec b hb, float_invert_sign_eq spec hv a ha,
    float_invert_sign_eq spec hv b hb]

theorem float_sub_diff_unfold (spec : precision_spec) (hv : valid_spec spec) (mode : round)
    (a b : Nat) (hb : b < 2 ^ width spec) :
    float_sub_diff a b mode spec = float_add_diff a (flip_sign spec b) mode spec := by
  unfold float_sub_diff
  rw [float_invert_sign_eq spec hv b hb]

theorem make_inf_of_case (spec : precision_spec) (hs : spec = f16_spec ∨ spec = f32_spec)
    (w : Nat) (hw : w < 2 ^ width spec) (hc : get_float_case w spec = cases.inf) :
    make_inf spec (sign_bit spec w) = w := by
  rw [make_inf_eq spec hs, inf_word_of_case spec (valid_of_format spec hs) w hw hc]

theorem float_addition_zero_left (spec : precision_spec) (mode : round) (a b : Nat)
    (hza : get_float_case a spec = cases.zero) : float_addition a b mode spec = some b := by
  unfold float_addition
  simp [hza]

theorem float_addition_zero_right (spec : precision_spec) (mode : round) (a b : Nat)
    (hza : get_float_case a spec ≠ cases.zero) (hzb : get_float_case b spec = cases.zero) :
    float_addition a b mode spec = some a := by
  unfold float_addition
  simp [hza, hzb]

theorem float_addition_inf_left (spec : precision_spec) (hs : spec = f16_spec ∨ spec = f32_spec)
    (mode : round) (a b : Nat) (ha : a < 2 ^ width spec) (hb : b < 2 ^ width spec)
    (hnb : get_float_case b spec ≠ cases.nan) (hzb : get_float_case b spec ≠ cases.zero)
    (hia : get_float_case a spec = cases.inf)
    (hsame : get_float_case b spec = cases.inf → sign_bit spec a = sign_bit spec b) :
    float_addition a b mode spec = some a := by
  unfold float_addition
  simp only [code_sign_eq spec a ha, code_sign_eq spec b hb, hia, reduceCtorEq, if_false,
    false_or, true_and, hzb, hnb]
  have hcond : ¬ (get_float_case b spec = cases.inf ∧ sign_bit spec a ≠ sign_bit spec b) :=
    fun h => h.2 (hsame h.1)
  rw [if_neg hcond, if_pos trivial, make_inf_of_case spec hs a ha hia]

theorem float_addition_inf_right (spec : precision_spec) (hs : spec = f16_spec ∨ spec = f32_spec)
    (mode : round) (a b : Nat) (ha : a < 2 ^ width spec) (hb : b < 2 ^ width spec)
    (hna : get_float_case a spec ≠ cases.nan) (hza : get_float_case a spec ≠ cases.zero)
    (hia : get_float_case a spec ≠ cases.inf) (hib : get_float_case b spec = cases.inf) :
    float_addition a b mode spec = some b := by
  unfold float_addition
  simp only [code_sign_eq spec a ha, code_sign_eq spec b hb, hia, hib, hna, hza, reduceCtorEq,
    if_false, false_or, false_and, if_true, make_inf_of_case spec hs b hb hib]

theorem float_subtract_inf_inf (spec : precision_spec) (mode : round) (a b : Nat)
    (ha : a < 2 ^ width spec) (hb : b < 2 ^ width spec)
    (hia : get_float_case a spec = cases.inf) (hib : get_float_case b spec = cases.inf)
    (hsame : sign_bit spec a = sign_bit spec b) :
    float_subtract a b mode spec = some (make_nan spec) := by
  unfold float_subtract
  simp [code_sign_eq spec a ha, code_sign_eq spec b hb, hia, hib, hsame]

theorem float_subtract_inf_left (spec : precision_spec) (hs : spec = f16_spec ∨ spec = f32_spec)
    (mode : round) (a b : Nat) (ha : a < 2 ^ width spec)
    (hnb : get_float_case b spec ≠ cases.nan) (hzb : get_float_case b spec ≠ cases.zero)
    (hia : get_float_case a spec = cases.inf) (hib : get_float_case b spec ≠ cases.inf) :
    float_subtract a b mode spec = some a := by
  unfold float_subtract
  simp only [code_sign_eq spec a ha, hia, hib, hnb, hzb, reduceCtorEq, if_false,
    false_or, false_and, and_false, if_true, make_inf_of_case spec hs a ha hia]

theorem float_subtract_inf_right (spec : precision_spec) (hs : spec = f16_spec ∨ spec = f32_spec)
    (mode : round) (a b : Nat) (hb : b < 2 ^ width spec)
    (hna : get_float_case a spec ≠ cases.nan) (hza : get_float_case a spec ≠ cases.zero)
    (hia : get_float_case a spec ≠ cases.inf) (hib : get_float_case b spec = cases.inf) :
    float_subtract a b mode spec = some (flip_sign spec b) := by
  have hv := valid_of_format spec hs
  have h1 := make_inf_of_case spec hs (flip_sign spec b) (flip_sign_lt spec b hb)
    (by rw [get_float_case_flip_sign spec hv b hb]; exact hib)
  rw [sign_bit_flip spec b hb] at h1
  unfold float_subtract
  simp only [code_sign_eq spec b hb, hia, hib, hna, hza, reduceCtorEq, if_false,
    false_or, false_and, if_true, h1]

/-- The add half of the special-case table, for words fitting in the format. -/
theorem float_add_diff_special (spec : precision_spec) (hs : spec = f16_spec ∨ spec = f32_spec)
    (mode : round) (a b : Nat) (ha : a < 2 ^ width spec) (hb : b < 2 ^ width spec)
    (hna : get_float_case a spec ≠ cases.nan) (hnb : get_float_case b spec ≠ cases.nan) :
    (get_float_case a spec = cases.inf → get_float_case b spec = cases.inf →
      sign_bit spec a ≠ sign_bit spec b →
      float_add_diff a b mode spec = some (make_nan spec)) ∧
    (get_float_case a spec = cases.inf → get_float_case b spec ≠ cases.inf →
      float_add_diff a b mode spec = some a) ∧
    (get_float_case a spec ≠ cases.inf → get_float_case b spec = cases.inf →
      float_add_diff a b mode spec = some b) ∧
    (get_float_case a spec = cases.zero → get_float_case b spec ≠ cases.zero →
      float_add_diff a b mode spec = some b) ∧
    (get_float_case a spec ≠ cases.zero → get_float_case b spec = cases.zero →
      float_add_diff a b mode spec = some a) := by
  have hv := valid_of_format spec hs
  have hfa := flip_sign_lt spec a ha
  have hfb := flip_sign_lt spec b hb
  have hca := get_float_case_flip_sign spec hv a ha
  have hcb := get_float_case_flip_sign spec hv b hb
  have hsa := sign_bit_flip spec a ha
  have hsb := sign_bit_flip spec b hb
  rw [float_add_diff_unfold spec hv mode a b ha hb]
  refine ⟨?_, ?_, ?_, ?_, ?_⟩
  · intro hia hib hsg
    have hza : get_float_case a spec ≠ cases.zero := by rw [hia]; simp
    have hzb : get_float_case b spec ≠ cases.zero := by rw [hib]; simp
    rw [if_neg hsg, if_neg (fun h => hza h.1), if_neg hza, if_neg hzb]
    split
    · next hbs =>
      apply float_subtract_inf_inf spec mode a _ ha hfb hia (by rw [hcb]; exact hib)
      rw [hsb, hbs]
      cases hsa' : sign_bit spec a
      · rfl
      · exact absurd (hsa'.trans hbs.symm) hsg
    · next hbs =>
      apply float_subtract_inf_inf spec mode b _ hb hfa hib (by rw [hca]; exact hia)
      rw [hsa]
      cases hsa' : sign_bit spec a
      · exfalso; apply hsg; rw [hsa']; simpa using hbs
      · simpa using hbs
  · intro hia hib
    have hza : get_float_case a spec ≠ cases.zero := by rw [hia]; simp
    by_cases hzb : get_float_case b spec = cases.zero
    · by_cases hsg : sign_bit spec a = sign_bit spec b
      · rw [if_pos hsg, float_addition_zero_right spec mode a b hza hzb]
      · rw [if_neg hsg, if_neg (fun h => hza h.1), if_neg hza, if_pos hzb]
    · by_cases hsg : sign_bit spec a = sign_bit spec b
      · rw [if_pos hsg]
        exact float_addition_inf_left spec hs mode a b ha hb hnb hzb hia (fun h => absurd h hib)
      · rw [if_neg hsg, if_neg (fun h => hza h.1), if_neg hza, if_neg hzb]
        split
        · exact float_subtract_inf_left spec hs mode a _ ha (by rw [hcb]; exact hnb)
            (by rw [hcb]; exact hzb) hia (by rw [hcb]; exact hib)
        · have h := float_subtract_inf_right spec hs mode b (flip_sign spec a) hfa hnb hzb hib
            (by rw [hca]; exact hia)
          rw [flip_flip spec a ha] at h
          exact h
  · intro hia hib
    have hzb : get_float_case b spec ≠ cases.zero := by rw [hib]; simp
    by_cases hza : get_float_case a spec = cases.zero
    · by_cases hsg : sign_bit spec a = sign_bit spec b
      · rw [if_pos hsg, float_addition_zero_left spec mode a b hza]
      · rw [if_neg hsg, if_neg (fun h => hzb h.2), if_pos hza]
    · by_cases hsg : sign_bit spec a = sign_bit spec b
      · rw [if_pos hsg]
        exact float_addition_inf_right spec hs mode a b ha hb hna hza hia hib
      · rw [if_neg hsg, if_neg (fun h => hza h.1), if_neg hza, if_neg hzb]
        split
        · have h := float_subtract_inf_right spec hs mode a (flip_sign spec b) hfb hna hza hia
            (by rw [hcb]; exact hib)
          rw [flip_flip spec b hb] at h
          exact h
        · exact float_subtract_inf_left spec hs mode b _ hb (by rw [hca]; exact hna)
            (by rw [hca]; exact hza) hib (by rw [hca]; exact hia)
  · intro hza hzb
    by_cases hsg : sign_bit spec a = sign_bit spec b
    · rw [if_pos hsg, float_addition_zero_left spec mode a b hza]
    · rw [if_neg hsg, if_neg (fun h => hzb h.2), if_pos hza]
  · intro hza hzb
    by_cases hsg : sign_bit spec a = sign_bit spec b
    · rw [if_pos hsg, float_addition_zero_right spec mode a b hza hzb]
    · rw [if_neg hsg, if_neg (fun h => hza h.1), if_neg hza, if_pos hzb]

theorem u64_sub_self (x : Nat) : u64_sub (u64 x) x = 0 := by
  unfold u64_sub u64
  have h := Nat.mod_lt x (by positivity : 0 < 2 ^ 64)
  have : x % 2 ^ 64 + (2 ^ 64 - x % 2 ^ 64) = 2 ^ 64 := by omega
  rw [this]
  exact Nat.mod_self _

theorem float_subtract_self (spec : precision_spec) (hs : spec = f16_spec ∨ spec = f32_spec)
    (mode : round) (y : Nat) (hf : finite_nonzero spec y) :
    float_subtract y y mode spec =
      some (if mode = round.downward then zero_word spec true else 0) := by
  have hv := valid_of_format spec hs
  obtain ⟨a1, a2, a3⟩ := finite_not_special spec y hf
  have hz : u32 (1 <<< (spec.exp_size + spec.mant_size)) = zero_word spec true := by
    rcases hs with rfl | rfl <;> decide
  unfold float_subtract
  simp only [a1, a2, a3, false_or, or_false, false_and, if_false, load_operand_eq spec hv y hf]
  unfold float_subtract_finite subtract_order
  simp only [lt_self_iff_false, decide_False, Bool.and_false, Bool.or_false, Bool.false_eq_true,
    if_false, sub_self]
  have h0 : u16 0 = 0 := by decide
  unfold float_subtract_ordered
  simp only [h0, Nat.zero_le, if_true, Nat.shiftLeft_zero, u64_sub_self, hz]
  split <;> rfl

/-- C10 (exact cancellation): for both formats and every finite non-zero word `x` fitting in the
format width, `float_sub_diff(x, x)` and `float_add_diff(x, -x)` return the all-zero word under
`towards_zero`, `ties_to_even` and `upward`, and the word with only the sign bit set under
`downward`. -/
theorem exact_cancellation (spec : precision_spec) (hs : spec = f16_spec ∨ spec = f32_spec)
    (mode : round) (x : Nat) (hx : x < 2 ^ width spec) (hf : finite_nonzero spec x) :
    float_sub_diff x x mode spec
      = some (if mode = round.downward then zero_word spec true else 0) ∧
    float_add_diff x (flip_sign spec x) mode spec
      = some (if mode = round.downward then zero_word spec true else 0) := by
  have hv := valid_of_format spec hs
  have hfx := flip_sign_lt spec x hx
  have hc := get_float_case_flip_sign spec hv x hx
  have hsx := sign_bit_flip spec x hx
  obtain ⟨a1, a2, a3⟩ := finite_not_special spec x hf
  have hff : finite_nonzero spec (flip_sign spec x) := by
    unfold finite_nonzero; rw [hc]; exact hf
  have key : float_add_diff x (flip_sign spec x) mode spec
      = some (if mode = round.downward then zero_word spec true else 0) := by
    rw [float_add_diff_unfold spec hv mode x _ hx hfx]
    have hsg : ¬ sign_bit spec x = sign_bit spec (flip_sign spec x) := by
      rw [hsx]; cases sign_bit spec x <;> simp
    rw [if_neg hsg, if_neg (fun h => a3 h.1), if_neg a3, if_neg (by rw [hc]; exact a3)]
    split
    · rw [flip_flip spec x hx]
      exact float_subtract_self spec hs mode x hf
    · exact float_subtract_self spec hs mode _ hff
  exact ⟨by rw [float_sub_diff_unfold spec hv mode x x hx]; exact key, key⟩

/-- Witness for `exact_cancellation`: half precision, `ties_to_even`, `0x3C00 - 0x3C00`. -/
theorem exact_cancellation_witness :
    0x3C00 < 2 ^ width f16_spec ∧ finite_nonzero f16_spec 0x3C00 ∧
    float_sub_diff 0x3C00 0x3C00 round.ties_to_even f16_spec = some 0 ∧
    float_add_diff 0x3C00 (flip_sign f16_spec 0x3C00) round.ties_to_even f16_spec = some 0 :=
  ⟨by decide, by decide,
    exact_cancellation f16_spec (Or.inl rfl) round.ties_to_even 0x3C00 (by decide) (by decide)⟩

/-- C8 (divide special-case table): for both formats, every rounding mode and all operand words
fitting in the format width, neither of them NaN: `0/0` and `inf/inf` classify as NaN;
(finite non-zero)/0 and inf/(finite or zero) return the Infinity whose sign is the xor of the
operand signs; 0/(finite non-zero), 0/inf and (finite non-zero)/inf return the zero word with that
sign. -/
theorem divide_special_cases (spec : precision_spec)
    (hs : spec = f16_spec ∨ spec = f32_spec) (mode : round) (a b : Nat)
    (ha : a < 2 ^ width spec) (hb : b < 2 ^ width spec)
    (hna : get_float_case a spec ≠ cases.nan) (hnb : get_float_case b spec ≠ cases.nan) :
    (((get_float_case a spec = cases.zero ∧ get_float_case b spec = cases.zero) ∨
        (get_float_case a spec = cases.inf ∧ get_float_case b spec = cases.inf)) →
      ∃ r, float_divide a b mode spec = some r ∧ get_float_case r spec = cases.nan) ∧
    (((finite_nonzero spec a ∧ get_float_case b spec = cases.zero) ∨
        (get_float_case a spec = cases.inf ∧ get_float_case b spec ≠ cases.inf)) →
      float_divide a b mode spec
        = some (inf_word spec (xor (sign_bit spec a) (sign_bit spec b)))) ∧
    (((get_float_case a spec = cases.zero ∧ finite_nonzero spec b) ∨
        (get_float_case a spec = cases.zero ∧ get_float_case b spec = cases.inf) ∨
        (finite_nonzero spec a ∧ get_float_case b spec = cases.inf)) →
      float_divide a b mode spec
        = some (zero_word spec (xor (sign_bit spec a) (sign_bit spec b)))) := by
  have hsa := code_sign_eq spec a ha
  have hsb := code_sign_eq spec b hb
  have hz : ∀ s, u32 (b2n s <<< (spec.exp_size + spec.mant_size)) = zero_word spec s := by
    intro s
    rcases hs with rfl | rfl <;> cases s <;> decide
  refine ⟨?_, ?_, ?_⟩
  · intro h
    refine ⟨make_nan spec, ?_, make_nan_case spec hs⟩
    unfold float_divide
    rcases h with ⟨h1, h2⟩ | ⟨h1, h2⟩ <;> simp [h1, h2]
  · intro h
    unfold float_divide
    simp only [hsa, hsb]
    rw [← make_inf_eq spec hs]
    rcases h with ⟨h1, h2⟩ | ⟨h1, h2⟩
    · obtain ⟨a1, a2, a3⟩ := finite_not_special spec a h1
      simp [h2, a1, a2, a3]
    · simp [h1, h2, hnb]
  · intro h
    unfold float_divide
    simp only [hsa, hsb]
    rw [← hz]
    rcases h with ⟨h1, h2⟩ | ⟨h1, h2⟩ | ⟨h1, h2⟩
    · obtain ⟨b1, b2, b3⟩ := finite_not_special spec b h2
      simp [h1, b1, b2, b3]
    · simp [h1, h2]
    · obtain ⟨a1, a2, a3⟩ := finite_not_special spec a h1
      simp [h2, a1, a2, a3]

/-- Witness for `divide_special_cases`: the three rows of the table at half precision
(zero by zero, minus one by zero, zero by minus infinity). -/
theorem divide_special_cases_witness :
    (∃ r, float_divide 0 0 round.ties_to_even f16_spec = some r ∧
      get_float_case r f16_spec = cases.nan) ∧
    float_divide 0xBC00 0 round.ties_to_even f16_spec = some (inf_word f16_spec true) ∧
    float_divide 0 0xFC00 round.ties_to_even f16_spec = some (zero_word f16_spec true) :=
  ⟨(divide_special_cases f16_spec (Or.inl rfl) round.ties_to_even 0 0 (by decide) (by decide)
      (by decide) (by decide)).1 (Or.inl ⟨by decide, by decide⟩),
   (divide_special_cases f16_spec (Or.inl rfl) round.ties_to_even 0xBC00 0 (by decide) (by decide)
      (by decide) (by decide)).2.1 (Or.inl ⟨by decide, by decide⟩),
   (divide_special_cases f16_spec (Or.inl rfl) round.ties_to_even 0 0xFC00 (by decide) (by decide)
      (by decide) (by decide)).2.2 (Or.inr (Or.inl ⟨by decide, by decide⟩))⟩

/-- C9 (add/subtract special-case table): for both formats, every rounding mode and all non-NaN
operand words fitting in the format width: adding infinities of opposite sign, or subtracting
infinities of the same sign, classifies as NaN; when exactly one operand is Infinity,
`float_add_diff` returns that operand and `float_sub_diff(a, b)` returns `a` when `a` is the
Infinity and `b` with its sign flipped when `b` is; when exactly one operand is Zero,
`float_add_diff` returns the other operand, `float_sub_diff(a, 0) = a` and `float_sub_diff(0, b)`
is `b` with its sign bit flipped. -/
theorem add_sub_special_cases (spec : precision_spec)
    (hs : spec = f16_spec ∨ spec = f32_spec) (mode : round) (a b : Nat)
    (ha : a < 2 ^ width spec) (hb : b < 2 ^ width spec)
    (hna : get_float_case a spec ≠ cases.nan) (hnb : get_float_case b spec ≠ cases.nan) :
    (get_float_case a spec = cases.inf → get_float_case b spec = cases.inf →
      sign_bit spec a ≠ sign_bit spec b →
      ∃ r, float_add_diff a b mode spec = some r ∧ get_float_case r spec = cases.nan) ∧
    (get_float_case a spec = cases.inf → get_float_case b spec = cases.inf →
      sign_bit spec a = sign_bit spec b →
      ∃ r, float_sub_diff a b mode spec = some r ∧ get_float_case r spec = cases.nan) ∧
    (get_float_case a spec = cases.inf → get_float_case b spec ≠ cases.inf →
      float_add_diff a b mode spec = some a ∧ float_sub_diff a b mode spec = some a) ∧
    (get_float_case a spec ≠ cases.inf → get_float_case b spec = cases.inf →
      float_add_diff a b mode spec = some b ∧
        float_sub_diff a b mode spec = some (flip_sign spec b)) ∧
    (get_float_case a spec = cases.zero → get_float_case b spec ≠ cases.zero →
      float_add_diff a b mode spec = some b ∧
        float_sub_diff a b mode spec = some (flip_sign spec b)) ∧
    (get_float_case a spec ≠ cases.zero → get_float_case b spec = cases.zero →
      float_add_diff a b mode spec = some a ∧ float_sub_diff a b mode spec = some a) := by
  have hv := valid_of_format spec hs
  have hfb := flip_sign_lt spec b hb
  have hcb := get_float_case_flip_sign spec hv b hb
  have hsb := sign_bit_flip spec b hb
  obtain ⟨p1, p2, p3, p4, p5⟩ := float_add_diff_special spec hs mode a b ha hb hna hnb
  obtain ⟨q1, q2, q3, q4, q5⟩ := float_add_diff_special spec hs mode a (flip_sign spec b) ha hfb
    hna (by rw [hcb]; exact hnb)
  rw [hcb] at q1 q2 q3 q4 q5
  rw [float_sub_diff_unfold spec hv mode a b hb]
  refine ⟨?_, ?_, ?_, ?_, ?_, ?_⟩
  · intro h1 h2 h3
    exact ⟨_, p1 h1 h2 h3, make_nan_case spec hs⟩
  · intro h1 h2 h3
    refine ⟨_, q1 h1 h2 ?_, make_nan_case spec hs⟩
    rw [hsb, h3]
    cases sign_bit spec b <;> simp
  · intro h1 h2
    exact ⟨p2 h1 h2, q2 h1 h2⟩
  · intro h1 h2
    exact ⟨p3 h1 h2, q3 h1 h2⟩
  · intro h1 h2
    exact ⟨p4 h1 h2, q4 h1 h2⟩
  · intro h1 h2
    exact ⟨p5 h1 h2, q5 h1 h2⟩

/-- Witness for `add_sub_special_cases`: the six rows of the table at half precision. -/
theorem add_sub_special_cases_witness :
    (∃ r, float_add_diff 0x7C00 0xFC00 round.upward f16_spec = some r ∧
      get_float_case r f16_spec = cases.nan) ∧
    (∃ r, float_sub_diff 0xFC00 0xFC00 round.upward f16_spec = some r ∧
      get_float_case r f16_spec = cases.nan) ∧
    (float_add_diff 0xFC00 0x3C00 round.upward f16_spec = some 0xFC00 ∧
      float_sub_diff 0xFC00 0x3C00 round.upward f16_spec = some 0xFC00) ∧
    (float_add_diff 0x3C00 0x7C00 round.upward f16_spec = some 0x7C00 ∧
      float_sub_diff 0x3C00 0x7C00 round.upward f16_spec = some (flip_sign f16_spec 0x7C00)) ∧
    (float_add_diff 0x8000 0x0001 round.upward f16_spec = some 0x0001 ∧
      float_sub_diff 0x8000 0x0001 round.upward f16_spec = some (flip_sign f16_spec 0x0001)) ∧
    (float_add_diff 0xC000 0x0000 round.upward f16_spec = some 0xC000 ∧
      float_sub_diff 0xC000 0x0000 round.upward f16_spec = some 0xC000) :=
  ⟨(add_sub_special_cases f16_spec (Or.inl rfl) round.upward 0x7C00 0xFC00 (by decide) (by decide)
      (by decide) (by decide)).1 (by decide) (by decide) (by decide),
   (add_sub_special_cases f16_spec (Or.inl rfl) round.upward 0xFC00 0xFC00 (by decide) (by decide)
      (by decide) (by decide)).2.1 (by decide) (by decide) (by decide),
   (add_sub_special_cases f16_spec (Or.inl rfl) round.upward 0xFC00 0x3C00 (by decide) (by decide)
      (by decide) (by decide)).2.2.1 (by decide) (by decide),
   (add_sub_special_cases f16_spec (Or.inl rfl) round.upward 0x3C00 0x7C00 (by decide) (by decide)
      (by decide) (by decide)).2.2.2.1 (by decide) (by decide),
   (add_sub_special_cases f16_spec (Or.inl rfl) round.upward 0x8000 0x0001 (by decide) (by decide)
      (by decide) (by decide)).2.2.2.2.1 (by decide) (by decide),
   (add_sub_special_cases f16_spec (Or.inl rfl) round.upward 0xC000 0x0000 (by decide) (by decide)
      (by decide) (by decide)).2.2.2.2.2 (by decide) (by decide)⟩

/-! ## The reference rounding in terms of a quotient of natural numbers -/

theorem spec_round_up_eq_bits (mode : round) (sign : Bool) (N D : ℕ) (hD : 0 < D) :
    spec_round_up mode sign (N / D) (((N : ℚ) / D) - ((N / D : ℕ) : ℚ)) =
      bits_round_up mode sign (N / D) (decide (D ≤ 2 * (N % D)))
        (decide (N % D ≠ 0 ∧ 2 * (N % D) ≠ D)) := by
  have hDq : (0 : ℚ) < D := by exact_mod_cast hD
  have hfrac : ((N : ℚ) / D) - ((N / D : ℕ) : ℚ) = ((N % D : ℕ) : ℚ) / D := by
    have h := Nat.div_add_mod N D
    have hq : (N : ℚ) = (D : ℚ) * ((N / D : ℕ) : ℚ) + ((N % D : ℕ) : ℚ) := by exact_mod_cast h.symm
    field_simp
    linarith
  rw [hfrac]
  have h1 : (1 / 2 < ((N % D : ℕ) : ℚ) / D) ↔ D < 2 * (N % D) := by
    rw [div_lt_div_iff₀ (by norm_num) hDq]
    constructor
    · intro h
      have h' : (D : ℚ) < 2 * ((N % D : ℕ) : ℚ) := by linarith
      exact_mod_cast h'
    · intro h
      have h' : (D : ℚ) < 2 * ((N % D : ℕ) : ℚ) := by exact_mod_cast h
      linarith
  have h2 : (((N % D : ℕ) : ℚ) / D = 1 / 2) ↔ 2 * (N % D) = D := by
    rw [div_eq_div_iff (ne_of_gt hDq) (by norm_num)]
    constructor
    · intro h
      have h' : 2 * ((N % D : ℕ) : ℚ) = (D : ℚ) := by linarith
      exact_mod_cast h'
    · intro h
      have h' : 2 * ((N % D : ℕ) : ℚ) = (D : ℚ) := by exact_mod_cast h
      linarith
  have h3 : (0 < ((N % D : ℕ) : ℚ) / D) ↔ N % D ≠ 0 := by
    rw [div_pos_iff_of_pos_right hDq]
    constructor
    · intro h
      have : 0 < N % D := by exact_mod_cast h
      omega
    · intro h
      have : 0 < N % D := by omega
      exact_mod_cast this
  unfold spec_round_up bits_round_up
  cases mode
  · rfl
  · rw [Bool.eq_iff_iff]
    simp only [Bool.or_eq_true, Bool.and_eq_true, decide_eq_true_eq, h1, h2]
    omega
  · cases sign
    · rw [Bool.eq_iff_iff]
      simp only [Bool.not_false, Bool.true_and, Bool.or_eq_true, Bool.and_eq_true,
        decide_eq_true_eq, h3]
      omega
    · rfl
  · cases sign
    · rfl
    · rw [Bool.eq_iff_iff]
      simp only [Bool.true_and, Bool.or_eq_true, Bool.and_eq_true, decide_eq_true_eq, h3]
      omega

theorem quotient_bounds (N D k : ℕ) (hD : 0 < D) :
    (k ≤ N / D → (k : ℚ) ≤ (N : ℚ) / D) ∧ (N / D < k → (N : ℚ) / D < (k : ℚ)) := by
  have hDq : (0 : ℚ) < D := by exact_mod_cast hD
  constructor
  · intro h
    rw [le_div_iff₀ hDq]
    have := (Nat.le_div_iff_mul_le hD).1 h
    exact_mod_cast this
  · intro h
    rw [div_lt_iff₀ hDq]
    have := (Nat.div_lt_iff_lt_mul hD).1 h
    exact_mod_cast this

theorem spec_exponent_eq (spec : precision_spec) (x : ℚ) (N D : ℕ) (E : ℤ) (hD : 0 < D)
    (hN : 0 < N)
    (hx : x = ((N : ℚ) / D) * 2 ^ (E - (spec.bias : ℤ) - spec.mant_size))
    (hE : 1 ≤ E) (hlt : N / D < 2 ^ (spec.mant_size + 1))
    (hnorm : E = 1 ∨ 2 ^ spec.mant_size ≤ N / D) :
    max 1 (Int.log 2 x + spec.bias) = E := by
  have hDq : (0 : ℚ) < D := by exact_mod_cast hD
  have hNq : (0 : ℚ) < N := by exact_mod_cast hN
  have hpow : (0 : ℚ) < 2 ^ (E - (spec.bias : ℤ) - spec.mant_size) := by positivity
  have hxpos : 0 < x := by rw [hx]; positivity
  have hupper : x < ((2 : ℕ) : ℚ) ^ (E - (spec.bias : ℤ) + 1) := by
    have h1 := (quotient_bounds N D (2 ^ (spec.mant_size + 1)) hD).2 hlt
    rw [hx]
    calc ((N : ℚ) / D) * 2 ^ (E - (spec.bias : ℤ) - spec.mant_size)
        < ((2 ^ (spec.mant_size + 1) : ℕ) : ℚ) * 2 ^ (E - (spec.bias : ℤ) - spec.mant_size) :=
          mul_lt_mul_of_pos_right h1 hpow
      _ = ((2 : ℕ) : ℚ) ^ (E - (spec.bias : ℤ) + 1) := by
          push_cast
          rw [← zpow_natCast, ← zpow_add₀ (by norm_num : (2 : ℚ) ≠ 0)]
          congr 1
          push_cast
          ring
  have hlog_lt : Int.log 2 x < E - (spec.bias : ℤ) + 1 :=
    (Int.lt_zpow_iff_log_lt (by decide) hxpos).1 hupper
  by_cases hge : 2 ^ spec.mant_size ≤ N / D
  · have hlower : ((2 : ℕ) : ℚ) ^ (E - (spec.bias : ℤ)) ≤ x := by
      have h1 := (quotient_bounds N D (2 ^ spec.mant_size) hD).1 hge
      rw [hx]
      calc ((2 : ℕ) : ℚ) ^ (E - (spec.bias : ℤ))
          = ((2 ^ spec.mant_size : ℕ) : ℚ) * 2 ^ (E - (spec.bias : ℤ) - spec.mant_size) := by
            push_cast
            rw [← zpow_natCast, ← zpow_add₀ (by norm_num : (2 : ℚ) ≠ 0)]
            congr 1
            ring
        _ ≤ ((N : ℚ) / D) * 2 ^ (E - (spec.bias : ℤ) - spec.mant_size) :=
            mul_le_mul_of_nonneg_right h1 (le_of_lt hpow)
    have hlog_ge : E - (spec.bias : ℤ) ≤ Int.log 2 x :=
      (Int.zpow_le_iff_le_log (by decide) hxpos).1 hlower
    have : Int.log 2 x + spec.bias = E := by omega
    rw [this]
    exact max_eq_right hE
  · have hE1 : E = 1 := by
      rcases hnorm with h | h
      · exact h
      · exact absurd h hge
    have hlt' : N / D < 2 ^ spec.mant_size := Nat.lt_of_not_le hge
    have hupper' : x < ((2 : ℕ) : ℚ) ^ (E - (spec.bias : ℤ)) := by
      have h1 := (quotient_bounds N D (2 ^ spec.mant_size) hD).2 hlt'
      rw [hx]
      calc ((N : ℚ) / D) * 2 ^ (E - (spec.bias : ℤ) - spec.mant_size)
          < ((2 ^ spec.mant_size : ℕ) : ℚ) * 2 ^ (E - (spec.bias : ℤ) - spec.mant_size) :=
            mul_lt_mul_of_pos_right h1 hpow
        _ = ((2 : ℕ) : ℚ) ^ (E - (spec.bias : ℤ)) := by
            push_cast
            rw [← zpow_natCast, ← zpow_add₀ (by norm_num : (2 : ℚ) ≠ 0)]
            congr 1
            ring
    have hlog_lt' : Int.log 2 x < E - (spec.bias : ℤ) :=
      (Int.lt_zpow_iff_log_lt (by decide) hxpos).1 hupper'
    rw [hE1] at hlog_lt' ⊢
    apply max_eq_left
    omega

/-- The reference rounding of a non-zero rational whose magnitude is `(N / D) * 2^(E - bias -
mant_size)`, with `E` and the integer quotient `N / D` normalised (or `E = 1` for the subnormal
range), is `round_pack` on the integer quotient, with the half and sticky bits read off the
remainder. -/
theorem spec_round_of_quotient (spec : precision_spec) (mode : round) (q : ℚ) (N D : ℕ) (E : ℤ)
    (hD : 0 < D) (hN : 0 < N)
    (hq : |q| = ((N : ℚ) / D) * 2 ^ (E - (spec.bias : ℤ) - spec.mant_size))
    (hE : 1 ≤ E) (hlt : N / D < 2 ^ (spec.mant_size + 1))
    (hnorm : E = 1 ∨ 2 ^ spec.mant_size ≤ N / D) :
    spec_round spec mode q =
      round_pack spec mode (decide (q < 0)) E (N / D) (decide (D ≤ 2 * (N % D)))
        (decide (N % D ≠ 0 ∧ 2 * (N % D) ≠ D)) := by
  have hexp := spec_exponent_eq spec |q| N D E hD hN hq hE hlt hnorm
  have hscaled : |q| * 2 ^ ((spec.bias : ℤ) + spec.mant_size - E) = (N : ℚ) / D := by
    rw [hq, mul_assoc, ← zpow_add₀ (by norm_num : (2 : ℚ) ≠ 0)]
    have : E - (spec.bias : ℤ) - spec.mant_size + ((spec.bias : ℤ) + spec.mant_size - E) = 0 := by
      ring
    rw [this, zpow_zero, mul_one]
  unfold spec_round round_pack
  simp only [hexp, hscaled, Nat.floor_div_eq_div, spec_round_up_eq_bits mode _ N D hD]

/-! ## Half and sticky bits of a quotient shifted further right -/

theorem mod_mul_pow (N D s : ℕ) (hD : 0 < D) :
    N / (D * 2 ^ s) = N / D / 2 ^ s ∧
      N % (D * 2 ^ s) = (N / D % 2 ^ s) * D + N % D := by
  have hP : 0 < 2 ^ s := by positivity
  have h1 := Nat.div_add_mod N D
  have h2 := Nat.div_add_mod (N / D) (2 ^ s)
  have h3 := Nat.mod_lt N hD
  have h4 := Nat.mod_lt (N / D) hP
  have hlt : (N / D % 2 ^ s) * D + N % D < D * 2 ^ s := by
    have : (N / D % 2 ^ s + 1) * D ≤ 2 ^ s * D := Nat.mul_le_mul_right D h4
    nlinarith
  have heq : (N / D % 2 ^ s) * D + N % D + D * 2 ^ s * (N / D / 2 ^ s) = N := by
    calc (N / D % 2 ^ s) * D + N % D + D * 2 ^ s * (N / D / 2 ^ s)
        = D * (2 ^ s * (N / D / 2 ^ s) + N / D % 2 ^ s) + N % D := by ring
      _ = D * (N / D) + N % D := by rw [h2]
      _ = N := h1
  have := (Nat.div_mod_unique (Nat.mul_pos hD hP)).2 ⟨heq, hlt⟩
  exact ⟨this.1, this.2⟩

theorem half_sticky_iff (D r : ℕ) (hr : r < D) :
    (D ≤ 2 * r ∨ (r ≠ 0 ∧ 2 * r ≠ D)) ↔ r ≠ 0 := by omega

theorem retruncate (N D s : ℕ) (hD : 0 < D) (hs : 1 ≤ s) :
    N / (D * 2 ^ s) = N / D / 2 ^ s ∧
    (D * 2 ^ s ≤ 2 * (N % (D * 2 ^ s)) ↔ N / D / 2 ^ (s - 1) % 2 = 1) ∧
    ((N % (D * 2 ^ s) ≠ 0 ∧ 2 * (N % (D * 2 ^ s)) ≠ D * 2 ^ s) ↔
      (N / D % 2 ^ (s - 1) ≠ 0 ∨ N % D ≠ 0)) := by
  obtain ⟨h1, h2⟩ := mod_mul_pow N D s hD
  refine ⟨h1, ?_, ?_⟩
  all_goals
    rw [h2]
    obtain ⟨k, rfl⟩ : ∃ k, s = k + 1 := ⟨s - 1, by omega⟩
    simp only [Nat.add_sub_cancel]
    have hP : 0 < 2 ^ k := by positivity
    have e2 : 2 ^ (k + 1) = 2 * 2 ^ k := by rw [pow_succ]; ring
    have h3 := Nat.mod_lt N hD
    generalize N % D = r at h3 ⊢
    generalize N / D = n
    -- split `n % 2^(k+1)` into the bit `k` and the low `k` bits
    have h5 : n % 2 ^ (k + 1) = 2 ^ k * (n / 2 ^ k % 2) + n % 2 ^ k := by
      rw [pow_succ, Nat.mod_mul]
      ring
    have h6 := Nat.mod_lt n hP
    rw [h5, e2]
    generalize n % 2 ^ k = l at h6 ⊢
    rcases Nat.mod_two_eq_zero_or_one (n / 2 ^ k) with hb | hb <;> rw [hb]
    all_goals generalize 2 ^ k = P at hP h6 ⊢
  · simp only [Nat.mul_zero, Nat.zero_add]
    constructor
    · intro h
      exfalso
      have : (l + 1) * D ≤ P * D := Nat.mul_le_mul_right D h6
      nlinarith
    · intro h; omega
  · simp only [Nat.mul_one]
    constructor
    · intro _; trivial
    · intro _
      nlinarith
  · simp only [Nat.mul_zero, Nat.zero_add]
    constructor
    · rintro ⟨h, _⟩
      by_contra hcon
      push_neg at hcon
      rw [hcon.1, hcon.2] at h
      simp at h
    · intro h
      have hle : (l + 1) * D ≤ P * D := Nat.mul_le_mul_right D h6
      constructor
      · rcases h with h | h
        · have : 0 < l * D := Nat.mul_pos (by omega) hD
          omega
        · omega
      · nlinarith
  · simp only [Nat.mul_one]
    constructor
    · rintro ⟨_, h⟩
      by_contra hcon
      push_neg at hcon
      rw [hcon.1, hcon.2] at h
      apply h
      ring
    · intro h
      constructor
      · have : 0 < P * D := Nat.mul_pos hP hD
        nlinarith
      · intro heq
        have h7 : l * D + r = 0 := by nlinarith
        rcases h with h | h
        · have : 0 < l * D := Nat.mul_pos (by omega) hD
          omega
        · omega

/-! ## Rounding engine and packer in arithmetic form -/

theorem float_round_eq (n : ℕ) (sign half sticky : Bool) (mode : round) (hn : n + 1 < 2 ^ 64) :
    float_round n sign half sticky mode = n + b2n (bits_round_up mode sign n half sticky) := by
  have hlast : (n &&& 1 != 0) = decide (n % 2 = 1) := by
    rw [Nat.and_one_is_mod, bne_zero_eq_decide]
    apply decide_eq_decide.2
    omega
  have hb : ∀ c : Bool, u64 (n + b2n c) = n + b2n c := by
    intro c
    apply u64_of_lt
    unfold b2n
    split <;> omega
  unfold float_round bits_round_up
  cases mode
  · simp [b2n]
  · simp only [hlast]; exact hb _
  · exact hb _
  · exact hb _

theorem spec_width_bound (spec : precision_spec) (hv : valid_spec spec) :
    2 ^ (spec.mant_size + spec.exp_size + 1) ≤ 2 ^ 32 :=
  Nat.pow_le_pow_right (by decide) (by have := hv.mant_le; have := hv.exp_le; omega)

theorem pack_float_eq (spec : precision_spec) (hv : valid_spec spec) (sign : Bool) (E r : ℕ)
    (hE : E < 2 ^ spec.exp_size) :
    pack_float spec sign E r =
      b2n sign * 2 ^ (spec.mant_size + spec.exp_size) + E * 2 ^ spec.mant_size
        + r % 2 ^ spec.mant_size := by
  have h32 := spec_width_bound spec hv
  have hr := Nat.mod_lt r (by positivity : 0 < 2 ^ spec.mant_size)
  have hlow : E * 2 ^ spec.mant_size + r % 2 ^ spec.mant_size
      < 2 ^ (spec.mant_size + spec.exp_size) := by
    have : (E + 1) * 2 ^ spec.mant_size ≤ 2 ^ spec.exp_size * 2 ^ spec.mant_size :=
      Nat.mul_le_mul_right _ hE
    rw [pow_add, Nat.mul_comm (2 ^ spec.mant_size)]
    nlinarith
  have hs : b2n sign ≤ 1 := by unfold b2n; split <;> omega
  have e1 : 2 ^ (spec.mant_size + spec.exp_size + 1) = 2 ^ (spec.mant_size + spec.exp_size) * 2 :=
    pow_succ _ _
  unfold pack_float
  rw [Nat.one_shiftLeft, Nat.and_pow_two_sub_one_eq_mod, Nat.shiftLeft_eq, Nat.shiftLeft_eq,
    Nat.or_assoc]
  have h1 : E * 2 ^ spec.mant_size ||| r % 2 ^ spec.mant_size
      = E * 2 ^ spec.mant_size + r % 2 ^ spec.mant_size := by
    rw [Nat.mul_comm]
    exact (Nat.mul_add_lt_is_or hr E).symm
  rw [h1]
  have h2 : b2n sign * 2 ^ (spec.mant_size + spec.exp_size) |||
      (E * 2 ^ spec.mant_size + r % 2 ^ spec.mant_size)
      = b2n sign * 2 ^ (spec.mant_size + spec.exp_size) +
        (E * 2 ^ spec.mant_size + r % 2 ^ spec.mant_size) := by
    rw [Nat.mul_comm]
    exact (Nat.mul_add_lt_is_or hlow (b2n sign)).symm
  rw [h2]
  unfold u32
  rw [Nat.mod_eq_of_lt, Nat.add_assoc]
  have : b2n sign * 2 ^ (spec.mant_size + spec.exp_size) ≤ 2 ^ (spec.mant_size + spec.exp_size) := by
    nlinarith
  omega

/-! ## The three ways a kernel finishes, against `round_pack` -/

theorem b2n_le_one (c : Bool) : b2n c ≤ 1 := by
  unfold b2n; split <;> omega

theorem exp_pow_ge (spec : precision_spec) (hv : valid_spec spec) : 4 ≤ 2 ^ spec.exp_size := by
  calc 4 = 2 ^ 2 := by norm_num
    _ ≤ 2 ^ spec.exp_size := Nat.pow_le_pow_right (by decide) hv.exp_pos

theorem exp_pow_le (spec : precision_spec) (hv : valid_spec spec) : 2 ^ spec.exp_size ≤ 256 := by
  calc 2 ^ spec.exp_size ≤ 2 ^ 8 := Nat.pow_le_pow_right (by decide) hv.exp_le
    _ = 256 := by norm_num

theorem mant_pow_le (spec : precision_spec) (hv : valid_spec spec) :
    2 ^ spec.mant_size ≤ 2 ^ 23 := Nat.pow_le_pow_right (by decide) hv.mant_le

theorem bits_round_up_exact (mode : round) (sign : Bool) (n : ℕ) :
    bits_round_up mode sign n false false = false := by
  cases mode <;> simp [bits_round_up]

/-- Overflow branch: a biased exponent of at least `2^exp_size - 1` with a normalised significand
is resolved by the overflow table. -/
theorem round_pack_overflow (spec : precision_spec) (hv : valid_spec spec) (mode : round)
    (sign : Bool) (E : ℤ) (n : ℕ) (h st : Bool) (hE : (2 ^ spec.exp_size : ℕ) - 1 ≤ E)
    (hn : 2 ^ spec.mant_size ≤ n) :
    round_pack spec mode sign E n h st = overflow_table spec sign mode := by
  have h4 := exp_pow_ge spec hv
  unfold round_pack
  simp only
  rw [if_pos]
  have hE' : 2 ^ spec.exp_size - 2 ≤ (E - 1).toNat := by omega
  have := Nat.mul_le_mul_right (2 ^ spec.mant_size) hE'
  have e : (2 ^ spec.exp_size - 1) * 2 ^ spec.mant_size
      = (2 ^ spec.exp_size - 2) * 2 ^ spec.mant_size + 2 ^ spec.mant_size := by
    have : 2 ^ spec.exp_size - 1 = (2 ^ spec.exp_size - 2) + 1 := by omega
    rw [this]; ring
  omega

/-- Normal branch: packing the rounded significand with the biased exponent; a rounded
significand of `2^(mant_size+1)` does not occur. -/
theorem pack_normal_eq (spec : precision_spec) (hv : valid_spec spec) (mode : round)
    (sign : Bool) (E : ℤ) (n : ℕ) (h st : Bool) (hE1 : 1 ≤ E)
    (hE2 : E ≤ (2 ^ spec.exp_size : ℕ) - 2) (hn : 2 ^ spec.mant_size ≤ n)
    (hup : n + b2n (bits_round_up mode sign n h st) < 2 ^ (spec.mant_size + 1)) :
    pack_float spec sign (u8 E) (u32 (float_round n sign h st mode)) =
      round_pack spec mode sign E n h st := by
  have h4 := exp_pow_ge spec hv
  have h256 := exp_pow_le spec hv
  have hm := mant_pow_le spec hv
  have e1 : 2 ^ (spec.mant_size + 1) = 2 ^ spec.mant_size * 2 := pow_succ _ _
  have hb := b2n_le_one (bits_round_up mode sign n h st)
  have hu8 : u8 E = E.toNat := by unfold u8; omega
  rw [float_round_eq n sign h st mode (by omega), hu8,
    pack_float_eq spec hv sign _ _ (by omega)]
  have hu32 : u32 (n + b2n (bits_round_up mode sign n h st))
      = n + b2n (bits_round_up mode sign n h st) := by
    unfold u32; apply Nat.mod_eq_of_lt; omega
  rw [hu32]
  unfold round_pack
  simp only
  have hmod : (n + b2n (bits_round_up mode sign n h st)) % 2 ^ spec.mant_size
      = n + b2n (bits_round_up mode sign n h st) - 2 ^ spec.mant_size := by
    rw [Nat.mod_eq_sub_mod (by omega)]
    apply Nat.mod_eq_of_lt
    omega
  have hEe : E.toNat = (E - 1).toNat + 1 := by omega
  have hmul : E.toNat * 2 ^ spec.mant_size
      = (E - 1).toNat * 2 ^ spec.mant_size + 2 ^ spec.mant_size := by
    rw [hEe]; ring
  have hle : ((E - 1).toNat + 2) * 2 ^ spec.mant_size
      ≤ (2 ^ spec.exp_size - 1) * 2 ^ spec.mant_size :=
    Nat.mul_le_mul_right _ (by omega)
  rw [if_neg (by nlinarith), hmod, hmul]
  omega

/-- Subnormal branch: a significand below `2^mant_size` is rounded and packed with exponent field
zero, or one when rounding carries into the implicit bit. -/
theorem pack_subnormal_eq (spec : precision_spec) (hv : valid_spec spec) (mode : round)
    (sign : Bool) (n : ℕ) (h st : Bool) (hn : n < 2 ^ spec.mant_size) :
    pack_float spec sign
        (u8 ((0 : ℤ) +
          ((b2n (u32 (float_round n sign h st mode) &&& 1 <<< spec.mant_size != 0) : ℕ) : ℤ)))
        (u32 (float_round n sign h st mode)) =
      round_pack spec mode sign 1 n h st := by
  have h4 := exp_pow_ge spec hv
  have hm := mant_pow_le spec hv
  have hb := b2n_le_one (bits_round_up mode sign n h st)
  rw [float_round_eq n sign h st mode (by omega)]
  have hu32 : u32 (n + b2n (bits_round_up mode sign n h st))
      = n + b2n (bits_round_up mode sign n h st) := by
    unfold u32; apply Nat.mod_eq_of_lt; omega
  rw [hu32, test_bit_eq_decide]
  unfold round_pack
  simp only [sub_self, Int.toNat_zero, Nat.zero_mul, Nat.zero_add]
  obtain ⟨r, hr⟩ : ∃ r, r = n + b2n (bits_round_up mode sign n h st) := ⟨_, rfl⟩
  rw [← hr]
  have hr' : r ≤ 2 ^ spec.mant_size := by omega
  have hle : 2 * 2 ^ spec.mant_size ≤ (2 ^ spec.exp_size - 1) * 2 ^ spec.mant_size :=
    Nat.mul_le_mul_right _ (by omega)
  rw [if_neg (by omega)]
  by_cases hc : r = 2 ^ spec.mant_size
  · have hd : r / 2 ^ spec.mant_size % 2 = 1 := by
      rw [hc, Nat.div_self (by positivity)]
    have hu8 : u8 ((0 : ℤ) + ((b2n (decide (r / 2 ^ spec.mant_size % 2 = 1)) : ℕ) : ℤ)) = 1 := by
      rw [decide_eq_true hd]; rfl
    rw [hu8, pack_float_eq spec hv sign _ _ (by omega), hc, Nat.mod_self]
    omega
  · have hlt : r < 2 ^ spec.mant_size := by omega
    have hd : ¬ r / 2 ^ spec.mant_size % 2 = 1 := by
      rw [Nat.div_eq_of_lt hlt]; simp
    have hu8 : u8 ((0 : ℤ) + ((b2n (decide (r / 2 ^ spec.mant_size % 2 = 1)) : ℕ) : ℤ)) = 0 := by
      rw [decide_eq_false hd]; rfl
    rw [hu8, pack_float_eq spec hv sign _ _ (by omega), Nat.mod_eq_of_lt hlt]
    omega

/-! ## The exact value of a finite non-zero word -/

theorem value_eq (spec : precision_spec) (hv : valid_spec spec) (w : ℕ)
    (hf : finite_nonzero spec w) :
    value spec w = (if sign_bit spec w then -1 else 1) *
      ((norm_sig spec w : ℚ) *
        2 ^ (norm_exp spec w - (spec.bias : ℤ) - spec.mant_size)) := by
  have key : (if exp_field spec w = 0 then
        (mant_field spec w : ℚ) * 2 ^ (1 - (spec.bias : ℤ) - spec.mant_size)
      else ((2 ^ spec.mant_size + mant_field spec w : ℕ) : ℚ) *
        2 ^ ((exp_field spec w : ℤ) - spec.bias - spec.mant_size)) =
      (norm_sig spec w : ℚ) * 2 ^ (norm_exp spec w - (spec.bias : ℤ) - spec.mant_size) := by
    unfold norm_sig norm_exp
    rcases hf with hn | hsub
    · have h := (case_normal_iff spec hv w).1 hn
      rw [if_neg h.1, if_neg h.1, if_neg h.1]
    · have h := (case_subnormal_iff spec hv w).1 hsub
      rw [if_pos h.1, if_pos h.1, if_pos h.1]
      push_cast
      rw [mul_assoc, ← zpow_natCast, ← zpow_add₀ (by norm_num : (2 : ℚ) ≠ 0)]
      congr 2
      ring
  unfold value
  simp only [key]
  split <;> ring

theorem norm_sig_pos (spec : precision_spec) (hv : valid_spec spec) (w : ℕ)
    (hf : finite_nonzero spec w) : (0 : ℚ) < norm_sig spec w := by
  have h := (norm_sig_bounds spec hv w hf).1
  have : 0 < 2 ^ spec.mant_size := by positivity
  exact_mod_cast (by omega : 0 < norm_sig spec w)

theorem value_div (spec : precision_spec) (hv : valid_spec spec) (a b : ℕ)
    (hfa : finite_nonzero spec a) (hfb : finite_nonzero spec b) :
    |value spec a / value spec b| =
      ((norm_sig spec a : ℚ) / norm_sig spec b) * 2 ^ (norm_exp spec a - norm_exp spec b) ∧
    decide (value spec a / value spec b < 0) = xor (sign_bit spec a) (sign_bit spec b) := by
  have ha := norm_sig_pos spec hv a hfa
  have hb := norm_sig_pos spec hv b hfb
  have hquot : ((norm_sig spec a : ℚ) *
        2 ^ (norm_exp spec a - (spec.bias : ℤ) - spec.mant_size)) /
      ((norm_sig spec b : ℚ) * 2 ^ (norm_exp spec b - (spec.bias : ℤ) - spec.mant_size)) =
      ((norm_sig spec a : ℚ) / norm_sig spec b) *
        2 ^ (norm_exp spec a - norm_exp spec b) := by
    rw [mul_div_mul_comm, ← zpow_sub₀ (by norm_num : (2 : ℚ) ≠ 0)]
    congr 2
    ring
  have hpos : (0 : ℚ) < ((norm_sig spec a : ℚ) / norm_sig spec b) *
      2 ^ (norm_exp spec a - norm_exp spec b) := by positivity
  rw [value_eq spec hv a hfa, value_eq spec hv b hfb]
  generalize ((norm_sig spec a : ℚ) / norm_sig spec b) *
      2 ^ (norm_exp spec a - norm_exp spec b) = q0 at hquot hpos
  generalize (norm_sig spec a : ℚ) *
      2 ^ (norm_exp spec a - (spec.bias : ℤ) - spec.mant_size) = A at hquot
  generalize (norm_sig spec b : ℚ) *
      2 ^ (norm_exp spec b - (spec.bias : ℤ) - spec.mant_size) = B at hquot
  have hneg : -q0 < 0 := by linarith
  have hnn : ¬ q0 < 0 := by linarith
  cases sign_bit spec a <;> cases sign_bit spec b
  · have e : (1 : ℚ) * A / (1 * B) = q0 := by rw [one_mul, one_mul, hquot]
    simp only [Bool.false_eq_true, if_false, e, abs_of_pos hpos, decide_eq_false hnn,
      Bool.xor_false, and_self]
  · have e : (1 : ℚ) * A / (-1 * B) = -q0 := by rw [one_mul, neg_one_mul, div_neg, hquot]
    simp only [Bool.false_eq_true, if_false, if_true, e, abs_neg, abs_of_pos hpos,
      decide_eq_true hneg, Bool.false_xor, and_self]
  · have e : (-1 : ℚ) * A / (1 * B) = -q0 := by rw [one_mul, neg_one_mul, neg_div, hquot]
    simp only [Bool.false_eq_true, if_false, if_true, e, abs_neg, abs_of_pos hpos,
      decide_eq_true hneg, Bool.xor_false, and_self]
  · have e : (-1 : ℚ) * A / (-1 * B) = q0 := by
      rw [neg_one_mul, neg_one_mul, neg_div_neg_eq, hquot]
    simp only [if_true, e, abs_of_pos hpos, decide_eq_false hnn, Bool.xor_self, and_self]

/-! ## How the add and subtract kernels finish, against `round_pack` -/

theorem round_pack_congr (spec : precision_spec) (mode : round) (sign : Bool) (E : ℤ) (n : ℕ)
    (h st h' st' : Bool)
    (hup : bits_round_up mode sign n h st = bits_round_up mode sign n h' st') :
    round_pack spec mode sign E n h st = round_pack spec mode sign E n h' st' := by
  unfold round_pack
  rw [hup]

theorem float_round_congr (mode : round) (sign : Bool) (n : ℕ) (h st h' st' : Bool)
    (hn : n + 1 < 2 ^ 64)
    (hup : bits_round_up mode sign n h st = bits_round_up mode sign n h' st') :
    float_round n sign h st mode = float_round n sign h' st' mode := by
  rw [float_round_eq n sign h st mode hn, float_round_eq n sign h' st' mode hn, hup]

theorem overflow_table_of_round_up (spec : precision_spec) (mode : round) (sign : Bool) (n : ℕ)
    (h st : Bool) (hup : bits_round_up mode sign n h st = true) :
    overflow_table spec sign mode = inf_word spec sign := by
  unfold bits_round_up at hup
  unfold overflow_table
  cases mode
  · simp at hup
  · rfl
  · cases sign
    · rfl
    · simp at hup
  · cases sign
    · simp at hup
    · rfl

/-- The rounded significand: at most `2^(mant_size+1)`, and the carry test of the kernels. -/
theorem rounded_cases (spec : precision_spec) (hv : valid_spec spec) (mode : round)
    (sign : Bool) (n : ℕ) (h st : Bool) (hn1 : 2 ^ spec.mant_size ≤ n)
    (hn2 : n < 2 ^ (spec.mant_size + 1)) :
    float_round n sign h st mode = n + b2n (bits_round_up mode sign n h st) ∧
    ((n + b2n (bits_round_up mode sign n h st) < 2 ^ (spec.mant_size + 1) ∧
        (n + b2n (bits_round_up mode sign n h st)) / 2 ^ spec.mant_size % 2 = 1 ∧
        (n + b2n (bits_round_up mode sign n h st)) / 2 ^ (spec.mant_size + 1) % 2 = 0) ∨
      (n + b2n (bits_round_up mode sign n h st) = 2 ^ (spec.mant_size + 1) ∧
        bits_round_up mode sign n h st = true ∧
        (n + b2n (bits_round_up mode sign n h st)) / 2 ^ spec.mant_size % 2 = 0 ∧
        (n + b2n (bits_round_up mode sign n h st)) / 2 ^ (spec.mant_size + 1) % 2 = 1)) := by
  have hm := mant_pow_le spec hv
  have e1 : 2 ^ (spec.mant_size + 1) = 2 ^ spec.mant_size * 2 := pow_succ _ _
  have hP : 0 < 2 ^ spec.mant_size := by positivity
  refine ⟨float_round_eq n sign h st mode (by omega), ?_⟩
  cases hb : bits_round_up mode sign n h st
  · left
    have hb0 : b2n false = 0 := rfl
    rw [hb0, Nat.add_zero]
    refine ⟨hn2, (top_bit_iff n _ hn2).2 hn1, ?_⟩
    rw [Nat.div_eq_of_lt hn2]
  · have hb1 : b2n true = 1 := rfl
    rw [hb1]
    by_cases hc : n + 1 = 2 ^ (spec.mant_size + 1)
    · right
      refine ⟨hc, rfl, ?_, ?_⟩
      · rw [hc, e1, Nat.mul_div_cancel_left _ hP]
      · rw [hc, Nat.div_self (by positivity)]
    · left
      have hlt : n + 1 < 2 ^ (spec.mant_size + 1) := by omega
      refine ⟨hlt, (top_bit_iff (n + 1) _ hlt).2 (by omega), ?_⟩
      rw [Nat.div_eq_of_lt hlt]

/-- Packing a carry out of the rounded significand: exponent `E + 1`, mantissa field zero. -/
theorem pack_carry_eq (spec : precision_spec) (hv : valid_spec spec) (mode : round)
    (sign : Bool) (E : ℤ) (n : ℕ) (h st : Bool) (r : ℕ) (hE1 : 1 ≤ E)
    (hE2 : E + 1 ≤ (2 ^ spec.exp_size : ℕ) - 1)
    (hr : r % 2 ^ spec.mant_size = 0)
    (hc : n + b2n (bits_round_up mode sign n h st) = 2 ^ (spec.mant_size + 1))
    (hup : bits_round_up mode sign n h st = true) :
    pack_float spec sign (u8 (E + 1)) r = round_pack spec mode sign E n h st := by
  have h4 := exp_pow_ge spec hv
  have h256 := exp_pow_le spec hv
  have e1 : 2 ^ (spec.mant_size + 1) = 2 ^ spec.mant_size * 2 := pow_succ _ _
  have hu8 : u8 (E + 1) = (E - 1).toNat + 2 := by unfold u8; omega
  rw [hu8, pack_float_eq spec hv sign _ _ (by omega), hr]
  unfold round_pack
  simp only
  rw [Nat.add_assoc ((E - 1).toNat * 2 ^ spec.mant_size), hc]
  have hw : (E - 1).toNat * 2 ^ spec.mant_size + 2 ^ (spec.mant_size + 1)
      = ((E - 1).toNat + 2) * 2 ^ spec.mant_size := by rw [e1]; ring
  rw [hw]
  by_cases hinf : (E - 1).toNat + 2 = 2 ^ spec.exp_size - 1
  · rw [hinf, if_pos (le_refl _), overflow_table_of_round_up spec mode sign n h st hup]
    unfold inf_word
    omega
  · have hlt : (E - 1).toNat + 2 + 1 ≤ 2 ^ spec.exp_size - 1 := by omega
    have := Nat.mul_le_mul_right (2 ^ spec.mant_size) hlt
    have hP : 0 < 2 ^ spec.mant_size := by positivity
    rw [if_neg (by nlinarith)]
    omega

/-- Packing an exact subnormal result: the significand shifted right, exponent field zero. -/
theorem pack_exact_subnormal_eq (spec : precision_spec) (hv : valid_spec spec) (mode : round)
    (sign : Bool) (k : ℕ) (hk : k < 2 ^ spec.mant_size) :
    pack_float spec sign (u8 0) (u32 k) = round_pack spec mode sign 1 k false false := by
  have h4 := exp_pow_ge spec hv
  have hm := mant_pow_le spec hv
  have hu8 : u8 0 = 0 := by decide
  have hu32 : u32 k = k := by unfold u32; apply Nat.mod_eq_of_lt; omega
  rw [hu8, hu32, pack_float_eq spec hv sign _ _ (by omega), Nat.mod_eq_of_lt hk]
  unfold round_pack
  have hb0 : b2n false = 0 := rfl
  simp only [sub_self, Int.toNat_zero, Nat.zero_mul, Nat.zero_add, bits_round_up_exact, hb0,
    Nat.add_zero]
  have hle : 2 * 2 ^ spec.mant_size ≤ (2 ^ spec.exp_size - 1) * 2 ^ spec.mant_size :=
    Nat.mul_le_mul_right _ (by omega)
  rw [if_neg (by omega)]

theorem addition_finish_normal (spec : precision_spec)
    (hs : spec = f16_spec ∨ spec = f32_spec) (mode : round) (sign : Bool) (E : ℤ) (n : ℕ)
    (h st : Bool) (hE1 : 1 ≤ E) (hE2 : E ≤ (2 ^ spec.exp_size : ℕ) - 1)
    (hn1 : 2 ^ spec.mant_size ≤ n) (hn2 : n < 2 ^ (spec.mant_size + 1)) :
    addition_finish E n h st sign mode spec = round_pack spec mode sign E n h st := by
  have hv := valid_of_format spec hs
  have h4 := exp_pow_ge spec hv
  have h256 := exp_pow_le spec hv
  have hm := mant_pow_le spec hv
  have e1 : 2 ^ (spec.mant_size + 1) = 2 ^ spec.mant_size * 2 := pow_succ _ _
  have hP : 0 < 2 ^ spec.mant_size := by positivity
  obtain ⟨hr, hcases⟩ := rounded_cases spec hv mode sign n h st hn1 hn2
  unfold addition_finish
  simp only [hr, test_bit_eq_decide, Nat.one_shiftLeft spec.exp_size]
  rcases hcases with ⟨c1, c2, c3⟩ | ⟨c1, c2, c3, c4⟩
  · have hd : decide ((n + b2n (bits_round_up mode sign n h st)) /
        2 ^ (spec.mant_size + 1) % 2 = 1) = false := by
      rw [decide_eq_false_iff_not, c3]; decide
    have hb0 : b2n false = 0 := rfl
    have hE0 : ¬ E ≤ 0 := by omega
    simp only [hd, hb0, Nat.shiftRight_zero, Nat.cast_zero, add_zero, if_neg hE0]
    by_cases hov : ((2 ^ spec.exp_size : ℕ) : ℤ) - 1 ≤ E
    · rw [if_pos hov, float_exp_overflow_eq spec hs,
        round_pack_overflow spec hv mode sign E n h st hov hn1]
    · rw [if_neg hov, ← hr]
      exact pack_normal_eq spec hv mode sign E n h st hE1 (by omega) hn1 c1
  · have hd : decide ((n + b2n (bits_round_up mode sign n h st)) /
        2 ^ (spec.mant_size + 1) % 2 = 1) = true := by
      rw [decide_eq_true_iff, c4]
    have hb1 : b2n true = 1 := rfl
    have hE0 : ¬ E + 1 ≤ 0 := by omega
    simp only [hd, hb1, Nat.cast_one, if_neg hE0]
    by_cases hov : ((2 ^ spec.exp_size : ℕ) : ℤ) - 1 ≤ E + 1
    · rw [if_pos hov, float_exp_overflow_eq spec hs]
      unfold round_pack
      simp only
      rw [Nat.add_assoc ((E - 1).toNat * 2 ^ spec.mant_size), c1, if_pos]
      have hE' : 2 ^ spec.exp_size - 3 ≤ (E - 1).toNat := by omega
      have := Nat.mul_le_mul_right (2 ^ spec.mant_size) hE'
      have e : (2 ^ spec.exp_size - 1) * 2 ^ spec.mant_size
          = (2 ^ spec.exp_size - 3) * 2 ^ spec.mant_size + 2 ^ spec.mant_size * 2 := by
        have : 2 ^ spec.exp_size - 1 = (2 ^ spec.exp_size - 3) + 2 := by omega
        rw [this]; ring
      omega
    · rw [if_neg hov]
      apply pack_carry_eq spec hv mode sign E n h st _ hE1 (by omega) _ c1 c2
      have hsh : (n + b2n (bits_round_up mode sign n h st)) >>> 1 = 2 ^ spec.mant_size := by
        rw [c1, Nat.shiftRight_eq_div_pow, pow_one, e1, Nat.mul_div_cancel _ (by norm_num)]
      rw [hsh]
      have hu32 : u32 (2 ^ spec.mant_size) = 2 ^ spec.mant_size := by
        unfold u32; apply Nat.mod_eq_of_lt; omega
      rw [hu32, Nat.mod_self]

theorem addition_finish_subnormal (spec : precision_spec) (hv : valid_spec spec)
    (mode : round) (sign : Bool) (E : ℤ) (n : ℕ) (hE : E ≤ 0)
    (hn1 : 2 ^ spec.mant_size ≤ n) (hn2 : n < 2 ^ (spec.mant_size + 1)) :
    addition_finish E n false false sign mode spec =
      round_pack spec mode sign 1 (n / 2 ^ (1 - E).toNat) false false := by
  have h4 := exp_pow_ge spec hv
  have hm := mant_pow_le spec hv
  have e1 : 2 ^ (spec.mant_size + 1) = 2 ^ spec.mant_size * 2 := pow_succ _ _
  have hP : 0 < 2 ^ spec.mant_size := by positivity
  have hr : float_round n sign false false mode = n := by
    rw [float_round_eq n sign false false mode (by omega), bits_round_up_exact]
    rfl
  have hd : decide (n / 2 ^ (spec.mant_size + 1) % 2 = 1) = false := by
    rw [decide_eq_false_iff_not, Nat.div_eq_of_lt hn2]; decide
  have hb0 : b2n false = 0 := rfl
  have hs1 : 1 ≤ (1 - E).toNat := by omega
  have hlt : n / 2 ^ (1 - E).toNat < 2 ^ spec.mant_size := by
    apply Nat.div_lt_of_lt_mul
    calc n < 2 ^ (spec.mant_size + 1) := hn2
      _ = 2 ^ 1 * 2 ^ spec.mant_size := by rw [← pow_add]; congr 1; omega
      _ ≤ 2 ^ (1 - E).toNat * 2 ^ spec.mant_size :=
        Nat.mul_le_mul_right _ (Nat.pow_le_pow_right (by decide) hs1)
  unfold addition_finish
  simp only [hr, test_bit_eq_decide, hd, hb0, Nat.shiftRight_zero, Nat.cast_zero, add_zero,
    Nat.one_shiftLeft spec.exp_size, if_pos hE]
  rw [if_neg (by omega)]
  have hshift : (if -E + 1 ≤ (spec.mant_size : ℤ) then n >>> (-E + 1).toNat else 0)
      = n / 2 ^ (1 - E).toNat := by
    have e : (-E + 1).toNat = (1 - E).toNat := by omega
    rw [e, Nat.shiftRight_eq_div_pow]
    split
    · rfl
    · next hgt =>
      symm
      apply Nat.div_eq_of_lt
      calc n < 2 ^ (spec.mant_size + 1) := hn2
        _ ≤ 2 ^ (1 - E).toNat := Nat.pow_le_pow_right (by decide) (by omega)
  rw [hshift]
  exact pack_exact_subnormal_eq spec hv mode sign _ hlt

theorem float_subtract_finish_normal (spec : precision_spec) (hv : valid_spec spec)
    (mode : round) (sign : Bool) (E : ℤ) (n : ℕ)
    (h st : Bool) (hE1 : 1 ≤ E) (hE2 : E ≤ (2 ^ spec.exp_size : ℕ) - 2)
    (hn1 : 2 ^ spec.mant_size ≤ n) (hn2 : n < 2 ^ (spec.mant_size + 1)) :
    float_subtract_finish E n sign h st mode spec = round_pack spec mode sign E n h st := by
  have h4 := exp_pow_ge spec hv
  have h256 := exp_pow_le spec hv
  have hm := mant_pow_le spec hv
  have e1 : 2 ^ (spec.mant_size + 1) = 2 ^ spec.mant_size * 2 := pow_succ _ _
  have hP : 0 < 2 ^ spec.mant_size := by positivity
  obtain ⟨hr, hcases⟩ := rounded_cases spec hv mode sign n h st hn1 hn2
  have hbeq : ∀ x : ℕ, (x &&& 1 <<< spec.mant_size == 0) =
      !decide (x / 2 ^ spec.mant_size % 2 = 1) := by
    intro x
    rw [← test_bit_eq_decide]
    cases hx : (x &&& 1 <<< spec.mant_size == 0) <;> simp_all [bne]
  unfold float_subtract_finish
  simp only [hr, hbeq]
  rcases hcases with ⟨c1, c2, c3⟩ | ⟨c1, c2, c3, c4⟩
  · have hd : decide ((n + b2n (bits_round_up mode sign n h st)) /
        2 ^ spec.mant_size % 2 = 1) = true := by
      rw [decide_eq_true_iff, c2]
    have hb0 : b2n false = 0 := rfl
    have hE0 : ¬ E ≤ 0 := by omega
    simp only [hd, Bool.not_true, hb0, Nat.cast_zero, add_zero, if_neg hE0]
    rw [← hr]
    exact pack_normal_eq spec hv mode sign E n h st hE1 hE2 hn1 c1
  · have hd : decide ((n + b2n (bits_round_up mode sign n h st)) /
        2 ^ spec.mant_size % 2 = 1) = false := by
      rw [decide_eq_false_iff_not, c3]; decide
    have hb1 : b2n true = 1 := rfl
    have hE0 : ¬ E + 1 ≤ 0 := by omega
    simp only [hd, Bool.not_false, hb1, Nat.cast_one, if_neg hE0]
    apply pack_carry_eq spec hv mode sign E n h st _ hE1 (by omega) _ c1 c2
    rw [c1]
    have hu32 : u32 (2 ^ (spec.mant_size + 1)) = 2 ^ (spec.mant_size + 1) := by
      unfold u32; apply Nat.mod_eq_of_lt; omega
    rw [hu32, e1, Nat.mul_mod_right]

theorem float_subtract_finish_subnormal (spec : precision_spec) (hv : valid_spec spec)
    (mode : round) (sign : Bool) (E : ℤ) (n : ℕ) (hE : E ≤ 0)
    (hn1 : 2 ^ spec.mant_size ≤ n) (hn2 : n < 2 ^ (spec.mant_size + 1)) :
    float_subtract_finish E n sign false false mode spec =
      round_pack spec mode sign 1 (n / 2 ^ (1 - E).toNat) false false := by
  have h4 := exp_pow_ge spec hv
  have hm := mant_pow_le spec hv
  have e1 : 2 ^ (spec.mant_size + 1) = 2 ^ spec.mant_size * 2 := pow_succ _ _
  have hP : 0 < 2 ^ spec.mant_size := by positivity
  have hr : float_round n sign false false mode = n := by
    rw [float_round_eq n sign false false mode (by omega), bits_round_up_exact]
    rfl
  have hbeq : (n &&& 1 <<< spec.mant_size == 0) = false := by
    have h1 : (n &&& 1 <<< spec.mant_size != 0) = true := by
      rw [test_bit_eq_decide, decide_eq_true_iff]
      exact (top_bit_iff n _ hn2).2 hn1
    cases hx : (n &&& 1 <<< spec.mant_size == 0) <;> simp_all [bne]
  have hb0 : b2n false = 0 := rfl
  have hs1 : 1 ≤ (1 - E).toNat := by omega
  have hlt : n / 2 ^ (1 - E).toNat < 2 ^ spec.mant_size := by
    apply Nat.div_lt_of_lt_mul
    calc n < 2 ^ (spec.mant_size + 1) := hn2
      _ = 2 ^ 1 * 2 ^ spec.mant_size := by rw [← pow_add]; congr 1; omega
      _ ≤ 2 ^ (1 - E).toNat * 2 ^ spec.mant_size :=
        Nat.mul_le_mul_right _ (Nat.pow_le_pow_right (by decide) hs1)
  unfold float_subtract_finish
  simp only [hr, hbeq, hb0, Nat.cast_zero, add_zero, if_pos hE]
  have hshift : (if -E + 1 ≤ (spec.mant_size : ℤ) then n >>> (-E + 1).toNat else 0)
      = n / 2 ^ (1 - E).toNat := by
    have e : (-E + 1).toNat = (1 - E).toNat := by omega
    rw [e, Nat.shiftRight_eq_div_pow]
    split
    · rfl
    · next hgt =>
      symm
      apply Nat.div_eq_of_lt
      calc n < 2 ^ (spec.mant_size + 1) := hn2
        _ ≤ 2 ^ (1 - E).toNat := Nat.pow_le_pow_right (by decide) (by omega)
  rw [hshift]
  exact pack_exact_subnormal_eq spec hv mode sign _ hlt

/-! ## Divide: the kernel computes the correctly rounded quotient -/

theorem exact_quotient_mod8 (sa sb m : ℕ) (hsb1 : 2 ^ m ≤ sb) (hsb2 : sb < 2 ^ (m + 1))
    (hR : sa * 2 ^ (m + 3) % sb = 0) : sa * 2 ^ (m + 3) / sb % 8 = 0 := by
  have hsb0 : sb ≠ 0 := by
    have : 0 < 2 ^ m := by positivity
    omega
  obtain ⟨j, d, hodd, rfl⟩ := Nat.exists_eq_two_pow_mul_odd hsb0
  have hd0 : 0 < d := hodd.pos
  have hj : j ≤ m := by
    by_contra hcon
    have h1 : 2 ^ (m + 1) ≤ 2 ^ j := Nat.pow_le_pow_right (by decide) (by omega)
    have h2 : 2 ^ j ≤ 2 ^ j * d := Nat.le_mul_of_pos_right _ hd0
    omega
  have hdvd : 2 ^ j * d ∣ sa * 2 ^ (m + 3) := Nat.dvd_of_mod_eq_zero hR
  have hd : d ∣ sa := by
    have h1 : d ∣ sa * 2 ^ (m + 3) := Dvd.dvd.trans (Dvd.intro_left _ rfl) hdvd
    have hc : Nat.Coprime d (2 ^ (m + 3)) :=
      Nat.Coprime.pow_right _ (Nat.coprime_two_right.2 hodd)
    exact hc.dvd_of_dvd_mul_right h1
  obtain ⟨c, rfl⟩ := hd
  have e1 : d * c * 2 ^ (m + 3) = 2 ^ j * d * (c * 2 ^ (m - j) * 8) := by
    have : 2 ^ (m + 3) = 2 ^ j * 2 ^ (m - j) * 8 := by
      rw [← pow_add, show (8 : ℕ) = 2 ^ 3 by norm_num, ← pow_add]
      congr 1
      omega
    rw [this]
    ring
  rw [e1, Nat.mul_div_cancel_left _ (Nat.mul_pos (by positivity) hd0)]
  exact Nat.mul_mod_left _ _

theorem divide_quotient_bounds (sa sb m : ℕ) (ha1 : 2 ^ m ≤ sa) (ha2 : sa < 2 ^ (m + 1))
    (hb1 : 2 ^ m ≤ sb) (hb2 : sb < 2 ^ (m + 1)) :
    2 ^ (m + 2) ≤ sa * 2 ^ (m + 3) / sb ∧ sa * 2 ^ (m + 3) / sb < 2 ^ (m + 4) ∧
      (sa * 2 ^ (m + 3) / sb < 2 ^ (m + 3) ↔ sa < sb) := by
  have hsb0 : 0 < sb := by
    have : 0 < 2 ^ m := by positivity
    omega
  have e1 : 2 ^ (m + 1) = 2 ^ m * 2 := pow_succ _ _
  have e2 : 2 ^ (m + 2) = 2 ^ m * 4 := by rw [pow_add]; norm_num
  have e3 : 2 ^ (m + 3) = 2 ^ m * 8 := by rw [pow_add]; norm_num
  have e4 : 2 ^ (m + 4) = 2 ^ m * 16 := by rw [pow_add]; norm_num
  have hP : 0 < 2 ^ m := by positivity
  refine ⟨?_, ?_, ?_⟩
  · rw [Nat.le_div_iff_mul_le hsb0, e2, e3]
    generalize 2 ^ m = P at *
    nlinarith
  · rw [Nat.div_lt_iff_lt_mul hsb0, e4, e3]
    generalize 2 ^ m = P at *
    nlinarith
  · rw [Nat.div_lt_iff_lt_mul hsb0, Nat.mul_comm sa]
    exact Nat.mul_lt_mul_left (by positivity)

theorem divide_quotient_eq (spec : precision_spec) (hv : valid_spec spec) (ea eb : Int)
    (la lb sa sb : ℕ) (hla : la ||| 1 <<< spec.mant_size = sa)
    (hlb : lb ||| 1 <<< spec.mant_size = sb)
    (ha1 : 2 ^ spec.mant_size ≤ sa) (ha2 : sa < 2 ^ (spec.mant_size + 1))
    (hb1 : 2 ^ spec.mant_size ≤ sb) (hb2 : sb < 2 ^ (spec.mant_size + 1)) :
    divide_quotient ea la eb lb spec =
      (ea - eb + spec.bias - (b2n (decide (sa < sb)) : ℕ),
       sa * 2 ^ (spec.mant_size + 3) / sb * 2 ^ b2n (decide (sa < sb)) / 8,
       decide (sa * 2 ^ (spec.mant_size + 3) / sb * 2 ^ b2n (decide (sa < sb)) / 4 % 2 = 1),
       decide (sa * 2 ^ (spec.mant_size + 3) % sb ≠ 0)) := by
  obtain ⟨q1, q2, q3⟩ := divide_quotient_bounds sa sb spec.mant_size ha1 ha2 hb1 hb2
  have hm := hv.mant_le
  have hA : u64 (sa <<< (spec.mant_size + 3)) = sa * 2 ^ (spec.mant_size + 3) := by
    rw [Nat.shiftLeft_eq]
    apply u64_of_lt
    calc sa * 2 ^ (spec.mant_size + 3) < 2 ^ (spec.mant_size + 1) * 2 ^ (spec.mant_size + 3) :=
          Nat.mul_lt_mul_of_pos_right ha2 (by positivity)
      _ = 2 ^ (2 * spec.mant_size + 4) := by rw [← pow_add]; congr 1; omega
      _ ≤ 2 ^ 64 := Nat.pow_le_pow_right (by decide) (by omega)
  have hlow : ((sa * 2 ^ (spec.mant_size + 3) / sb) &&& (1 <<< (spec.mant_size + 3)) == 0) =
      decide (sa < sb) := by
    rw [beq_zero_eq_decide, Nat.one_shiftLeft]
    apply decide_eq_decide.2
    rw [← q3]
    have h1 := and_two_pow_ne_zero_iff (sa * 2 ^ (spec.mant_size + 3) / sb) (spec.mant_size + 3)
    have h2 := top_bit_iff (sa * 2 ^ (spec.mant_size + 3) / sb) (spec.mant_size + 3) q2
    constructor
    · intro h
      by_contra hcon
      exact (h1.2 (h2.2 (Nat.le_of_not_lt hcon))) h
    · intro h
      by_contra hcon
      have := h2.1 (h1.1 hcon)
      omega
  have hU : u64 ((sa * 2 ^ (spec.mant_size + 3) / sb) <<< b2n (decide (sa < sb))) =
      sa * 2 ^ (spec.mant_size + 3) / sb * 2 ^ b2n (decide (sa < sb)) := by
    rw [Nat.shiftLeft_eq]
    apply u64_of_lt
    have h1 : 2 ^ b2n (decide (sa < sb)) ≤ 2 := by
      unfold b2n
      split <;> simp
    have h2 : 2 ^ (spec.mant_size + 4) ≤ 2 ^ 27 := Nat.pow_le_pow_right (by decide) (by omega)
    calc sa * 2 ^ (spec.mant_size + 3) / sb * 2 ^ b2n (decide (sa < sb))
        ≤ sa * 2 ^ (spec.mant_size + 3) / sb * 2 := Nat.mul_le_mul_left _ h1
      _ < 2 ^ 64 := by omega
  unfold divide_quotient
  simp only [hla, hlb, hA, hlow, hU, test_bit_eq_decide, Nat.shiftRight_eq_div_pow]
  simp only [bne_zero_eq_decide]
  norm_num

theorem divide_rep (m sa sb : ℕ) (ha1 : 2 ^ m ≤ sa) (ha2 : sa < 2 ^ (m + 1))
    (hb1 : 2 ^ m ≤ sb) (hb2 : sb < 2 ^ (m + 1)) :
    sa * 2 ^ (m + 3) / sb * 2 ^ b2n (decide (sa < sb)) / 8
      = sa * 2 ^ (m + 3) / (sb * 2 ^ (3 - b2n (decide (sa < sb)))) ∧
    (sa * 2 ^ (m + 3) / sb * 2 ^ b2n (decide (sa < sb)) / 4 % 2 = 1 ↔
      sb * 2 ^ (3 - b2n (decide (sa < sb)))
        ≤ 2 * (sa * 2 ^ (m + 3) % (sb * 2 ^ (3 - b2n (decide (sa < sb)))))) ∧
    (sa * 2 ^ (m + 3) % sb ≠ 0 ↔
      (sa * 2 ^ (m + 3) % (sb * 2 ^ (3 - b2n (decide (sa < sb)))) ≠ 0 ∧
        2 * (sa * 2 ^ (m + 3) % (sb * 2 ^ (3 - b2n (decide (sa < sb)))))
          ≠ sb * 2 ^ (3 - b2n (decide (sa < sb))))) ∧
    2 ^ m ≤ sa * 2 ^ (m + 3) / (sb * 2 ^ (3 - b2n (decide (sa < sb)))) ∧
    sa * 2 ^ (m + 3) / (sb * 2 ^ (3 - b2n (decide (sa < sb)))) < 2 ^ (m + 1) ∧
    (sa * 2 ^ (m + 3) / (sb * 2 ^ (3 - b2n (decide (sa < sb)))) = 2 ^ (m + 1) - 1 →
      sa * 2 ^ (m + 3) % (sb * 2 ^ (3 - b2n (decide (sa < sb)))) = 0) := by
  obtain ⟨q1, q2, q3⟩ := divide_quotient_bounds sa sb m ha1 ha2 hb1 hb2
  have hsb0 : 0 < sb := by
    have : 0 < 2 ^ m := by positivity
    omega
  have hex := exact_quotient_mod8 sa sb m hb1 hb2
  have e1 : 2 ^ (m + 1) = 2 ^ m * 2 := pow_succ _ _
  have e2 : 2 ^ (m + 2) = 2 ^ m * 4 := by rw [pow_add]; norm_num
  have e3 : 2 ^ (m + 3) = 2 ^ m * 8 := by rw [pow_add]; norm_num
  have e4 : 2 ^ (m + 4) = 2 ^ m * 16 := by rw [pow_add]; norm_num
  have hP : 0 < 2 ^ m := by positivity
  have hdm := Nat.div_add_mod (sa * 2 ^ (m + 3)) sb
  have hml := Nat.mod_lt (sa * 2 ^ (m + 3)) hsb0
  by_cases hlow : sa < sb
  · have q3' := q3.2 hlow
    obtain ⟨r1, r2, r3⟩ := retruncate (sa * 2 ^ (m + 3)) sb 2 hsb0 (by norm_num)
    simp only [hlow, decide_True, b2n, if_true, Nat.add_one_sub_one, pow_one,
      show 3 - 1 = 2 by norm_num, show 2 - 1 = 1 by norm_num]
    simp only [show 2 - 1 = 1 by norm_num, pow_one] at r2 r3
    rw [r1]
    generalize sa * 2 ^ (m + 3) % (sb * 2 ^ 2) = r at *
    refine ⟨by omega, by rw [r2]; omega, ?_, by omega, by omega, ?_⟩
    · rw [r3]
      constructor
      · intro h; exact Or.inr h
      · rintro (h | h)
        · intro h0
          have := hex h0
          omega
        · exact h
    · intro hall
      exfalso
      -- the quotient is at least `2^(m+3) - 4`, which forces `sb ≥ 2^(m+1)`
      have hq : 2 ^ m * 8 - 4 ≤ sa * 2 ^ (m + 3) / sb := by omega
      have hmul : sb * (sa * 2 ^ (m + 3) / sb) ≤ sa * 2 ^ (m + 3) := by omega
      have h1 : sb * (2 ^ m * 8 - 4) ≤ sb * (sa * 2 ^ (m + 3) / sb) := Nat.mul_le_mul_left _ hq
      have h2 : sa * 2 ^ (m + 3) ≤ (sb - 1) * (2 ^ m * 8) := by
        rw [e3]; exact Nat.mul_le_mul_right _ (by omega)
      have h3 : sb * (2 ^ m * 8 - 4) = sb * (2 ^ m * 8) - sb * 4 := Nat.mul_sub _ _ _
      have h4 : (sb - 1) * (2 ^ m * 8) = sb * (2 ^ m * 8) - 2 ^ m * 8 := by
        rw [Nat.sub_mul, Nat.one_mul]
      have h5 : sb * 4 ≤ sb * (2 ^ m * 8) := Nat.mul_le_mul_left _ (by omega)
      have h6 : 2 ^ m * 8 ≤ sb * (2 ^ m * 8) := Nat.le_mul_of_pos_left _ hsb0
      omega
  · have q3' : ¬ sa * 2 ^ (m + 3) / sb < 2 ^ (m + 3) := fun h => hlow (q3.1 h)
    obtain ⟨r1, r2, r3⟩ := retruncate (sa * 2 ^ (m + 3)) sb 3 hsb0 (by norm_num)
    simp only [hlow, decide_False, b2n, Bool.false_eq_true, if_false, pow_zero, Nat.mul_one,
      Nat.sub_zero]
    simp only [show 3 - 1 = 2 by norm_num, show (2 : ℕ) ^ 2 = 4 by norm_num] at r2 r3
    rw [r1]
    generalize sa * 2 ^ (m + 3) % (sb * 2 ^ 3) = r at *
    refine ⟨by norm_num, by rw [r2], ?_, by norm_num; omega, by norm_num; omega, ?_⟩
    · rw [r3]
      constructor
      · intro h; exact Or.inr h
      · rintro (h | h)
        · intro h0
          have := hex h0
          omega
        · exact h
    · intro hall
      norm_num at hall
      -- the quotient is at least `2^(m+4) - 8`, which forces `sb = 2^m` and an exact quotient
      have hq : 2 ^ m * 16 - 8 ≤ sa * 2 ^ (m + 3) / sb := by omega
      have hmul : sb * (sa * 2 ^ (m + 3) / sb) ≤ sa * 2 ^ (m + 3) := by omega
      have hsb : sb = 2 ^ m := by
        by_contra hne
        have hge : 2 ^ m + 1 ≤ sb := by omega
        have h1 : (2 ^ m + 1) * (2 ^ m * 16 - 8) ≤ sb * (sa * 2 ^ (m + 3) / sb) :=
          Nat.mul_le_mul hge hq
        have h2 : sa * 2 ^ (m + 3) ≤ (2 ^ m * 2 - 1) * (2 ^ m * 8) := by
          rw [e3]; exact Nat.mul_le_mul_right _ (by omega)
        have h3 : (2 ^ m + 1) * (2 ^ m * 16 - 8)
            = 2 ^ m * (2 ^ m * 16) + 2 ^ m * 16 - 2 ^ m * 8 - 8 := by
          rw [Nat.mul_sub, Nat.add_mul, Nat.add_mul, Nat.one_mul, Nat.one_mul]
          omega
        have h4 : (2 ^ m * 2 - 1) * (2 ^ m * 8) = 2 ^ m * (2 ^ m * 16) - 2 ^ m * 8 := by
          rw [Nat.sub_mul, Nat.one_mul]
          congr 1
          ring
        have h5 : 2 ^ m * 8 ≤ 2 ^ m * (2 ^ m * 16) := by
          have : 1 ≤ 2 ^ m * 2 := by omega
          nlinarith
        omega
      have hR0 : sa * 2 ^ (m + 3) % sb = 0 := by
        rw [hsb, e3]
        have : sa * (2 ^ m * 8) = 2 ^ m * (8 * sa) := by ring
        rw [this]
        exact Nat.mul_mod_right _ _
      have hQ8 := hex hR0
      have hn2 : ¬ sb * 2 ^ 3 ≤ 2 * r := by rw [r2]; omega
      by_contra hr0
      have := r3.1 ⟨hr0, by omega⟩
      omega

theorem divide_denormalize_eq (spec : precision_spec) (E1 : ℤ) (A D : ℕ) (hD : 0 < D)
    (hn1 : 2 ^ spec.mant_size ≤ A / D) (hn2 : A / D < 2 ^ (spec.mant_size + 1))
    (hE : E1 ≤ 0) (hElo : -1000 ≤ E1) :
    divide_denormalize E1 (A / D) (decide (D ≤ 2 * (A % D)))
        (decide (A % D ≠ 0 ∧ 2 * (A % D) ≠ D)) spec =
      (A / (D * 2 ^ (1 - E1).toNat),
       decide (D * 2 ^ (1 - E1).toNat ≤ 2 * (A % (D * 2 ^ (1 - E1).toNat))),
       decide (A % (D * 2 ^ (1 - E1).toNat) ≠ 0 ∧
         2 * (A % (D * 2 ^ (1 - E1).toNat)) ≠ D * 2 ^ (1 - E1).toNat)) := by
  have hs16 : u16 (-E1 + 1) = (1 - E1).toNat := by unfold u16; omega
  have hs1 : 1 ≤ (1 - E1).toNat := by omega
  obtain ⟨r1, r2, r3⟩ := retruncate A D (1 - E1).toNat hD hs1
  have hhs := half_sticky_iff D (A % D) (Nat.mod_lt A hD)
  have e1 : 2 ^ (spec.mant_size + 1) = 2 ^ spec.mant_size * 2 := pow_succ _ _
  unfold divide_denormalize
  simp only [hs16, test_bit_eq_decide]
  simp only [Nat.one_shiftLeft, Nat.and_pow_two_sub_one_eq_mod, Nat.shiftRight_eq_div_pow,
    bne_zero_eq_decide]
  generalize (1 - E1).toNat = s at *
  rw [r1]
  generalize A / D = n at *
  refine Prod.ext ?_ (Prod.ext ?_ ?_)
  · -- the shifted significand
    show (if s ≤ spec.mant_size then n / 2 ^ s else 0) = n / 2 ^ s
    split
    · rfl
    · next hgt =>
      symm
      apply Nat.div_eq_of_lt
      calc n < 2 ^ (spec.mant_size + 1) := hn2
        _ ≤ 2 ^ s := Nat.pow_le_pow_right (by decide) (by omega)
  · -- the half bit
    show (if s ≤ spec.mant_size + 1 then
        decide (n / 2 ^ (s - 1) % 2 = 1) || decide (s = spec.mant_size + 1) else false) = _
    have e2 : decide (D * 2 ^ s ≤ 2 * (A % (D * 2 ^ s))) = decide (n / 2 ^ (s - 1) % 2 = 1) :=
      decide_eq_decide.2 r2
    rw [e2]
    split
    · next hle =>
      by_cases heq : s = spec.mant_size + 1
      · have hbit : n / 2 ^ spec.mant_size % 2 = 1 := (top_bit_iff n _ hn2).2 hn1
        simp [heq, hbit]
      · simp [heq]
    · next hgt =>
      have hz : n / 2 ^ (s - 1) = 0 := by
        apply Nat.div_eq_of_lt
        calc n < 2 ^ (spec.mant_size + 1) := hn2
          _ ≤ 2 ^ (s - 1) := Nat.pow_le_pow_right (by decide) (by omega)
      simp [hz]
  · -- the sticky bit
    show (if s ≤ spec.mant_size + 1 then
        decide (b2n (decide (D ≤ 2 * (A % D))) |||
          b2n (decide (A % D ≠ 0 ∧ 2 * (A % D) ≠ D)) ||| n % 2 ^ (s - 1) ≠ 0) else true) = _
    have e3 : decide (A % (D * 2 ^ s) ≠ 0 ∧ 2 * (A % (D * 2 ^ s)) ≠ D * 2 ^ s) =
        decide (n % 2 ^ (s - 1) ≠ 0 ∨ A % D ≠ 0) := decide_eq_decide.2 r3
    rw [e3]
    split
    · apply decide_eq_decide.2
      rw [Ne, or_eq_zero_iff, or_eq_zero_iff, b2n_eq_zero_iff, b2n_eq_zero_iff,
        decide_eq_false_iff_not, decide_eq_false_iff_not]
      constructor
      · intro h
        by_contra hcon
        push_neg at hcon
        apply h
        refine ⟨⟨?_, ?_⟩, hcon.1⟩
        · intro h'; exact (hhs.1 (Or.inl h')) hcon.2
        · intro h'; exact (hhs.1 (Or.inr h')) hcon.2
      · rintro (h | h) ⟨⟨h1, h2⟩, h3⟩
        · exact h h3
        · rcases hhs.2 h with h' | h'
          · exact h1 h'
          · exact h2 h'
    · next hgt =>
      symm
      rw [decide_eq_true_iff]
      left
      have hlt : n < 2 ^ (s - 1) := by
        calc n < 2 ^ (spec.mant_size + 1) := hn2
          _ ≤ 2 ^ (s - 1) := Nat.pow_le_pow_right (by decide) (by omega)
      rw [Nat.mod_eq_of_lt hlt]
      have : 0 < 2 ^ spec.mant_size := by positivity
      omega

theorem float_divide_finite_eq (spec : precision_spec) (hv : valid_spec spec) (mode : round)
    (a b : Nat) (ha : a < 2 ^ width spec) (hb : b < 2 ^ width spec)
    (hfa : finite_nonzero spec a) (hfb : finite_nonzero spec b) :
    float_divide a b mode spec =
      some (float_divide_finite (norm_exp spec a) (load_mant spec a) (norm_exp spec b)
        (load_mant spec b) (xor (sign_bit spec a) (sign_bit spec b)) mode spec) := by
  obtain ⟨a1, a2, a3⟩ := finite_not_special spec a hfa
  obtain ⟨b1, b2, b3⟩ := finite_not_special spec b hfb
  unfold float_divide
  simp only [a1, a2, a3, b1, b2, b3, false_or, or_false, false_and, and_false, if_false,
    load_operand_eq spec hv a hfa, load_operand_eq spec hv b hfb, code_sign_eq spec a ha,
    code_sign_eq spec b hb]

theorem scaled_quotient_eq (sa sb m c : ℕ) (t : ℤ) (hsb : 0 < sb) :
    (((sa * 2 ^ (m + 3) : ℕ) : ℚ) / ((sb * 2 ^ c : ℕ) : ℚ)) * 2 ^ (t - (3 - (c : ℤ)) - m)
      = ((sa : ℚ) / sb) * 2 ^ t := by
  have hsbq : (sb : ℚ) ≠ 0 := by exact_mod_cast (Nat.pos_iff_ne_zero.1 hsb)
  have h2 : (2 : ℚ) ≠ 0 := by norm_num
  push_cast
  rw [mul_div_mul_comm, mul_assoc, ← zpow_natCast, ← zpow_natCast (2 : ℚ) c, ← zpow_sub₀ h2,
    ← zpow_add₀ h2]
  congr 2
  push_cast
  ring

theorem denormal_quotient_eq (A D s : ℕ) (E1 t : ℤ) (hs : (s : ℤ) = 1 - E1) :
    ((A : ℚ) / ((D * 2 ^ s : ℕ) : ℚ)) * 2 ^ (1 - t)
      = ((A : ℚ) / D) * 2 ^ (E1 - t) := by
  have h2 : (2 : ℚ) ≠ 0 := by norm_num
  have e : E1 - t = (1 - t) - (s : ℤ) := by omega
  have hz : (2 : ℚ) ^ (E1 - t) = 2 ^ (1 - t) / 2 ^ s := by
    rw [e, zpow_sub₀ h2, zpow_natCast]
  push_cast
  rw [hz]
  by_cases hD : (D : ℚ) = 0
  · simp [hD]
  · field_simp

theorem bias_le (spec : precision_spec) (hv : valid_spec spec) : spec.bias ≤ 127 := by
  have h := hv.bias_eq
  have : 2 ^ (spec.exp_size - 1) ≤ 2 ^ 7 :=
    Nat.pow_le_pow_right (by decide) (by have := hv.exp_le; omega)
  omega

theorem float_divide_correct (spec : precision_spec) (hs : spec = f16_spec ∨ spec = f32_spec)
    (mode : round) (a b : Nat) (ha : a < 2 ^ width spec) (hb : b < 2 ^ width spec)
    (hfa : finite_nonzero spec a) (hfb : finite_nonzero spec b) :
    float_divide a b mode spec = some (spec_round spec mode (value spec a / value spec b)) := by
  have hv := valid_of_format spec hs
  obtain ⟨sa1, sa2⟩ := norm_sig_bounds spec hv a hfa
  obtain ⟨sb1, sb2⟩ := norm_sig_bounds spec hv b hfb
  obtain ⟨ea1, ea2⟩ := norm_exp_bounds spec hv a hfa
  obtain ⟨eb1, eb2⟩ := norm_exp_bounds spec hv b hfb
  obtain ⟨hq, hsign⟩ := value_div spec hv a b hfa hfb
  obtain ⟨r1, r2, r3, r4, r5, r6⟩ := divide_rep spec.mant_size _ _ sa1 sa2 sb1 sb2
  have hbias := bias_le spec hv
  have hm := hv.mant_le
  have h256 := exp_pow_le spec hv
  have h4 := exp_pow_ge spec hv
  have hsb0 : 0 < norm_sig spec b := by
    have : 0 < 2 ^ spec.mant_size := by positivity
    omega
  have hsa0 : 0 < norm_sig spec a := by
    have : 0 < 2 ^ spec.mant_size := by positivity
    omega
  have hlow := b2n_le_one (decide (norm_sig spec a < norm_sig spec b))
  rw [float_divide_finite_eq spec hv mode a b ha hb hfa hfb]
  congr 1
  unfold float_divide_finite
  rw [divide_quotient_eq spec hv _ _ _ _ _ _ (load_mant_or spec hv a hfa)
    (load_mant_or spec hv b hfb) sa1 sa2 sb1 sb2]
  have e2 := decide_congr r2
  have e3 := decide_congr r3
  simp only [r1, e2, e3]
  rw [Nat.one_shiftLeft spec.exp_size]
  have hqA : |value spec a / value spec b| =
      (((norm_sig spec a * 2 ^ (spec.mant_size + 3) : ℕ) : ℚ) /
        ((norm_sig spec b * 2 ^ (3 - b2n (decide (norm_sig spec a < norm_sig spec b))) : ℕ) : ℚ)) *
      2 ^ ((norm_exp spec a - norm_exp spec b + (spec.bias : ℤ)
          - (b2n (decide (norm_sig spec a < norm_sig spec b)) : ℕ))
        - (spec.bias : ℤ) - spec.mant_size) := by
    have h := scaled_quotient_eq (norm_sig spec a) (norm_sig spec b) spec.mant_size
      (3 - b2n (decide (norm_sig spec a < norm_sig spec b)))
      (norm_exp spec a - norm_exp spec b) hsb0
    have hexp : norm_exp spec a - norm_exp spec b
          - (3 - ((3 - b2n (decide (norm_sig spec a < norm_sig spec b)) : ℕ) : ℤ))
          - (spec.mant_size : ℤ)
        = (norm_exp spec a - norm_exp spec b + (spec.bias : ℤ)
            - (b2n (decide (norm_sig spec a < norm_sig spec b)) : ℕ))
          - (spec.bias : ℤ) - spec.mant_size := by omega
    rw [hexp] at h
    rw [hq, ← h]
  generalize hlowdef : b2n (decide (norm_sig spec a < norm_sig spec b)) = low at *
  generalize hDdef : norm_sig spec b * 2 ^ (3 - low) = D at *
  generalize hAdef : norm_sig spec a * 2 ^ (spec.mant_size + 3) = A at *
  have hD0 : 0 < D := by rw [← hDdef]; positivity
  have hA0 : 0 < A := by rw [← hAdef]; positivity
  have hE1lo : -1000 ≤ norm_exp spec a - norm_exp spec b + (spec.bias : ℤ) - (low : ℕ) := by
    omega
  generalize norm_exp spec a - norm_exp spec b + (spec.bias : ℤ) - (low : ℕ) = E1 at *
  generalize value spec a / value spec b = q at *
  generalize xor (sign_bit spec a) (sign_bit spec b) = sign at *
  by_cases hov : ((2 ^ spec.exp_size : ℕ) : ℤ) - 1 ≤ E1
  · rw [if_pos hov, float_exp_overflow_eq spec hs,
      spec_round_of_quotient spec mode q A D E1 hD0 hA0 hqA (by omega) r5 (Or.inr r4), hsign,
      round_pack_overflow spec hv mode sign E1 _ _ _ hov r4]
  · rw [if_neg hov]
    by_cases hun : E1 ≤ 0
    · rw [if_pos hun, divide_denormalize_eq spec E1 A D hD0 r4 r5 hun hE1lo]
      simp only []
      have hs1 : 1 ≤ (1 - E1).toNat := by omega
      have hlt : A / (D * 2 ^ (1 - E1).toNat) < 2 ^ spec.mant_size := by
        rw [(mod_mul_pow A D (1 - E1).toNat hD0).1]
        apply Nat.div_lt_of_lt_mul
        calc A / D < 2 ^ (spec.mant_size + 1) := r5
          _ = 2 ^ 1 * 2 ^ spec.mant_size := by rw [← pow_add]; congr 1; omega
          _ ≤ 2 ^ (1 - E1).toNat * 2 ^ spec.mant_size :=
            Nat.mul_le_mul_right _ (Nat.pow_le_pow_right (by decide) hs1)
      have hqs : |q| = ((A : ℚ) / ((D * 2 ^ (1 - E1).toNat : ℕ) : ℚ)) *
          2 ^ ((1 : ℤ) - (spec.bias : ℤ) - spec.mant_size) := by
        have h := denormal_quotient_eq A D (1 - E1).toNat E1
          ((spec.bias : ℤ) + spec.mant_size) (by omega)
        have e1 : (1 : ℤ) - ((spec.bias : ℤ) + spec.mant_size)
            = 1 - (spec.bias : ℤ) - spec.mant_size := by ring
        have e2 : E1 - ((spec.bias : ℤ) + spec.mant_size)
            = E1 - (spec.bias : ℤ) - spec.mant_size := by ring
        rw [e1, e2] at h
        rw [hqA, h]
      rw [pack_subnormal_eq spec hv mode sign _ _ _ hlt,
        spec_round_of_quotient spec mode q A (D * 2 ^ (1 - E1).toNat) 1 (by positivity) hA0 hqs
          (le_refl 1) (by omega) (Or.inl rfl), hsign]
    · rw [if_neg hun]
      have hup : A / D + b2n (bits_round_up mode sign (A / D) (decide (D ≤ 2 * (A % D)))
          (decide (A % D ≠ 0 ∧ 2 * (A % D) ≠ D))) < 2 ^ (spec.mant_size + 1) := by
        by_cases hall : A / D = 2 ^ (spec.mant_size + 1) - 1
        · have hr0 := r6 hall
          have h1 : decide (D ≤ 2 * (A % D)) = false := by
            rw [decide_eq_false_iff_not, hr0]; omega
          have h2 : decide (A % D ≠ 0 ∧ 2 * (A % D) ≠ D) = false := by
            rw [decide_eq_false_iff_not, hr0]; simp
          rw [h1, h2, bits_round_up_exact]
          simp only [b2n, Bool.false_eq_true, if_false]
          omega
        · have := b2n_le_one (bits_round_up mode sign (A / D) (decide (D ≤ 2 * (A % D)))
            (decide (A % D ≠ 0 ∧ 2 * (A % D) ≠ D)))
          omega
      rw [pack_normal_eq spec hv mode sign E1 (A / D) _ _ (by omega) (by omega) r4 hup,
        spec_round_of_quotient spec mode q A D E1 hD0 hA0 hqA (by omega) r5 (Or.inr r4), hsign]

/-! ## Magnitude add: alignment and carry in arithmetic form -/

theorem spec_round_exact_subnormal (spec : precision_spec) (mode : round) (q : ℚ) (N D : ℕ)
    (E : ℤ) (hD : 0 < D) (hN : 0 < N)
    (hq : |q| = ((N : ℚ) / D) * 2 ^ (E - (spec.bias : ℤ) - spec.mant_size))
    (hE : E ≤ 0) (hr : N % D = 0) (hdiv : 2 ^ (1 - E).toNat ∣ N / D)
    (hlt : N / D < 2 ^ (spec.mant_size + 1)) :
    spec_round spec mode q =
      round_pack spec mode (decide (q < 0)) 1 (N / D / 2 ^ (1 - E).toNat) false false := by
  obtain ⟨m1, m2⟩ := mod_mul_pow N D (1 - E).toNat hD
  have hmod : N % (D * 2 ^ (1 - E).toNat) = 0 := by
    rw [m2, hr, Nat.mod_eq_zero_of_dvd hdiv]
    simp
  have hqs : |q| = ((N : ℚ) / ((D * 2 ^ (1 - E).toNat : ℕ) : ℚ)) *
      2 ^ ((1 : ℤ) - (spec.bias : ℤ) - spec.mant_size) := by
    have h := denormal_quotient_eq N D (1 - E).toNat E
      ((spec.bias : ℤ) + spec.mant_size) (by omega)
    have e1 : (1 : ℤ) - ((spec.bias : ℤ) + spec.mant_size)
        = 1 - (spec.bias : ℤ) - spec.mant_size := by ring
    have e2 : E - ((spec.bias : ℤ) + spec.mant_size)
        = E - (spec.bias : ℤ) - spec.mant_size := by ring
    rw [e1, e2] at h
    rw [hq, h]
  have hlt' : N / (D * 2 ^ (1 - E).toNat) < 2 ^ (spec.mant_size + 1) := by
    rw [m1]
    exact lt_of_le_of_lt (Nat.div_le_self _ _) hlt
  have hDs : 0 < D * 2 ^ (1 - E).toNat := by positivity
  rw [spec_round_of_quotient spec mode q N (D * 2 ^ (1 - E).toNat) 1 hDs hN hqs
    (le_refl 1) hlt' (Or.inl rfl), hmod, m1]
  have h1 : decide (D * 2 ^ (1 - E).toNat ≤ 2 * 0) = false := by
    rw [decide_eq_false_iff_not]; omega
  have h2 : decide ((0 : ℕ) ≠ 0 ∧ 2 * 0 ≠ D * 2 ^ (1 - E).toNat) = false := by
    rw [decide_eq_false_iff_not]; simp
  rw [h1, h2]

theorem and_comm_test (x k : ℕ) : ((1 <<< k) &&& x != 0) = decide (x / 2 ^ k % 2 = 1) := by
  rw [Nat.and_comm]
  exact test_bit_eq_decide x k

theorem mask_comm_test (x k : ℕ) : (((1 <<< k) - 1) &&& x != 0) = decide (x % 2 ^ k ≠ 0) := by
  rw [Nat.and_comm, Nat.one_shiftLeft, Nat.and_pow_two_sub_one_eq_mod, bne_zero_eq_decide]

theorem addition_align_eq (spec : precision_spec) (hv : valid_spec spec) (s1 s2 d : ℕ)
    (h11 : 2 ^ spec.mant_size ≤ s1) (h12 : s1 < 2 ^ (spec.mant_size + 1))
    (h21 : 2 ^ spec.mant_size ≤ s2) (h22 : s2 < 2 ^ (spec.mant_size + 1)) :
    addition_align s1 s2 d spec =
      ((s1 * 2 ^ d + s2) / 2 ^ d,
       decide (2 ^ d ≤ 2 * ((s1 * 2 ^ d + s2) % 2 ^ d)),
       decide ((s1 * 2 ^ d + s2) % 2 ^ d ≠ 0 ∧ 2 * ((s1 * 2 ^ d + s2) % 2 ^ d) ≠ 2 ^ d)) := by
  have hm := mant_pow_le spec hv
  have e1 : 2 ^ (spec.mant_size + 1) = 2 ^ spec.mant_size * 2 := pow_succ _ _
  have hP : 0 < 2 ^ spec.mant_size := by positivity
  have hPd : 0 < 2 ^ d := by positivity
  have hdiv : (s1 * 2 ^ d + s2) / 2 ^ d = s1 + s2 / 2 ^ d := by
    rw [Nat.add_comm, Nat.add_mul_div_right _ _ hPd, Nat.add_comm]
  have hmod : (s1 * 2 ^ d + s2) % 2 ^ d = s2 % 2 ^ d := by
    rw [Nat.add_comm, Nat.add_mul_mod_self_right]
  rw [hdiv, hmod]
  unfold addition_align
  simp only [and_comm_test, mask_comm_test, Nat.shiftRight_eq_div_pow]
  have hb3 : (if d > spec.mant_size then 0 else s2 / 2 ^ d) = s2 / 2 ^ d := by
    split
    · next hgt =>
      symm
      apply Nat.div_eq_of_lt
      calc s2 < 2 ^ (spec.mant_size + 1) := h22
        _ ≤ 2 ^ d := Nat.pow_le_pow_right (by decide) (by omega)
    · rfl
  have hu : u64 (s1 + s2 / 2 ^ d) = s1 + s2 / 2 ^ d := by
    apply u64_of_lt
    have : s2 / 2 ^ d ≤ s2 := Nat.div_le_self _ _
    omega
  rw [hb3, hu]
  refine Prod.ext rfl (Prod.ext ?_ ?_)
  · -- half bit
    show (if d > spec.mant_size + 1 then false
      else if d = spec.mant_size + 1 then true
      else if d > 0 then decide (s2 / 2 ^ (d - 1) % 2 = 1) else false) = _
    rcases Nat.eq_zero_or_pos d with hd0 | hdpos
    · subst hd0
      simp [Nat.mod_one]
    · obtain ⟨r1, r2, r3⟩ := retruncate s2 1 d (by norm_num) hdpos
      simp only [Nat.one_mul, Nat.div_one] at r2
      rw [decide_congr r2]
      by_cases hgt : d > spec.mant_size + 1
      · rw [if_pos hgt]
        have hz : s2 / 2 ^ (d - 1) = 0 := by
          apply Nat.div_eq_of_lt
          calc s2 < 2 ^ (spec.mant_size + 1) := h22
            _ ≤ 2 ^ (d - 1) := Nat.pow_le_pow_right (by decide) (by omega)
        simp [hz]
      · rw [if_neg hgt]
        by_cases heq : d = spec.mant_size + 1
        · rw [if_pos heq]
          have hbit : s2 / 2 ^ spec.mant_size % 2 = 1 := (top_bit_iff s2 _ h22).2 h21
          simp [heq, hbit]
        · rw [if_neg heq, if_pos hdpos]
  · -- sticky bit
    show (if d > spec.mant_size + 1 then true
      else if d = spec.mant_size + 1 then decide (s2 % 2 ^ spec.mant_size ≠ 0)
      else if d > 0 then decide (s2 % 2 ^ (d - 1) ≠ 0) && decide (d > 1) else false) = _
    rcases Nat.eq_zero_or_pos d with hd0 | hdpos
    · subst hd0
      simp [Nat.mod_one]
    · obtain ⟨r1, r2, r3⟩ := retruncate s2 1 d (by norm_num) hdpos
      simp only [Nat.one_mul, Nat.div_one, Nat.mod_one, ne_eq, not_true_eq_false, or_false] at r3
      rw [decide_congr r3]
      by_cases hgt : d > spec.mant_size + 1
      · rw [if_pos hgt]
        have hlt : s2 < 2 ^ (d - 1) := by
          calc s2 < 2 ^ (spec.mant_size + 1) := h22
            _ ≤ 2 ^ (d - 1) := Nat.pow_le_pow_right (by decide) (by omega)
        symm
        rw [decide_eq_true_iff, Nat.mod_eq_of_lt hlt]
        omega
      · rw [if_neg hgt]
        by_cases heq : d = spec.mant_size + 1
        · rw [if_pos heq]
          simp [heq]
        · rw [if_neg heq, if_pos hdpos]
          by_cases hd1 : d = 1
          · subst hd1
            simp [Nat.mod_one]
          · have : d > 1 := by omega
            simp [this]

theorem addition_carry_eq (spec : precision_spec) (E : ℤ) (N D : ℕ) (hD : 0 < D)
    (hU1 : 2 ^ spec.mant_size ≤ N / D) (hU2 : N / D < 2 ^ (spec.mant_size + 2)) :
    addition_carry E (N / D) (decide (D ≤ 2 * (N % D)))
        (decide (N % D ≠ 0 ∧ 2 * (N % D) ≠ D)) spec =
      (E + (b2n (decide (2 ^ (spec.mant_size + 1) ≤ N / D)) : ℕ),
       N / (D * 2 ^ b2n (decide (2 ^ (spec.mant_size + 1) ≤ N / D))),
       decide (D * 2 ^ b2n (decide (2 ^ (spec.mant_size + 1) ≤ N / D))
         ≤ 2 * (N % (D * 2 ^ b2n (decide (2 ^ (spec.mant_size + 1) ≤ N / D))))),
       decide (N % (D * 2 ^ b2n (decide (2 ^ (spec.mant_size + 1) ≤ N / D))) ≠ 0 ∧
         2 * (N % (D * 2 ^ b2n (decide (2 ^ (spec.mant_size + 1) ≤ N / D))))
           ≠ D * 2 ^ b2n (decide (2 ^ (spec.mant_size + 1) ≤ N / D)))) ∧
    2 ^ spec.mant_size ≤ N / (D * 2 ^ b2n (decide (2 ^ (spec.mant_size + 1) ≤ N / D))) ∧
    N / (D * 2 ^ b2n (decide (2 ^ (spec.mant_size + 1) ≤ N / D))) < 2 ^ (spec.mant_size + 1) := by
  have e1 : 2 ^ (spec.mant_size + 1) = 2 ^ spec.mant_size * 2 := pow_succ _ _
  have e2 : 2 ^ (spec.mant_size + 2) = 2 ^ spec.mant_size * 4 := by rw [pow_add]; norm_num
  have hcarry : (N / D &&& 1 <<< (spec.mant_size + 1) != 0)
      = decide (2 ^ (spec.mant_size + 1) ≤ N / D) := by
    rw [test_bit_eq_decide]
    exact decide_congr (top_bit_iff (N / D) _ hU2)
  have hlast : (N / D &&& 1 != 0) = decide (N / D % 2 = 1) := by
    rw [Nat.and_one_is_mod, bne_zero_eq_decide]
    apply decide_congr
    omega
  have hhs := half_sticky_iff D (N % D) (Nat.mod_lt N hD)
  unfold addition_carry
  simp only [hcarry, hlast, Nat.shiftRight_eq_div_pow, pow_one]
  by_cases hc : 2 ^ (spec.mant_size + 1) ≤ N / D
  · obtain ⟨r1, r2, r3⟩ := retruncate N D 1 hD (le_refl 1)
    simp only [Nat.sub_self, pow_zero, Nat.div_one, pow_one, Nat.mod_one, ne_eq,
      not_true_eq_false, false_or] at r1 r2 r3
    have hb1 : b2n true = 1 := rfl
    simp only [hc, decide_True, if_true, hb1, pow_one, Nat.cast_one]
    rw [r1, decide_congr r2, decide_congr r3]
    refine ⟨Prod.ext rfl (Prod.ext rfl (Prod.ext rfl ?_)), by omega, by omega⟩
    show (decide (N % D ≠ 0 ∧ 2 * (N % D) ≠ D) || decide (D ≤ 2 * (N % D))) = decide (¬ N % D = 0)
    rw [Bool.eq_iff_iff]
    simp only [Bool.or_eq_true, decide_eq_true_eq]
    constructor
    · rintro (h | h)
      · exact hhs.1 (Or.inr h)
      · exact hhs.1 (Or.inl h)
    · intro h
      rcases hhs.2 h with h' | h'
      · exact Or.inr h'
      · exact Or.inl h'
  · have hb0 : b2n false = 0 := rfl
    simp only [hc, decide_False, Bool.false_eq_true, if_false, hb0, pow_zero, Nat.mul_one,
      Nat.cast_zero, add_zero]
    exact ⟨trivial, hU1, Nat.lt_of_not_le hc⟩

theorem shift_quotient_eq (A D s : ℕ) (u v : ℤ) (h : v = u - s) :
    ((A : ℚ) / ((D * 2 ^ s : ℕ) : ℚ)) * 2 ^ u = ((A : ℚ) / D) * 2 ^ v := by
  have h2 : (2 : ℚ) ≠ 0 := by norm_num
  have hz : (2 : ℚ) ^ v = 2 ^ u / 2 ^ s := by
    rw [h, zpow_sub₀ h2, zpow_natCast]
  push_cast
  rw [hz]
  by_cases hD : (D : ℚ) = 0
  · simp [hD]
  · field_simp

/-- The magnitude add pipeline on ordered operands computes the reference rounding of the exact
sum. -/
theorem addition_core (spec : precision_spec) (hs : spec = f16_spec ∨ spec = f32_spec)
    (mode : round) (sign : Bool) (e1 e2 : ℤ) (s1 s2 d : ℕ) (q : ℚ)
    (h11 : 2 ^ spec.mant_size ≤ s1) (h12 : s1 < 2 ^ (spec.mant_size + 1))
    (h21 : 2 ^ spec.mant_size ≤ s2) (h22 : s2 < 2 ^ (spec.mant_size + 1))
    (hd : (d : ℤ) = e1 - e2) (he1 : e1 ≤ (2 ^ spec.exp_size : ℕ) - 2)
    (hx1 : 2 ^ (1 - e1).toNat ∣ s1) (hx2 : 2 ^ (1 - e2).toNat ∣ s2)
    (hq : |q| = (((s1 * 2 ^ d + s2 : ℕ) : ℚ) / ((2 ^ d : ℕ) : ℚ)) *
      2 ^ (e1 - (spec.bias : ℤ) - spec.mant_size))
    (hsign : decide (q < 0) = sign) :
    (match addition_align s1 s2 d spec with
      | (unrounded_mant, half_bit, sticky_bit) =>
        match addition_carry e1 unrounded_mant half_bit sticky_bit spec with
        | (new_exp, unrounded_mant, half_bit, sticky_bit) =>
          addition_finish new_exp unrounded_mant half_bit sticky_bit sign mode spec)
      = spec_round spec mode q := by
  have hv := valid_of_format spec hs
  have e1' : 2 ^ (spec.mant_size + 1) = 2 ^ spec.mant_size * 2 := pow_succ _ _
  have e2' : 2 ^ (spec.mant_size + 2) = 2 ^ spec.mant_size * 4 := by rw [pow_add]; norm_num
  have hPd : 0 < 2 ^ d := by positivity
  have hdiv : (s1 * 2 ^ d + s2) / 2 ^ d = s1 + s2 / 2 ^ d := by
    rw [Nat.add_comm, Nat.add_mul_div_right _ _ hPd, Nat.add_comm]
  have hU1 : 2 ^ spec.mant_size ≤ (s1 * 2 ^ d + s2) / 2 ^ d := by
    rw [hdiv]
    exact le_trans h11 (Nat.le_add_right _ _)
  have hU2 : (s1 * 2 ^ d + s2) / 2 ^ d < 2 ^ (spec.mant_size + 2) := by
    rw [hdiv]
    have hk : s2 / 2 ^ d ≤ s2 := Nat.div_le_self _ _
    generalize s2 / 2 ^ d = k at hk
    omega
  obtain ⟨hc, hn1, hn2⟩ := addition_carry_eq spec e1 (s1 * 2 ^ d + s2) (2 ^ d) hPd hU1 hU2
  rw [addition_align_eq spec hv s1 s2 d h11 h12 h21 h22]
  simp only []
  rw [hc]
  simp only []
  have hcb := b2n_le_one (decide (2 ^ (spec.mant_size + 1) ≤ (s1 * 2 ^ d + s2) / 2 ^ d))
  generalize b2n (decide (2 ^ (spec.mant_size + 1) ≤ (s1 * 2 ^ d + s2) / 2 ^ d)) = c at *
  have hN0 : 0 < s1 * 2 ^ d + s2 := by
    have : 0 < 2 ^ spec.mant_size := by positivity
    omega
  have hD0 : 0 < 2 ^ d * 2 ^ c := by positivity
  have hqc : |q| = (((s1 * 2 ^ d + s2 : ℕ) : ℚ) / ((2 ^ d * 2 ^ c : ℕ) : ℚ)) *
      2 ^ (e1 + (c : ℤ) - (spec.bias : ℤ) - spec.mant_size) := by
    rw [hq]
    exact (shift_quotient_eq (s1 * 2 ^ d + s2) (2 ^ d) c _ _ (by ring)).symm
  by_cases hE : 1 ≤ e1 + (c : ℤ)
  · rw [addition_finish_normal spec hs mode sign _ _ _ _ hE (by omega) hn1 hn2,
      spec_round_of_quotient spec mode q _ _ _ hD0 hN0 hqc hE hn2 (Or.inr hn1), hsign]
  · have hE' : e1 + (c : ℤ) ≤ 0 := by omega
    -- the sum is a multiple of the smallest subnormal: no bit is lost
    obtain ⟨k1, hk1⟩ := hx1
    obtain ⟨k2, hk2⟩ := hx2
    have hz2 : (1 - e2).toNat = (1 - e1).toNat + d := by omega
    have hzc : (1 - e1).toNat = (1 - (e1 + (c : ℤ))).toNat + c := by omega
    have hNeq : s1 * 2 ^ d + s2
        = 2 ^ d * 2 ^ c * (2 ^ (1 - (e1 + (c : ℤ))).toNat * (k1 + k2)) := by
      rw [hk1, hk2, hz2, hzc, pow_add, pow_add, pow_add]
      ring
    have hdivN : (s1 * 2 ^ d + s2) / (2 ^ d * 2 ^ c)
        = 2 ^ (1 - (e1 + (c : ℤ))).toNat * (k1 + k2) := by
      rw [hNeq, Nat.mul_div_cancel_left _ hD0]
    have hmodN : (s1 * 2 ^ d + s2) % (2 ^ d * 2 ^ c) = 0 := by
      rw [hNeq, Nat.mul_mod_right]
    have h1 : decide (2 ^ d * 2 ^ c ≤ 2 * ((s1 * 2 ^ d + s2) % (2 ^ d * 2 ^ c))) = false := by
      rw [decide_eq_false_iff_not, hmodN]; omega
    have h2 : decide ((s1 * 2 ^ d + s2) % (2 ^ d * 2 ^ c) ≠ 0 ∧
        2 * ((s1 * 2 ^ d + s2) % (2 ^ d * 2 ^ c)) ≠ 2 ^ d * 2 ^ c) = false := by
      rw [decide_eq_false_iff_not, hmodN]; simp
    rw [h1, h2, addition_finish_subnormal spec hv mode sign _ _ hE' hn1 hn2,
      spec_round_exact_subnormal spec mode q _ _ _ hD0 hN0 hqc hE' hmodN
        (by rw [hdivN]; exact Dvd.intro _ rfl) hn2, hsign]

/-! ## Magnitude subtract: normalising loop, near and far paths -/

theorem subtract_normalize_loop_eq (t : ℕ) (ht : t + 1 ≤ 64) :
    ∀ (j fuel : ℕ) (e : ℤ) (X : ℕ), 2 ^ t ≤ X * 2 ^ j → X * 2 ^ j < 2 ^ (t + 1) → j < fuel →
      subtract_normalize_loop (2 ^ t) fuel e X = some (e - j, X * 2 ^ j) := by
  intro j
  induction j with
  | zero =>
    intro fuel e X h1 h2 hf
    obtain ⟨f, rfl⟩ : ∃ f, fuel = f + 1 := ⟨fuel - 1, by omega⟩
    simp only [pow_zero, Nat.mul_one] at h1 h2
    have hne : X &&& 2 ^ t ≠ 0 := by
      rw [and_two_pow_ne_zero_iff]
      exact (top_bit_iff X t h2).2 h1
    simp [subtract_normalize_loop, hne]
  | succ j ih =>
    intro fuel e X h1 h2 hf
    obtain ⟨f, rfl⟩ : ∃ f, fuel = f + 1 := ⟨fuel - 1, by omega⟩
    have hmul : X * 2 * 2 ^ j = X * 2 ^ (j + 1) := by rw [pow_succ]; ring
    have hx : X < 2 ^ t := by
      have hk : 2 ≤ 2 ^ (j + 1) := by
        calc 2 = 2 ^ 1 := rfl
          _ ≤ 2 ^ (j + 1) := Nat.pow_le_pow_right (by decide) (by omega)
      have e1 : 2 ^ (t + 1) = 2 ^ t * 2 := pow_succ _ _
      by_contra hge
      have := Nat.mul_le_mul (Nat.le_of_not_lt hge) hk
      omega
    have heq : X &&& 2 ^ t = 0 := by
      rw [and_two_pow, Nat.div_eq_of_lt hx]
      simp
    have hp : 2 ^ t * 2 ≤ 2 ^ 64 := by
      calc 2 ^ t * 2 = 2 ^ (t + 1) := (pow_succ _ _).symm
        _ ≤ 2 ^ 64 := Nat.pow_le_pow_right (by decide) ht
    have hu : u64 (X <<< 1) = X * 2 := by
      rw [Nat.shiftLeft_eq, pow_one]
      apply u64_of_lt
      omega
    simp only [subtract_normalize_loop, heq, if_true, hu]
    rw [ih f (e - 1) (X * 2) (by rw [hmul]; exact h1) (by rw [hmul]; exact h2) (by omega), hmul]
    congr 2
    push_cast
    ring

theorem normalize_shift_exists (t X : ℕ) (h0 : 0 < X) (hlt : X < 2 ^ (t + 1)) :
    ∃ j, j ≤ t ∧ 2 ^ t ≤ X * 2 ^ j ∧ X * 2 ^ j < 2 ^ (t + 1) := by
  have hX : X ≠ 0 := by omega
  have hlog : Nat.log 2 X < t + 1 := Nat.log_lt_of_lt_pow hX hlt
  have h1 := Nat.pow_log_le_self 2 hX
  have h2 := Nat.lt_pow_succ_log_self (by decide : 1 < 2) X
  refine ⟨t - Nat.log 2 X, by omega, ?_, ?_⟩
  · calc 2 ^ t = 2 ^ Nat.log 2 X * 2 ^ (t - Nat.log 2 X) := by
          rw [← pow_add]; congr 1; omega
      _ ≤ X * 2 ^ (t - Nat.log 2 X) := Nat.mul_le_mul_right _ h1
  · calc X * 2 ^ (t - Nat.log 2 X)
        < 2 ^ (Nat.log 2 X + 1) * 2 ^ (t - Nat.log 2 X) :=
          Nat.mul_lt_mul_of_pos_right h2 (by positivity)
      _ = 2 ^ (t + 1) := by rw [← pow_add]; congr 1; omega

theorem u64_sub_eq (x y : ℕ) (hx : x < 2 ^ 64) (hy : y ≤ x) : u64_sub x y = x - y := by
  unfold u64_sub
  rw [Nat.mod_eq_of_lt (by omega : y < 2 ^ 64)]
  have : x + (2 ^ 64 - y) = (x - y) + 2 ^ 64 := by omega
  rw [this, Nat.add_mod_right]
  apply Nat.mod_eq_of_lt
  omega

theorem subtract_near_bits_eq (X d : ℕ) :
    subtract_near_bits X d =
      (X / 2 ^ d, decide (2 ^ d ≤ 2 * (X % 2 ^ d)),
        decide (X % 2 ^ d ≠ 0 ∧ 2 * (X % 2 ^ d) ≠ 2 ^ d)) := by
  unfold subtract_near_bits
  simp only [and_comm_test, mask_comm_test, Nat.shiftRight_eq_div_pow]
  refine Prod.ext rfl (Prod.ext ?_ ?_)
  · show (if d > 0 then decide (X / 2 ^ (d - 1) % 2 = 1) else false) = _
    rcases Nat.eq_zero_or_pos d with hd0 | hdpos
    · subst hd0
      simp [Nat.mod_one]
    · obtain ⟨r1, r2, r3⟩ := retruncate X 1 d (by norm_num) hdpos
      simp only [Nat.one_mul, Nat.div_one] at r2
      rw [decide_congr r2, if_pos hdpos]
  · show (if d > 1 then decide (X % 2 ^ (d - 1) ≠ 0) else false) = _
    rcases Nat.eq_zero_or_pos d with hd0 | hdpos
    · subst hd0
      simp [Nat.mod_one]
    · obtain ⟨r1, r2, r3⟩ := retruncate X 1 d (by norm_num) hdpos
      simp only [Nat.one_mul, Nat.div_one, Nat.mod_one, ne_eq, not_true_eq_false, or_false] at r3
      rw [decide_congr r3]
      by_cases hd1 : d = 1
      · subst hd1
        simp [Nat.mod_one]
      · rw [if_pos (by omega)]

theorem scale_quotient_eq (X j D : ℕ) (u v : ℤ) (h : v = u - j) :
    ((X : ℚ) / D) * 2 ^ u = (((X * 2 ^ j : ℕ) : ℚ) / D) * 2 ^ v := by
  have hz : (2 : ℚ) ^ u = 2 ^ v * 2 ^ (j : ℤ) := by
    rw [← zpow_add₀ (by norm_num : (2 : ℚ) ≠ 0)]
    congr 1
    omega
  rw [hz, zpow_natCast]
  push_cast
  ring

theorem subtract_near_core (spec : precision_spec) (hv : valid_spec spec)
    (mode : round) (sign : Bool) (e1 e2 : ℤ) (s1 s2 d : ℕ) (q : ℚ)
    (h12 : s1 < 2 ^ (spec.mant_size + 1)) (h22 : s2 < 2 ^ (spec.mant_size + 1))
    (hdle : d ≤ spec.mant_size + 1)
    (hd : (d : ℤ) = e1 - e2) (he1 : e1 ≤ (2 ^ spec.exp_size : ℕ) - 2)
    (hX : s2 < s1 * 2 ^ d)
    (hx : 2 ^ (1 - e2).toNat ∣ s1 * 2 ^ d - s2)
    (hq : |q| = (((s1 * 2 ^ d - s2 : ℕ) : ℚ) / ((2 ^ d : ℕ) : ℚ)) *
      2 ^ (e1 - (spec.bias : ℤ) - spec.mant_size))
    (hsign : decide (q < 0) = sign) :
    float_subtract_ordered sign e1 s1 s2 d mode spec = some (spec_round spec mode q) := by
  have hm := hv.mant_le
  have hPd : 0 < 2 ^ d := by positivity
  have hs1d : s1 * 2 ^ d < 2 ^ (spec.mant_size + d + 1) := by
    have e : 2 ^ (spec.mant_size + d + 1) = 2 ^ (spec.mant_size + 1) * 2 ^ d := by
      rw [← pow_add]; congr 1; omega
    rw [e]
    exact Nat.mul_lt_mul_of_pos_right h12 hPd
  have hbig : 2 ^ (spec.mant_size + d + 1) ≤ 2 ^ 64 :=
    Nat.pow_le_pow_right (by decide) (by omega)
  have hu1 : u64 (s1 <<< d) = s1 * 2 ^ d := by
    rw [Nat.shiftLeft_eq]
    exact u64_of_lt _ (by omega)
  have hu2 : u64_sub (s1 * 2 ^ d) s2 = s1 * 2 ^ d - s2 :=
    u64_sub_eq _ _ (by omega) (by omega)
  have hbit : u64 (1 <<< (spec.mant_size + d)) = 2 ^ (spec.mant_size + d) := by
    rw [Nat.one_shiftLeft]
    apply u64_of_lt
    have : 2 ^ (spec.mant_size + d) < 2 ^ 64 := Nat.pow_lt_pow_right (by decide) (by omega)
    exact this
  have hXne : s1 * 2 ^ d - s2 ≠ 0 := by omega
  obtain ⟨j, hj, hj1, hj2⟩ := normalize_shift_exists (spec.mant_size + d) (s1 * 2 ^ d - s2)
    (by omega) (by omega)
  have hloop := subtract_normalize_loop_eq (spec.mant_size + d) (by omega) j 65 e1
    (s1 * 2 ^ d - s2) hj1 hj2 (by omega)
  unfold float_subtract_ordered
  simp only [if_pos hdle, hu1, hu2, if_neg hXne, hbit, hloop, subtract_near_bits_eq]
  congr 1
  have hqj : |q| = ((((s1 * 2 ^ d - s2) * 2 ^ j : ℕ) : ℚ) / ((2 ^ d : ℕ) : ℚ)) *
      2 ^ (e1 - (j : ℤ) - (spec.bias : ℤ) - spec.mant_size) := by
    rw [hq]
    exact scale_quotient_eq _ j _ _ _ (by ring)
  have hdvd : 2 ^ ((1 - e2).toNat + j) ∣ (s1 * 2 ^ d - s2) * 2 ^ j := by
    rw [pow_add]
    exact Nat.mul_dvd_mul hx (dvd_refl _)
  generalize (s1 * 2 ^ d - s2) * 2 ^ j = N at hj1 hj2 hqj hdvd
  have hN0 : 0 < N := lt_of_lt_of_le (by positivity) hj1
  have hn1 : 2 ^ spec.mant_size ≤ N / 2 ^ d := by
    rw [Nat.le_div_iff_mul_le hPd, ← pow_add]
    exact hj1
  have hn2 : N / 2 ^ d < 2 ^ (spec.mant_size + 1) := by
    rw [Nat.div_lt_iff_lt_mul hPd, ← pow_add]
    have e : spec.mant_size + 1 + d = spec.mant_size + d + 1 := by omega
    rw [e]
    exact hj2
  by_cases hE : 1 ≤ e1 - (j : ℤ)
  · rw [float_subtract_finish_normal spec hv mode sign _ _ _ _ hE (by omega) hn1 hn2,
      spec_round_of_quotient spec mode q _ _ _ hPd hN0 hqj hE hn2 (Or.inr hn1), hsign]
  · have hE' : e1 - (j : ℤ) ≤ 0 := by omega
    -- the difference is a multiple of the smallest subnormal: no bit is lost
    have hdv : 2 ^ d * 2 ^ (1 - (e1 - (j : ℤ))).toNat ∣ N := by
      rw [← pow_add]
      exact (pow_dvd_pow 2 (by omega)).trans hdvd
    obtain ⟨k, hk⟩ := hdv
    have hdivN : N / 2 ^ d = 2 ^ (1 - (e1 - (j : ℤ))).toNat * k := by
      rw [hk, Nat.mul_assoc, Nat.mul_div_cancel_left _ hPd]
    have hmodN : N % 2 ^ d = 0 := by
      rw [hk, Nat.mul_assoc, Nat.mul_mod_right]
    have h1 : decide (2 ^ d ≤ 2 * (N % 2 ^ d)) = false := by
      rw [decide_eq_false_iff_not, hmodN]; omega
    have h2 : decide (N % 2 ^ d ≠ 0 ∧ 2 * (N % 2 ^ d) ≠ 2 ^ d) = false := by
      rw [decide_eq_false_iff_not, hmodN]; simp
    rw [h1, h2, float_subtract_finish_subnormal spec hv mode sign _ _ hE' hn1 hn2,
      spec_round_exact_subnormal spec mode q _ _ _ hPd hN0 hqj hE' hmodN
        (by rw [hdivN]; exact Dvd.intro _ rfl) hn2, hsign]

theorem subtract_far_eq (spec : precision_spec) (hv : valid_spec spec) (e1 : ℤ) (s1 s2 d : ℕ)
    (h11 : 2 ^ spec.mant_size ≤ s1) (h12 : s1 < 2 ^ (spec.mant_size + 1)) :
    subtract_far e1 s1 s2 d spec =
      if s1 = 2 ^ spec.mant_size then
        (e1 - 1, 2 ^ (spec.mant_size + 1) - 1,
          !(decide (d = spec.mant_size + 2) && decide (s2 ≠ 2 ^ spec.mant_size)), true)
      else (e1, s1 - 1, true, true) := by
  have hm := hv.mant_le
  have e1' : 2 ^ (spec.mant_size + 1) = 2 ^ spec.mant_size * 2 := pow_succ _ _
  have hP : 0 < 2 ^ spec.mant_size := by positivity
  have hbig : 2 ^ (spec.mant_size + 1) ≤ 2 ^ 24 := Nat.pow_le_pow_right (by decide) (by omega)
  have hu : u64_sub s1 1 = s1 - 1 := u64_sub_eq _ _ (by omega) (by omega)
  unfold subtract_far
  simp only [hu, Nat.one_shiftLeft, and_two_pow, Bool.true_and]
  by_cases hs1 : s1 = 2 ^ spec.mant_size
  · have hz : (s1 - 1) / 2 ^ spec.mant_size = 0 := Nat.div_eq_of_lt (by omega)
    have hsh : u64 ((s1 - 1) <<< 1) ||| 1 = 2 ^ (spec.mant_size + 1) - 1 := by
      rw [Nat.shiftLeft_eq, pow_one, u64_of_lt _ (by omega)]
      have := Nat.mul_add_lt_is_or (by decide : 1 < 2 ^ 1) (s1 - 1)
      rw [pow_one] at this
      rw [Nat.mul_comm, ← this]
      omega
    rw [if_pos hs1]
    simp only [hz, hsh]
    simp
  · have hz : (s1 - 1) / 2 ^ spec.mant_size = 1 := by
      apply Nat.div_eq_of_lt_le <;> omega
    simp [hz, hs1]

theorem subtract_far_core (spec : precision_spec) (hv : valid_spec spec)
    (mode : round) (sign : Bool) (e1 e2 : ℤ) (s1 s2 d : ℕ) (q : ℚ)
    (h11 : 2 ^ spec.mant_size ≤ s1) (h12 : s1 < 2 ^ (spec.mant_size + 1))
    (h21 : 2 ^ spec.mant_size ≤ s2) (h22 : s2 < 2 ^ (spec.mant_size + 1))
    (hdgt : spec.mant_size + 2 ≤ d)
    (hd : (d : ℤ) = e1 - e2) (he1 : e1 ≤ (2 ^ spec.exp_size : ℕ) - 2)
    (he2 : 1 - (spec.mant_size : ℤ) ≤ e2)
    (hq : |q| = (((s1 * 2 ^ d - s2 : ℕ) : ℚ) / ((2 ^ d : ℕ) : ℚ)) *
      2 ^ (e1 - (spec.bias : ℤ) - spec.mant_size))
    (hsign : decide (q < 0) = sign) :
    float_subtract_ordered sign e1 s1 s2 d mode spec = some (spec_round spec mode q) := by
  have hm := hv.mant_le
  have e1' : 2 ^ (spec.mant_size + 1) = 2 ^ spec.mant_size * 2 := pow_succ _ _
  have hP : 0 < 2 ^ spec.mant_size := by positivity
  obtain ⟨c, rfl⟩ : ∃ c, d = spec.mant_size + 2 + c := ⟨d - (spec.mant_size + 2), by omega⟩
  have hPc : 0 < 2 ^ c := by positivity
  have hd2 : 2 ^ (spec.mant_size + 2 + c) = 2 ^ spec.mant_size * 4 * 2 ^ c := by
    rw [pow_add, pow_add]; norm_num
  have hd1 : 2 ^ (spec.mant_size + 2 + c - 1) = 2 ^ spec.mant_size * 2 * 2 ^ c := by
    have e : spec.mant_size + 2 + c - 1 = spec.mant_size + 1 + c := by omega
    rw [e, pow_add, pow_add]; norm_num
  have hc4 : 2 ^ spec.mant_size * 4 * 2 ^ c = 4 * (2 ^ spec.mant_size * 2 ^ c) := by ring
  have hc2 : 2 ^ spec.mant_size * 2 * 2 ^ c = 2 * (2 ^ spec.mant_size * 2 ^ c) := by ring
  have hmc : 2 ^ spec.mant_size ≤ 2 ^ spec.mant_size * 2 ^ c := Nat.le_mul_of_pos_right _ hPc
  unfold float_subtract_ordered
  rw [if_neg (by omega), subtract_far_eq spec hv e1 s1 s2 _ h11 h12]
  by_cases hs1 : s1 = 2 ^ spec.mant_size
  · rw [if_pos hs1]
    simp only []
    congr 1
    have hW : 2 ^ (spec.mant_size + 1 + c) = 2 * (2 ^ spec.mant_size * 2 ^ c) := by
      rw [pow_add, pow_add]; ring
    have hWc : c = 0 ∨ 2 ^ spec.mant_size * 2 ≤ 2 ^ spec.mant_size * 2 ^ c := by
      rcases Nat.eq_zero_or_pos c with h0 | hpos
      · exact Or.inl h0
      · right
        apply Nat.mul_le_mul_left
        calc 2 = 2 ^ 1 := rfl
          _ ≤ 2 ^ c := Nat.pow_le_pow_right (by decide) hpos
    have hW0 : c = 0 → 2 ^ spec.mant_size * 2 ^ c = 2 ^ spec.mant_size := by
      intro h0; rw [h0]; simp
    have hPd : 0 < 2 ^ (spec.mant_size + 1 + c) := by positivity
    have hsplit : 2 ^ (spec.mant_size + 2 + c) = 2 ^ (spec.mant_size + 1 + c) * 2 ^ 1 := by
      rw [← pow_add]; congr 1; omega
    have hfull : s1 * 2 ^ (spec.mant_size + 2 + c)
        = 2 ^ (spec.mant_size + 1 + c) * (2 ^ (spec.mant_size + 1) - 1)
          + 2 ^ (spec.mant_size + 1 + c) := by
      rw [← Nat.mul_succ, hs1, hsplit]
      have : (2 ^ (spec.mant_size + 1) - 1).succ = 2 ^ spec.mant_size * 2 := by omega
      rw [this]
      ring
    have hN0 : 0 < s1 * 2 ^ (spec.mant_size + 2 + c) - s2 := by omega
    have hdm : (s1 * 2 ^ (spec.mant_size + 2 + c) - s2) / 2 ^ (spec.mant_size + 1 + c)
          = 2 ^ (spec.mant_size + 1) - 1 ∧
        (s1 * 2 ^ (spec.mant_size + 2 + c) - s2) % 2 ^ (spec.mant_size + 1 + c)
          = 2 ^ (spec.mant_size + 1 + c) - s2 := by
      rw [Nat.div_mod_unique hPd]
      refine ⟨?_, by omega⟩
      omega
    have hq1 : |q| = (((s1 * 2 ^ (spec.mant_size + 2 + c) - s2 : ℕ) : ℚ) /
        ((2 ^ (spec.mant_size + 1 + c) : ℕ) : ℚ)) *
          2 ^ (e1 - 1 - (spec.bias : ℤ) - spec.mant_size) := by
      have hcast : ((2 ^ (spec.mant_size + 2 + c) : ℕ) : ℚ)
          = ((2 ^ (spec.mant_size + 1 + c) * 2 ^ 1 : ℕ) : ℚ) := by rw [hsplit]
      rw [hq, hcast]
      exact shift_quotient_eq _ (2 ^ (spec.mant_size + 1 + c)) 1
        (e1 - (spec.bias : ℤ) - spec.mant_size) (e1 - 1 - (spec.bias : ℤ) - spec.mant_size)
        (by push_cast; ring)
    have hn1 : 2 ^ spec.mant_size ≤ 2 ^ (spec.mant_size + 1) - 1 := by omega
    have hn2 : 2 ^ (spec.mant_size + 1) - 1 < 2 ^ (spec.mant_size + 1) := by omega
    have hE : 1 ≤ e1 - 1 := by omega
    rw [float_subtract_finish_normal spec hv mode sign _ _ _ _ hE (by omega) hn1 hn2,
      spec_round_of_quotient spec mode q _ _ _ hPd hN0 hq1 hE (by rw [hdm.1]; exact hn2)
        (Or.inr (by rw [hdm.1]; exact hn1)), hsign, hdm.1, hdm.2]
    apply round_pack_congr
    have hodd : (2 ^ (spec.mant_size + 1) - 1) % 2 = 1 := by omega
    rcases hWc with h0 | hbig
    · have hW1 := hW0 h0
      by_cases hs2 : s2 = 2 ^ spec.mant_size
      · have h1 : decide (2 ^ (spec.mant_size + 1 + c) ≤ 2 * (2 ^ (spec.mant_size + 1 + c) - s2))
            = true := by
          rw [decide_eq_true_iff]; omega
        have h2 : decide (2 ^ (spec.mant_size + 1 + c) - s2 ≠ 0 ∧
            2 * (2 ^ (spec.mant_size + 1 + c) - s2) ≠ 2 ^ (spec.mant_size + 1 + c)) = false := by
          rw [decide_eq_false_iff_not]; omega
        rw [h1, h2]
        cases mode <;> cases sign <;> simp [bits_round_up, hs2, hodd]
      · have h1 : decide (2 ^ (spec.mant_size + 1 + c) ≤ 2 * (2 ^ (spec.mant_size + 1 + c) - s2))
            = false := by
          rw [decide_eq_false_iff_not]; omega
        have h2 : decide (2 ^ (spec.mant_size + 1 + c) - s2 ≠ 0 ∧
            2 * (2 ^ (spec.mant_size + 1 + c) - s2) ≠ 2 ^ (spec.mant_size + 1 + c)) = true := by
          rw [decide_eq_true_iff]; omega
        rw [h1, h2]
        cases mode <;> cases sign <;> simp [bits_round_up, hs2, h0]
    · have hc0 : c ≠ 0 := by
        intro h0
        have := hW0 h0
        omega
      have h1 : decide (2 ^ (spec.mant_size + 1 + c) ≤ 2 * (2 ^ (spec.mant_size + 1 + c) - s2))
          = true := by
        rw [decide_eq_true_iff]; omega
      have h2 : decide (2 ^ (spec.mant_size + 1 + c) - s2 ≠ 0 ∧
          2 * (2 ^ (spec.mant_size + 1 + c) - s2) ≠ 2 ^ (spec.mant_size + 1 + c)) = true := by
        rw [decide_eq_true_iff]; omega
      rw [h1, h2]
      cases mode <;> cases sign <;> simp [bits_round_up, hc0]
  · rw [if_neg hs1]
    simp only []
    congr 1
    have hPd : 0 < 2 ^ (spec.mant_size + 2 + c) := by positivity
    have hN0 : 0 < s1 * 2 ^ (spec.mant_size + 2 + c) - s2 := by
      have : 1 * 2 ^ (spec.mant_size + 2 + c) ≤ s1 * 2 ^ (spec.mant_size + 2 + c) :=
        Nat.mul_le_mul_right _ (by omega)
      omega
    have hdm : (s1 * 2 ^ (spec.mant_size + 2 + c) - s2) / 2 ^ (spec.mant_size + 2 + c) = s1 - 1 ∧
        (s1 * 2 ^ (spec.mant_size + 2 + c) - s2) % 2 ^ (spec.mant_size + 2 + c)
          = 2 ^ (spec.mant_size + 2 + c) - s2 := by
      rw [Nat.div_mod_unique hPd]
      refine ⟨?_, by omega⟩
      have : s1 * 2 ^ (spec.mant_size + 2 + c)
          = 2 ^ (spec.mant_size + 2 + c) * (s1 - 1) + 2 ^ (spec.mant_size + 2 + c) := by
        rw [← Nat.mul_succ, Nat.mul_comm]
        congr 1
        omega
      omega
    have hn1 : 2 ^ spec.mant_size ≤ s1 - 1 := by omega
    have hn2 : s1 - 1 < 2 ^ (spec.mant_size + 1) := by omega
    have hE : 1 ≤ e1 := by omega
    rw [float_subtract_finish_normal spec hv mode sign _ _ _ _ hE he1 hn1 hn2,
      spec_round_of_quotient spec mode q _ _ _ hPd hN0 hq hE (by rw [hdm.1]; exact hn2)
        (Or.inr (by rw [hdm.1]; exact hn1)), hsign, hdm.1, hdm.2]
    have h1 : decide (2 ^ (spec.mant_size + 2 + c) ≤ 2 * (2 ^ (spec.mant_size + 2 + c) - s2))
        = true := by
      rw [decide_eq_true_iff]; omega
    have h2 : decide (2 ^ (spec.mant_size + 2 + c) - s2 ≠ 0 ∧
        2 * (2 ^ (spec.mant_size + 2 + c) - s2) ≠ 2 ^ (spec.mant_size + 2 + c)) = true := by
      rw [decide_eq_true_iff]; omega
    rw [h1, h2]

/-! ## Operand facts for the signed add and subtract -/

theorem fields_shift (spec : precision_spec) (w : ℕ) :
    mant_field spec (w + 2 ^ (spec.mant_size + spec.exp_size)) = mant_field spec w ∧
    exp_field spec (w + 2 ^ (spec.mant_size + spec.exp_size)) = exp_field spec w := by
  have e : 2 ^ (spec.mant_size + spec.exp_size) = 2 ^ spec.exp_size * 2 ^ spec.mant_size := by
    rw [pow_add]; ring
  unfold mant_field exp_field
  rw [e]
  constructor
  · exact Nat.add_mul_mod_self_right _ _ _
  · rw [Nat.add_mul_div_right _ _ (by positivity), Nat.add_mod_right]

theorem fields_flip (spec : precision_spec) (w : ℕ) (hw : w < 2 ^ width spec) :
    mant_field spec (flip_sign spec w) = mant_field spec w ∧
    exp_field spec (flip_sign spec w) = exp_field spec w := by
  have hsb := sign_bit_iff spec w hw
  unfold flip_sign
  by_cases hs : sign_bit spec w = true
  · rw [if_pos hs]
    have h1 := hsb.1 hs
    have h2 := fields_shift spec (w - 2 ^ (spec.mant_size + spec.exp_size))
    rw [Nat.sub_add_cancel h1] at h2
    exact ⟨h2.1.symm, h2.2.symm⟩
  · rw [if_neg hs]
    exact fields_shift spec w

theorem norm_flip (spec : precision_spec) (w : ℕ) (hw : w < 2 ^ width spec) :
    norm_exp spec (flip_sign spec w) = norm_exp spec w ∧
    norm_sig spec (flip_sign spec w) = norm_sig spec w ∧
    load_mant spec (flip_sign spec w) = load_mant spec w := by
  obtain ⟨h1, h2⟩ := fields_flip spec w hw
  unfold norm_exp norm_sig load_mant norm_shift
  rw [h1, h2]
  exact ⟨rfl, rfl, rfl⟩

theorem finite_nonzero_flip (spec : precision_spec) (hv : valid_spec spec) (w : ℕ)
    (hw : w < 2 ^ width spec) (hf : finite_nonzero spec w) :
    finite_nonzero spec (flip_sign spec w) := by
  unfold finite_nonzero
  rw [get_float_case_flip_sign spec hv w hw]
  exact hf

theorem value_flip (spec : precision_spec) (w : ℕ) (hw : w < 2 ^ width spec) :
    value spec (flip_sign spec w) = -value spec w := by
  obtain ⟨h1, h2⟩ := fields_flip spec w hw
  unfold value
  rw [h1, h2, sign_bit_flip spec w hw]
  cases sign_bit spec w <;> simp

theorem norm_exp_sign (spec : precision_spec) (w : ℕ) (hM : exp_field spec w = 0 →
    mant_field spec w ≠ 0) :
    (exp_field spec w = 0 → norm_exp spec w ≤ 0) ∧ (exp_field spec w ≠ 0 → 1 ≤ norm_exp spec w) := by
  unfold norm_exp
  constructor
  · intro h0
    rw [if_pos h0]
    have := (norm_shift_spec spec w (hM h0)).1
    omega
  · intro h0
    rw [if_neg h0]
    omega

theorem finite_mant_ne (spec : precision_spec) (hv : valid_spec spec) (w : ℕ)
    (hf : finite_nonzero spec w) : exp_field spec w = 0 → mant_field spec w ≠ 0 := by
  intro h0
  rcases hf with h | h
  · exact absurd h0 ((case_normal_iff spec hv w).1 h).1
  · exact ((case_subnormal_iff spec hv w).1 h).2

theorem norm_sig_dvd (spec : precision_spec) (hv : valid_spec spec) (w : ℕ)
    (hf : finite_nonzero spec w) :
    2 ^ (1 - norm_exp spec w).toNat ∣ norm_sig spec w := by
  unfold norm_exp norm_sig
  by_cases h0 : exp_field spec w = 0
  · rw [if_pos h0, if_pos h0]
    have e : (1 - (1 - (norm_shift spec w : ℤ))).toNat = norm_shift spec w := by omega
    rw [e]
    exact Dvd.intro_left _ rfl
  · rw [if_neg h0, if_neg h0]
    have e : (1 - (exp_field spec w : ℤ)).toNat = 0 := by omega
    rw [e, pow_zero]
    exact one_dvd _

theorem load_mant_lt_iff (spec : precision_spec) (hv : valid_spec spec) (x y : ℕ)
    (hx : finite_nonzero spec x) (hy : finite_nonzero spec y)
    (he : norm_exp spec x = norm_exp spec y) :
    load_mant spec x < load_mant spec y ↔ norm_sig spec x < norm_sig spec y := by
  have sx := norm_exp_sign spec x (finite_mant_ne spec hv x hx)
  have sy := norm_exp_sign spec y (finite_mant_ne spec hv y hy)
  unfold load_mant norm_sig
  by_cases hx0 : exp_field spec x = 0
  · have hy0 : exp_field spec y = 0 := by
      by_contra hy0
      have := sx.1 hx0
      have := sy.2 hy0
      omega
    rw [if_pos hx0, if_pos hy0, if_pos hx0, if_pos hy0]
  · have hy0 : ¬ exp_field spec y = 0 := by
      intro hy0
      have := sx.2 hx0
      have := sy.1 hy0
      omega
    rw [if_neg hx0, if_neg hy0, if_neg hx0, if_neg hy0]
    omega

theorem sum_rep (s1 s2 d : ℕ) (t1 t2 : ℤ) (hd : (d : ℤ) = t1 - t2) :
    (s1 : ℚ) * 2 ^ t1 + (s2 : ℚ) * 2 ^ t2 =
      (((s1 * 2 ^ d + s2 : ℕ) : ℚ) / ((2 ^ d : ℕ) : ℚ)) * 2 ^ t1 := by
  have hz : (2 : ℚ) ^ t2 = 2 ^ t1 / 2 ^ d := by
    rw [← zpow_natCast, ← zpow_sub₀ (by norm_num : (2 : ℚ) ≠ 0)]
    congr 1
    omega
  rw [hz]
  push_cast
  field_simp
  ring

theorem diff_rep (s1 s2 d : ℕ) (t1 t2 : ℤ) (hd : (d : ℤ) = t1 - t2) (hle : s2 ≤ s1 * 2 ^ d) :
    (s1 : ℚ) * 2 ^ t1 - (s2 : ℚ) * 2 ^ t2 =
      (((s1 * 2 ^ d - s2 : ℕ) : ℚ) / ((2 ^ d : ℕ) : ℚ)) * 2 ^ t1 := by
  have hz : (2 : ℚ) ^ t2 = 2 ^ t1 / 2 ^ d := by
    rw [← zpow_natCast, ← zpow_sub₀ (by norm_num : (2 : ℚ) ≠ 0)]
    congr 1
    omega
  rw [hz, Nat.cast_sub hle]
  push_cast
  field_simp
  ring

theorem signed_abs (s : Bool) (P : ℚ) (hP : 0 < P) :
    |(if s then -1 else 1) * P| = P ∧ decide ((if s then -1 else 1) * P < 0) = s := by
  cases s
  · simp [abs_of_pos hP, le_of_lt hP]
  · simp [abs_of_pos hP, hP]

theorem addition_order_eq (spec : precision_spec) (ea eb : ℤ) (la lb : ℕ)
    (h1 : ea - eb < 65536) (h2 : eb - ea < 65536) :
    addition_order ea la eb lb spec =
      if ea < eb then
        (eb, lb ||| 1 <<< spec.mant_size, la ||| 1 <<< spec.mant_size, (eb - ea).toNat)
      else (ea, la ||| 1 <<< spec.mant_size, lb ||| 1 <<< spec.mant_size, (ea - eb).toNat) := by
  unfold addition_order u16
  by_cases h : ea < eb
  · simp only [h, decide_True, if_true]
    refine Prod.ext rfl (Prod.ext rfl (Prod.ext rfl ?_))
    show ((eb - ea) % 65536).toNat = (eb - ea).toNat
    omega
  · simp only [h, decide_False, if_false, Bool.false_eq_true]
    refine Prod.ext rfl (Prod.ext rfl (Prod.ext rfl ?_))
    show ((ea - eb) % 65536).toNat = (ea - eb).toNat
    omega

theorem subtract_order_eq (spec : precision_spec) (ea eb : ℤ) (la lb : ℕ) (sign : Bool)
    (h1 : ea - eb < 65536) (h2 : eb - ea < 65536) :
    subtract_order ea la eb lb sign spec =
      if ea < eb ∨ (ea = eb ∧ la < lb) then
        (!sign, eb, lb ||| 1 <<< spec.mant_size, la ||| 1 <<< spec.mant_size, (eb - ea).toNat)
      else
        (sign, ea, la ||| 1 <<< spec.mant_size, lb ||| 1 <<< spec.mant_size,
          (ea - eb).toNat) := by
  unfold subtract_order u16
  by_cases h : ea < eb ∨ (ea = eb ∧ la < lb)
  · have hb : (decide (ea < eb) || (decide (ea = eb) && decide (la < lb))) = true := by
      simpa using h
    simp only [hb, if_true, if_pos h]
    refine Prod.ext rfl (Prod.ext rfl (Prod.ext rfl (Prod.ext rfl ?_)))
    show ((eb - ea) % 65536).toNat = (eb - ea).toNat
    omega
  · have hb : (decide (ea < eb) || (decide (ea = eb) && decide (la < lb))) = false := by
      simpa using h
    simp only [hb, if_neg h, Bool.false_eq_true, if_false]
    refine Prod.ext rfl (Prod.ext rfl (Prod.ext rfl (Prod.ext rfl ?_)))
    show ((ea - eb) % 65536).toNat = (ea - eb).toNat
    have : ¬ ea < eb := fun hh => h (Or.inl hh)
    omega

theorem float_addition_finite_eq (spec : precision_spec) (hv : valid_spec spec) (mode : round)
    (a b : Nat) (ha : a < 2 ^ width spec)
    (hfa : finite_nonzero spec a) (hfb : finite_nonzero spec b) :
    float_addition a b mode spec =
      some (float_addition_finite (norm_exp spec a) (load_mant spec a) (norm_exp spec b)
        (load_mant spec b) (sign_bit spec a) mode spec) := by
  obtain ⟨a1, a2, a3⟩ := finite_not_special spec a hfa
  obtain ⟨b1, b2, b3⟩ := finite_not_special spec b hfb
  unfold float_addition
  simp only [a1, a2, a3, b1, b2, b3, false_or, or_false, false_and, and_false, if_false,
    load_operand_eq spec hv a hfa, load_operand_eq spec hv b hfb, code_sign_eq spec a ha]

theorem float_subtract_finite_eq (spec : precision_spec) (hv : valid_spec spec) (mode : round)
    (a b : Nat) (ha : a < 2 ^ width spec)
    (hfa : finite_nonzero spec a) (hfb : finite_nonzero spec b) :
    float_subtract a b mode spec =
      float_subtract_finite (norm_exp spec a) (load_mant spec a) (norm_exp spec b)
        (load_mant spec b) (sign_bit spec a) mode spec := by
  obtain ⟨a1, a2, a3⟩ := finite_not_special spec a hfa
  obtain ⟨b1, b2, b3⟩ := finite_not_special spec b hfb
  unfold float_subtract
  simp only [a1, a2, a3, b1, b2, b3, false_or, or_false, false_and, and_false, if_false,
    load_operand_eq spec hv a hfa, load_operand_eq spec hv b hfb, code_sign_eq spec a ha]

/-! ## Correct rounding of the magnitude add and the magnitude subtract -/

theorem norm_exp_diff_lt (spec : precision_spec) (hv : valid_spec spec) (a b : ℕ)
    (hfa : finite_nonzero spec a) (hfb : finite_nonzero spec b) :
    norm_exp spec a - norm_exp spec b < 65536 := by
  have h1 := (norm_exp_bounds spec hv a hfa).2
  have h2 := (norm_exp_bounds spec hv b hfb).1
  have h3 := exp_pow_le spec hv
  have h4 := hv.mant_le
  omega

theorem float_addition_correct (spec : precision_spec) (hs : spec = f16_spec ∨ spec = f32_spec)
    (mode : round) (a b : ℕ) (ha : a < 2 ^ width spec)
    (hfa : finite_nonzero spec a) (hfb : finite_nonzero spec b)
    (hsg : sign_bit spec a = sign_bit spec b) :
    float_addition a b mode spec = some (spec_round spec mode (value spec a + value spec b)) := by
  have hv := valid_of_format spec hs
  obtain ⟨a11, a12⟩ := norm_sig_bounds spec hv a hfa
  obtain ⟨b11, b12⟩ := norm_sig_bounds spec hv b hfb
  obtain ⟨ae1, ae2⟩ := norm_exp_bounds spec hv a hfa
  obtain ⟨be1, be2⟩ := norm_exp_bounds spec hv b hfb
  have h4 := exp_pow_ge spec hv
  have hA : (0 : ℚ) < (norm_sig spec a : ℚ) *
      2 ^ (norm_exp spec a - (spec.bias : ℤ) - spec.mant_size) :=
    mul_pos (norm_sig_pos spec hv a hfa) (by positivity)
  have hB : (0 : ℚ) < (norm_sig spec b : ℚ) *
      2 ^ (norm_exp spec b - (spec.bias : ℤ) - spec.mant_size) :=
    mul_pos (norm_sig_pos spec hv b hfb) (by positivity)
  have hval : value spec a + value spec b = (if sign_bit spec a then -1 else 1) *
      ((norm_sig spec a : ℚ) * 2 ^ (norm_exp spec a - (spec.bias : ℤ) - spec.mant_size) +
        (norm_sig spec b : ℚ) * 2 ^ (norm_exp spec b - (spec.bias : ℤ) - spec.mant_size)) := by
    rw [value_eq spec hv a hfa, value_eq spec hv b hfb, hsg]
    ring
  obtain ⟨habs, hsgn⟩ := signed_abs (sign_bit spec a) _ (add_pos hA hB)
  rw [← hval] at habs hsgn
  rw [float_addition_finite_eq spec hv mode a b ha hfa hfb]
  congr 1
  unfold float_addition_finite
  rw [addition_order_eq spec _ _ _ _ (norm_exp_diff_lt spec hv a b hfa hfb)
    (norm_exp_diff_lt spec hv b a hfb hfa)]
  by_cases h : norm_exp spec a < norm_exp spec b
  · rw [if_pos h]
    simp only [load_mant_or spec hv a hfa, load_mant_or spec hv b hfb]
    have hd : (((norm_exp spec b - norm_exp spec a).toNat : ℕ) : ℤ)
        = norm_exp spec b - norm_exp spec a := by omega
    exact addition_core spec hs mode (sign_bit spec a) (norm_exp spec b) (norm_exp spec a)
      (norm_sig spec b) (norm_sig spec a) _ _ b11 b12 a11 a12 hd (by omega)
      (norm_sig_dvd spec hv b hfb) (norm_sig_dvd spec hv a hfa)
      (by rw [habs, add_comm]; exact sum_rep _ _ _ _ _ (by omega)) hsgn
  · rw [if_neg h]
    simp only [load_mant_or spec hv a hfa, load_mant_or spec hv b hfb]
    have hd : (((norm_exp spec a - norm_exp spec b).toNat : ℕ) : ℤ)
        = norm_exp spec a - norm_exp spec b := by omega
    exact addition_core spec hs mode (sign_bit spec a) (norm_exp spec a) (norm_exp spec b)
      (norm_sig spec a) (norm_sig spec b) _ _ a11 a12 b11 b12 hd (by omega)
      (norm_sig_dvd spec hv a hfa) (norm_sig_dvd spec hv b hfb)
      (by rw [habs]; exact sum_rep _ _ _ _ _ (by omega)) hsgn

theorem subtract_ordered_correct (spec : precision_spec) (hv : valid_spec spec) (mode : round)
    (sign : Bool) (hi lo : ℕ) (hfh : finite_nonzero spec hi) (hfl : finite_nonzero spec lo)
    (hord : norm_exp spec lo < norm_exp spec hi ∨
      (norm_exp spec lo = norm_exp spec hi ∧ norm_sig spec lo < norm_sig spec hi))
    (q : ℚ)
    (hq : q = (if sign then -1 else 1) *
      ((norm_sig spec hi : ℚ) * 2 ^ (norm_exp spec hi - (spec.bias : ℤ) - spec.mant_size) -
        (norm_sig spec lo : ℚ) * 2 ^ (norm_exp spec lo - (spec.bias : ℤ) - spec.mant_size))) :
    float_subtract_ordered sign (norm_exp spec hi) (norm_sig spec hi) (norm_sig spec lo)
      (norm_exp spec hi - norm_exp spec lo).toNat mode spec = some (spec_round spec mode q) := by
  obtain ⟨h11, h12⟩ := norm_sig_bounds spec hv hi hfh
  obtain ⟨h21, h22⟩ := norm_sig_bounds spec hv lo hfl
  obtain ⟨he1, he2⟩ := norm_exp_bounds spec hv hi hfh
  obtain ⟨le1, le2⟩ := norm_exp_bounds spec hv lo hfl
  have hx1 := norm_sig_dvd spec hv hi hfh
  have hx2 := norm_sig_dvd spec hv lo hfl
  have h4 := exp_pow_ge spec hv
  have e1' : 2 ^ (spec.mant_size + 1) = 2 ^ spec.mant_size * 2 := pow_succ _ _
  have hd : (((norm_exp spec hi - norm_exp spec lo).toNat : ℕ) : ℤ)
      = norm_exp spec hi - norm_exp spec lo := by omega
  have hd0 : (norm_exp spec hi - norm_exp spec lo).toNat = 0 →
      norm_exp spec lo = norm_exp spec hi := by omega
  generalize (norm_exp spec hi - norm_exp spec lo).toNat = d at hd hd0
  generalize norm_exp spec hi = e1 at *
  generalize norm_exp spec lo = e2 at *
  generalize norm_sig spec hi = s1 at *
  generalize norm_sig spec lo = s2 at *
  have hX : s2 < s1 * 2 ^ d := by
    rcases Nat.eq_zero_or_pos d with h0 | hpos
    · have := hd0 h0
      subst h0
      rw [pow_zero, Nat.mul_one]
      omega
    · have h2 : 2 ≤ 2 ^ d := by
        calc 2 = 2 ^ 1 := rfl
          _ ≤ 2 ^ d := Nat.pow_le_pow_right (by decide) hpos
      have := Nat.mul_le_mul h11 h2
      omega
  have hrep := diff_rep s1 s2 d (e1 - (spec.bias : ℤ) - spec.mant_size)
    (e2 - (spec.bias : ℤ) - spec.mant_size) (by omega) (le_of_lt hX)
  rw [hrep] at hq
  have hP : (0 : ℚ) < (((s1 * 2 ^ d - s2 : ℕ) : ℚ) / ((2 ^ d : ℕ) : ℚ)) *
      2 ^ (e1 - (spec.bias : ℤ) - spec.mant_size) := by
    apply mul_pos
    · apply div_pos
      · exact Nat.cast_pos.2 (by omega)
      · exact Nat.cast_pos.2 (by positivity)
    · positivity
  obtain ⟨habs, hsgn⟩ := signed_abs sign _ hP
  rw [← hq] at habs hsgn
  by_cases hnear : d ≤ spec.mant_size + 1
  · refine subtract_near_core spec hv mode sign e1 e2 s1 s2 d q h12 h22 hnear hd (by omega) hX
      ?_ habs hsgn
    apply Nat.dvd_sub'
    · have : 2 ^ (1 - e2).toNat ∣ 2 ^ ((1 - e1).toNat + d) := pow_dvd_pow 2 (by omega)
      rw [pow_add] at this
      exact this.trans (Nat.mul_dvd_mul hx1 (dvd_refl _))
    · exact hx2
  · exact subtract_far_core spec hv mode sign e1 e2 s1 s2 d q h11 h12 h21 h22 (by omega) hd
      (by omega) le1 habs hsgn

theorem float_subtract_correct (spec : precision_spec) (hv : valid_spec spec)
    (mode : round) (x y : ℕ) (hx : x < 2 ^ width spec)
    (hfx : finite_nonzero spec x) (hfy : finite_nonzero spec y)
    (hsg : sign_bit spec x = sign_bit spec y) (hne : value spec x - value spec y ≠ 0) :
    float_subtract x y mode spec = some (spec_round spec mode (value spec x - value spec y)) := by
  have hval : value spec x - value spec y = (if sign_bit spec x then -1 else 1) *
      ((norm_sig spec x : ℚ) * 2 ^ (norm_exp spec x - (spec.bias : ℤ) - spec.mant_size) -
        (norm_sig spec y : ℚ) * 2 ^ (norm_exp spec y - (spec.bias : ℤ) - spec.mant_size)) := by
    rw [value_eq spec hv x hfx, value_eq spec hv y hfy, hsg]
    ring
  rw [float_subtract_finite_eq spec hv mode x y hx hfx hfy]
  unfold float_subtract_finite
  rw [subtract_order_eq spec _ _ _ _ _ (norm_exp_diff_lt spec hv x y hfx hfy)
    (norm_exp_diff_lt spec hv y x hfy hfx)]
  by_cases h : norm_exp spec x < norm_exp spec y ∨
      (norm_exp spec x = norm_exp spec y ∧ load_mant spec x < load_mant spec y)
  · rw [if_pos h]
    simp only [load_mant_or spec hv x hfx, load_mant_or spec hv y hfy]
    apply subtract_ordered_correct spec hv mode _ y x hfy hfx
    · rcases h with h | ⟨h1, h2⟩
      · exact Or.inl h
      · exact Or.inr ⟨h1, (load_mant_lt_iff spec hv x y hfx hfy h1).1 h2⟩
    · rw [hval]
      cases sign_bit spec x <;> simp
  · rw [if_neg h]
    simp only [load_mant_or spec hv x hfx, load_mant_or spec hv y hfy]
    apply subtract_ordered_correct spec hv mode _ x y hfx hfy _ _ hval
    have h1 : ¬ norm_exp spec x < norm_exp spec y := fun hh => h (Or.inl hh)
    by_cases he : norm_exp spec y = norm_exp spec x
    · right
      refine ⟨he, ?_⟩
      have h2 : ¬ norm_sig spec x < norm_sig spec y := fun hh =>
        h (Or.inr ⟨he.symm, (load_mant_lt_iff spec hv x y hfx hfy he.symm).2 hh⟩)
      have h3 : norm_sig spec x ≠ norm_sig spec y := by
        intro heq
        apply hne
        rw [hval, heq, he]
        simp
      omega
    · left
      omega

theorem float_add_diff_correct (spec : precision_spec) (hs : spec = f16_spec ∨ spec = f32_spec)
    (mode : round) (a b : ℕ) (ha : a < 2 ^ width spec) (hb : b < 2 ^ width spec)
    (hfa : finite_nonzero spec a) (hfb : finite_nonzero spec b)
    (hne : value spec a + value spec b ≠ 0) :
    float_add_diff a b mode spec = some (spec_round spec mode (value spec a + value spec b)) := by
  have hv := valid_of_format spec hs
  obtain ⟨a1, a2, a3⟩ := finite_not_special spec a hfa
  obtain ⟨b1, b2, b3⟩ := finite_not_special spec b hfb
  rw [float_add_diff_unfold spec hv mode a b ha hb]
  by_cases hsg : sign_bit spec a = sign_bit spec b
  · rw [if_pos hsg]
    exact float_addition_correct spec hs mode a b ha hfa hfb hsg
  · rw [if_neg hsg, if_neg (fun h => a3 h.1), if_neg a3, if_neg b3]
    by_cases hsb : sign_bit spec b = true
    · rw [if_pos hsb]
      have e : value spec a + value spec b = value spec a - value spec (flip_sign spec b) := by
        rw [value_flip spec b hb]; ring
      rw [e] at hne ⊢
      apply float_subtract_correct spec hv mode a (flip_sign spec b) ha hfa
        (finite_nonzero_flip spec hv b hb hfb) _ hne
      rw [sign_bit_flip spec b hb, hsb]
      cases hsa : sign_bit spec a
      · rfl
      · exact absurd (hsa.trans hsb.symm) hsg
    · rw [if_neg hsb]
      have e : value spec a + value spec b = value spec b - value spec (flip_sign spec a) := by
        rw [value_flip spec a ha]; ring
      rw [e] at hne ⊢
      apply float_subtract_correct spec hv mode b (flip_sign spec a) hb hfb
        (finite_nonzero_flip spec hv a ha hfa) _ hne
      rw [sign_bit_flip spec a ha]
      have hsb' : sign_bit spec b = false := by simpa using hsb
      rw [hsb']
      cases hsa : sign_bit spec a
      · exact absurd (hsa.trans hsb'.symm) hsg
      · rfl

theorem float_sub_diff_correct (spec : precision_spec) (hs : spec = f16_spec ∨ spec = f32_spec)
    (mode : round) (a b : ℕ) (ha : a < 2 ^ width spec) (hb : b < 2 ^ width spec)
    (hfa : finite_nonzero spec a) (hfb : finite_nonzero spec b)
    (hne : value spec a - value spec b ≠ 0) :
    float_sub_diff a b mode spec = some (spec_round spec mode (value spec a - value spec b)) := by
  have hv := valid_of_format spec hs
  have e : value spec a - value spec b = value spec a + value spec (flip_sign spec b) := by
    rw [value_flip spec b hb]; ring
  rw [float_sub_diff_unfold spec hv mode a b hb, e]
  rw [e] at hne
  exact float_add_diff_correct spec hs mode a (flip_sign spec b) ha (flip_sign_lt spec b hb) hfa
    (finite_nonzero_flip spec hv b hb hfb) hne

/-- C1 (multiply is correctly rounded) fails at half precision, `ties_to_even`,
`0x0556 * 0x0E00`: the exact product `2049 * 2^-36` lies above the midpoint `2^-25` between zero
and the smallest subnormal `2^-24`, so the correctly rounded product is the word `0x0001`, while
`float_multiply` returns the zero word.  The denormalising shift equals `mant_size + 1` there and
the former half bit is not folded into the sticky bit (lines 273-277). -/
theorem multiply_drops_half_bit :
    float_multiply 0x0556 0x0E00 round.ties_to_even f16_spec = some 0x0000 ∧
    0x0556 < 2 ^ width f16_spec ∧ 0x0E00 < 2 ^ width f16_spec ∧
    finite_nonzero f16_spec 0x0556 ∧ finite_nonzero f16_spec 0x0E00 ∧
    value f16_spec 0x0556 * value f16_spec 0x0E00 = 2049 / 2 ^ 36 ∧
    spec_round f16_spec round.ties_to_even (value f16_spec 0x0556 * value f16_spec 0x0E00)
      = 0x0001 := by
  have hval : value f16_spec 0x0556 * value f16_spec 0x0E00 = 2049 / 2 ^ 36 := by
    have e1 : exp_field f16_spec 0x0556 = 1 := by decide
    have e2 : mant_field f16_spec 0x0556 = 342 := by decide
    have e3 : sign_bit f16_spec 0x0556 = false := by decide
    have e4 : exp_field f16_spec 0x0E00 = 3 := by decide
    have e5 : mant_field f16_spec 0x0E00 = 512 := by decide
    have e6 : sign_bit f16_spec 0x0E00 = false := by decide
    unfold value
    simp only [e1, e2, e3, e4, e5, e6]
    norm_num [f16_spec, zpow_neg]
  refine ⟨by decide, by decide, by decide, by decide, by decide, hval, ?_⟩
  rw [hval]
  have hq : |(2049 / 2 ^ 36 : ℚ)| = ((2098176 : ℕ) : ℚ) / ((4194304 : ℕ) : ℚ) *
      2 ^ ((1 : ℤ) - (f16_spec.bias : ℤ) - f16_spec.mant_size) := by
    rw [abs_of_pos (by positivity)]
    norm_num [f16_spec, zpow_neg]
  rw [spec_round_of_quotient f16_spec round.ties_to_even _ 2098176 4194304 1 (by norm_num)
    (by norm_num) hq (le_refl 1) (by decide) (Or.inl rfl)]
  have hs : decide ((2049 / 2 ^ 36 : ℚ) < 0) = false := by
    rw [decide_eq_false_iff_not]
    norm_num
  rw [hs]
  decide

/-- C2 (divide is correctly rounded): for both formats, every rounding mode and every pair of
finite non-zero operand words fitting in the format width, `float_divide` returns the encoding of
the exact rational quotient `value(a) / value(b)` rounded to the format under that mode (sign xor,
gradual underflow, overflow table).  In particular single precision, `ties_to_even`,
`0x3F800000 / 0x40400000 = 0x3EAAAAAB`. -/
theorem divide_correctly_rounded (spec : precision_spec)
    (hs : spec = f16_spec ∨ spec = f32_spec) (mode : round) (a b : Nat)
    (ha : a < 2 ^ width spec) (hb : b < 2 ^ width spec)
    (hfa : finite_nonzero spec a) (hfb : finite_nonzero spec b) :
    float_divide a b mode spec = some (spec_round spec mode (value spec a / value spec b)) ∧
    float_divide 0x3F800000 0x40400000 round.ties_to_even f32_spec = some 0x3EAAAAAB :=
  ⟨float_divide_correct spec hs mode a b ha hb hfa hfb, by decide⟩

/-- Witness for `divide_correctly_rounded`: single precision, `ties_to_even`, one by three. -/
theorem divide_correctly_rounded_witness :
    0x3F800000 < 2 ^ width f32_spec ∧ 0x40400000 < 2 ^ width f32_spec ∧
    finite_nonzero f32_spec 0x3F800000 ∧ finite_nonzero f32_spec 0x40400000 ∧
    (float_divide 0x3F800000 0x40400000 round.ties_to_even f32_spec
        = some (spec_round f32_spec round.ties_to_even
            (value f32_spec 0x3F800000 / value f32_spec 0x40400000)) ∧
      float_divide 0x3F800000 0x40400000 round.ties_to_even f32_spec = some 0x3EAAAAAB) :=
  ⟨by decide, by decide, by decide, by decide,
    divide_correctly_rounded f32_spec (Or.inr rfl) round.ties_to_even 0x3F800000 0x40400000
      (by decide) (by decide) (by decide) (by decide)⟩

/-- C3 (signed add and subtract are correctly rounded): for both formats, every rounding mode and
every pair of finite non-zero operand words fitting in the format width, `float_add_diff` returns
the encoding of the exact rational sum `value(a) + value(b)` rounded to the format under that
mode whenever the sum is not zero, and `float_sub_diff` returns the encoding of the correctly
rounded exact difference `value(a) - value(b)` whenever the difference is not zero (subnormal
results and the overflow table included).  In particular half precision, `ties_to_even`,
`0x3C00 + 0x3C00 = 0x4000`. -/
theorem add_sub_correctly_rounded (spec : precision_spec)
    (hs : spec = f16_spec ∨ spec = f32_spec) (mode : round) (a b : Nat)
    (ha : a < 2 ^ width spec) (hb : b < 2 ^ width spec)
    (hfa : finite_nonzero spec a) (hfb : finite_nonzero spec b) :
    (value spec a + value spec b ≠ 0 →
      float_add_diff a b mode spec
        = some (spec_round spec mode (value spec a + value spec b))) ∧
    (value spec a - value spec b ≠ 0 →
      float_sub_diff a b mode spec
        = some (spec_round spec mode (value spec a - value spec b))) ∧
    float_add_diff 0x3C00 0x3C00 round.ties_to_even f16_spec = some 0x4000 :=
  ⟨float_add_diff_correct spec hs mode a b ha hb hfa hfb,
    float_sub_diff_correct spec hs mode a b ha hb hfa hfb, by decide⟩

/-- Witness for `add_sub_correctly_rounded`: half precision, `ties_to_even`, one plus a half and
one minus a half. -/
theorem add_sub_correctly_rounded_witness :
    0x3C00 < 2 ^ width f16_spec ∧ 0x3800 < 2 ^ width f16_spec ∧
    finite_nonzero f16_spec 0x3C00 ∧ finite_nonzero f16_spec 0x3800 ∧
    value f16_spec 0x3C00 + value f16_spec 0x3800 ≠ 0 ∧
    value f16_spec 0x3C00 - value f16_spec 0x3800 ≠ 0 ∧
    float_add_diff 0x3C00 0x3800 round.ties_to_even f16_spec
      = some (spec_round f16_spec round.ties_to_even
          (value f16_spec 0x3C00 + value f16_spec 0x3800)) ∧
    float_sub_diff 0x3C00 0x3800 round.ties_to_even f16_spec
      = some (spec_round f16_spec round.ties_to_even
          (value f16_spec 0x3C00 - value f16_spec 0x3800)) :=
  have h1 : value f16_spec 0x3C00 = 1 := by
    norm_num [value, exp_field, mant_field, sign_bit, f16_spec]
  have h2 : value f16_spec 0x3800 = 1 / 2 := by
    norm_num [value, exp_field, mant_field, sign_bit, f16_spec]
  have hsum : value f16_spec 0x3C00 + value f16_spec 0x3800 ≠ 0 := by
    rw [h1, h2]; norm_num
  have hdiff : value f16_spec 0x3C00 - value f16_spec 0x3800 ≠ 0 := by
    rw [h1, h2]; norm_num
  ⟨by decide, by decide, by decide, by decide, hsum, hdiff,
    (add_sub_correctly_rounded f16_spec (Or.inl rfl) round.ties_to_even 0x3C00 0x3800
      (by decide) (by decide) (by decide) (by decide)).1 hsum,
    (add_sub_correctly_rounded f16_spec (Or.inl rfl) round.ties_to_even 0x3C00 0x3800
      (by decide) (by decide) (by decide) (by decide)).2.1 hdiff⟩

/-! ## Classifier, rounding engine, constructors and the subnormal search -/

theorem case_nan_iff (spec : precision_spec) (hv : valid_spec spec) (w : Nat) :
    get_float_case w spec = cases.nan ↔
      exp_field spec w = 2 ^ spec.exp_size - 1 ∧ mant_field spec w ≠ 0 := by
  have h4 : 4 ≤ 2 ^ spec.exp_size := by
    calc 4 = 2 ^ 2 := rfl
      _ ≤ 2 ^ spec.exp_size := Nat.pow_le_pow_right (by decide) hv.exp_pos
  rw [get_float_case_eq spec hv]
  constructor
  · intro h
    split_ifs at h with h1 h2 h3 h4
    exact ⟨h3, h4⟩
  · intro h
    have h1 : ¬ (exp_field spec w = 0 ∧ mant_field spec w = 0) := fun hh => h.2 hh.2
    have h2 : ¬ (exp_field spec w = 0 ∧ mant_field spec w ≠ 0) := fun hh => by
      have := hh.1
      have := h.1
      omega
    rw [if_neg h1, if_neg h2, if_pos h.1, if_neg h.2]

/-- C11 (classifier): for both formats and every 32-bit word `w`, the class that `get_float_case`
returns is determined by the exponent field `E = (w >> mant_size) mod 2^exp_size` and the mantissa
field `M = w mod 2^mant_size` alone: zero iff `E = 0` and `M = 0`; subnormal iff `E = 0` and
`M != 0`; inf iff `E = 2^exp_size - 1` and `M = 0`; nan iff `E = 2^exp_size - 1` and `M != 0`;
normal iff `E` is neither `0` nor `2^exp_size - 1`. -/
theorem classifier_by_fields (spec : precision_spec) (hs : spec = f16_spec ∨ spec = f32_spec)
    (w : Nat) (_hw : w < 2 ^ 32) :
    (get_float_case w spec = cases.zero ↔
      (w >>> spec.mant_size) % 2 ^ spec.exp_size = 0 ∧ w % 2 ^ spec.mant_size = 0) ∧
    (get_float_case w spec = cases.subnormal ↔
      (w >>> spec.mant_size) % 2 ^ spec.exp_size = 0 ∧ w % 2 ^ spec.mant_size ≠ 0) ∧
    (get_float_case w spec = cases.inf ↔
      (w >>> spec.mant_size) % 2 ^ spec.exp_size = 2 ^ spec.exp_size - 1 ∧
        w % 2 ^ spec.mant_size = 0) ∧
    (get_float_case w spec = cases.nan ↔
      (w >>> spec.mant_size) % 2 ^ spec.exp_size = 2 ^ spec.exp_size - 1 ∧
        w % 2 ^ spec.mant_size ≠ 0) ∧
    (get_float_case w spec = cases.normal ↔
      (w >>> spec.mant_size) % 2 ^ spec.exp_size ≠ 0 ∧
        (w >>> spec.mant_size) % 2 ^ spec.exp_size ≠ 2 ^ spec.exp_size - 1) := by
  have hv := valid_of_format spec hs
  rw [Nat.shiftRight_eq_div_pow]
  exact ⟨case_zero_iff spec hv w, case_subnormal_iff spec hv w, case_inf_iff spec hv w,
    case_nan_iff spec hv w, case_normal_iff spec hv w⟩

/-- Witness for `classifier_by_fields`: half precision, the word `0x7C00`. -/
theorem classifier_by_fields_witness :
    0x7C00 < 2 ^ 32 ∧
    (get_float_case 0x7C00 f16_spec = cases.inf ↔
      (0x7C00 >>> f16_spec.mant_size) % 2 ^ f16_spec.exp_size = 2 ^ f16_spec.exp_size - 1 ∧
        0x7C00 % 2 ^ f16_spec.mant_size = 0) :=
  ⟨by decide, (classifier_by_fields f16_spec (Or.inl rfl) 0x7C00 (by decide)).2.2.1⟩

theorem float_round_cases (m : Nat) (hm : m < 2 ^ 64) (sign half_bit sticky_bit : Bool)
    (mode : round) :
    float_round m sign half_bit sticky_bit mode =
      if (mode = round.ties_to_even ∧
            ((half_bit = true ∧ sticky_bit = true) ∨ (half_bit = true ∧ m % 2 = 1))) ∨
          (mode = round.upward ∧ sign = false ∧ (half_bit = true ∨ sticky_bit = true)) ∨
          (mode = round.downward ∧ sign = true ∧ (half_bit = true ∨ sticky_bit = true))
      then u64 (m + 1) else m := by
  have hlast : (m &&& 1 != 0) = decide (m % 2 = 1) := by
    rw [Nat.and_one_is_mod, bne_zero_eq_decide]
    apply decide_eq_decide.2
    omega
  have hu := u64_of_lt m hm
  unfold float_round
  rw [hlast]
  by_cases hodd : m % 2 = 1 <;>
    cases mode <;> cases sign <;> cases half_bit <;> cases sticky_bit <;>
      simp [b2n, hu, hodd]

theorem u64_succ_ne (m : Nat) (hm : m < 2 ^ 64) : u64 (m + 1) ≠ m := by
  unfold u64
  omega

/-- C12 (rounding engine): for every 64-bit mantissa `m`, sign, half bit and sticky bit,
`float_round` returns `m` or `m + 1` (as a `uint64_t`), and it returns `m + 1` exactly when the
mode is `ties_to_even` and (half and sticky, or half and `m` odd), or the mode is `upward`, the
sign is non-negative and (half or sticky), or the mode is `downward`, the sign is negative and
(half or sticky).  Under `towards_zero` it returns `m`.  Below `2^64 - 1` the increment does not
wrap. -/
theorem float_round_increment (m : Nat) (hm : m < 2 ^ 64) (sign half_bit sticky_bit : Bool)
    (mode : round) :
    (float_round m sign half_bit sticky_bit mode = m ∨
      float_round m sign half_bit sticky_bit mode = u64 (m + 1)) ∧
    (float_round m sign half_bit sticky_bit mode = u64 (m + 1) ↔
      (mode = round.ties_to_even ∧
          ((half_bit = true ∧ sticky_bit = true) ∨ (half_bit = true ∧ m % 2 = 1))) ∨
        (mode = round.upward ∧ sign = false ∧ (half_bit = true ∨ sticky_bit = true)) ∨
        (mode = round.downward ∧ sign = true ∧ (half_bit = true ∨ sticky_bit = true))) ∧
    (mode = round.towards_zero → float_round m sign half_bit sticky_bit mode = m) ∧
    (m + 1 < 2 ^ 64 → u64 (m + 1) = m + 1) := by
  have hc := float_round_cases m hm sign half_bit sticky_bit mode
  have hne := u64_succ_ne m hm
  refine ⟨?_, ?_, ?_, fun h => u64_of_lt _ h⟩
  · rw [hc]
    split_ifs
    · exact Or.inr rfl
    · exact Or.inl rfl
  · rw [hc]
    constructor
    · intro h
      by_contra hcon
      rw [if_neg hcon] at h
      exact hne h.symm
    · intro h
      rw [if_pos h]
  · intro h
    subst h
    rfl

/-- Witness for `float_round_increment`: an odd mantissa at a tie under `ties_to_even`. -/
theorem float_round_increment_witness :
    5 < 2 ^ 64 ∧ float_round 5 false true false round.ties_to_even = u64 (5 + 1) ∧
    u64 (5 + 1) = 6 :=
  ⟨by decide,
    (float_round_increment 5 (by decide) false true false round.ties_to_even).2.1.2
      (Or.inl ⟨rfl, Or.inr ⟨rfl, by decide⟩⟩),
    by decide⟩

/-- C17 (special-value constructors are canonical): for both formats and both signs, `make_nan`
has sign 0, an all-ones exponent field and the mantissa field `2^mant_size - 2` and is classified
`nan` (half `0x7FFE`, single `0x7FFFFFFE`); `make_inf` has the requested sign bit, an all-ones
exponent field and a zero mantissa field and is classified `inf`; `make_max` has the requested
sign bit, the exponent field `2^exp_size - 2` and an all-ones mantissa field and is classified
`normal`. -/
theorem constructors_canonical (spec : precision_spec) (hs : spec = f16_spec ∨ spec = f32_spec)
    (sign : Bool) :
    (sign_bit spec (make_nan spec) = false ∧
      exp_field spec (make_nan spec) = 2 ^ spec.exp_size - 1 ∧
      mant_field spec (make_nan spec) = 2 ^ spec.mant_size - 2 ∧
      make_nan spec < 2 ^ width spec ∧
      get_float_case (make_nan spec) spec = cases.nan) ∧
    (make_nan f16_spec = 0x7FFE ∧ make_nan f32_spec = 0x7FFFFFFE) ∧
    (sign_bit spec (make_inf spec sign) = sign ∧
      exp_field spec (make_inf spec sign) = 2 ^ spec.exp_size - 1 ∧
      mant_field spec (make_inf spec sign) = 0 ∧
      make_inf spec sign < 2 ^ width spec ∧
      get_float_case (make_inf spec sign) spec = cases.inf) ∧
    (sign_bit spec (make_max spec sign) = sign ∧
      exp_field spec (make_max spec sign) = 2 ^ spec.exp_size - 2 ∧
      mant_field spec (make_max spec sign) = 2 ^ spec.mant_size - 1 ∧
      make_max spec sign < 2 ^ width spec ∧
      get_float_case (make_max spec sign) spec = cases.normal) := by
  rcases hs with rfl | rfl <;> cases sign <;> decide

/-- Witness for `constructors_canonical`: the negative infinity of single precision. -/
theorem constructors_canonical_witness :
    make_inf f32_spec true = 0xFF800000 ∧
    sign_bit f32_spec (make_inf f32_spec true) = true ∧
    get_float_case (make_inf f32_spec true) f32_spec = cases.inf :=
  ⟨by decide, (constructors_canonical f32_spec (Or.inr rfl) true).2.2.1.1,
    (constructors_canonical f32_spec (Or.inr rfl) true).2.2.1.2.2.2.2⟩

theorem subnormal_exp_loop_short (spec : precision_spec) (hm : spec.mant_size ≤ 23) :
    ∀ (fuel k : Nat) (e : Int) (x : Nat), 2 ^ spec.mant_size ≤ x * 2 ^ k →
      x * 2 ^ k < 2 ^ (spec.mant_size + 1) → fuel ≤ k →
      subnormal_exp_loop spec fuel e x = none := by
  intro fuel
  induction fuel with
  | zero =>
    intro k e x _ _ _
    rfl
  | succ f ih =>
    intro k e x h1 h2 hf
    obtain ⟨j, rfl⟩ : ∃ j, k = j + 1 := ⟨k - 1, by omega⟩
    have hx : x < 2 ^ spec.mant_size := by
      have hk : 2 ≤ 2 ^ (j + 1) := by
        calc 2 = 2 ^ 1 := rfl
          _ ≤ 2 ^ (j + 1) := Nat.pow_le_pow_right (by decide) (by omega)
      have e1 : 2 ^ (spec.mant_size + 1) = 2 ^ spec.mant_size * 2 := pow_succ _ _
      by_contra hge
      have := Nat.mul_le_mul (Nat.le_of_not_lt hge) hk
      omega
    have heq : x &&& 1 <<< spec.mant_size = 0 := by
      rw [Nat.one_shiftLeft, and_two_pow, Nat.div_eq_of_lt hx]
      simp
    have hp : 2 ^ spec.mant_size ≤ 2 ^ 23 := Nat.pow_le_pow_right (by decide) hm
    have hu : u32 (x <<< 1) = x * 2 := by
      unfold u32
      rw [Nat.shiftLeft_eq, pow_one]
      apply Nat.mod_eq_of_lt
      omega
    have hmul : x * 2 * 2 ^ j = x * 2 ^ (j + 1) := by rw [pow_succ]; ring
    simp only [subnormal_exp_loop, heq, if_true, hu]
    exact ih j (e - 1) (x * 2) (by rw [hmul]; exact h1) (by rw [hmul]; exact h2) (by omega)

/-- C18 (the subnormal leading-bit search is bounded): for both formats and every word classified
`subnormal`, with `k = mant_size - floor(log2 M)` for the mantissa field `M`: `1 <= k <= mant_size`;
the loop of `get_float_subnormal_exp` needs exactly `k + 1` loop tests, that is `k` iterations of
its body (it has not returned after `k` tests or fewer and has returned `-(bias - 1) - k` after
more); and the function returns `-(bias - 1) - k`. -/
theorem subnormal_search_bounded (spec : precision_spec) (hs : spec = f16_spec ∨ spec = f32_spec)
    (w : Nat) (hsub : get_float_case w spec = cases.subnormal) :
    1 ≤ spec.mant_size - Nat.log 2 (w % 2 ^ spec.mant_size) ∧
    spec.mant_size - Nat.log 2 (w % 2 ^ spec.mant_size) ≤ spec.mant_size ∧
    (∀ fuel : Nat,
      subnormal_exp_loop spec fuel (-((spec.bias : Int) - 1)) (extract_mant w spec.mant_size) =
        if fuel ≤ spec.mant_size - Nat.log 2 (w % 2 ^ spec.mant_size) then none
        else some (-((spec.bias : Int) - 1)
          - ((spec.mant_size - Nat.log 2 (w % 2 ^ spec.mant_size) : Nat) : Int))) ∧
    get_float_subnormal_exp w spec =
      some (-((spec.bias : Int) - 1)
        - ((spec.mant_size - Nat.log 2 (w % 2 ^ spec.mant_size) : Nat) : Int)) := by
  have hv := valid_of_format spec hs
  have hM : mant_field spec w ≠ 0 := ((case_subnormal_iff spec hv w).1 hsub).2
  obtain ⟨h1, h2, h3, h4⟩ := norm_shift_spec spec w hM
  have hg := get_float_subnormal_exp_eq spec hv w hM
  unfold norm_shift mant_field at h1 h2 h3 h4 hg
  refine ⟨h1, h2, ?_, hg⟩
  intro fuel
  rw [extract_mant_eq]
  by_cases hf : fuel ≤ spec.mant_size - Nat.log 2 (w % 2 ^ spec.mant_size)
  · rw [if_pos hf]
    exact subnormal_exp_loop_short spec hv.mant_le fuel _ _ _ h3 h4 hf
  · rw [if_neg hf]
    exact subnormal_exp_loop_eq spec hv.mant_le _ fuel _ _ h3 h4 (by omega)

/-- Witness for `subnormal_search_bounded`: half precision, the smallest subnormal `0x0001`, whose
search takes ten iterations. -/
theorem subnormal_search_bounded_witness :
    get_float_case 0x0001 f16_spec = cases.subnormal ∧
    get_float_subnormal_exp 0x0001 f16_spec =
      some (-((f16_spec.bias : Int) - 1)
        - ((f16_spec.mant_size - Nat.log 2 (0x0001 % 2 ^ f16_spec.mant_size) : Nat) : Int)) ∧
    get_float_subnormal_exp 0x0001 f16_spec = some (-24) :=
  ⟨by decide, (subnormal_search_bounded f16_spec (Or.inl rfl) 0x0001 (by decide)).2.2.2,
    by decide⟩

/-! ## Words composed from their fields, and representable values -/

theorem fields_compose (spec : precision_spec) (s : Bool) (E M : ℕ)
    (hE : E < 2 ^ spec.exp_size) (hM : M < 2 ^ spec.mant_size) :
    sign_bit spec (b2n s * 2 ^ (spec.mant_size + spec.exp_size) + E * 2 ^ spec.mant_size + M) = s ∧
    exp_field spec (b2n s * 2 ^ (spec.mant_size + spec.exp_size) + E * 2 ^ spec.mant_size + M)
      = E ∧
    mant_field spec (b2n s * 2 ^ (spec.mant_size + spec.exp_size) + E * 2 ^ spec.mant_size + M)
      = M := by
  have hPm : 0 < 2 ^ spec.mant_size := by positivity
  have hPe : 0 < 2 ^ spec.exp_size := by positivity
  have e0 : 2 ^ (spec.mant_size + spec.exp_size) = 2 ^ spec.exp_size * 2 ^ spec.mant_size := by
    rw [pow_add]; ring
  have hr : E * 2 ^ spec.mant_size + M < 2 ^ (spec.mant_size + spec.exp_size) := by
    rw [e0]
    have : (E + 1) * 2 ^ spec.mant_size ≤ 2 ^ spec.exp_size * 2 ^ spec.mant_size :=
      Nat.mul_le_mul_right _ hE
    rw [Nat.add_mul] at this
    omega
  have hw : b2n s * 2 ^ (spec.mant_size + spec.exp_size) + E * 2 ^ spec.mant_size + M
      = (b2n s * 2 ^ spec.exp_size + E) * 2 ^ spec.mant_size + M := by
    rw [e0]; ring
  refine ⟨?_, ?_, ?_⟩
  · unfold sign_bit
    have hd : (b2n s * 2 ^ (spec.mant_size + spec.exp_size) + E * 2 ^ spec.mant_size + M)
        / 2 ^ (spec.mant_size + spec.exp_size) = b2n s := by
      rw [Nat.add_assoc, Nat.add_comm, Nat.add_mul_div_right _ _ (by positivity),
        Nat.div_eq_of_lt hr, Nat.zero_add]
    rw [hd]
    cases s <;> simp [b2n]
  · unfold exp_field
    rw [hw, Nat.add_comm, Nat.add_mul_div_right _ _ hPm, Nat.div_eq_of_lt hM, Nat.zero_add,
      Nat.add_comm, Nat.add_mul_mod_self_right, Nat.mod_eq_of_lt hE]
  · unfold mant_field
    rw [hw, Nat.add_comm, Nat.add_mul_mod_self_right, Nat.mod_eq_of_lt hM]

theorem value_fields (spec : precision_spec) (w : ℕ) :
    value spec w = (if sign_bit spec w then -1 else 1) *
      ((unit_sig spec w : ℚ) * 2 ^ (unit_exp spec w - (spec.bias : ℤ) - spec.mant_size)) := by
  unfold value unit_sig unit_exp
  by_cases h0 : exp_field spec w = 0
  · have e : max 1 (exp_field spec w : ℤ) = 1 := by rw [h0]; rfl
    rw [e]
    simp only [h0, if_true]
    cases sign_bit spec w <;> simp
  · have e : max 1 (exp_field spec w : ℤ) = exp_field spec w := by omega
    rw [e]
    simp only [h0, if_false]
    cases sign_bit spec w <;> simp

theorem word_unit_eq (spec : precision_spec) (w : ℕ) :
    (unit_exp spec w - 1).toNat * 2 ^ spec.mant_size + unit_sig spec w
      = exp_field spec w * 2 ^ spec.mant_size + mant_field spec w := by
  unfold unit_exp unit_sig
  by_cases h0 : exp_field spec w = 0
  · rw [h0]
    simp
  · have e : (max 1 (exp_field spec w : ℤ) - 1).toNat = exp_field spec w - 1 := by omega
    rw [e, if_neg h0]
    obtain ⟨j, hj⟩ : ∃ j, exp_field spec w = j + 1 := ⟨exp_field spec w - 1, by omega⟩
    rw [hj]
    simp only [Nat.add_sub_cancel]
    ring

theorem unit_bounds (spec : precision_spec) (w : ℕ) :
    1 ≤ unit_exp spec w ∧ unit_sig spec w < 2 ^ (spec.mant_size + 1) ∧
    (unit_exp spec w = 1 ∨ 2 ^ spec.mant_size ≤ unit_sig spec w) := by
  have hM := mant_field_lt spec w
  have e1 : 2 ^ (spec.mant_size + 1) = 2 ^ spec.mant_size * 2 := pow_succ _ _
  unfold unit_exp unit_sig
  refine ⟨le_max_left _ _, ?_, ?_⟩
  · split <;> omega
  · by_cases h0 : exp_field spec w = 0
    · left
      rw [h0]
      rfl
    · right
      rw [if_neg h0]
      omega

theorem round_pack_word (spec : precision_spec) (mode : round) (w : ℕ)
    (hw : w < 2 ^ width spec) (h st : Bool)
    (hfin : exp_field spec w * 2 ^ spec.mant_size + mant_field spec w
      + b2n (bits_round_up mode (sign_bit spec w) (unit_sig spec w) h st)
      < (2 ^ spec.exp_size - 1) * 2 ^ spec.mant_size) :
    round_pack spec mode (sign_bit spec w) (unit_exp spec w) (unit_sig spec w) h st
      = w + b2n (bits_round_up mode (sign_bit spec w) (unit_sig spec w) h st) := by
  have hd := word_decomp spec w hw
  have hu := word_unit_eq spec w
  unfold round_pack
  simp only []
  rw [hu, if_neg (by omega)]
  omega

theorem spec_round_unit (spec : precision_spec) (mode : round) (w : ℕ) (hw : w < 2 ^ width spec)
    (N D : ℕ) (hD : 0 < D) (hN : 0 < N) (hdiv : N / D = unit_sig spec w) (q : ℚ)
    (hq : q = (if sign_bit spec w then -1 else 1) *
      (((N : ℚ) / D) * 2 ^ (unit_exp spec w - (spec.bias : ℤ) - spec.mant_size)))
    (hfin : exp_field spec w * 2 ^ spec.mant_size + mant_field spec w
      + b2n (bits_round_up mode (sign_bit spec w) (unit_sig spec w)
          (decide (D ≤ 2 * (N % D))) (decide (N % D ≠ 0 ∧ 2 * (N % D) ≠ D)))
      < (2 ^ spec.exp_size - 1) * 2 ^ spec.mant_size) :
    spec_round spec mode q =
      w + b2n (bits_round_up mode (sign_bit spec w) (unit_sig spec w)
          (decide (D ≤ 2 * (N % D))) (decide (N % D ≠ 0 ∧ 2 * (N % D) ≠ D))) := by
  obtain ⟨u1, u2, u3⟩ := unit_bounds spec w
  have hP : (0 : ℚ) < ((N : ℚ) / D) *
      2 ^ (unit_exp spec w - (spec.bias : ℤ) - spec.mant_size) := by
    apply mul_pos
    · exact div_pos (Nat.cast_pos.2 hN) (Nat.cast_pos.2 hD)
    · positivity
  obtain ⟨habs, hsgn⟩ := signed_abs (sign_bit spec w) _ hP
  rw [← hq] at habs hsgn
  rw [spec_round_of_quotient spec mode q N D (unit_exp spec w) hD hN habs u1
    (by rw [hdiv]; exact u2) (by rw [hdiv]; exact u3), hsgn, hdiv]
  exact round_pack_word spec mode w hw _ _ hfin

theorem unit_sig_pos (spec : precision_spec) (hv : valid_spec spec) (w : ℕ)
    (hf : finite_nonzero spec w) : 0 < unit_sig spec w := by
  have hM := finite_mant_ne spec hv w hf
  unfold unit_sig
  by_cases h0 : exp_field spec w = 0
  · rw [if_pos h0]
    exact Nat.pos_of_ne_zero (hM h0)
  · rw [if_neg h0]
    have : 0 < 2 ^ spec.mant_size := by positivity
    omega

theorem finite_exp_lt (spec : precision_spec) (hv : valid_spec spec) (w : ℕ)
    (hf : finite_nonzero spec w) : exp_field spec w + 1 < 2 ^ spec.exp_size := by
  have h4 := exp_pow_ge spec hv
  have hlt := exp_field_lt spec w
  rcases hf with h | h
  · have := ((case_normal_iff spec hv w).1 h).2
    omega
  · have := ((case_subnormal_iff spec hv w).1 h).1
    omega

/-- A representable value rounds to its own word. -/
theorem spec_round_value (spec : precision_spec) (hv : valid_spec spec) (mode : round) (w : ℕ)
    (hw : w < 2 ^ width spec) (hf : finite_nonzero spec w) :
    spec_round spec mode (value spec w) = w := by
  have hpos := unit_sig_pos spec hv w hf
  have hE := finite_exp_lt spec hv w hf
  have hM := mant_field_lt spec w
  have hb : bits_round_up mode (sign_bit spec w) (unit_sig spec w)
      (decide (1 ≤ 2 * (unit_sig spec w % 1)))
      (decide (unit_sig spec w % 1 ≠ 0 ∧ 2 * (unit_sig spec w % 1) ≠ 1)) = false := by
    simp only [Nat.mod_one]
    exact bits_round_up_exact mode _ _
  have hfin : exp_field spec w * 2 ^ spec.mant_size + mant_field spec w
      < (2 ^ spec.exp_size - 1) * 2 ^ spec.mant_size := by
    have : (exp_field spec w + 1) * 2 ^ spec.mant_size
        ≤ (2 ^ spec.exp_size - 1) * 2 ^ spec.mant_size := Nat.mul_le_mul_right _ (by omega)
    rw [Nat.add_mul] at this
    omega
  have h := spec_round_unit spec mode w hw (unit_sig spec w) 1 (by norm_num) hpos
    (Nat.div_one _) (value spec w) (by rw [value_fields]; simp)
    (by rw [hb]; simpa [b2n] using hfin)
  rw [h, hb]
  rfl

/-! ## Exact doubling -/

theorem fields_next_binade (spec : precision_spec) (x : ℕ) (hx : x < 2 ^ width spec)
    (hE : exp_field spec x + 1 < 2 ^ spec.exp_size) :
    x + 2 ^ spec.mant_size < 2 ^ width spec ∧
    sign_bit spec (x + 2 ^ spec.mant_size) = sign_bit spec x ∧
    exp_field spec (x + 2 ^ spec.mant_size) = exp_field spec x + 1 ∧
    mant_field spec (x + 2 ^ spec.mant_size) = mant_field spec x := by
  have hd := word_decomp spec x hx
  have hM := mant_field_lt spec x
  have hb := b2n_le_one (sign_bit spec x)
  have e0 : 2 ^ (spec.mant_size + spec.exp_size) = 2 ^ spec.exp_size * 2 ^ spec.mant_size := by
    rw [pow_add]; ring
  have e1 : 2 ^ width spec = 2 * 2 ^ (spec.mant_size + spec.exp_size) := by
    rw [width_eq, pow_succ]; ring
  have hw : x + 2 ^ spec.mant_size
      = b2n (sign_bit spec x) * 2 ^ (spec.mant_size + spec.exp_size)
        + (exp_field spec x + 1) * 2 ^ spec.mant_size + mant_field spec x := by
    rw [Nat.add_mul]
    omega
  obtain ⟨f1, f2, f3⟩ := fields_compose spec (sign_bit spec x) (exp_field spec x + 1)
    (mant_field spec x) hE hM
  rw [← hw] at f1 f2 f3
  refine ⟨?_, f1, f2, f3⟩
  have h2 : (exp_field spec x + 2) * 2 ^ spec.mant_size ≤ 2 ^ spec.exp_size * 2 ^ spec.mant_size :=
    Nat.mul_le_mul_right _ (by omega)
  have h3 : b2n (sign_bit spec x) * 2 ^ (spec.mant_size + spec.exp_size)
      ≤ 1 * 2 ^ (spec.mant_size + spec.exp_size) := Nat.mul_le_mul_right _ hb
  rw [Nat.add_mul] at h2
  rw [hw, e1, Nat.add_mul]
  omega

theorem value_next_binade (spec : precision_spec) (x : ℕ) (hx : x < 2 ^ width spec)
    (h0 : exp_field spec x ≠ 0) (hE : exp_field spec x + 1 < 2 ^ spec.exp_size) :
    value spec (x + 2 ^ spec.mant_size) = value spec x + value spec x := by
  obtain ⟨_, f1, f2, f3⟩ := fields_next_binade spec x hx hE
  have hz : (2 : ℚ) ^ (((exp_field spec x + 1 : ℕ) : ℤ) - (spec.bias : ℤ) - spec.mant_size)
      = 2 ^ ((exp_field spec x : ℤ) - (spec.bias : ℤ) - spec.mant_size) * 2 := by
    rw [← zpow_add_one₀ (by norm_num : (2 : ℚ) ≠ 0)]
    congr 1
    push_cast
    ring
  unfold value
  rw [f1, f2, f3]
  simp only [h0, if_false, Nat.succ_ne_zero, hz]
  cases sign_bit spec x <;> simp <;> ring

theorem float_add_diff_double (spec : precision_spec) (hs : spec = f16_spec ∨ spec = f32_spec)
    (mode : round) (x : Nat) (hx : x < 2 ^ width spec)
    (hn : get_float_case x spec = cases.normal)
    (hE : exp_field spec x ≤ 2 ^ spec.exp_size - 3) :
    float_add_diff x x mode spec = some (x + 2 ^ spec.mant_size) := by
  have hv := valid_of_format spec hs
  have h4 := exp_pow_ge spec hv
  obtain ⟨n1, n2⟩ := (case_normal_iff spec hv x).1 hn
  have hE' : exp_field spec x + 1 < 2 ^ spec.exp_size := by omega
  obtain ⟨b1, _, f2, _⟩ := fields_next_binade spec x hx hE'
  have hfx : finite_nonzero spec x := Or.inl hn
  have hfy : finite_nonzero spec (x + 2 ^ spec.mant_size) := by
    left
    rw [case_normal_iff spec hv, f2]
    omega
  rw [float_add_diff_unfold spec hv mode x x hx hx, if_pos rfl,
    float_addition_correct spec hs mode x x hx hfx hfx rfl,
    ← value_next_binade spec x hx n1 hE', spec_round_value spec hv mode _ b1 hfy]

/-! ## Ties: the midpoint of two adjacent representable values -/

theorem value_succ (spec : precision_spec) (w : ℕ) (hw : w < 2 ^ width spec)
    (hfin : exp_field spec w * 2 ^ spec.mant_size + mant_field spec w + 1
      < (2 ^ spec.exp_size - 1) * 2 ^ spec.mant_size) :
    value spec (w + 1) = (if sign_bit spec w then -1 else 1) *
      (((unit_sig spec w + 1 : ℕ) : ℚ) *
        2 ^ (unit_exp spec w - (spec.bias : ℤ) - spec.mant_size)) := by
  have hd := word_decomp spec w hw
  have hM := mant_field_lt spec w
  have hEl := exp_field_lt spec w
  by_cases hc : mant_field spec w + 1 < 2 ^ spec.mant_size
  · obtain ⟨f1, f2, f3⟩ := fields_compose spec (sign_bit spec w) (exp_field spec w)
      (mant_field spec w + 1) hEl hc
    have hw1 : b2n (sign_bit spec w) * 2 ^ (spec.mant_size + spec.exp_size)
        + exp_field spec w * 2 ^ spec.mant_size + (mant_field spec w + 1) = w + 1 := by omega
    rw [hw1] at f1 f2 f3
    rw [value_fields, f1]
    unfold unit_sig unit_exp
    rw [f2, f3]
    congr 3
    split <;> omega
  · have hM1 : mant_field spec w + 1 = 2 ^ spec.mant_size := by omega
    have hE1 : exp_field spec w + 1 < 2 ^ spec.exp_size := by
      by_contra hge
      have : (2 ^ spec.exp_size - 1) * 2 ^ spec.mant_size
          ≤ exp_field spec w * 2 ^ spec.mant_size := Nat.mul_le_mul_right _ (by omega)
      omega
    obtain ⟨f1, f2, f3⟩ := fields_compose spec (sign_bit spec w) (exp_field spec w + 1) 0
      hE1 (by positivity)
    have hw1 : b2n (sign_bit spec w) * 2 ^ (spec.mant_size + spec.exp_size)
        + (exp_field spec w + 1) * 2 ^ spec.mant_size + 0 = w + 1 := by
      rw [Nat.add_mul]
      omega
    rw [hw1] at f1 f2 f3
    rw [value_fields, f1]
    unfold unit_sig unit_exp
    rw [f2, f3]
    congr 1
    by_cases h0 : exp_field spec w = 0
    · have e : max 1 (((exp_field spec w + 1 : ℕ) : ℤ)) = max 1 (exp_field spec w : ℤ) := by
        rw [h0]; rfl
      rw [e]
      congr 2
      simp only [h0, if_true, Nat.succ_ne_zero, if_false]
      omega
    · have e1 : max 1 (((exp_field spec w + 1 : ℕ) : ℤ)) = (exp_field spec w : ℤ) + 1 := by
        push_cast
        omega
      have e2 : max 1 (exp_field spec w : ℤ) = (exp_field spec w : ℤ) := by omega
      have hz : (2 : ℚ) ^ ((exp_field spec w : ℤ) + 1 - (spec.bias : ℤ) - spec.mant_size)
          = 2 ^ ((exp_field spec w : ℤ) - (spec.bias : ℤ) - spec.mant_size) * 2 := by
        rw [← zpow_add_one₀ (by norm_num : (2 : ℚ) ≠ 0)]
        congr 1
        ring
      have hn : 2 ^ spec.mant_size + mant_field spec w + 1 = 2 * 2 ^ spec.mant_size := by omega
      rw [e1, e2, hz]
      simp only [h0, if_false, Nat.succ_ne_zero, hn]
      push_cast
      ring

theorem unit_sig_parity (spec : precision_spec) (hv : valid_spec spec) (w : ℕ) :
    unit_sig spec w % 2 = w % 2 := by
  have hm := hv.mant_pos
  have h2 : 2 ∣ 2 ^ spec.mant_size := dvd_pow_self 2 (by omega)
  have hmm : mant_field spec w % 2 = w % 2 := by
    unfold mant_field
    exact Nat.mod_mod_of_dvd w h2
  obtain ⟨c, hc⟩ := h2
  unfold unit_sig
  split <;> omega

theorem spec_round_midpoint (spec : precision_spec) (hv : valid_spec spec) (w : ℕ)
    (hw : w < 2 ^ width spec)
    (hfin : exp_field spec w * 2 ^ spec.mant_size + mant_field spec w + 1
      < (2 ^ spec.exp_size - 1) * 2 ^ spec.mant_size) :
    spec_round spec round.ties_to_even ((value spec w + value spec (w + 1)) / 2)
      = if w % 2 = 0 then w else w + 1 := by
  have hpar := unit_sig_parity spec hv w
  have hmod : (2 * unit_sig spec w + 1) % 2 = 1 := by omega
  have hb : bits_round_up round.ties_to_even (sign_bit spec w) (unit_sig spec w)
      (decide (2 ≤ 2 * ((2 * unit_sig spec w + 1) % 2)))
      (decide ((2 * unit_sig spec w + 1) % 2 ≠ 0 ∧ 2 * ((2 * unit_sig spec w + 1) % 2) ≠ 2))
      = decide (w % 2 = 1) := by
    rw [hmod]
    simp [bits_round_up, hpar]
  have h := spec_round_unit spec round.ties_to_even w hw (2 * unit_sig spec w + 1) 2
    (by norm_num) (by omega) (by omega) ((value spec w + value spec (w + 1)) / 2)
    (by
      rw [value_fields spec w, value_succ spec w hw hfin]
      push_cast
      ring)
    (by
      have := b2n_le_one (bits_round_up round.ties_to_even (sign_bit spec w) (unit_sig spec w)
        (decide (2 ≤ 2 * ((2 * unit_sig spec w + 1) % 2)))
        (decide ((2 * unit_sig spec w + 1) % 2 ≠ 0 ∧
          2 * ((2 * unit_sig spec w + 1) % 2) ≠ 2)))
      omega)
  rw [h, hb]
  rcases Nat.mod_two_eq_zero_or_one w with h0 | h1
  · simp [h0, b2n]
  · simp [h1, b2n]

theorem midpoint_ne_zero (spec : precision_spec) (w : ℕ) (hw : w < 2 ^ width spec)
    (hfin : exp_field spec w * 2 ^ spec.mant_size + mant_field spec w + 1
      < (2 ^ spec.exp_size - 1) * 2 ^ spec.mant_size) :
    (value spec w + value spec (w + 1)) / 2 ≠ 0 := by
  have hT : (0 : ℚ) < 2 ^ (unit_exp spec w - (spec.bias : ℤ) - spec.mant_size) := by positivity
  have hn : (0 : ℚ) ≤ (unit_sig spec w : ℚ) := Nat.cast_nonneg _
  rw [value_fields spec w, value_succ spec w hw hfin]
  push_cast
  generalize (2 : ℚ) ^ (unit_exp spec w - (spec.bias : ℤ) - spec.mant_size) = T at hT
  generalize (unit_sig spec w : ℚ) = n at hn
  have hpos : 0 < n * T + (n + 1) * T := by positivity
  cases sign_bit spec w
  · simp only [Bool.false_eq_true, if_false, one_mul]
    exact ne_of_gt (by positivity)
  · simp only [if_true]
    intro h
    have : n * T + (n + 1) * T = 0 := by linarith
    linarith

/-! ## Multiply: complete underflow of a product of two subnormal operands -/

theorem bias_gap (spec : precision_spec) (hs : spec = f16_spec ∨ spec = f32_spec) :
    spec.mant_size + 2 ≤ spec.bias ∧ 2 * spec.mant_size + spec.bias < 256 ∧
    (spec.bias : ℤ) ≤ (2 ^ spec.exp_size : ℕ) - 2 := by
  rcases hs with rfl | rfl <;> decide

theorem float_round_zero_ties (sign : Bool) :
    float_round 0 sign false true round.ties_to_even = 0 := by
  cases sign <;> decide

theorem subnormal_norm_exp (spec : precision_spec) (hv : valid_spec spec) (w : ℕ)
    (hsub : get_float_case w spec = cases.subnormal) :
    norm_exp spec w ≤ 0 ∧ 1 - (spec.mant_size : ℤ) ≤ norm_exp spec w := by
  obtain ⟨h0, hM⟩ := (case_subnormal_iff spec hv w).1 hsub
  exact ⟨(norm_exp_sign spec w (fun _ => hM)).1 h0,
    (norm_exp_bounds spec hv w (Or.inr hsub)).1⟩

theorem float_multiply_subnormals (spec : precision_spec)
    (hs : spec = f16_spec ∨ spec = f32_spec) (a b : Nat)
    (ha : a < 2 ^ width spec) (hb : b < 2 ^ width spec)
    (hsa : get_float_case a spec = cases.subnormal)
    (hsb : get_float_case b spec = cases.subnormal) :
    float_multiply a b round.ties_to_even spec
      = some (zero_word spec (xor (sign_bit spec a) (sign_bit spec b))) := by
  have hv := valid_of_format spec hs
  have hfa : finite_nonzero spec a := Or.inr hsa
  have hfb : finite_nonzero spec b := Or.inr hsb
  obtain ⟨g1, g2, g3⟩ := bias_gap spec hs
  obtain ⟨ea1, ea2⟩ := subnormal_norm_exp spec hv a hsa
  obtain ⟨eb1, eb2⟩ := subnormal_norm_exp spec hv b hsb
  obtain ⟨p1, p2⟩ := norm_sig_mul_bounds spec hv a b hfa hfb
  have hm := hv.mant_le
  have h4 := exp_pow_ge spec hv
  have h64 : norm_sig spec a * norm_sig spec b < 2 ^ 64 := by
    have : 2 ^ (2 * spec.mant_size + 2) ≤ 2 ^ 64 := Nat.pow_le_pow_right (by decide) (by omega)
    omega
  rw [float_multiply_finite_eq spec hv round.ties_to_even a b ha hb hfa hfb,
    ← signed_zero_eq spec hs]
  congr 1
  unfold float_multiply_finite
  simp only [load_mant_or spec hv a hfa, load_mant_or spec hv b hfb, u64_of_lt _ h64]
  generalize (norm_sig spec a * norm_sig spec b &&& u64 (1 <<< (spec.mant_size * 2 + 1)) != 0)
    = carry
  generalize hX : (if carry = true then norm_exp spec a + norm_exp spec b - (spec.bias : ℤ) + 1
    else norm_exp spec a + norm_exp spec b - (spec.bias : ℤ)) = X
  have hX1 : X ≤ 1 - (spec.bias : ℤ) := by
    rw [← hX]; split <;> omega
  have hX2 : 2 - 2 * (spec.mant_size : ℤ) - (spec.bias : ℤ) ≤ X := by
    rw [← hX]; split <;> omega
  have hov : ¬ X ≥ ((1 <<< spec.exp_size : ℕ) : ℤ) - 1 := by
    rw [Nat.one_shiftLeft]
    omega
  have hunder : decide (X ≤ 0) = true := by
    rw [decide_eq_true_iff]; omega
  have hshift : u8 (0 - (X - 1)) = (1 - X).toNat := by
    unfold u8
    congr 1
    omega
  have hin1 : decide ((1 - X).toNat ≤ spec.mant_size) = false := by
    rw [decide_eq_false_iff_not]; omega
  have hin2 : decide ((1 - X).toNat ≤ spec.mant_size + 1) = false := by
    rw [decide_eq_false_iff_not]; omega
  rw [if_neg hov]
  simp only [hunder, hshift, hin1, hin2, if_true, Bool.true_and, Bool.false_eq_true, if_false,
    float_round_zero_ties]
  unfold pack_float u8
  simp [b2n, u32]

/-! ## Divide: a rounding carry out of the subnormal range -/

theorem float_divide_finite_carry (spec : precision_spec) (hv : valid_spec spec) (mode : round)
    (sign : Bool) (ea eb : ℤ) (la lb : ℕ)
    (hE : (divide_quotient ea la eb lb spec).1 ≤ 0)
    (hr : float_round
        (divide_denormalize (divide_quotient ea la eb lb spec).1
          (divide_quotient ea la eb lb spec).2.1 (divide_quotient ea la eb lb spec).2.2.1
          (divide_quotient ea la eb lb spec).2.2.2 spec).1 sign
        (divide_denormalize (divide_quotient ea la eb lb spec).1
          (divide_quotient ea la eb lb spec).2.1 (divide_quotient ea la eb lb spec).2.2.1
          (divide_quotient ea la eb lb spec).2.2.2 spec).2.1
        (divide_denormalize (divide_quotient ea la eb lb spec).1
          (divide_quotient ea la eb lb spec).2.1 (divide_quotient ea la eb lb spec).2.2.1
          (divide_quotient ea la eb lb spec).2.2.2 spec).2.2 mode = 2 ^ spec.mant_size) :
    float_divide_finite ea la eb lb sign mode spec
      = b2n sign * 2 ^ (spec.mant_size + spec.exp_size) + 1 * 2 ^ spec.mant_size + 0 := by
  have h4 := exp_pow_ge spec hv
  have hm := hv.mant_le
  have hP : 2 ^ spec.mant_size < 2 ^ 32 := Nat.pow_lt_pow_right (by decide) (by omega)
  have hu : u32 (2 ^ spec.mant_size) = 2 ^ spec.mant_size := Nat.mod_eq_of_lt hP
  have hbit : (2 ^ spec.mant_size &&& 1 <<< spec.mant_size != 0) = true := by
    rw [Nat.one_shiftLeft, Nat.and_self]
    simp
  unfold float_divide_finite
  rcases hq : divide_quotient ea la eb lb spec with ⟨E, n, h, st⟩
  rw [hq] at hE hr
  simp only [] at hE hr ⊢
  rcases hd : divide_denormalize E n h st spec with ⟨n1, h1, st1⟩
  rw [hd] at hr
  simp only [] at hr ⊢
  have hov : ¬ E ≥ ((1 <<< spec.exp_size : ℕ) : ℤ) - 1 := by
    rw [Nat.one_shiftLeft]
    omega
  rw [if_neg hov, if_pos hE, hr, hu, hbit]
  have h8 : u8 (0 + ((b2n true : ℕ) : ℤ)) = 1 := by decide
  rw [h8, pack_float_eq spec hv sign 1 _ (by omega), Nat.mod_self]

/-- C16 (divide, a rounding carry promotes the largest subnormal to the smallest normal): for both
formats, every rounding mode and every pair of finite non-zero operands fitting in the format
width, if the provisional biased exponent that `divide_quotient` produces is at most zero and
`float_round` of the denormalised mantissa is exactly `2^mant_size`, then `float_divide` returns
the smallest normal value of sign `sign(a) xor sign(b)`: exponent field 1 and mantissa field 0. -/
theorem divide_carry_to_normal (spec : precision_spec) (hs : spec = f16_spec ∨ spec = f32_spec)
    (mode : round) (a b : Nat) (ha : a < 2 ^ width spec) (hb : b < 2 ^ width spec)
    (hfa : finite_nonzero spec a) (hfb : finite_nonzero spec b)
    (hE : (divide_quotient (norm_exp spec a) (load_mant spec a) (norm_exp spec b)
      (load_mant spec b) spec).1 ≤ 0)
    (hr : float_round
        (divide_denormalize
          (divide_quotient (norm_exp spec a) (load_mant spec a) (norm_exp spec b)
            (load_mant spec b) spec).1
          (divide_quotient (norm_exp spec a) (load_mant spec a) (norm_exp spec b)
            (load_mant spec b) spec).2.1
          (divide_quotient (norm_exp spec a) (load_mant spec a) (norm_exp spec b)
            (load_mant spec b) spec).2.2.1
          (divide_quotient (norm_exp spec a) (load_mant spec a) (norm_exp spec b)
            (load_mant spec b) spec).2.2.2 spec).1
        (xor (sign_bit spec a) (sign_bit spec b))
        (divide_denormalize
          (divide_quotient (norm_exp spec a) (load_mant spec a) (norm_exp spec b)
            (load_mant spec b) spec).1
          (divide_quotient (norm_exp spec a) (load_mant spec a) (norm_exp spec b)
            (load_mant spec b) spec).2.1
          (divide_quotient (norm_exp spec a) (load_mant spec a) (norm_exp spec b)
            (load_mant spec b) spec).2.2.1
          (divide_quotient (norm_exp spec a) (load_mant spec a) (norm_exp spec b)
            (load_mant spec b) spec).2.2.2 spec).2.1
        (divide_denormalize
          (divide_quotient (norm_exp spec a) (load_mant spec a) (norm_exp spec b)
            (load_mant spec b) spec).1
          (divide_quotient (norm_exp spec a) (load_mant spec a) (norm_exp spec b)
            (load_mant spec b) spec).2.1
          (divide_quotient (norm_exp spec a) (load_mant spec a) (norm_exp spec b)
            (load_mant spec b) spec).2.2.1
          (divide_quotient (norm_exp spec a) (load_mant spec a) (norm_exp spec b)
            (load_mant spec b) spec).2.2.2 spec).2.2 mode = 2 ^ spec.mant_size) :
    ∃ r, float_divide a b mode spec = some r ∧
      r = b2n (xor (sign_bit spec a) (sign_bit spec b)) * 2 ^ (spec.mant_size + spec.exp_size)
        + 2 ^ spec.mant_size ∧
      sign_bit spec r = xor (sign_bit spec a) (sign_bit spec b) ∧
      exp_field spec r = 1 ∧ mant_field spec r = 0 := by
  have hv := valid_of_format spec hs
  have h4 := exp_pow_ge spec hv
  obtain ⟨f1, f2, f3⟩ := fields_compose spec (xor (sign_bit spec a) (sign_bit spec b)) 1 0
    (by omega) (by positivity)
  refine ⟨_, ?_, ?_, f1, f2, f3⟩
  · rw [float_divide_finite_eq spec hv mode a b ha hb hfa hfb,
      float_divide_finite_carry spec hv mode _ _ _ _ _ hE hr]
  · ring

/-- Witness for `divide_carry_to_normal`: half precision, `ties_to_even`, `0x07FF / 0x4000`: the
quotient `1023.5 * 2^-24` is denormalised to 1023 with the half bit set and rounds to `0x0400`. -/
theorem divide_carry_to_normal_witness :
    ∃ r, float_divide 0x07FF 0x4000 round.ties_to_even f16_spec = some r ∧
      r = b2n (xor (sign_bit f16_spec 0x07FF) (sign_bit f16_spec 0x4000))
          * 2 ^ (f16_spec.mant_size + f16_spec.exp_size) + 2 ^ f16_spec.mant_size ∧
      sign_bit f16_spec r = xor (sign_bit f16_spec 0x07FF) (sign_bit f16_spec 0x4000) ∧
      exp_field f16_spec r = 1 ∧ mant_field f16_spec r = 0 :=
  divide_carry_to_normal f16_spec (Or.inl rfl) round.ties_to_even 0x07FF 0x4000
    (by decide) (by decide) (by decide) (by decide) (by decide) (by decide)

/-! ## Results fit in the format -/

theorem compose_lt (spec : precision_spec) (s : Bool) (E M : ℕ)
    (hE : E < 2 ^ spec.exp_size) (hM : M < 2 ^ spec.mant_size) :
    b2n s * 2 ^ (spec.mant_size + spec.exp_size) + E * 2 ^ spec.mant_size + M
      < 2 ^ width spec := by
  have hb := b2n_le_one s
  have e0 : 2 ^ (spec.mant_size + spec.exp_size) = 2 ^ spec.exp_size * 2 ^ spec.mant_size := by
    rw [pow_add]; ring
  have e1 : 2 ^ width spec = 2 * 2 ^ (spec.mant_size + spec.exp_size) := by
    rw [width_eq, pow_succ]; ring
  have h2 : (E + 1) * 2 ^ spec.mant_size ≤ 2 ^ spec.exp_size * 2 ^ spec.mant_size :=
    Nat.mul_le_mul_right _ hE
  have h3 : b2n s * 2 ^ (spec.mant_size + spec.exp_size)
      ≤ 1 * 2 ^ (spec.mant_size + spec.exp_size) := Nat.mul_le_mul_right _ hb
  rw [Nat.add_mul] at h2
  rw [e1]
  omega

theorem pack_float_lt (spec : precision_spec) (hv : valid_spec spec) (sign : Bool) (E r : ℕ)
    (hE : E < 2 ^ spec.exp_size) : pack_float spec sign E r < 2 ^ width spec := by
  rw [pack_float_eq spec hv sign E r hE]
  exact compose_lt spec sign E _ hE (Nat.mod_lt _ (by positivity))

theorem pack_exp_lt (spec : precision_spec) (hv : valid_spec spec) (sign : Bool) (E0 : ℤ)
    (c : Bool) (r : ℕ) (h0 : 0 ≤ E0) (h1 : E0 ≤ (2 ^ spec.exp_size : ℕ) - 2) :
    pack_float spec sign (u8 (E0 + (b2n c : ℕ))) r < 2 ^ width spec := by
  have hc := b2n_le_one c
  have h256 := exp_pow_le spec hv
  apply pack_float_lt spec hv
  unfold u8
  omega

theorem inf_word_lt (spec : precision_spec) (hv : valid_spec spec) (s : Bool) :
    inf_word spec s < 2 ^ width spec := by
  have h4 := exp_pow_ge spec hv
  have := compose_lt spec s (2 ^ spec.exp_size - 1) 0 (by omega) (by positivity)
  unfold inf_word
  omega

theorem max_word_lt (spec : precision_spec) (hv : valid_spec spec) (s : Bool) :
    max_word spec s < 2 ^ width spec := by
  have h4 := exp_pow_ge spec hv
  have hP : 0 < 2 ^ spec.mant_size := by positivity
  exact compose_lt spec s (2 ^ spec.exp_size - 2) (2 ^ spec.mant_size - 1) (by omega) (by omega)

theorem zero_word_lt (spec : precision_spec) (s : Bool) : zero_word spec s < 2 ^ width spec := by
  have := compose_lt spec s 0 0 (by positivity) (by positivity)
  unfold zero_word
  omega

theorem overflow_table_lt (spec : precision_spec) (hv : valid_spec spec) (s : Bool)
    (mode : round) : overflow_table spec s mode < 2 ^ width spec := by
  unfold overflow_table
  cases mode <;> cases s <;>
    first
      | exact inf_word_lt spec hv _
      | exact max_word_lt spec hv _

theorem spec_round_lt (spec : precision_spec) (hv : valid_spec spec) (mode : round) (q : ℚ) :
    spec_round spec mode q < 2 ^ width spec := by
  have h4 := exp_pow_ge spec hv
  have e0 : 2 ^ (spec.mant_size + spec.exp_size) = 2 ^ spec.exp_size * 2 ^ spec.mant_size := by
    rw [pow_add]; ring
  have e1 : 2 ^ width spec = 2 * 2 ^ (spec.mant_size + spec.exp_size) := by
    rw [width_eq, pow_succ]; ring
  have h2 : (2 ^ spec.exp_size - 1) * 2 ^ spec.mant_size
      ≤ 2 ^ spec.exp_size * 2 ^ spec.mant_size := Nat.mul_le_mul_right _ (by omega)
  unfold spec_round
  simp only []
  split_ifs with h
  · exact overflow_table_lt spec hv _ _
  · have hb := b2n_le_one (decide (q < 0))
    have h3 : b2n (decide (q < 0)) * 2 ^ (spec.mant_size + spec.exp_size)
        ≤ 1 * 2 ^ (spec.mant_size + spec.exp_size) := Nat.mul_le_mul_right _ hb
    rw [e1]
    omega

theorem make_nan_lt (spec : precision_spec) (hs : spec = f16_spec ∨ spec = f32_spec) :
    make_nan spec < 2 ^ width spec := by
  rcases hs with rfl | rfl <;> decide

theorem make_inf_lt (spec : precision_spec) (hs : spec = f16_spec ∨ spec = f32_spec)
    (s : Bool) : make_inf spec s < 2 ^ width spec := by
  rw [make_inf_eq spec hs]
  exact inf_word_lt spec (valid_of_format spec hs) s

theorem signed_zero_lt (spec : precision_spec) (hs : spec = f16_spec ∨ spec = f32_spec)
    (s : Bool) : u32 (b2n s <<< (spec.mant_size + spec.exp_size)) < 2 ^ width spec := by
  rw [signed_zero_eq spec hs]
  exact zero_word_lt spec s

theorem finite_of_not_special (spec : precision_spec) (w : ℕ)
    (h1 : get_float_case w spec ≠ cases.nan) (h2 : get_float_case w spec ≠ cases.inf)
    (h3 : get_float_case w spec ≠ cases.zero) : finite_nonzero spec w := by
  unfold finite_nonzero
  cases h : get_float_case w spec
  · exact Or.inl rfl
  · exact Or.inr rfl
  · exact absurd h h1
  · exact absurd h h2
  · exact absurd h h3

theorem ite_lt {c : Prop} [Decidable c] (x y n : ℕ) (hx : c → x < n) (hy : ¬ c → y < n) :
    (if c then x else y) < n := by
  split_ifs with h
  · exact hx h
  · exact hy h

theorem clamp_exp_bounds (X : ℤ) (N : ℕ) (h : ¬ X ≥ (N : ℤ) - 1) :
    0 ≤ (if decide (X ≤ 0) = true then (0 : ℤ) else X) ∧
    (if decide (X ≤ 0) = true then (0 : ℤ) else X) ≤ ((max N 2 : ℕ) : ℤ) - 2 := by
  by_cases hX : X ≤ 0
  · simp only [hX, decide_True, if_true]
    omega
  · simp only [hX, decide_False, Bool.false_eq_true, if_false]
    omega

theorem float_multiply_finite_lt (spec : precision_spec)
    (hs : spec = f16_spec ∨ spec = f32_spec) (ea eb : ℤ) (la lb : ℕ) (sign : Bool)
    (mode : round) : float_multiply_finite ea la eb lb sign mode spec < 2 ^ width spec := by
  have hv := valid_of_format spec hs
  have h4 := exp_pow_ge spec hv
  have hmax : max (1 <<< spec.exp_size) 2 = 2 ^ spec.exp_size := by
    rw [Nat.one_shiftLeft]
    omega
  unfold float_multiply_finite
  refine ite_lt _ _ _ (fun _ => ?_) (fun hov => ?_)
  · rw [float_exp_overflow_eq spec hs]
    exact overflow_table_lt spec hv _ _
  · have hb := clamp_exp_bounds _ _ hov
    rw [hmax] at hb
    exact pack_exp_lt spec hv _ _ _ _ hb.1 hb.2

theorem float_multiply_lt (spec : precision_spec) (hs : spec = f16_spec ∨ spec = f32_spec)
    (mode : round) (a b : ℕ) (ha : a < 2 ^ width spec) (hb : b < 2 ^ width spec) :
    ∃ r, float_multiply a b mode spec = some r ∧ r < 2 ^ width spec := by
  have hv := valid_of_format spec hs
  by_cases hnan : get_float_case a spec = cases.nan ∨ get_float_case b spec = cases.nan ∨
      ((get_float_case a spec = cases.inf ∨ get_float_case b spec = cases.inf) ∧
        (get_float_case b spec = cases.zero ∨ get_float_case a spec = cases.zero))
  · refine ⟨make_nan spec, ?_, make_nan_lt spec hs⟩
    unfold float_multiply
    simp only [if_pos hnan]
  by_cases hinf : get_float_case a spec = cases.inf ∨ get_float_case b spec = cases.inf
  · unfold float_multiply
    simp only [if_neg hnan, if_pos hinf]
    exact ⟨_, rfl, make_inf_lt spec hs _⟩
  by_cases hzero : get_float_case a spec = cases.zero ∨ get_float_case b spec = cases.zero
  · unfold float_multiply
    simp only [if_neg hnan, if_neg hinf, if_pos hzero]
    exact ⟨_, rfl, signed_zero_lt spec hs _⟩
  · have hfa : finite_nonzero spec a :=
      finite_of_not_special spec a (fun h => hnan (Or.inl h)) (fun h => hinf (Or.inl h))
        (fun h => hzero (Or.inl h))
    have hfb : finite_nonzero spec b :=
      finite_of_not_special spec b (fun h => hnan (Or.inr (Or.inl h)))
        (fun h => hinf (Or.inr h)) (fun h => hzero (Or.inr h))
    exact ⟨_, float_multiply_finite_eq spec hv mode a b ha hb hfa hfb,
      float_multiply_finite_lt spec hs _ _ _ _ _ _⟩

theorem float_divide_lt (spec : precision_spec) (hs : spec = f16_spec ∨ spec = f32_spec)
    (mode : round) (a b : ℕ) (ha : a < 2 ^ width spec) (hb : b < 2 ^ width spec) :
    ∃ r, float_divide a b mode spec = some r ∧ r < 2 ^ width spec := by
  have hv := valid_of_format spec hs
  by_cases hnan : get_float_case a spec = cases.nan ∨ get_float_case b spec = cases.nan ∨
      (get_float_case a spec = cases.zero ∧ get_float_case b spec = cases.zero) ∨
      (get_float_case a spec = cases.inf ∧ get_float_case b spec = cases.inf)
  · refine ⟨make_nan spec, ?_, make_nan_lt spec hs⟩
    unfold float_divide
    simp only [if_pos hnan]
  by_cases hinf : get_float_case b spec = cases.zero ∨ get_float_case a spec = cases.inf
  · unfold float_divide
    simp only [if_neg hnan, if_pos hinf]
    exact ⟨_, rfl, make_inf_lt spec hs _⟩
  by_cases hzero : get_float_case a spec = cases.zero ∨ get_float_case b spec = cases.inf
  · unfold float_divide
    simp only [if_neg hnan, if_neg hinf, if_pos hzero]
    refine ⟨_, rfl, ?_⟩
    rw [Nat.add_comm spec.exp_size spec.mant_size]
    exact signed_zero_lt spec hs _
  · have hfa : finite_nonzero spec a :=
      finite_of_not_special spec a (fun h => hnan (Or.inl h)) (fun h => hinf (Or.inr h))
        (fun h => hzero (Or.inl h))
    have hfb : finite_nonzero spec b :=
      finite_of_not_special spec b (fun h => hnan (Or.inr (Or.inl h)))
        (fun h => hzero (Or.inr h)) (fun h => hinf (Or.inl h))
    exact ⟨_, float_divide_correct spec hs mode a b ha hb hfa hfb, spec_round_lt spec hv _ _⟩

/-! ## Add and subtract: cancellation and result bounds -/

theorem float_subtract_equal (spec : precision_spec) (hs : spec = f16_spec ∨ spec = f32_spec)
    (mode : round) (x y : ℕ) (hx : x < 2 ^ width spec)
    (hfx : finite_nonzero spec x) (hfy : finite_nonzero spec y)
    (he : norm_exp spec x = norm_exp spec y) (hsg : norm_sig spec x = norm_sig spec y) :
    float_subtract x y mode spec =
      some (if mode = round.downward then zero_word spec true else 0) := by
  have hv := valid_of_format spec hs
  have hz : u32 (1 <<< (spec.exp_size + spec.mant_size)) = zero_word spec true := by
    rcases hs with rfl | rfl <;> decide
  have hnl : ¬ load_mant spec x < load_mant spec y := by
    rw [load_mant_lt_iff spec hv x y hfx hfy he, hsg]
    exact lt_irrefl _
  have hsw : ¬ (norm_exp spec x < norm_exp spec y ∨
      (norm_exp spec x = norm_exp spec y ∧ load_mant spec x < load_mant spec y)) := by
    rintro (h | ⟨_, h⟩)
    · omega
    · exact hnl h
  have hd : (norm_exp spec x - norm_exp spec y).toNat = 0 := by omega
  rw [float_subtract_finite_eq spec hv mode x y hx hfx hfy]
  unfold float_subtract_finite
  rw [subtract_order_eq spec _ _ _ _ _ (norm_exp_diff_lt spec hv x y hfx hfy)
    (norm_exp_diff_lt spec hv y x hfy hfx), if_neg hsw]
  simp only [load_mant_or spec hv x hfx, load_mant_or spec hv y hfy, hd]
  unfold float_subtract_ordered
  simp only [Nat.zero_le, if_true, Nat.shiftLeft_zero, hsg, u64_sub_self, hz]
  split <;> rfl

theorem float_subtract_rounded (spec : precision_spec) (hv : valid_spec spec)
    (mode : round) (x y : ℕ) (hx : x < 2 ^ width spec)
    (hfx : finite_nonzero spec x) (hfy : finite_nonzero spec y)
    (hsg : sign_bit spec x = sign_bit spec y)
    (hne : ¬ (norm_exp spec x = norm_exp spec y ∧ norm_sig spec x = norm_sig spec y)) :
    float_subtract x y mode spec = some (spec_round spec mode (value spec x - value spec y)) := by
  have hval : value spec x - value spec y = (if sign_bit spec x then -1 else 1) *
      ((norm_sig spec x : ℚ) * 2 ^ (norm_exp spec x - (spec.bias : ℤ) - spec.mant_size) -
        (norm_sig spec y : ℚ) * 2 ^ (norm_exp spec y - (spec.bias : ℤ) - spec.mant_size)) := by
    rw [value_eq spec hv x hfx, value_eq spec hv y hfy, hsg]
    ring
  rw [float_subtract_finite_eq spec hv mode x y hx hfx hfy]
  unfold float_subtract_finite
  rw [subtract_order_eq spec _ _ _ _ _ (norm_exp_diff_lt spec hv x y hfx hfy)
    (norm_exp_diff_lt spec hv y x hfy hfx)]
  by_cases h : norm_exp spec x < norm_exp spec y ∨
      (norm_exp spec x = norm_exp spec y ∧ load_mant spec x < load_mant spec y)
  · rw [if_pos h]
    simp only [load_mant_or spec hv x hfx, load_mant_or spec hv y hfy]
    apply subtract_ordered_correct spec hv mode _ y x hfy hfx
    · rcases h with h | ⟨h1, h2⟩
      · exact Or.inl h
      · exact Or.inr ⟨h1, (load_mant_lt_iff spec hv x y hfx hfy h1).1 h2⟩
    · rw [hval]
      cases sign_bit spec x <;> simp
  · rw [if_neg h]
    simp only [load_mant_or spec hv x hfx, load_mant_or spec hv y hfy]
    apply subtract_ordered_correct spec hv mode _ x y hfx hfy _ _ hval
    have h1 : ¬ norm_exp spec x < norm_exp spec y := fun hh => h (Or.inl hh)
    by_cases he : norm_exp spec y = norm_exp spec x
    · right
      refine ⟨he, ?_⟩
      have h2 : ¬ norm_sig spec x < norm_sig spec y := fun hh =>
        h (Or.inr ⟨he.symm, (load_mant_lt_iff spec hv x y hfx hfy he.symm).2 hh⟩)
      have h3 : norm_sig spec x ≠ norm_sig spec y := fun heq => hne ⟨he.symm, heq⟩
      omega
    · left
      omega

theorem float_subtract_lt (spec : precision_spec) (hs : spec = f16_spec ∨ spec = f32_spec)
    (mode : round) (x y : ℕ) (hx : x < 2 ^ width spec) (hy : y < 2 ^ width spec)
    (hzx : get_float_case x spec ≠ cases.zero) (hzy : get_float_case y spec ≠ cases.zero)
    (hsg : sign_bit spec x = sign_bit spec y) :
    ∃ r, float_subtract x y mode spec = some r ∧ r < 2 ^ width spec := by
  have hv := valid_of_format spec hs
  by_cases hnan : get_float_case x spec = cases.nan ∨ get_float_case y spec = cases.nan ∨
      (get_float_case x spec = cases.inf ∧ get_float_case y spec = cases.inf ∧
        (extract_sign x spec.mant_size spec.exp_size != 0)
          = (extract_sign y spec.mant_size spec.exp_size != 0))
  · unfold float_subtract
    simp only [if_neg hzx, if_neg hzy, if_pos hnan]
    exact ⟨_, rfl, make_nan_lt spec hs⟩
  by_cases hix : get_float_case x spec = cases.inf
  · unfold float_subtract
    simp only [if_neg hzx, if_neg hzy, if_neg hnan, if_pos hix]
    exact ⟨_, rfl, make_inf_lt spec hs _⟩
  by_cases hiy : get_float_case y spec = cases.inf
  · unfold float_subtract
    simp only [if_neg hzx, if_neg hzy, if_neg hnan, if_neg hix, if_pos hiy]
    exact ⟨_, rfl, make_inf_lt spec hs _⟩
  · have hfx : finite_nonzero spec x :=
      finite_of_not_special spec x (fun h => hnan (Or.inl h)) hix hzx
    have hfy : finite_nonzero spec y :=
      finite_of_not_special spec y (fun h => hnan (Or.inr (Or.inl h))) hiy hzy
    by_cases heq : norm_exp spec x = norm_exp spec y ∧ norm_sig spec x = norm_sig spec y
    · refine ⟨_, float_subtract_equal spec hs mode x y hx hfx hfy heq.1 heq.2, ?_⟩
      split
      · exact zero_word_lt spec true
      · positivity
    · exact ⟨_, float_subtract_rounded spec hv mode x y hx hfx hfy hsg heq,
        spec_round_lt spec hv _ _⟩

theorem float_addition_lt (spec : precision_spec) (hs : spec = f16_spec ∨ spec = f32_spec)
    (mode : round) (a b : ℕ) (ha : a < 2 ^ width spec) (hb : b < 2 ^ width spec)
    (hsg : sign_bit spec a = sign_bit spec b) :
    ∃ r, float_addition a b mode spec = some r ∧ r < 2 ^ width spec := by
  have hv := valid_of_format spec hs
  by_cases hza : get_float_case a spec = cases.zero
  · exact ⟨b, float_addition_zero_left spec mode a b hza, hb⟩
  by_cases hzb : get_float_case b spec = cases.zero
  · exact ⟨a, float_addition_zero_right spec mode a b hza hzb, ha⟩
  by_cases hnan : get_float_case a spec = cases.nan ∨ get_float_case b spec = cases.nan ∨
      (get_float_case a spec = cases.inf ∧ get_float_case b spec = cases.inf ∧
        (extract_sign a spec.mant_size spec.exp_size != 0)
          ≠ (extract_sign b spec.mant_size spec.exp_size != 0))
  · unfold float_addition
    simp only [if_neg hza, if_neg hzb, if_pos hnan]
    exact ⟨_, rfl, make_nan_lt spec hs⟩
  by_cases hia : get_float_case a spec = cases.inf
  · unfold float_addition
    simp only [if_neg hza, if_neg hzb, if_neg hnan, if_pos hia]
    exact ⟨_, rfl, make_inf_lt spec hs _⟩
  by_cases hib : get_float_case b spec = cases.inf
  · unfold float_addition
    simp only [if_neg hza, if_neg hzb, if_neg hnan, if_neg hia, if_pos hib]
    exact ⟨_, rfl, make_inf_lt spec hs _⟩
  · have hfa : finite_nonzero spec a :=
      finite_of_not_special spec a (fun h => hnan (Or.inl h)) hia hza
    have hfb : finite_nonzero spec b :=
      finite_of_not_special spec b (fun h => hnan (Or.inr (Or.inl h))) hib hzb
    exact ⟨_, float_addition_correct spec hs mode a b ha hfa hfb hsg, spec_round_lt spec hv _ _⟩

theorem float_add_diff_lt (spec : precision_spec) (hs : spec = f16_spec ∨ spec = f32_spec)
    (mode : round) (a b : ℕ) (ha : a < 2 ^ width spec) (hb : b < 2 ^ width spec) :
    ∃ r, float_add_diff a b mode spec = some r ∧ r < 2 ^ width spec := by
  have hv := valid_of_format spec hs
  rw [float_add_diff_unfold spec hv mode a b ha hb]
  by_cases hsg : sign_bit spec a = sign_bit spec b
  · rw [if_pos hsg]
    exact float_addition_lt spec hs mode a b ha hb hsg
  rw [if_neg hsg]
  by_cases hzz : get_float_case a spec = cases.zero ∧ get_float_case b spec = cases.zero
  · rw [if_pos hzz]
    refine ⟨_, rfl, ?_⟩
    rcases hs with rfl | rfl <;> cases mode <;> decide
  rw [if_neg hzz]
  by_cases hza : get_float_case a spec = cases.zero
  · rw [if_pos hza]
    exact ⟨b, rfl, hb⟩
  rw [if_neg hza]
  by_cases hzb : get_float_case b spec = cases.zero
  · rw [if_pos hzb]
    exact ⟨a, rfl, ha⟩
  rw [if_neg hzb]
  by_cases hsb : sign_bit spec b = true
  · rw [if_pos hsb]
    apply float_subtract_lt spec hs mode a (flip_sign spec b) ha (flip_sign_lt spec b hb) hza
    · rw [get_float_case_flip_sign spec hv b hb]
      exact hzb
    · rw [sign_bit_flip spec b hb, hsb]
      cases hsa : sign_bit spec a
      · rfl
      · exact absurd (hsa.trans hsb.symm) hsg
  · rw [if_neg hsb]
    have hsb' : sign_bit spec b = false := by simpa using hsb
    apply float_subtract_lt spec hs mode b (flip_sign spec a) hb (flip_sign_lt spec a ha) hzb
    · rw [get_float_case_flip_sign spec hv a ha]
      exact hza
    · rw [sign_bit_flip spec a ha, hsb']
      cases hsa : sign_bit spec a
      · exact absurd (hsa.trans hsb'.symm) hsg
      · rfl

theorem float_sub_diff_lt (spec : precision_spec) (hs : spec = f16_spec ∨ spec = f32_spec)
    (mode : round) (a b : ℕ) (ha : a < 2 ^ width spec) (hb : b < 2 ^ width spec) :
    ∃ r, float_sub_diff a b mode spec = some r ∧ r < 2 ^ width spec := by
  rw [float_sub_diff_unfold spec (valid_of_format spec hs) mode a b hb]
  exact float_add_diff_lt spec hs mode a (flip_sign spec b) ha (flip_sign_lt spec b hb)

/-! ## Commutativity of the signed add -/

theorem zero_word_of_case (spec : precision_spec) (hv : valid_spec spec) (w : ℕ)
    (hw : w < 2 ^ width spec) (hz : get_float_case w spec = cases.zero) :
    w = b2n (sign_bit spec w) * 2 ^ (spec.mant_size + spec.exp_size) := by
  obtain ⟨h1, h2⟩ := (case_zero_iff spec hv w).1 hz
  have hd := word_decomp spec w hw
  rw [h1, h2] at hd
  omega

theorem float_addition_nan_eq (spec : precision_spec) (mode : round) (a b : ℕ)
    (hza : get_float_case a spec ≠ cases.zero) (hzb : get_float_case b spec ≠ cases.zero)
    (h : get_float_case a spec = cases.nan ∨ get_float_case b spec = cases.nan) :
    float_addition a b mode spec = some (make_nan spec) := by
  have hc : get_float_case a spec = cases.nan ∨ get_float_case b spec = cases.nan ∨
      (get_float_case a spec = cases.inf ∧ get_float_case b spec = cases.inf ∧
        (extract_sign a spec.mant_size spec.exp_size != 0)
          ≠ (extract_sign b spec.mant_size spec.exp_size != 0)) := by
    rcases h with h | h
    · exact Or.inl h
    · exact Or.inr (Or.inl h)
  unfold float_addition
  simp only [if_neg hza, if_neg hzb, if_pos hc]

theorem float_addition_comm (spec : precision_spec) (hs : spec = f16_spec ∨ spec = f32_spec)
    (mode : round) (a b : ℕ) (ha : a < 2 ^ width spec) (hb : b < 2 ^ width spec)
    (hsg : sign_bit spec a = sign_bit spec b) :
    float_addition a b mode spec = float_addition b a mode spec := by
  have hv := valid_of_format spec hs
  by_cases hza : get_float_case a spec = cases.zero
  · rw [float_addition_zero_left spec mode a b hza]
    by_cases hzb : get_float_case b spec = cases.zero
    · rw [float_addition_zero_left spec mode b a hzb]
      have e1 := zero_word_of_case spec hv a ha hza
      have e2 := zero_word_of_case spec hv b hb hzb
      rw [hsg] at e1
      rw [e1, ← e2]
    · rw [float_addition_zero_right spec mode b a hzb hza]
  by_cases hzb : get_float_case b spec = cases.zero
  · rw [float_addition_zero_right spec mode a b hza hzb,
      float_addition_zero_left spec mode b a hzb]
  by_cases hnan : get_float_case a spec = cases.nan ∨ get_float_case b spec = cases.nan
  · rw [float_addition_nan_eq spec mode a b hza hzb hnan,
      float_addition_nan_eq spec mode b a hzb hza hnan.symm]
  have hna : get_float_case a spec ≠ cases.nan := fun h => hnan (Or.inl h)
  have hnb : get_float_case b spec ≠ cases.nan := fun h => hnan (Or.inr h)
  by_cases hia : get_float_case a spec = cases.inf
  · rw [float_addition_inf_left spec hs mode a b ha hb hnb hzb hia (fun _ => hsg)]
    by_cases hib : get_float_case b spec = cases.inf
    · rw [float_addition_inf_left spec hs mode b a hb ha hna hza hib (fun _ => hsg.symm)]
      rw [← make_inf_of_case spec hs a ha hia, ← make_inf_of_case spec hs b hb hib, hsg]
    · rw [float_addition_inf_right spec hs mode b a hb ha hnb hzb hib hia]
  by_cases hib : get_float_case b spec = cases.inf
  · rw [float_addition_inf_right spec hs mode a b ha hb hna hza hia hib,
      float_addition_inf_left spec hs mode b a hb ha hna hza hib
        (fun h => absurd h hia)]
  · have hfa : finite_nonzero spec a := finite_of_not_special spec a hna hia hza
    have hfb : finite_nonzero spec b := finite_of_not_special spec b hnb hib hzb
    rw [float_addition_correct spec hs mode a b ha hfa hfb hsg,
      float_addition_correct spec hs mode b a hb hfb hfa hsg.symm, add_comm]

theorem float_add_diff_comm (spec : precision_spec) (hs : spec = f16_spec ∨ spec = f32_spec)
    (mode : round) (a b : ℕ) (ha : a < 2 ^ width spec) (hb : b < 2 ^ width spec) :
    float_add_diff a b mode spec = float_add_diff b a mode spec := by
  have hv := valid_of_format spec hs
  rw [float_add_diff_unfold spec hv mode a b ha hb, float_add_diff_unfold spec hv mode b a hb ha]
  by_cases hsg : sign_bit spec a = sign_bit spec b
  · rw [if_pos hsg, if_pos hsg.symm]
    exact float_addition_comm spec hs mode a b ha hb hsg
  have hsg' : ¬ sign_bit spec b = sign_bit spec a := fun h => hsg h.symm
  rw [if_neg hsg, if_neg hsg']
  by_cases hza : get_float_case a spec = cases.zero <;>
    by_cases hzb : get_float_case b spec = cases.zero <;>
      simp only [hza, hzb, and_self, and_true, and_false, true_and, false_and, if_true,
        if_false]
  cases hsa : sign_bit spec a <;> cases hsb : sign_bit spec b
  · exact absurd (hsa.trans hsb.symm) hsg
  · simp
  · simp
  · exact absurd (hsa.trans hsb.symm) hsg

/-! ## Divide: the final rounding in the normal range never carries -/

theorem divide_final_round_bounds (spec : precision_spec) (hv : valid_spec spec) (mode : round)
    (a b : ℕ) (hfa : finite_nonzero spec a) (hfb : finite_nonzero spec b) :
    2 ^ spec.mant_size ≤ divide_final_round spec mode a b ∧
    divide_final_round spec mode a b < 2 ^ (spec.mant_size + 1) := by
  obtain ⟨sa1, sa2⟩ := norm_sig_bounds spec hv a hfa
  obtain ⟨sb1, sb2⟩ := norm_sig_bounds spec hv b hfb
  obtain ⟨r1, r2, r3, r4, r5, r6⟩ := divide_rep spec.mant_size _ _ sa1 sa2 sb1 sb2
  have hm := hv.mant_le
  have h64 : 2 ^ (spec.mant_size + 1) < 2 ^ 64 := Nat.pow_lt_pow_right (by decide) (by omega)
  unfold divide_final_round divide_stage
  rw [divide_quotient_eq spec hv _ _ _ _ _ _ (load_mant_or spec hv a hfa)
    (load_mant_or spec hv b hfb) sa1 sa2 sb1 sb2]
  have e2 := decide_congr r2
  have e3 := decide_congr r3
  simp only [r1, e2, e3]
  generalize norm_sig spec b * 2 ^ (3 - b2n (decide (norm_sig spec a < norm_sig spec b))) = D
    at r4 r5 r6 ⊢
  generalize norm_sig spec a * 2 ^ (spec.mant_size + 3) = A at r4 r5 r6 ⊢
  rw [float_round_eq _ _ _ _ _ (by omega)]
  have hb := b2n_le_one (bits_round_up mode (xor (sign_bit spec a) (sign_bit spec b)) (A / D)
    (decide (D ≤ 2 * (A % D))) (decide (A % D ≠ 0 ∧ 2 * (A % D) ≠ D)))
  refine ⟨by omega, ?_⟩
  by_cases hall : A / D = 2 ^ (spec.mant_size + 1) - 1
  · have hr0 := r6 hall
    have h1 : decide (D ≤ 2 * (A % D)) = false := by
      rw [decide_eq_false_iff_not, hr0]
      have : 0 < D := by
        by_contra hD
        have hD0 : D = 0 := by omega
        rw [hD0, Nat.div_zero] at r4
        have : 0 < 2 ^ spec.mant_size := by positivity
        omega
      omega
    have h2 : decide (A % D ≠ 0 ∧ 2 * (A % D) ≠ D) = false := by
      rw [decide_eq_false_iff_not, hr0]; simp
    rw [h1, h2, bits_round_up_exact]
    simp only [b2n, Bool.false_eq_true, if_false]
    omega
  · omega

theorem float_divide_normal_range (spec : precision_spec) (hv : valid_spec spec) (mode : round)
    (a b : ℕ) (ha : a < 2 ^ width spec) (hb : b < 2 ^ width spec)
    (hfa : finite_nonzero spec a) (hfb : finite_nonzero spec b)
    (h0 : 0 < (divide_stage spec a b).1)
    (h1 : (divide_stage spec a b).1 < (2 ^ spec.exp_size : ℕ) - 1) :
    float_divide a b mode spec =
      some (b2n (xor (sign_bit spec a) (sign_bit spec b)) * 2 ^ (spec.mant_size + spec.exp_size)
        + ((divide_stage spec a b).1).toNat * 2 ^ spec.mant_size
        + (divide_final_round spec mode a b - 2 ^ spec.mant_size)) := by
  obtain ⟨b1, b2⟩ := divide_final_round_bounds spec hv mode a b hfa hfb
  have hm := hv.mant_le
  have h256 := exp_pow_le spec hv
  have e1 : 2 ^ (spec.mant_size + 1) = 2 ^ spec.mant_size * 2 := pow_succ _ _
  have h32 : 2 ^ (spec.mant_size + 1) < 2 ^ 32 := Nat.pow_lt_pow_right (by decide) (by omega)
  rw [float_divide_finite_eq spec hv mode a b ha hb hfa hfb]
  congr 1
  unfold divide_final_round divide_stage at *
  unfold float_divide_finite
  rcases hq : divide_quotient (norm_exp spec a) (load_mant spec a) (norm_exp spec b)
    (load_mant spec b) spec with ⟨E, n, h, st⟩
  rw [hq] at h0 h1 b1 b2
  simp only [] at h0 h1 b1 b2 ⊢
  have hov : ¬ E ≥ ((1 <<< spec.exp_size : ℕ) : ℤ) - 1 := by
    rw [Nat.one_shiftLeft]
    omega
  have hun : ¬ E ≤ 0 := by omega
  have hu8 : u8 E = E.toNat := by
    unfold u8
    congr 1
    omega
  have hu32 : u32 (float_round n (xor (sign_bit spec a) (sign_bit spec b)) h st mode)
      = float_round n (xor (sign_bit spec a) (sign_bit spec b)) h st mode :=
    Nat.mod_eq_of_lt (by omega)
  rw [if_neg hov, if_neg hun, hu8, hu32, pack_float_eq spec hv _ _ _ (by omega)]
  congr 1
  generalize float_round n (xor (sign_bit spec a) (sign_bit spec b)) h st mode = R at b1 b2
  have hR : R = 2 ^ spec.mant_size + (R - 2 ^ spec.mant_size) := by omega
  rw [hR, Nat.add_mod_left, Nat.mod_eq_of_lt (by omega)]
  omega

/-! ## The exponent handed to `pack_float` -/

theorem ite_none_some {β : Type} {c : Prop} [Decidable c] (y t : β)
    (h : (if c then none else some y) = some t) : ¬ c ∧ y = t := by
  by_cases hc : c
  · rw [if_pos hc] at h
    exact absurd h (by simp)
  · rw [if_neg hc] at h
    exact ⟨hc, Option.some.inj h⟩

theorem float_multiply_finite_link (spec : precision_spec) (ea eb : ℤ) (la lb : ℕ)
    (sign : Bool) (mode : round) (c : Bool × ℤ × ℕ)
    (h : float_multiply_finite_call ea la eb lb sign mode spec = some c) :
    float_multiply_finite ea la eb lb sign mode spec = pack_float spec c.1 (u8 c.2.1) c.2.2 := by
  unfold float_multiply_finite_call at h
  obtain ⟨hc, hy⟩ := ite_none_some _ _ h
  unfold float_multiply_finite
  simp only [] at hc ⊢
  rw [if_neg hc, ← hy]

theorem add_b2n_range (E0 N : ℤ) (c : Bool) (h0 : 0 ≤ E0) (h1 : E0 ≤ N - 2) :
    0 ≤ E0 + ((b2n c : ℕ) : ℤ) ∧ E0 + ((b2n c : ℕ) : ℤ) ≤ N - 1 := by
  have := b2n_le_one c
  omega

theorem float_multiply_finite_range (spec : precision_spec) (hv : valid_spec spec)
    (ea eb : ℤ) (la lb : ℕ) (sign : Bool) (mode : round) (c : Bool × ℤ × ℕ)
    (h : float_multiply_finite_call ea la eb lb sign mode spec = some c) :
    0 ≤ c.2.1 ∧ c.2.1 ≤ ((2 ^ spec.exp_size : ℕ) : ℤ) - 1 := by
  have h4 := exp_pow_ge spec hv
  have hmax : max (1 <<< spec.exp_size) 2 = 2 ^ spec.exp_size := by
    rw [Nat.one_shiftLeft]
    omega
  unfold float_multiply_finite_call at h
  obtain ⟨hc, hy⟩ := ite_none_some _ _ h
  have hb := clamp_exp_bounds _ _ hc
  rw [hmax] at hb
  rw [← hy]
  exact add_b2n_range _ _ _ hb.1 hb.2

theorem float_multiply_call_spec (spec : precision_spec) (hs : spec = f16_spec ∨ spec = f32_spec)
    (mode : round) (a b : ℕ) (c : Bool × ℤ × ℕ)
    (h : float_multiply_call a b mode spec = some c) :
    0 ≤ c.2.1 ∧ c.2.1 ≤ ((2 ^ spec.exp_size : ℕ) : ℤ) - 1 ∧
    float_multiply a b mode spec = some (pack_float spec c.1 (u8 c.2.1) c.2.2) := by
  have hv := valid_of_format spec hs
  unfold float_multiply_call at h
  unfold float_multiply
  by_cases hnan : get_float_case a spec = cases.nan ∨ get_float_case b spec = cases.nan ∨
      ((get_float_case a spec = cases.inf ∨ get_float_case b spec = cases.inf) ∧
        (get_float_case b spec = cases.zero ∨ get_float_case a spec = cases.zero))
  · simp only [if_pos hnan] at h
    exact absurd h (by simp)
  by_cases hinf : get_float_case a spec = cases.inf ∨ get_float_case b spec = cases.inf
  · simp only [if_neg hnan, if_pos hinf] at h
    exact absurd h (by simp)
  by_cases hzero : get_float_case a spec = cases.zero ∨ get_float_case b spec = cases.zero
  · simp only [if_neg hnan, if_neg hinf, if_pos hzero] at h
    exact absurd h (by simp)
  · have hfa : finite_nonzero spec a :=
      finite_of_not_special spec a (fun h => hnan (Or.inl h)) (fun h => hinf (Or.inl h))
        (fun h => hzero (Or.inl h))
    have hfb : finite_nonzero spec b :=
      finite_of_not_special spec b (fun h => hnan (Or.inr (Or.inl h)))
        (fun h => hinf (Or.inr h)) (fun h => hzero (Or.inr h))
    simp only [if_neg hnan, if_neg hinf, if_neg hzero, load_operand_eq spec hv a hfa,
      load_operand_eq spec hv b hfb] at h ⊢
    obtain ⟨r1, r2⟩ := float_multiply_finite_range spec hv _ _ _ _ _ _ c h
    exact ⟨r1, r2, congrArg some (float_multiply_finite_link spec _ _ _ _ _ _ c h)⟩

theorem float_divide_finite_call_spec (spec : precision_spec) (hv : valid_spec spec)
    (ea eb : ℤ) (la lb : ℕ) (sign : Bool) (mode : round) (c : Bool × ℤ × ℕ)
    (h : float_divide_finite_call ea la eb lb sign mode spec = some c) :
    0 ≤ c.2.1 ∧ c.2.1 ≤ ((2 ^ spec.exp_size : ℕ) : ℤ) - 1 ∧
    float_divide_finite ea la eb lb sign mode spec = pack_float spec c.1 (u8 c.2.1) c.2.2 := by
  have h4 := exp_pow_ge spec hv
  unfold float_divide_finite_call at h
  unfold float_divide_finite
  generalize divide_quotient ea la eb lb spec = dq at h ⊢
  rcases dq with ⟨E, n, hb, st⟩
  simp only [] at h ⊢
  by_cases hov : E ≥ ((1 <<< spec.exp_size : ℕ) : ℤ) - 1
  · rw [if_pos hov] at h
    exact absurd h (by simp)
  rw [if_neg hov] at h ⊢
  rw [Nat.one_shiftLeft] at hov
  by_cases hun : E ≤ 0
  · rw [if_pos hun] at h ⊢
    generalize divide_denormalize E n hb st spec = dd at h ⊢
    rcases dd with ⟨n1, h1, st1⟩
    simp only [] at h ⊢
    have hy := Option.some.inj h
    rw [← hy]
    refine ⟨?_, ?_, rfl⟩
    · exact (add_b2n_range 0 _ _ (le_refl 0) (by omega : (0 : ℤ) ≤ 2 - 2)).1
    · have := (add_b2n_range 0 2 (u32 (float_round n1 sign h1 st1 mode)
        &&& 1 <<< spec.mant_size != 0) (le_refl 0) (by omega)).2
      simp only [] at this ⊢
      omega
  · rw [if_neg hun] at h ⊢
    have hy := Option.some.inj h
    rw [← hy]
    refine ⟨?_, ?_, rfl⟩
    · simp only []
      omega
    · simp only []
      omega

theorem float_divide_call_spec (spec : precision_spec) (hs : spec = f16_spec ∨ spec = f32_spec)
    (mode : round) (a b : ℕ) (c : Bool × ℤ × ℕ)
    (h : float_divide_call a b mode spec = some c) :
    0 ≤ c.2.1 ∧ c.2.1 ≤ ((2 ^ spec.exp_size : ℕ) : ℤ) - 1 ∧
    float_divide a b mode spec = some (pack_float spec c.1 (u8 c.2.1) c.2.2) := by
  have hv := valid_of_format spec hs
  unfold float_divide_call at h
  unfold float_divide
  by_cases hnan : get_float_case a spec = cases.nan ∨ get_float_case b spec = cases.nan ∨
      (get_float_case a spec = cases.zero ∧ get_float_case b spec = cases.zero) ∨
      (get_float_case a spec = cases.inf ∧ get_float_case b spec = cases.inf)
  · simp only [if_pos hnan] at h
    exact absurd h (by simp)
  by_cases hinf : get_float_case b spec = cases.zero ∨ get_float_case a spec = cases.inf
  · simp only [if_neg hnan, if_pos hinf] at h
    exact absurd h (by simp)
  by_cases hzero : get_float_case a spec = cases.zero ∨ get_float_case b spec = cases.inf
  · simp only [if_neg hnan, if_neg hinf, if_pos hzero] at h
    exact absurd h (by simp)
  · have hfa : finite_nonzero spec a :=
      finite_of_not_special spec a (fun h => hnan (Or.inl h)) (fun h => hinf (Or.inr h))
        (fun h => hzero (Or.inl h))
    have hfb : finite_nonzero spec b :=
      finite_of_not_special spec b (fun h => hnan (Or.inr (Or.inl h)))
        (fun h => hzero (Or.inr h)) (fun h => hinf (Or.inl h))
    simp only [if_neg hnan, if_neg hinf, if_neg hzero, load_operand_eq spec hv a hfa,
      load_operand_eq spec hv b hfb] at h ⊢
    obtain ⟨r1, r2, r3⟩ := float_divide_finite_call_spec spec hv _ _ _ _ _ _ c h
    exact ⟨r1, r2, congrArg some r3⟩

theorem clamp_zero_bounds (X : ℤ) : 0 ≤ (if X ≤ 0 then (0 : ℤ) else X) := by
  split <;> omega

theorem addition_finish_call_spec (spec : precision_spec) (hv : valid_spec spec)
    (E : ℤ) (n : ℕ) (hb st sign : Bool) (mode : round) (c : Bool × ℤ × ℕ)
    (h : addition_finish_call E n hb st sign mode spec = some c) :
    0 ≤ c.2.1 ∧ c.2.1 ≤ ((2 ^ spec.exp_size : ℕ) : ℤ) - 1 ∧
    addition_finish E n hb st sign mode spec = pack_float spec c.1 (u8 c.2.1) c.2.2 := by
  unfold addition_finish_call at h
  obtain ⟨hc, hy⟩ := ite_none_some _ _ h
  unfold addition_finish
  simp only [] at hc ⊢
  rw [if_neg hc, ← hy]
  rw [Nat.one_shiftLeft spec.exp_size] at hc
  refine ⟨clamp_zero_bounds _, ?_, rfl⟩
  simp only []
  omega

theorem float_addition_finite_call_spec (spec : precision_spec) (hv : valid_spec spec)
    (ea eb : ℤ) (la lb : ℕ) (sign : Bool) (mode : round) (c : Bool × ℤ × ℕ)
    (h : float_addition_finite_call ea la eb lb sign mode spec = some c) :
    0 ≤ c.2.1 ∧ c.2.1 ≤ ((2 ^ spec.exp_size : ℕ) : ℤ) - 1 ∧
    float_addition_finite ea la eb lb sign mode spec = pack_float spec c.1 (u8 c.2.1) c.2.2 := by
  unfold float_addition_finite_call at h
  unfold float_addition_finite
  generalize addition_order ea la eb lb spec = p1 at h ⊢
  rcases p1 with ⟨e1, s1, s2, d⟩
  simp only [] at h ⊢
  generalize addition_align s1 s2 d spec = p2 at h ⊢
  rcases p2 with ⟨n, hb, st⟩
  simp only [] at h ⊢
  generalize addition_carry e1 n hb st spec = p3 at h ⊢
  rcases p3 with ⟨e2, n2, hb2, st2⟩
  simp only [] at h ⊢
  exact addition_finish_call_spec spec hv _ _ _ _ _ _ c h

theorem float_addition_call_spec (spec : precision_spec)
    (hs : spec = f16_spec ∨ spec = f32_spec) (mode : round) (a b : ℕ) (c : Bool × ℤ × ℕ)
    (h : float_addition_call a b mode spec = some c) :
    0 ≤ c.2.1 ∧ c.2.1 ≤ ((2 ^ spec.exp_size : ℕ) : ℤ) - 1 ∧
    float_addition a b mode spec = some (pack_float spec c.1 (u8 c.2.1) c.2.2) := by
  have hv := valid_of_format spec hs
  unfold float_addition_call at h
  unfold float_addition
  by_cases hza : get_float_case a spec = cases.zero
  · simp only [if_pos hza] at h
    exact absurd h (by simp)
  by_cases hzb : get_float_case b spec = cases.zero
  · simp only [if_neg hza, if_pos hzb] at h
    exact absurd h (by simp)
  by_cases hnan : get_float_case a spec = cases.nan ∨ get_float_case b spec = cases.nan ∨
      (get_float_case a spec = cases.inf ∧ get_float_case b spec = cases.inf ∧
        (extract_sign a spec.mant_size spec.exp_size != 0)
          ≠ (extract_sign b spec.mant_size spec.exp_size != 0))
  · simp only [if_neg hza, if_neg hzb, if_pos hnan] at h
    exact absurd h (by simp)
  by_cases hia : get_float_case a spec = cases.inf
  · simp only [if_neg hza, if_neg hzb, if_neg hnan, if_pos hia] at h
    exact absurd h (by simp)
  by_cases hib : get_float_case b spec = cases.inf
  · simp only [if_neg hza, if_neg hzb, if_neg hnan, if_neg hia, if_pos hib] at h
    exact absurd h (by simp)
  · have hfa : finite_nonzero spec a :=
      finite_of_not_special spec a (fun h => hnan (Or.inl h)) hia hza
    have hfb : finite_nonzero spec b :=
      finite_of_not_special spec b (fun h => hnan (Or.inr (Or.inl h))) hib hzb
    simp only [if_neg hza, if_neg hzb, if_neg hnan, if_neg hia, if_neg hib,
      load_operand_eq spec hv a hfa, load_operand_eq spec hv b hfb] at h ⊢
    obtain ⟨r1, r2, r3⟩ := float_addition_finite_call_spec spec hv _ _ _ _ _ _ c h
    exact ⟨r1, r2, congrArg some r3⟩

theorem float_subtract_finish_call_spec (spec : precision_spec) (hv : valid_spec spec)
    (E : ℤ) (n : ℕ) (sign hb st : Bool) (mode : round)
    (hE : E ≤ ((2 ^ spec.exp_size : ℕ) : ℤ) - 2) :
    0 ≤ (float_subtract_finish_call E n sign hb st mode spec).2.1 ∧
    (float_subtract_finish_call E n sign hb st mode spec).2.1
      ≤ ((2 ^ spec.exp_size : ℕ) : ℤ) - 1 ∧
    float_subtract_finish E n sign hb st mode spec =
      pack_float spec (float_subtract_finish_call E n sign hb st mode spec).1
        (u8 (float_subtract_finish_call E n sign hb st mode spec).2.1)
        (float_subtract_finish_call E n sign hb st mode spec).2.2 := by
  have h4 := exp_pow_ge spec hv
  refine ⟨?_, ?_, rfl⟩
  · unfold float_subtract_finish_call
    exact clamp_zero_bounds _
  · unfold float_subtract_finish_call
    simp only []
    have := b2n_le_one (float_round n sign hb st mode &&& 1 <<< spec.mant_size == 0)
    split <;> omega

theorem subtract_normalize_loop_le (bit : ℕ) :
    ∀ (fuel : ℕ) (e : ℤ) (X : ℕ) (r : ℤ × ℕ),
      subtract_normalize_loop bit fuel e X = some r → r.1 ≤ e := by
  intro fuel
  induction fuel with
  | zero =>
    intro e X r h
    simp [subtract_normalize_loop] at h
  | succ f ih =>
    intro e X r h
    unfold subtract_normalize_loop at h
    by_cases hb : X &&& bit = 0
    · rw [if_pos hb] at h
      have := ih _ _ _ h
      omega
    · rw [if_neg hb] at h
      have := Option.some.inj h
      rw [← this]

theorem subtract_far_exp_le (spec : precision_spec) (e1 : ℤ) (s1 s2 d : ℕ) :
    (subtract_far e1 s1 s2 d spec).1 ≤ e1 := by
  unfold subtract_far
  simp only []
  split <;> omega

theorem float_subtract_ordered_call_spec (spec : precision_spec) (hv : valid_spec spec)
    (sign : Bool) (e1 : ℤ) (s1 s2 d : ℕ) (mode : round) (c : Bool × ℤ × ℕ)
    (hE : e1 ≤ ((2 ^ spec.exp_size : ℕ) : ℤ) - 2)
    (h : float_subtract_ordered_call sign e1 s1 s2 d mode spec = some c) :
    0 ≤ c.2.1 ∧ c.2.1 ≤ ((2 ^ spec.exp_size : ℕ) : ℤ) - 1 ∧
    float_subtract_ordered sign e1 s1 s2 d mode spec
      = some (pack_float spec c.1 (u8 c.2.1) c.2.2) := by
  unfold float_subtract_ordered_call at h
  unfold float_subtract_ordered
  by_cases hd : d ≤ spec.mant_size + 1
  · simp only [if_pos hd] at h ⊢
    by_cases hX : u64_sub (u64 (s1 <<< d)) s2 = 0
    · rw [if_pos hX] at h
      exact absurd h (by simp)
    rw [if_neg hX] at h ⊢
    have hle := subtract_normalize_loop_le (u64 (1 <<< (spec.mant_size + d))) 65 e1
      (u64_sub (u64 (s1 <<< d)) s2)
    generalize subtract_normalize_loop (u64 (1 <<< (spec.mant_size + d))) 65 e1
      (u64_sub (u64 (s1 <<< d)) s2) = lp at h hle ⊢
    rcases lp with _ | ⟨e2, X2⟩
    · exact absurd h (by simp)
    · have he2 : e2 ≤ e1 := hle _ rfl
      simp only [] at h ⊢
      generalize subtract_near_bits X2 d = nb at h ⊢
      rcases nb with ⟨n, hb, st⟩
      simp only [] at h ⊢
      have hy := Option.some.inj h
      obtain ⟨r1, r2, r3⟩ := float_subtract_finish_call_spec spec hv e2 n sign hb st mode
        (by omega)
      rw [← hy]
      exact ⟨r1, r2, congrArg some r3⟩
  · simp only [if_neg hd] at h ⊢
    have hle := subtract_far_exp_le spec e1 s1 s2 d
    generalize subtract_far e1 s1 s2 d spec = fr at h hle ⊢
    rcases fr with ⟨e2, n, hb, st⟩
    simp only [] at h hle ⊢
    have hy := Option.some.inj h
    obtain ⟨r1, r2, r3⟩ := float_subtract_finish_call_spec spec hv e2 n sign hb st mode
      (by omega)
    rw [← hy]
    exact ⟨r1, r2, congrArg some r3⟩

theorem subtract_order_exp_le (spec : precision_spec) (ea eb : ℤ) (la lb : ℕ) (sign : Bool)
    (N : ℤ) (ha : ea ≤ N) (hb : eb ≤ N) :
    (subtract_order ea la eb lb sign spec).2.1 ≤ N := by
  unfold subtract_order
  simp only []
  split <;> omega

theorem float_subtract_finite_call_spec (spec : precision_spec) (hv : valid_spec spec)
    (ea eb : ℤ) (la lb : ℕ) (sign : Bool) (mode : round) (c : Bool × ℤ × ℕ)
    (ha : ea ≤ ((2 ^ spec.exp_size : ℕ) : ℤ) - 2) (hb : eb ≤ ((2 ^ spec.exp_size : ℕ) : ℤ) - 2)
    (h : float_subtract_finite_call ea la eb lb sign mode spec = some c) :
    0 ≤ c.2.1 ∧ c.2.1 ≤ ((2 ^ spec.exp_size : ℕ) : ℤ) - 1 ∧
    float_subtract_finite ea la eb lb sign mode spec
      = some (pack_float spec c.1 (u8 c.2.1) c.2.2) := by
  unfold float_subtract_finite_call at h
  unfold float_subtract_finite
  have hle := subtract_order_exp_le spec ea eb la lb sign _ ha hb
  generalize subtract_order ea la eb lb sign spec = so at h hle ⊢
  rcases so with ⟨s, e1, s1, s2, d⟩
  simp only [] at h hle ⊢
  exact float_subtract_ordered_call_spec spec hv s e1 s1 s2 d mode c hle h

theorem float_subtract_call_spec (spec : precision_spec)
    (hs : spec = f16_spec ∨ spec = f32_spec) (mode : round) (a b : ℕ) (c : Bool × ℤ × ℕ)
    (h : float_subtract_call a b mode spec = some c) :
    0 ≤ c.2.1 ∧ c.2.1 ≤ ((2 ^ spec.exp_size : ℕ) : ℤ) - 1 ∧
    float_subtract a b mode spec = some (pack_float spec c.1 (u8 c.2.1) c.2.2) := by
  have hv := valid_of_format spec hs
  unfold float_subtract_call at h
  unfold float_subtract
  by_cases hza : get_float_case a spec = cases.zero
  · simp only [if_pos hza] at h ⊢
    have hy := Option.some.inj h
    have hlt : a / 2 ^ spec.mant_size % 2 ^ spec.exp_size < 2 ^ spec.exp_size :=
      Nat.mod_lt _ (by positivity)
    rw [← hy]
    refine ⟨?_, ?_, rfl⟩
    · simp only []
      omega
    · simp only [extract_exp_eq]
      omega
  by_cases hzb : get_float_case b spec = cases.zero
  · simp only [if_neg hza, if_pos hzb] at h
    exact absurd h (by simp)
  by_cases hnan : get_float_case a spec = cases.nan ∨ get_float_case b spec = cases.nan ∨
      (get_float_case a spec = cases.inf ∧ get_float_case b spec = cases.inf ∧
        (extract_sign a spec.mant_size spec.exp_size != 0)
          = (extract_sign b spec.mant_size spec.exp_size != 0))
  · simp only [if_neg hza, if_neg hzb, if_pos hnan] at h
    exact absurd h (by simp)
  by_cases hia : get_float_case a spec = cases.inf
  · simp only [if_neg hza, if_neg hzb, if_neg hnan, if_pos hia] at h
    exact absurd h (by simp)
  by_cases hib : get_float_case b spec = cases.inf
  · simp only [if_neg hza, if_neg hzb, if_neg hnan, if_neg hia, if_pos hib] at h
    exact absurd h (by simp)
  · have hfa : finite_nonzero spec a :=
      finite_of_not_special spec a (fun h => hnan (Or.inl h)) hia hza
    have hfb : finite_nonzero spec b :=
      finite_of_not_special spec b (fun h => hnan (Or.inr (Or.inl h))) hib hzb
    have h4 := exp_pow_ge spec hv
    have ea := (norm_exp_bounds spec hv a hfa).2
    have eb := (norm_exp_bounds spec hv b hfb).2
    simp only [if_neg hza, if_neg hzb, if_neg hnan, if_neg hia, if_neg hib,
      load_operand_eq spec hv a hfa, load_operand_eq spec hv b hfb] at h ⊢
    exact float_subtract_finite_call_spec spec hv _ _ _ _ _ _ c (by omega) (by omega) h

theorem float_add_diff_call_spec (spec : precision_spec)
    (hs : spec = f16_spec ∨ spec = f32_spec) (mode : round) (a b : ℕ) (c : Bool × ℤ × ℕ)
    (h : float_add_diff_call a b mode spec = some c) :
    0 ≤ c.2.1 ∧ c.2.1 ≤ ((2 ^ spec.exp_size : ℕ) : ℤ) - 1 ∧
    float_add_diff a b mode spec = some (pack_float spec c.1 (u8 c.2.1) c.2.2) := by
  unfold float_add_diff_call at h
  unfold float_add_diff
  by_cases hsg : (extract_sign a spec.mant_size spec.exp_size != 0)
      = (extract_sign b spec.mant_size spec.exp_size != 0)
  · simp only [if_pos hsg] at h ⊢
    exact float_addition_call_spec spec hs mode a b c h
  by_cases hzz : get_float_case a spec = cases.zero ∧ get_float_case b spec = cases.zero
  · simp only [if_neg hsg, if_pos hzz] at h
    exact absurd h (by simp)
  by_cases hza : get_float_case a spec = cases.zero
  · simp only [if_neg hsg, if_neg hzz, if_pos hza] at h
    exact absurd h (by simp)
  by_cases hzb : get_float_case b spec = cases.zero
  · simp only [if_neg hsg, if_neg hzz, if_neg hza, if_pos hzb] at h
    exact absurd h (by simp)
  by_cases hsb : (extract_sign b spec.mant_size spec.exp_size != 0) = true
  · simp only [if_neg hsg, if_neg hzz, if_neg hza, if_neg hzb, if_pos hsb] at h ⊢
    exact float_subtract_call_spec spec hs mode _ _ c h
  · simp only [if_neg hsg, if_neg hzz, if_neg hza, if_neg hzb, if_neg hsb] at h ⊢
    exact float_subtract_call_spec spec hs mode _ _ c h

theorem float_sub_diff_call_spec (spec : precision_spec)
    (hs : spec = f16_spec ∨ spec = f32_spec) (mode : round) (a b : ℕ) (c : Bool × ℤ × ℕ)
    (h : float_sub_diff_call a b mode spec = some c) :
    0 ≤ c.2.1 ∧ c.2.1 ≤ ((2 ^ spec.exp_size : ℕ) : ℤ) - 1 ∧
    float_sub_diff a b mode spec = some (pack_float spec c.1 (u8 c.2.1) c.2.2) :=
  float_add_diff_call_spec spec hs mode a (float_invert_sign b spec) c h

theorem ite_none_none {β : Type} {c : Prop} [Decidable c] (y : β)
    (h : (if c then none else some y) = none) : c := by
  by_contra hc
  rw [if_neg hc] at h
  exact absurd h (by simp)

theorem float_multiply_call_none (spec : precision_spec) (hv : valid_spec spec) (mode : round)
    (a b : ℕ) (ha : a < 2 ^ width spec) (hb : b < 2 ^ width spec)
    (hfa : finite_nonzero spec a) (hfb : finite_nonzero spec b)
    (h : float_multiply_call a b mode spec = none) :
    float_multiply a b mode spec
      = some (float_exp_overflow spec (xor (sign_bit spec a) (sign_bit spec b)) mode) := by
  obtain ⟨a1, a2, a3⟩ := finite_not_special spec a hfa
  obtain ⟨b1, b2, b3⟩ := finite_not_special spec b hfb
  rw [float_multiply_finite_eq spec hv mode a b ha hb hfa hfb]
  congr 1
  unfold float_multiply_call at h
  simp only [a1, a2, a3, b1, b2, b3, false_or, or_false, false_and, and_false, if_false,
    load_operand_eq spec hv a hfa, load_operand_eq spec hv b hfb, code_sign_eq spec a ha,
    code_sign_eq spec b hb] at h
  unfold float_multiply_finite_call at h
  have hc := ite_none_none _ h
  unfold float_multiply_finite
  simp only [] at hc ⊢
  rw [if_pos hc]

theorem float_divide_call_none (spec : precision_spec) (hv : valid_spec spec) (mode : round)
    (a b : ℕ) (ha : a < 2 ^ width spec) (hb : b < 2 ^ width spec)
    (hfa : finite_nonzero spec a) (hfb : finite_nonzero spec b)
    (h : float_divide_call a b mode spec = none) :
    float_divide a b mode spec
      = some (float_exp_overflow spec (xor (sign_bit spec a) (sign_bit spec b)) mode) := by
  obtain ⟨a1, a2, a3⟩ := finite_not_special spec a hfa
  obtain ⟨b1, b2, b3⟩ := finite_not_special spec b hfb
  rw [float_divide_finite_eq spec hv mode a b ha hb hfa hfb]
  congr 1
  unfold float_divide_call at h
  simp only [a1, a2, a3, b1, b2, b3, false_or, or_false, false_and, and_false, if_false,
    load_operand_eq spec hv a hfa, load_operand_eq spec hv b hfb, code_sign_eq spec a ha,
    code_sign_eq spec b hb] at h
  unfold float_divide_finite_call at h
  unfold float_divide_finite
  generalize divide_quotient (norm_exp spec a) (load_mant spec a) (norm_exp spec b)
    (load_mant spec b) spec = dq at h ⊢
  rcases dq with ⟨E, n, hb1, st⟩
  simp only [] at h ⊢
  by_cases hov : E ≥ ((1 <<< spec.exp_size : ℕ) : ℤ) - 1
  · rw [if_pos hov]
  · rw [if_neg hov] at h
    by_cases hun : E ≤ 0
    · rw [if_pos hun] at h
      generalize divide_denormalize E n hb1 st spec = dd at h
      rcases dd with ⟨n1, h1, st1⟩
      exact absurd h (by simp)
    · rw [if_neg hun] at h
      exact absurd h (by simp)

/-- C15 (exact doubling): for both formats, every rounding mode and every normal operand word `x`
fitting in the format width whose exponent field `E` is at most `2^exp_size - 3`,
`float_add_diff(x, x, mode)` returns `x + 2^mant_size`, the word with the sign and the mantissa
field of `x` and the exponent field `E + 1`. -/
theorem exact_doubling (spec : precision_spec) (hs : spec = f16_spec ∨ spec = f32_spec)
    (mode : round) (x : Nat) (hx : x < 2 ^ width spec)
    (hn : get_float_case x spec = cases.normal)
    (hE : exp_field spec x ≤ 2 ^ spec.exp_size - 3) :
    float_add_diff x x mode spec = some (x + 2 ^ spec.mant_size) ∧
    sign_bit spec (x + 2 ^ spec.mant_size) = sign_bit spec x ∧
    mant_field spec (x + 2 ^ spec.mant_size) = mant_field spec x ∧
    exp_field spec (x + 2 ^ spec.mant_size) = exp_field spec x + 1 := by
  have hv := valid_of_format spec hs
  have h4 := exp_pow_ge spec hv
  obtain ⟨_, f1, f2, f3⟩ := fields_next_binade spec x hx (by omega)
  exact ⟨float_add_diff_double spec hs mode x hx hn hE, f1, f3, f2⟩

/-- Witness for `exact_doubling`: half precision, `ties_to_even`, `0x3C00 + 0x3C00 = 0x4000`. -/
theorem exact_doubling_witness :
    0x3C00 < 2 ^ width f16_spec ∧ get_float_case 0x3C00 f16_spec = cases.normal ∧
    exp_field f16_spec 0x3C00 ≤ 2 ^ f16_spec.exp_size - 3 ∧
    float_add_diff 0x3C00 0x3C00 round.ties_to_even f16_spec
      = some (0x3C00 + 2 ^ f16_spec.mant_size) ∧
    0x3C00 + 2 ^ f16_spec.mant_size = 0x4000 :=
  ⟨by decide, by decide, by decide,
    (exact_doubling f16_spec (Or.inl rfl) round.ties_to_even 0x3C00 (by decide) (by decide)
      (by decide)).1, by decide⟩

/-- C14 (gradual underflow to zero): for both formats and every pair of subnormal operand words
fitting in the format width, `float_multiply(a, b, ties_to_even)` returns the zero word whose sign
is `sign(a) xor sign(b)`.  In particular half precision, `0x0001 * 0x0001 = 0x0000`. -/
theorem multiply_subnormals_flush (spec : precision_spec)
    (hs : spec = f16_spec ∨ spec = f32_spec) (a b : Nat)
    (ha : a < 2 ^ width spec) (hb : b < 2 ^ width spec)
    (hsa : get_float_case a spec = cases.subnormal)
    (hsb : get_float_case b spec = cases.subnormal) :
    float_multiply a b round.ties_to_even spec
      = some (zero_word spec (xor (sign_bit spec a) (sign_bit spec b))) ∧
    float_multiply 0x0001 0x0001 round.ties_to_even f16_spec = some 0x0000 :=
  ⟨float_multiply_subnormals spec hs a b ha hb hsa hsb, by decide⟩

/-- Witness for `multiply_subnormals_flush`: half precision, the smallest subnormal times the
largest negative subnormal. -/
theorem multiply_subnormals_flush_witness :
    0x0001 < 2 ^ width f16_spec ∧ 0x83FF < 2 ^ width f16_spec ∧
    get_float_case 0x0001 f16_spec = cases.subnormal ∧
    get_float_case 0x83FF f16_spec = cases.subnormal ∧
    float_multiply 0x0001 0x83FF round.ties_to_even f16_spec
      = some (zero_word f16_spec (xor (sign_bit f16_spec 0x0001) (sign_bit f16_spec 0x83FF))) ∧
    zero_word f16_spec (xor (sign_bit f16_spec 0x0001) (sign_bit f16_spec 0x83FF)) = 0x8000 :=
  ⟨by decide, by decide, by decide, by decide,
    (multiply_subnormals_flush f16_spec (Or.inl rfl) 0x0001 0x83FF (by decide) (by decide)
      (by decide) (by decide)).1, by decide⟩

/-- C13 (tie-to-even on addition): for both formats and every pair of finite non-zero operands
`a`, `b` fitting in the format width, if the exact sum `value(a) + value(b)` is the midpoint of two
adjacent representable values, the values of the words `lo` and `lo + 1` with `lo + 1` still
finite, then `float_add_diff(a, b, ties_to_even)` returns the one of `lo`, `lo + 1` that is even,
whose mantissa field has least-significant bit 0. -/
theorem add_tie_to_even (spec : precision_spec) (hs : spec = f16_spec ∨ spec = f32_spec)
    (a b lo : Nat) (ha : a < 2 ^ width spec) (hb : b < 2 ^ width spec)
    (hfa : finite_nonzero spec a) (hfb : finite_nonzero spec b) (hlo : lo < 2 ^ width spec)
    (hfin : exp_field spec lo * 2 ^ spec.mant_size + mant_field spec lo + 1
      < (2 ^ spec.exp_size - 1) * 2 ^ spec.mant_size)
    (hmid : value spec a + value spec b = (value spec lo + value spec (lo + 1)) / 2) :
    float_add_diff a b round.ties_to_even spec = some (if lo % 2 = 0 then lo else lo + 1) ∧
    mant_field spec (if lo % 2 = 0 then lo else lo + 1) % 2 = 0 := by
  have hv := valid_of_format spec hs
  have hne := midpoint_ne_zero spec lo hlo hfin
  rw [← hmid] at hne
  constructor
  · rw [float_add_diff_correct spec hs round.ties_to_even a b ha hb hfa hfb hne, hmid,
      spec_round_midpoint spec hv lo hlo hfin]
  · have h2 : 2 ∣ 2 ^ spec.mant_size := dvd_pow_self 2 (by have := hv.mant_pos; omega)
    unfold mant_field
    rw [Nat.mod_mod_of_dvd _ h2]
    split <;> omega

/-- Witness for `add_tie_to_even`: half precision, `0x6800 + 0x3C00` (2048 + 1) is the midpoint
of `0x6800` (2048) and `0x6801` (2050) and rounds to `0x6800`. -/
theorem add_tie_to_even_witness :
    0x6800 < 2 ^ width f16_spec ∧ 0x3C00 < 2 ^ width f16_spec ∧
    finite_nonzero f16_spec 0x6800 ∧ finite_nonzero f16_spec 0x3C00 ∧
    value f16_spec 0x6800 + value f16_spec 0x3C00
      = (value f16_spec 0x6800 + value f16_spec (0x6800 + 1)) / 2 ∧
    float_add_diff 0x6800 0x3C00 round.ties_to_even f16_spec
      = some (if 0x6800 % 2 = 0 then 0x6800 else 0x6800 + 1) ∧
    float_add_diff 0x6800 0x3C00 round.ties_to_even f16_spec = some 0x6800 :=
  have h1 : value f16_spec 0x6800 = 2048 := by
    norm_num [value, exp_field, mant_field, sign_bit, f16_spec]
  have h2 : value f16_spec 0x3C00 = 1 := by
    norm_num [value, exp_field, mant_field, sign_bit, f16_spec]
  have h3 : value f16_spec (0x6800 + 1) = 2050 := by
    norm_num [value, exp_field, mant_field, sign_bit, f16_spec]
  have hmid : value f16_spec 0x6800 + value f16_spec 0x3C00
      = (value f16_spec 0x6800 + value f16_spec (0x6800 + 1)) / 2 := by
    rw [h1, h2, h3]; norm_num
  ⟨by decide, by decide, by decide, by decide, hmid,
    (add_tie_to_even f16_spec (Or.inl rfl) 0x6800 0x3C00 0x6800 (by decide) (by decide)
      (by decide) (by decide) (by decide) (by decide) hmid).1,
    by decide⟩

/-- C19 (results stay inside the format): for both formats, every rounding mode and all operand
words `a`, `b` smaller than `2^(1 + exp_size + mant_size)`, each of `float_multiply`,
`float_add_diff`, `float_sub_diff` and `float_divide` returns a word smaller than
`2^(1 + exp_size + mant_size)`; and whenever the run of one of them ends in a call of `pack_float`
with the arguments `(s, E, r)`, `E` taken before its narrowing to `uint8_t`, the biased exponent
`E` lies in `[0, 2^exp_size - 1]` and the returned word is `pack_float(spec, s, E, r)`.  On finite
non-zero operands `float_multiply` and `float_divide` return without that call only through the
overflow table. -/
theorem results_fit_format (spec : precision_spec) (hs : spec = f16_spec ∨ spec = f32_spec)
    (mode : round) (a b : Nat)
    (ha : a < 2 ^ (1 + spec.exp_size + spec.mant_size))
    (hb : b < 2 ^ (1 + spec.exp_size + spec.mant_size)) :
    (∃ r, float_multiply a b mode spec = some r ∧
      r < 2 ^ (1 + spec.exp_size + spec.mant_size)) ∧
    (∃ r, float_add_diff a b mode spec = some r ∧
      r < 2 ^ (1 + spec.exp_size + spec.mant_size)) ∧
    (∃ r, float_sub_diff a b mode spec = some r ∧
      r < 2 ^ (1 + spec.exp_size + spec.mant_size)) ∧
    (∃ r, float_divide a b mode spec = some r ∧
      r < 2 ^ (1 + spec.exp_size + spec.mant_size)) ∧
    (∀ (s : Bool) (E : Int) (r : Nat), float_multiply_call a b mode spec = some (s, E, r) →
      0 ≤ E ∧ E ≤ ((2 ^ spec.exp_size : Nat) : Int) - 1 ∧
        float_multiply a b mode spec = some (pack_float spec s (u8 E) r)) ∧
    (∀ (s : Bool) (E : Int) (r : Nat), float_add_diff_call a b mode spec = some (s, E, r) →
      0 ≤ E ∧ E ≤ ((2 ^ spec.exp_size : Nat) : Int) - 1 ∧
        float_add_diff a b mode spec = some (pack_float spec s (u8 E) r)) ∧
    (∀ (s : Bool) (E : Int) (r : Nat), float_sub_diff_call a b mode spec = some (s, E, r) →
      0 ≤ E ∧ E ≤ ((2 ^ spec.exp_size : Nat) : Int) - 1 ∧
        float_sub_diff a b mode spec = some (pack_float spec s (u8 E) r)) ∧
    (∀ (s : Bool) (E : Int) (r : Nat), float_divide_call a b mode spec = some (s, E, r) →
      0 ≤ E ∧ E ≤ ((2 ^ spec.exp_size : Nat) : Int) - 1 ∧
        float_divide a b mode spec = some (pack_float spec s (u8 E) r)) ∧
    (finite_nonzero spec a → finite_nonzero spec b →
      (float_multiply_call a b mode spec = none →
        float_multiply a b mode spec
          = some (float_exp_overflow spec (xor (sign_bit spec a) (sign_bit spec b)) mode)) ∧
      (float_divide_call a b mode spec = none →
        float_divide a b mode spec
          = some (float_exp_overflow spec (xor (sign_bit spec a) (sign_bit spec b)) mode))) :=
  ⟨float_multiply_lt spec hs mode a b ha hb, float_add_diff_lt spec hs mode a b ha hb,
    float_sub_diff_lt spec hs mode a b ha hb, float_divide_lt spec hs mode a b ha hb,
    fun s E r h => float_multiply_call_spec spec hs mode a b (s, E, r) h,
    fun s E r h => float_add_diff_call_spec spec hs mode a b (s, E, r) h,
    fun s E r h => float_sub_diff_call_spec spec hs mode a b (s, E, r) h,
    fun s E r h => float_divide_call_spec spec hs mode a b (s, E, r) h,
    fun hfa hfb =>
      ⟨float_multiply_call_none spec (valid_of_format spec hs) mode a b ha hb hfa hfb,
        float_divide_call_none spec (valid_of_format spec hs) mode a b ha hb hfa hfb⟩⟩

/-- Witness for `results_fit_format`: half precision, `upward`.  The largest finite value times its
negative returns through the overflow table without a `pack_float` call; one divided by three ends
in the call `pack_float(spec, 0, 13, 1366)`; one minus a half ends in the call
`pack_float(spec, 0, 14, 1024)`. -/
theorem results_fit_format_witness :
    0x7BFF < 2 ^ (1 + f16_spec.exp_size + f16_spec.mant_size) ∧
    0xFBFF < 2 ^ (1 + f16_spec.exp_size + f16_spec.mant_size) ∧
    finite_nonzero f16_spec 0x7BFF ∧ finite_nonzero f16_spec 0xFBFF ∧
    (∃ r, float_multiply 0x7BFF 0xFBFF round.upward f16_spec = some r ∧
      r < 2 ^ (1 + f16_spec.exp_size + f16_spec.mant_size)) ∧
    float_multiply_call 0x7BFF 0xFBFF round.upward f16_spec = none ∧
    float_multiply 0x7BFF 0xFBFF round.upward f16_spec
      = some (float_exp_overflow f16_spec
          (xor (sign_bit f16_spec 0x7BFF) (sign_bit f16_spec 0xFBFF)) round.upward) ∧
    float_divide_call 0x3C00 0x4200 round.upward f16_spec = some (false, 13, 1366) ∧
    ((0 : Int) ≤ 13 ∧ (13 : Int) ≤ ((2 ^ f16_spec.exp_size : Nat) : Int) - 1 ∧
      float_divide 0x3C00 0x4200 round.upward f16_spec
        = some (pack_float f16_spec false (u8 13) 1366)) ∧
    float_sub_diff_call 0x3C00 0x3800 round.upward f16_spec = some (false, 14, 1024) ∧
    ((0 : Int) ≤ 14 ∧ (14 : Int) ≤ ((2 ^ f16_spec.exp_size : Nat) : Int) - 1 ∧
      float_sub_diff 0x3C00 0x3800 round.upward f16_spec
        = some (pack_float f16_spec false (u8 14) 1024)) :=
  ⟨by decide, by decide, by decide, by decide,
    (results_fit_format f16_spec (Or.inl rfl) round.upward 0x7BFF 0xFBFF (by decide)
      (by decide)).1,
    by decide,
    ((results_fit_format f16_spec (Or.inl rfl) round.upward 0x7BFF 0xFBFF (by decide)
      (by decide)).2.2.2.2.2.2.2.2 (by decide) (by decide)).1 (by decide),
    by decide,
    (results_fit_format f16_spec (Or.inl rfl) round.upward 0x3C00 0x4200 (by decide)
      (by decide)).2.2.2.2.2.2.2.1 false 13 1366 (by decide),
    by decide,
    (results_fit_format f16_spec (Or.inl rfl) round.upward 0x3C00 0x3800 (by decide)
      (by decide)).2.2.2.2.2.2.1 false 14 1024 (by decide)⟩

/-- C20 (addition is commutative): for both formats, every rounding mode and all operand words
`a`, `b` smaller than `2^(1 + exp_size + mant_size)`, zeros, subnormals, infinities and NaNs
included, `float_add_diff(a, b, mode, spec)` and `float_add_diff(b, a, mode, spec)` are the same
word. -/
theorem add_diff_commutative (spec : precision_spec) (hs : spec = f16_spec ∨ spec = f32_spec)
    (mode : round) (a b : Nat)
    (ha : a < 2 ^ (1 + spec.exp_size + spec.mant_size))
    (hb : b < 2 ^ (1 + spec.exp_size + spec.mant_size)) :
    float_add_diff a b mode spec = float_add_diff b a mode spec ∧
    ∃ r, float_add_diff a b mode spec = some r :=
  ⟨float_add_diff_comm spec hs mode a b ha hb,
    (float_add_diff_lt spec hs mode a b ha hb).imp (fun _ h => h.1)⟩

/-- Witness for `add_diff_commutative`: half precision, `downward`, one and minus a subnormal. -/
theorem add_diff_commutative_witness :
    0x3C00 < 2 ^ (1 + f16_spec.exp_size + f16_spec.mant_size) ∧
    0x8001 < 2 ^ (1 + f16_spec.exp_size + f16_spec.mant_size) ∧
    float_add_diff 0x3C00 0x8001 round.downward f16_spec
      = float_add_diff 0x8001 0x3C00 round.downward f16_spec ∧
    float_add_diff 0x3C00 0x8001 round.downward f16_spec = some 0x3BFF :=
  ⟨by decide, by decide,
    (add_diff_commutative f16_spec (Or.inl rfl) round.downward 0x3C00 0x8001 (by decide)
      (by decide)).1, by decide⟩

/-- C21 (division never needs a post-round carry in the normal range): for both formats, every
rounding mode and every pair of finite non-zero operands fitting in the format width for which
`float_divide` takes neither the overflow nor the underflow branch (`0 < new_exp < 2^exp_size - 1`
after the quotient normalisation), the value that `float_round` returns at the final rounding step
is at least `2^mant_size` and smaller than `2^(mant_size + 1)`; the mask in `pack_float` removes
the implicit bit only, and the result is the word with exponent field `new_exp` and mantissa field
`rounded - 2^mant_size`. -/
theorem divide_no_post_round_carry (spec : precision_spec)
    (hs : spec = f16_spec ∨ spec = f32_spec) (mode : round) (a b : Nat)
    (ha : a < 2 ^ width spec) (hb : b < 2 ^ width spec)
    (hfa : finite_nonzero spec a) (hfb : finite_nonzero spec b)
    (h0 : 0 < (divide_stage spec a b).1)
    (h1 : (divide_stage spec a b).1 < (2 ^ spec.exp_size : ℕ) - 1) :
    2 ^ spec.mant_size ≤ divide_final_round spec mode a b ∧
    divide_final_round spec mode a b < 2 ^ (spec.mant_size + 1) ∧
    float_divide a b mode spec =
      some (b2n (xor (sign_bit spec a) (sign_bit spec b)) * 2 ^ (spec.mant_size + spec.exp_size)
        + ((divide_stage spec a b).1).toNat * 2 ^ spec.mant_size
        + (divide_final_round spec mode a b - 2 ^ spec.mant_size)) :=
  ⟨(divide_final_round_bounds spec (valid_of_format spec hs) mode a b hfa hfb).1,
    (divide_final_round_bounds spec (valid_of_format spec hs) mode a b hfa hfb).2,
    float_divide_normal_range spec (valid_of_format spec hs) mode a b ha hb hfa hfb h0 h1⟩

/-- Witness for `divide_no_post_round_carry`: half precision, `upward`, the largest significand
`0x3FFF` divided by one: the quotient is exact and the rounded significand is `2^11 - 1`. -/
theorem divide_no_post_round_carry_witness :
    0x3FFF < 2 ^ width f16_spec ∧ 0x3C00 < 2 ^ width f16_spec ∧
    finite_nonzero f16_spec 0x3FFF ∧ finite_nonzero f16_spec 0x3C00 ∧
    0 < (divide_stage f16_spec 0x3FFF 0x3C00).1 ∧
    (divide_stage f16_spec 0x3FFF 0x3C00).1 < (2 ^ f16_spec.exp_size : ℕ) - 1 ∧
    divide_final_round f16_spec round.upward 0x3FFF 0x3C00 < 2 ^ (f16_spec.mant_size + 1) ∧
    divide_final_round f16_spec round.upward 0x3FFF 0x3C00 = 2047 ∧
    float_divide 0x3FFF 0x3C00 round.upward f16_spec = some 0x3FFF :=
  ⟨by decide, by decide, by decide, by decide, by decide, by decide,
    (divide_no_post_round_carry f16_spec (Or.inl rfl) round.upward 0x3FFF 0x3C00 (by decide)
      (by decide) (by decide) (by decide) (by decide) (by decide)).2.1,
    by decide, by decide⟩

end SoftFloat
